import Mathlib

/-!
# Coherent Guided Stochastic Maze Engine: tiles, mask, priority queue, cleanup, regions and welding

A shallow embedding of the generation pipeline of the maze generator
(`tiles.h`, `threadRandom.h`, `cgsme_utils.c`, `cgsme_noise.c`, `cgsme_solver.c`,
`cgsme_topology.c`, `generator.c`) together with the properties established about it.

Conventions of the embedding:

* a `uint16_t` cell is a `Nat` below `65536`; a `uint32_t` is a `Nat` below `2 ^ 32`;
  wrap-around is written out (`% 65536`, `% 4294967296`) where the C code can overflow;
* a layer `uint16_t **grid` is a list of rows; `grid[y][x]` is `Grid.get g x y`; the
  grid `uint16_t ***grid` is the list of its layers, `grid[z][y][x]` being
  `Grid.get (layers.getD z []) x y`; an array indexed by `y * width + x` is a list;
* `for` loops over the cells run over `rowMajor W L`, the cells in the order
  `y = 0 .. L-1`, `x = 0 .. W-1` of the C loops;
* loops whose trip count is not syntactically bounded (`while (head < tail)`,
  the recursion of `findSet`, the loops of `bubbleUp`, `bubbleDown` and `heapPop`) carry
  a fuel argument; the theorems show that the fuel handed over by the callers is never
  exhausted; the recursion of `regionMarkerPacked` carries a depth bound and answers
  `none` when it is exceeded, and the theorems show that it returns a grid whenever the
  bound exceeds the number of cells;
* the heap array `nodes[0 .. count)` is the list of its live nodes, and a `float` score
  is a value of a linear order: `calculateScore` adds a popcount and a noise below
  `0.01`, so that no NaN is ever stored or compared;
* the weights of `update_spawnrates` are taken in exact arithmetic: the function is
  written over an ordered field with an exponential and evaluated over the reals.
-/

namespace CGSME

/-! ## Tile vocabulary (`tiles.h`) -/

/-- Value of a void cell. -/
def Empty_Tile : Nat := 0

/-- Direction flag for north (towards `y - 1`). -/
def DIR_N : Nat := 1
/-- Direction flag for east (towards `x + 1`). -/
def DIR_E : Nat := 2
/-- Direction flag for south (towards `y + 1`). -/
def DIR_S : Nat := 4
/-- Direction flag for west (towards `x - 1`). -/
def DIR_W : Nat := 8

def North_East_Corridor : Nat := 1
def South_East_Corridor : Nat := 1 <<< 1
def South_West_Corridor : Nat := 1 <<< 2
def North_West_Corridor : Nat := 1 <<< 3
def North_South_Corridor : Nat := 1 <<< 4
def West_East_Corridor : Nat := 1 <<< 5
def North_T_Corridor : Nat := 1 <<< 6
def East_T_Corridor : Nat := 1 <<< 7
def South_T_Corridor : Nat := 1 <<< 8
def West_T_Corridor : Nat := 1 <<< 9
def Normal_X_Corridor : Nat := 1 <<< 10
def Special_X_Corridor : Nat := 1 <<< 11
def North_DeadEnd : Nat := 1 <<< 12
def East_DeadEnd : Nat := 1 <<< 13
def South_DeadEnd : Nat := 1 <<< 14
def West_DeadEnd : Nat := 1 <<< 15

/-- Mask applied to the neighbour at `y - 1` of a cell whose north port is open. -/
def North_Open_Mask : Nat :=
  (South_East_Corridor ||| North_South_Corridor ||| South_West_Corridor ||| South_DeadEnd |||
    Normal_X_Corridor ||| Special_X_Corridor ||| South_T_Corridor ||| East_T_Corridor |||
    West_T_Corridor) % 65536

/-- Mask applied to the neighbour at `x + 1` of a cell whose east port is open. -/
def East_Open_Mask : Nat :=
  (North_West_Corridor ||| South_West_Corridor ||| West_East_Corridor ||| West_DeadEnd |||
    Normal_X_Corridor ||| Special_X_Corridor ||| South_T_Corridor ||| West_T_Corridor |||
    North_T_Corridor) % 65536

/-- Mask applied to the neighbour at `y + 1` of a cell whose south port is open. -/
def South_Open_Mask : Nat :=
  (North_West_Corridor ||| North_South_Corridor ||| North_East_Corridor ||| North_DeadEnd |||
    Normal_X_Corridor ||| Special_X_Corridor ||| North_T_Corridor ||| West_T_Corridor |||
    East_T_Corridor) % 65536

/-- Mask applied to the neighbour at `x - 1` of a cell whose west port is open. -/
def West_Open_Mask : Nat :=
  (North_East_Corridor ||| South_East_Corridor ||| West_East_Corridor ||| East_DeadEnd |||
    Normal_X_Corridor ||| Special_X_Corridor ||| East_T_Corridor ||| South_T_Corridor |||
    North_T_Corridor) % 65536

/-- The 16-bit complement `(uint16_t)(~m)`. -/
def not16 (m : Nat) : Nat := 65535 ^^^ (m % 65536)

def North_Closed_Mask : Nat := not16 North_Open_Mask
def East_Closed_Mask : Nat := not16 East_Open_Mask
def South_Closed_Mask : Nat := not16 South_Open_Mask
def West_Closed_Mask : Nat := not16 West_Open_Mask

/-- The value `(uint16_t)-1`. -/
def All_Possible_State : Nat := 65535

/-- The table `TILE_INDEX_TO_MASK`. -/
def TILE_INDEX_TO_MASK : List Nat :=
  [North_East_Corridor, South_East_Corridor, South_West_Corridor, North_West_Corridor,
   North_South_Corridor, West_East_Corridor,
   North_T_Corridor, East_T_Corridor, South_T_Corridor, West_T_Corridor,
   Normal_X_Corridor, Special_X_Corridor,
   North_DeadEnd, East_DeadEnd, South_DeadEnd, West_DeadEnd]

/-- The function `indexToMask`: table lookup at `index & 0xF`. -/
def indexToMask (index : Nat) : Nat := TILE_INDEX_TO_MASK.getD (index &&& 0xF) 0

/-- The function `maskToIndex`: the `switch` over the sixteen variants, default `0`. -/
def maskToIndex (mask : Nat) : Nat :=
  if mask = North_East_Corridor then 0
  else if mask = South_East_Corridor then 1
  else if mask = South_West_Corridor then 2
  else if mask = North_West_Corridor then 3
  else if mask = North_South_Corridor then 4
  else if mask = West_East_Corridor then 5
  else if mask = North_T_Corridor then 6
  else if mask = East_T_Corridor then 7
  else if mask = South_T_Corridor then 8
  else if mask = West_T_Corridor then 9
  else if mask = Normal_X_Corridor then 10
  else if mask = Special_X_Corridor then 11
  else if mask = North_DeadEnd then 12
  else if mask = East_DeadEnd then 13
  else if mask = South_DeadEnd then 14
  else if mask = West_DeadEnd then 15
  else 0

/-- The builtin `__builtin_popcount` on a 16-bit cell value. -/
def popcount (v : Nat) : Nat := (List.range 16).countP (fun i => v.testBit i)

/-- The builtin `__builtin_ctz` on a non-zero 16-bit cell value: the index of the
lowest set bit (the C result is undefined for 0; the model returns 16 there). -/
def ctz (v : Nat) : Nat := ((List.range 16).find? (fun i => v.testBit i)).getD 16

/-! ## Random numbers (`threadRandom.h`) -/

/-- The function `nextRandom`: one step of the linear congruential generator; the new
state is also the returned value. -/
def nextRandom (state : Nat) : Nat := (state * 1664525 + 1013904223) % 4294967296

/-! ## Flags and variants (`cgsme_topology.c`) -/

/-- The function `getTileFlags`: the open ports of a tile value as a set of `DIR_*` bits. -/
def getTileFlags (tile : Nat) : Nat :=
  if tile = Empty_Tile then 0
  else if tile = North_DeadEnd then DIR_N
  else if tile = East_DeadEnd then DIR_E
  else if tile = South_DeadEnd then DIR_S
  else if tile = West_DeadEnd then DIR_W
  else if tile = North_East_Corridor then DIR_N ||| DIR_E
  else if tile = South_East_Corridor then DIR_S ||| DIR_E
  else if tile = South_West_Corridor then DIR_S ||| DIR_W
  else if tile = North_West_Corridor then DIR_N ||| DIR_W
  else if tile = North_South_Corridor then DIR_N ||| DIR_S
  else if tile = West_East_Corridor then DIR_W ||| DIR_E
  else if tile = North_T_Corridor then DIR_N ||| DIR_E ||| DIR_W
  else if tile = East_T_Corridor then DIR_N ||| DIR_E ||| DIR_S
  else if tile = South_T_Corridor then DIR_E ||| DIR_S ||| DIR_W
  else if tile = West_T_Corridor then DIR_N ||| DIR_S ||| DIR_W
  else if tile = Normal_X_Corridor then DIR_N ||| DIR_E ||| DIR_S ||| DIR_W
  else if tile = Special_X_Corridor then DIR_N ||| DIR_E ||| DIR_S ||| DIR_W
  else 0

/-- The function `getTileFromFlags`: the variant with exactly the given open ports;
`Empty_Tile` for the empty set and for any value that is not a port set. -/
def getTileFromFlags (flags : Nat) : Nat :=
  if flags = DIR_N then North_DeadEnd
  else if flags = DIR_E then East_DeadEnd
  else if flags = DIR_S then South_DeadEnd
  else if flags = DIR_W then West_DeadEnd
  else if flags = (DIR_N ||| DIR_E) then North_East_Corridor
  else if flags = (DIR_S ||| DIR_E) then South_East_Corridor
  else if flags = (DIR_S ||| DIR_W) then South_West_Corridor
  else if flags = (DIR_N ||| DIR_W) then North_West_Corridor
  else if flags = (DIR_N ||| DIR_S) then North_South_Corridor
  else if flags = (DIR_W ||| DIR_E) then West_East_Corridor
  else if flags = (DIR_N ||| DIR_E ||| DIR_W) then North_T_Corridor
  else if flags = (DIR_N ||| DIR_E ||| DIR_S) then East_T_Corridor
  else if flags = (DIR_E ||| DIR_S ||| DIR_W) then South_T_Corridor
  else if flags = (DIR_N ||| DIR_S ||| DIR_W) then West_T_Corridor
  else if flags = (DIR_N ||| DIR_E ||| DIR_S ||| DIR_W) then Normal_X_Corridor
  else Empty_Tile

/-! ## Layers -/

/-- A layer `uint16_t **`: the list of its rows. -/
abbrev Grid := List (List Nat)

/-- The read `grid[y][x]`. -/
def Grid.get (g : Grid) (x y : Nat) : Nat := (g.getD y []).getD x 0

/-- The write `grid[y][x] = v`. -/
def Grid.set (g : Grid) (x y v : Nat) : Grid := List.set g y ((g.getD y []).set x v)

/-- A layer of `L` rows of `W` cells each. -/
def Grid.WF (g : Grid) (W L : Nat) : Prop := g.length = L ∧ ∀ row ∈ g, row.length = W

/-- The cells `(x, y)` of a `W` by `L` layer in the order of the C loops
`for (y = 0; y < L; y++) for (x = 0; x < W; x++)`. -/
def rowMajor (W L : Nat) : List (Nat × Nat) :=
  (List.range L).flatMap (fun y => (List.range W).map (fun x => (x, y)))

/-- A row-major `for` loop over the cells with body `body`. -/
def forCells (W L : Nat) (body : Grid → Nat → Nat → Grid) (g : Grid) : Grid :=
  (rowMajor W L).foldl (fun acc c => body acc c.1 c.2) g

/-! ## Edge sealing and fixup (`cgsme_topology.c`) -/

/-- The local `flags` of `sealMazeEdges` for the cell `(x, y)`: the directions in which
a non-void neighbour has its port toward `(x, y)` open (north neighbour `y - 1`, south
neighbour `y + 1`, west neighbour `x - 1`, east neighbour `x + 1`, in this order). -/
def inwardFlags (g : Grid) (W L x y : Nat) : Nat :=
  let f0 : Nat := 0
  let f1 := if 0 < y ∧ g.get x (y - 1) ≠ Empty_Tile ∧ g.get x (y - 1) &&& North_Open_Mask ≠ 0
    then f0 ||| DIR_N else f0
  let f2 := if y < L - 1 ∧ g.get x (y + 1) ≠ Empty_Tile ∧ g.get x (y + 1) &&& South_Open_Mask ≠ 0
    then f1 ||| DIR_S else f1
  let f3 := if 0 < x ∧ g.get (x - 1) y ≠ Empty_Tile ∧ g.get (x - 1) y &&& West_Open_Mask ≠ 0
    then f2 ||| DIR_W else f2
  if x < W - 1 ∧ g.get (x + 1) y ≠ Empty_Tile ∧ g.get (x + 1) y &&& East_Open_Mask ≠ 0
    then f3 ||| DIR_E else f3

/-- Body of the loop of `sealMazeEdges` at the cell `(x, y)`: a void cell collects the
directions from which a non-void neighbour points at it and, when there is one, becomes
the variant with exactly those ports. -/
def sealCell (W L : Nat) (g : Grid) (x y : Nat) : Grid :=
  if g.get x y ≠ Empty_Tile then g
  else if inwardFlags g W L x y ≠ 0 then g.set x y (getTileFromFlags (inwardFlags g W L x y))
  else g

/-- The function `sealMazeEdges`. -/
def sealMazeEdges (g : Grid) (W L : Nat) : Grid := forCells W L (sealCell W L) g

/-- Body shared by the four loops of `fixupEdges`: clear the direction `d` at `(x, y)`
when it is open there. -/
def clearPort (g : Grid) (x y d : Nat) : Grid :=
  if getTileFlags (g.get x y) &&& d ≠ 0 then
    g.set x y (getTileFromFlags (getTileFlags (g.get x y) &&& (255 ^^^ d)))
  else g

/-- The function `fixupEdges`: top row, bottom row, left column, right column. -/
def fixupEdges (g : Grid) (W L : Nat) : Grid :=
  let g1 := (List.range W).foldl (fun acc x => clearPort acc x 0 DIR_N) g
  let g2 := (List.range W).foldl (fun acc x => clearPort acc x (L - 1) DIR_S) g1
  let g3 := (List.range L).foldl (fun acc y => clearPort acc 0 y DIR_W) g2
  (List.range L).foldl (fun acc y => clearPort acc (W - 1) y DIR_E) g3

/-! ## Region identification (`cgsme_topology.c`) -/

/-- The packed value `(regionID << 4) | idx` stored into a `uint16_t`. -/
def packCell (regionID idx : Nat) : Nat := ((regionID <<< 4) ||| idx) % 65536

/-- One neighbour visit of `regionMarkerIterative`: when the port test and the bounds
test `cond` hold and the neighbour `(nx, ny)` is an unassigned non-void cell, it is
stamped with the region and appended to the queue. -/
def floodVisit (regionID : Nat) (st : Grid × List (Nat × Nat)) (cond : Prop) [Decidable cond]
    (nx ny : Nat) : Grid × List (Nat × Nat) :=
  if cond ∧ st.1.get nx ny ≤ 15 ∧ st.1.get nx ny ≠ 0xFFFF then
    (st.1.set nx ny (packCell regionID (st.1.get nx ny % 256)), st.2 ++ [(nx, ny)])
  else st

/-- Body of the `while (head < tail)` loop of `regionMarkerIterative` for the dequeued
cell `(cx, cy)`; the four visits are in the order of the source (`y-1`, `y+1`, `x+1`,
`x-1`). The tests `(int32_t)cy - 1 >= 0` and `(int32_t)cx - 1 >= 0` are `1 ≤ cy` and
`1 ≤ cx` for coordinates below `2 ^ 31`. -/
def floodStep (W L regionID : Nat) (g : Grid) (queue : List (Nat × Nat)) (cx cy : Nat) :
    Grid × List (Nat × Nat) :=
  let mask := indexToMask (g.get cx cy &&& 0xF)
  let s0 : Grid × List (Nat × Nat) := (g, queue)
  let s1 := floodVisit regionID s0 (mask &&& South_Open_Mask ≠ 0 ∧ 1 ≤ cy) cx (cy - 1)
  let s2 := floodVisit regionID s1 (mask &&& North_Open_Mask ≠ 0 ∧ cy + 1 < L) cx (cy + 1)
  let s3 := floodVisit regionID s2 (mask &&& West_Open_Mask ≠ 0 ∧ cx + 1 < W) (cx + 1) cy
  floodVisit regionID s3 (mask &&& East_Open_Mask ≠ 0 ∧ 1 ≤ cx) (cx - 1) cy

/-- The `while (head < tail)` loop of `regionMarkerIterative`, at most `fuel` dequeues.
The state is the grid, the queue contents `queue[0 .. tail)` and `head`. -/
def floodLoop (W L regionID : Nat) :
    Nat → Grid → List (Nat × Nat) → Nat → Grid × List (Nat × Nat) × Nat
  | 0, g, queue, head => (g, queue, head)
  | fuel + 1, g, queue, head =>
    if head < queue.length then
      let c := queue.getD head (0, 0)
      let st := floodStep W L regionID g queue c.1 c.2
      floodLoop W L regionID fuel st.1 st.2 (head + 1)
    else (g, queue, head)

/-- The full state `(grid, queue, head)` in which `regionMarkerIterative` leaves its
loop; the loop is given `W * L` dequeues, the size of the allocated queue. -/
def regionMarkerState (g : Grid) (W L regionID startX startY : Nat) :
    Grid × List (Nat × Nat) × Nat :=
  let sIdx := g.get startX startY % 256
  floodLoop W L regionID (W * L) (g.set startX startY (packCell regionID sIdx))
    [(startX, startY)] 0

/-- The function `regionMarkerIterative`. -/
def regionMarkerIterative (g : Grid) (W L regionID startX startY : Nat) : Grid :=
  (regionMarkerState g W L regionID startX startY).1

/-- One recursive call of `regionMarkerPacked` behind its port test `cond`: `call` is the
function at the remaining depth and `g` the grid after the calls made before, `none`
once the depth has been exceeded. -/
def markerCall (call : Grid → Nat → Nat → Option Grid) (g : Option Grid) (cond : Prop)
    [Decidable cond] (nx ny : Nat) : Option Grid :=
  match g with
  | none => none
  | some g' => if cond then call g' nx ny else some g'

/-- The function `regionMarkerPacked`. The recursion depth is bounded by `depth`; the
result is `none` when the bound is exceeded. The coordinates are `uint32_t`, so that
`y - 1` and `x - 1` wrap around at 0 and fail the bounds test of the callee. -/
def regionMarkerPacked (W L regionID : Nat) : Nat → Grid → Nat → Nat → Option Grid
  | 0, _, _, _ => none
  | depth + 1, g, x, y =>
    if x ≥ W ∨ y ≥ L then some g
    else if g.get x y = 0xFFFF ∨ g.get x y > 15 then some g
    else
      let index := g.get x y % 256
      let mask := indexToMask index
      let g0 := g.set x y (packCell regionID index)
      let r1 := markerCall (regionMarkerPacked W L regionID depth) (some g0)
        (mask &&& South_Open_Mask ≠ 0) x ((y + 4294967295) % 4294967296)
      let r2 := markerCall (regionMarkerPacked W L regionID depth) r1
        (mask &&& North_Open_Mask ≠ 0) x ((y + 1) % 4294967296)
      let r3 := markerCall (regionMarkerPacked W L regionID depth) r2
        (mask &&& West_Open_Mask ≠ 0) ((x + 1) % 4294967296) y
      markerCall (regionMarkerPacked W L regionID depth) r3
        (mask &&& East_Open_Mask ≠ 0) ((x + 4294967295) % 4294967296) y

/-- Body of the compression loop of `findConnectedRegionsInPlace`. -/
def compressCell (g : Grid) (x y : Nat) : Grid :=
  if g.get x y = Empty_Tile then g.set x y 0xFFFF else g.set x y (ctz (g.get x y))

/-- State of the identification loop: the grid, `regionID`, and a record of the cells at
which the loop found an unassigned cell (the record is not program state; it names the
flood fills the layer calls for). -/
structure ScanState where
  grid : Grid
  regionID : Nat
  seeds : List (Nat × Nat)

/-- Body of the identification loop of `findConnectedRegionsInPlace`. -/
def identifyCell (W L : Nat) (st : ScanState) (x y : Nat) : ScanState :=
  if st.grid.get x y ≠ 0xFFFF ∧ st.grid.get x y ≤ 15 then
    if st.regionID < 4095 then
      { grid := regionMarkerIterative st.grid W L st.regionID x y,
        regionID := (st.regionID + 1) % 65536,
        seeds := st.seeds ++ [(x, y)] }
    else { st with seeds := st.seeds ++ [(x, y)] }
  else st

/-- The two loops of `findConnectedRegionsInPlace` with the final loop state. -/
def findConnectedRegionsScan (g : Grid) (W L : Nat) : ScanState :=
  (rowMajor W L).foldl (fun st c => identifyCell W L st c.1 c.2)
    { grid := forCells W L compressCell g, regionID := 1, seeds := [] }

/-- The function `findConnectedRegionsInPlace`. -/
def findConnectedRegionsInPlace (g : Grid) (W L : Nat) : Grid :=
  (findConnectedRegionsScan g W L).grid

/-- Number of flood fills the layer calls for: how often the identification loop meets
a cell that is still unassigned. -/
def floodFillsCalled (g : Grid) (W L : Nat) : Nat :=
  (findConnectedRegionsScan g W L).seeds.length

/-! ## Welding (`cgsme_topology.c`) -/

/-- The function `openWallPacked`. -/
def openWallPacked (g : Grid) (x y directionFlag : Nat) : Grid :=
  if g.get x y = 0xFFFF then g
  else
    let packed := g.get x y
    let region := packed >>> 4
    let index := packed &&& 0xF
    let mask := indexToMask index
    let flags := (getTileFlags mask ||| directionFlag) % 256
    let newMask := getTileFromFlags flags
    let newIndex := maskToIndex newMask
    g.set x y (packCell region newIndex)

/-- The record `Bridge`. -/
structure Bridge where
  regionA : Nat
  regionB : Nat
  x : Nat
  y : Nat
  dir : Nat
deriving DecidableEq

/-- The function `createUnionFind`: the parent array `0, 1, .., size`. -/
def createUnionFind (size : Nat) : List Nat := List.range (size + 1)

/-- The function `findSet` with path compression on the parent array; the recursion
depth is bounded by `fuel`. Returns the new parent array and the representative. -/
def findSet : Nat → List Nat → Nat → List Nat × Nat
  | 0, parent, i => (parent, i)
  | fuel + 1, parent, i =>
    if parent.getD i 0 = i then (parent, i)
    else
      let r := findSet fuel parent (parent.getD i 0)
      (r.1.set i r.2, r.2)

/-- The function `unionSets`. -/
def unionSets (fuel : Nat) (parent : List Nat) (i j : Nat) : List Nat :=
  let ri := findSet fuel parent i
  let rj := findSet fuel ri.1 j
  if ri.2 ≠ rj.2 then rj.1.set ri.2 rj.2 else rj.1

/-- First loop of `germanWelderInPlace`: the largest value of the upper 12 bits over the
non-void cells. -/
def maxRegionScan (g : Grid) (W L : Nat) : Nat :=
  (rowMajor W L).foldl (fun m c =>
    if g.get c.1 c.2 = 0xFFFF then m
    else if g.get c.1 c.2 >>> 4 > m then g.get c.1 c.2 >>> 4 else m) 0

/-- Body of the bridge collection loop of `germanWelderInPlace` at `(x, y)`. -/
def collectCell (g : Grid) (W L : Nat) (bs : List Bridge) (x y : Nat) : List Bridge :=
  if g.get x y = 0xFFFF then bs
  else
    let rA := g.get x y >>> 4
    let bs1 := if x < W - 1 ∧ g.get (x + 1) y ≠ 0xFFFF ∧ rA ≠ g.get (x + 1) y >>> 4
      then bs ++ [⟨rA, g.get (x + 1) y >>> 4, x, y, DIR_E⟩] else bs
    if y < L - 1 ∧ g.get x (y + 1) ≠ 0xFFFF ∧ rA ≠ g.get x (y + 1) >>> 4
      then bs1 ++ [⟨rA, g.get x (y + 1) >>> 4, x, y, DIR_S⟩] else bs1

/-- The bridge collection loop of `germanWelderInPlace`. -/
def collectBridges (g : Grid) (W L : Nat) : List Bridge :=
  (rowMajor W L).foldl (fun bs c => collectCell g W L bs c.1 c.2) []

/-- Exchange of `bridges[i]` and `bridges[j]`. -/
def swapBridges (bs : List Bridge) (i j : Nat) : List Bridge :=
  (bs.set i (bs.getD j ⟨0, 0, 0, 0, 0⟩)).set j (bs.getD i ⟨0, 0, 0, 0, 0⟩)

/-- The shuffle loop of `germanWelderInPlace`; returns the list and the rng state. -/
def shuffleBridges (bs : List Bridge) (rng : Nat) : List Bridge × Nat :=
  (List.range bs.length).foldl (fun st i =>
    let r := nextRandom st.2
    (swapBridges st.1 i (r % bs.length), r)) (bs, rng)

/-- State of the Kruskal loop: the grid, the parent array, and the bridges carved so
far (the last is a record, not program state). -/
structure WeldState where
  grid : Grid
  parent : List Nat
  carved : List Bridge

/-- Body of the Kruskal loop of `germanWelderInPlace` for the bridge `b`. The two
`findSet` calls of the comparison are evaluated left to right. -/
def weldStep (fuel : Nat) (st : WeldState) (b : Bridge) : WeldState :=
  let fa := findSet fuel st.parent b.regionA
  let fb := findSet fuel fa.1 b.regionB
  if fa.2 ≠ fb.2 then
    let parent := unionSets fuel fb.1 b.regionA b.regionB
    let g1 := openWallPacked st.grid b.x b.y b.dir
    let nx := b.x + (if b.dir = DIR_E then 1 else 0)
    let ny := b.y + (if b.dir = DIR_S then 1 else 0)
    let oppositeDir := if b.dir = DIR_E then DIR_W else DIR_N
    { grid := openWallPacked g1 nx ny oppositeDir, parent := parent,
      carved := st.carved ++ [b] }
  else { st with parent := fb.1 }

/-- The function `germanWelderInPlace` with the final Kruskal state and rng state; the
recursion of `findSet` is given the length of the parent array as fuel. -/
def germanWelderState (g : Grid) (W L rng : Nat) : WeldState × Nat :=
  let maxRegionID := maxRegionScan g W L
  if maxRegionID ≤ 1 then (⟨g, [], []⟩, rng)
  else
    let bridges := collectBridges g W L
    if bridges.length = 0 then (⟨g, [], []⟩, rng)
    else
      let sh := shuffleBridges bridges rng
      let parent := createUnionFind maxRegionID
      (sh.1.foldl (weldStep parent.length) ⟨g, parent, []⟩, sh.2)

/-- The function `germanWelderInPlace`: the welded grid and the rng state. -/
def germanWelderInPlace (g : Grid) (W L rng : Nat) : Grid × Nat :=
  ((germanWelderState g W L rng).1.grid, (germanWelderState g W L rng).2)

/-- The bridges carved by `germanWelderInPlace`, in the order of carving. -/
def carvedBridges (g : Grid) (W L rng : Nat) : List Bridge :=
  (germanWelderState g W L rng).1.carved

/-! ## Tail of `generateLayerThread` (`generator.c`) -/

/-- Body of the final sweep: a cell still in superposition becomes void. -/
def sweepCell (g : Grid) (x y : Nat) : Grid :=
  if popcount (g.get x y) > 1 then g.set x y Empty_Tile else g

/-- Body of the unpack loop. -/
def unpackCell (g : Grid) (x y : Nat) : Grid :=
  if g.get x y = 0xFFFF then g.set x y Empty_Tile
  else g.set x y (indexToMask ((g.get x y &&& 0xF) % 256))

/-- The unpack loop of `generateLayerThread`. -/
def unpackRegions (g : Grid) (W L : Nat) : Grid := forCells W L unpackCell g

/-- Step 5 of `generateLayerThread` after the sweep: seal, fixup, region
identification, welding, unpack. -/
def cleanupSequence (g : Grid) (W L rng : Nat) : Grid :=
  let g1 := sealMazeEdges g W L
  let g2 := fixupEdges g1 W L
  let g3 := findConnectedRegionsInPlace g2 W L
  unpackRegions (germanWelderInPlace g3 W L rng).1 W L

/-- Step 5 of `generateLayerThread` in full: the superposition sweep followed by the
cleanup sequence. -/
def layerFinish (g : Grid) (W L rng : Nat) : Grid :=
  cleanupSequence (forCells W L sweepCell g) W L rng

/-! ## Solver primitives (`cgsme_solver.c`, `cgsme_solver.h`) -/

/-- The `float` operations used by `collapseTile`. The embedding does not fix an
arithmetic: the carrier and the operations are parameters, so every statement proved
for all `FloatOps` holds for IEEE single precision in particular. -/
structure FloatOps (F : Type) where
  /-- The constant `0.0f`. -/
  zero : F
  /-- The constant `0.0001f`. -/
  small : F
  /-- The constant `4294967296.0f`. -/
  two32 : F
  /-- The conversion `(float)` of a `uint32_t`. -/
  ofNat : Nat → F
  add : F → F → F
  sub : F → F → F
  mul : F → F → F
  div : F → F → F
  /-- The comparison `<=`. -/
  le : F → F → Bool

/-- The table `BIT_TO_CATEGORY`. -/
def BIT_TO_CATEGORY : List Nat := [2, 2, 2, 2, 3, 3, 1, 1, 1, 1, 0, 5, 4, 4, 4, 4]

/-- First loop of `collapseTile`: total weight and number of the set bits. -/
def collapseWeights {F : Type} (ops : FloatOps F) (tile : Nat) (rates : Nat → F) : F × Nat :=
  (List.range 16).foldl (fun acc i =>
    if tile.testBit i then (ops.add acc.1 (rates (BIT_TO_CATEGORY.getD i 0)), acc.2 + 1)
    else acc) (ops.zero, 0)

/-- The uniform fallback loop of `collapseTile` over the remaining bit positions:
the position of the set bit number `r`, counting from `found`. -/
def uniformPick (tile r : Nat) : List Nat → Nat → Option Nat
  | [], _ => none
  | i :: rest, found =>
    if tile.testBit i then
      if found = r then some i else uniformPick tile r rest (found + 1)
    else uniformPick tile r rest found

/-- The weighted loop of `collapseTile` over the remaining bit positions: the first set
bit at which the running value drops to zero or below. -/
def weightedPick {F : Type} (ops : FloatOps F) (tile : Nat) (rates : Nat → F) :
    List Nat → F → Option Nat
  | [], _ => none
  | i :: rest, v =>
    if tile.testBit i then
      if ops.le (ops.sub v (rates (BIT_TO_CATEGORY.getD i 0))) ops.zero then some i
      else weightedPick ops tile rates rest (ops.sub v (rates (BIT_TO_CATEGORY.getD i 0)))
    else weightedPick ops tile rates rest v

/-- The last loop of `collapseTile`: the highest set bit, searched from 15 down to 0. -/
def highestBit (tile : Nat) : Option Nat := (List.range 16).reverse.find? (fun i => tile.testBit i)

/-- The function `collapseTile`: the new cell value and the new rng state. -/
def collapseTile {F : Type} (ops : FloatOps F) (tile : Nat) (rates : Nat → F) (rng : Nat) :
    Nat × Nat :=
  if tile = 0 then (tile, rng)
  else
    let w := collapseWeights ops tile rates
    if ops.le w.1 ops.small ∨ w.2 = 0 then
      if popcount tile = 0 then (tile, rng)
      else
        let rng1 := nextRandom rng
        match uniformPick tile (rng1 % popcount tile) (List.range 16) 0 with
        | some i => ((1 <<< i) % 65536, rng1)
        | none => (tile, rng1)
    else
      let rng1 := nextRandom rng
      let random_val := ops.mul (ops.div (ops.ofNat rng1) ops.two32) w.1
      match weightedPick ops tile rates (List.range 16) random_val with
      | some i => ((1 <<< i) % 65536, rng1)
      | none =>
        match highestBit tile with
        | some i => ((1 <<< i) % 65536, rng1)
        | none => (tile, rng1)

/-- The `switch` of `updateNeighbours`: the masks `(northMask, eastMask, southMask,
westMask)` selected by the value of the cell. -/
def neighbourMasks (t : Nat) : Nat × Nat × Nat × Nat :=
  if t = Empty_Tile then (North_Closed_Mask, East_Closed_Mask, South_Closed_Mask, West_Closed_Mask)
  else if t = Normal_X_Corridor ∨ t = Special_X_Corridor then
    (North_Open_Mask, East_Open_Mask, South_Open_Mask, West_Open_Mask)
  else if t = North_East_Corridor then
    (North_Open_Mask, East_Open_Mask, South_Closed_Mask, West_Closed_Mask)
  else if t = South_East_Corridor then
    (North_Closed_Mask, East_Open_Mask, South_Open_Mask, West_Closed_Mask)
  else if t = South_West_Corridor then
    (North_Closed_Mask, East_Closed_Mask, South_Open_Mask, West_Open_Mask)
  else if t = North_West_Corridor then
    (North_Open_Mask, East_Closed_Mask, South_Closed_Mask, West_Open_Mask)
  else if t = North_South_Corridor then
    (North_Open_Mask, East_Closed_Mask, South_Open_Mask, West_Closed_Mask)
  else if t = West_East_Corridor then
    (North_Closed_Mask, East_Open_Mask, South_Closed_Mask, West_Open_Mask)
  else if t = North_T_Corridor then
    (North_Open_Mask, East_Open_Mask, South_Closed_Mask, West_Open_Mask)
  else if t = East_T_Corridor then
    (North_Open_Mask, East_Open_Mask, South_Open_Mask, West_Closed_Mask)
  else if t = South_T_Corridor then
    (North_Closed_Mask, East_Open_Mask, South_Open_Mask, West_Open_Mask)
  else if t = West_T_Corridor then
    (North_Open_Mask, East_Closed_Mask, South_Open_Mask, West_Open_Mask)
  else if t = North_DeadEnd then
    (North_Open_Mask, East_Closed_Mask, South_Closed_Mask, West_Closed_Mask)
  else if t = East_DeadEnd then
    (North_Closed_Mask, East_Open_Mask, South_Closed_Mask, West_Closed_Mask)
  else if t = South_DeadEnd then
    (North_Closed_Mask, East_Closed_Mask, South_Open_Mask, West_Closed_Mask)
  else if t = West_DeadEnd then
    (North_Closed_Mask, East_Closed_Mask, South_Closed_Mask, West_Open_Mask)
  else (65535, 65535, 65535, 65535)

/-- One of the four neighbour blocks of `updateNeighbours`: `cond` is the bounds test,
`(nx, ny)` the neighbour and `mask` the mask for its side. The heap is `none` for a
`NULL` heap pointer; `ins` stands for `heapInsertOrUpdate`, which reads the grid and
updates the heap and the rng state only. -/
def updateNeighbour {H : Type} (ins : H → Grid → Nat → Nat → Nat → H × Nat)
    (st : Grid × Option H × Nat) (cond : Prop) [Decidable cond] (nx ny mask : Nat) :
    Grid × Option H × Nat :=
  if cond ∧ popcount (st.1.get nx ny) > 1 then
    let oldVal := st.1.get nx ny
    let g1 := st.1.set nx ny (oldVal &&& mask)
    let g2 := if g1.get nx ny = 0 then g1.set nx ny All_Possible_State else g1
    match st.2.1 with
    | some h =>
      if g2.get nx ny ≠ oldVal then (g2, some (ins h g2 nx ny st.2.2).1, (ins h g2 nx ny st.2.2).2)
      else (g2, some h, st.2.2)
    | none => (g2, none, st.2.2)
  else st

/-- The function `updateNeighbours`: west, east, north, south in the order of the
source. The tests `(int32_t)x - 1 >= 0` and `(int32_t)x + 1 < width` are `1 ≤ x` and
`x + 1 < W` for coordinates below `2 ^ 31`. -/
def updateNeighbours {H : Type} (ins : H → Grid → Nat → Nat → Nat → H × Nat)
    (g : Grid) (W L x y : Nat) (heap : Option H) (rng : Nat) : Grid × Option H × Nat :=
  let m := neighbourMasks (g.get x y)
  let s0 : Grid × Option H × Nat := (g, heap, rng)
  let s1 := updateNeighbour ins s0 (1 ≤ x) (x - 1) y m.2.2.2
  let s2 := updateNeighbour ins s1 (x + 1 < W) (x + 1) y m.2.1
  let s3 := updateNeighbour ins s2 (1 ≤ y) x (y - 1) m.1
  updateNeighbour ins s3 (y + 1 < L) x (y + 1) m.2.2.1

/-- The constant `NUM_TILE_TYPES`. -/
def NUM_TILE_TYPES : Nat := 6

/-- The constant `GAUSS_WIDTH = 2.0f`. -/
def GAUSS_WIDTH {F : Type} [Field F] : F := 2

/-- The constant `CONNECTOR_BOOST = 2.5f`. -/
def CONNECTOR_BOOST {F : Type} [Field F] : F := 5 / 2

/-- The table `TILE_POSITIONS`: the position of each category on the probability curve
(X, T, L, I, D and the slot of Special X). -/
def TILE_POSITIONS {F : Type} [Field F] : List F := [0, 1, 2, 3, 4, 0]

/-- The function `update_spawnrates` with its weights in exact arithmetic: `F` is an
ordered field and `exp` the exponential on it. The result is the array `rates` after the
call; entries from `NUM_TILE_TYPES` on are not part of the array and keep the value of
the argument. -/
def update_spawnrates {F : Type} [LinearOrderedField F] (exp : F → F) (rates : Nat → F)
    (current_collapsed target_collapsed : Int) : Nat → F :=
  let progress : F :=
    if target_collapsed > 0 then (current_collapsed : F) / (target_collapsed : F) else 0
  let progress : F := if progress > 1 then 1 else progress
  let peak_position : F := TILE_POSITIONS.getD (NUM_TILE_TYPES - 1) 0 * progress
  let raw_weights : Nat → F := fun i =>
    if i = 5 then 0
    else exp (-((TILE_POSITIONS.getD i 0 - peak_position) ^ 2) / (2 * GAUSS_WIDTH ^ 2))
  let current_boost : F := CONNECTOR_BOOST * (1 - progress)
  let raw_weights : Nat → F := fun i =>
    if i = 2 ∨ i = 3 then raw_weights i + current_boost else raw_weights i
  let total_weight : F := (List.range NUM_TILE_TYPES).foldl (fun t i => t + raw_weights i) 0
  if total_weight > 0 then
    fun i => if i < NUM_TILE_TYPES then raw_weights i / total_weight else rates i
  else rates

/-! ## Seed search (`cgsme_solver.c`) -/

/-- The `float` quantities of `findBestSeedLocation`: `big` is the initial `minScore`
(`1e9`), `noise n` is `(float)n * 0.001f` for the 16-bit integer `n`, and `lt` is the
comparison `<`. -/
structure NoiseOps (F : Type) where
  big : F
  noise : Nat → F
  lt : F → F → Bool

/-- One side of the revival block of `findBestSeedLocation` at the cell `(j, i)`: when
the side lies in the layer (`inside`), a void neighbour `(nx, ny)` ands the closed mask
into the cell, and a collapsed neighbour ands the open or the closed mask according to
its own mask test `nbOpen`. -/
def reviveSide (g : Grid) (j i : Nat) (inside : Prop) [Decidable inside] (nx ny : Nat)
    (nbOpen isOpen isClosed voidClosed : Nat) : Grid :=
  if inside then
    let neighbor := g.get nx ny
    if neighbor = Empty_Tile then g.set j i (g.get j i &&& voidClosed)
    else if popcount neighbor = 1 then
      if neighbor &&& nbOpen ≠ 0 then g.set j i (g.get j i &&& isOpen)
      else g.set j i (g.get j i &&& isClosed)
    else g
  else g

/-- The revival block of `findBestSeedLocation` for a cell of popcount 0, up to the
second popcount: the cell is set to `All_Possible_State` and constrained by its north,
south, west and east neighbours, in this order. -/
def reviveCell (W L : Nat) (g : Grid) (j i : Nat) : Grid :=
  let g0 := g.set j i All_Possible_State
  let g1 := reviveSide g0 j i (0 < i) j (i - 1) North_Open_Mask South_Open_Mask
    South_Closed_Mask North_Closed_Mask
  let g2 := reviveSide g1 j i (i < L - 1) j (i + 1) South_Open_Mask North_Open_Mask
    North_Closed_Mask South_Closed_Mask
  let g3 := reviveSide g2 j i (0 < j) (j - 1) i West_Open_Mask East_Open_Mask
    East_Closed_Mask West_Closed_Mask
  reviveSide g3 j i (j < W - 1) (j + 1) i East_Open_Mask West_Open_Mask
    West_Closed_Mask East_Closed_Mask

/-- State of the loops of `findBestSeedLocation`: the grid, the rng state, `minScore`,
`(*outX, *outY)`, `found`, and whether one of the two `return true` inside the loop was
taken. -/
structure SeedState (F : Type) where
  grid : Grid
  rng : Nat
  minScore : F
  out : Nat × Nat
  found : Bool
  returned : Bool

/-- Body of the loops of `findBestSeedLocation` at the cell `(j, i)`. -/
def seedCell {F : Type} (ops : NoiseOps F) (W L : Nat) (st : SeedState F) (j i : Nat) :
    SeedState F :=
  if st.returned then st
  else
    let tile := st.grid.get j i
    if tile = Empty_Tile then st
    else if popcount tile = 1 then st
    else
      let st1 : SeedState F :=
        if popcount tile = 0 then
          let g1 := reviveCell W L st.grid j i
          if popcount (g1.get j i) = 0 then
            { st with grid := g1.set j i All_Possible_State, out := (j, i), returned := true }
          else if popcount (g1.get j i) = 1 then
            { st with grid := g1, out := (j, i), returned := true }
          else { st with grid := g1 }
        else st
      if st1.returned then st1
      else
        let r := nextRandom st1.rng
        let noise := ops.noise ((((i * W + j) % 4294967296) ^^^ r) &&& 0xFFFF)
        if ops.lt noise st1.minScore then
          { st1 with rng := r, minScore := noise, out := (j, i), found := true }
        else { st1 with rng := r }

/-- The loops of `findBestSeedLocation` with their final state; `out0` is what
`(*outX, *outY)` held on entry. -/
def findBestSeedScan {F : Type} (ops : NoiseOps F) (g : Grid) (W L : Nat) (out0 : Nat × Nat)
    (rng : Nat) : SeedState F :=
  (rowMajor W L).foldl (fun st c => seedCell ops W L st c.1 c.2)
    { grid := g, rng := rng, minScore := ops.big, out := out0, found := false,
      returned := false }

/-- The function `findBestSeedLocation`: the returned flag, `(*outX, *outY)`, the grid
and the rng state. -/
def findBestSeedLocation {F : Type} (ops : NoiseOps F) (g : Grid) (W L : Nat)
    (out0 : Nat × Nat) (rng : Nat) : Bool × (Nat × Nat) × Grid × Nat :=
  let st := findBestSeedScan ops g W L out0 rng
  (st.returned || st.found, st.out, st.grid, st.rng)

/-! ## Priority queue (`cgsme_utils.c`) -/

/-- The record `HeapNode`; `S` is the type of the cached `float` score, ordered by `<`
(scores are sums of a popcount and a small noise, never NaN). -/
structure HeapNode (S : Type) where
  x : Nat
  y : Nat
  score : S

/-- The record `MinHeap`: `nodes` is the live part `nodes[0 .. count)` of the heap array,
so that `count` is its length; `capacity` is `width * length`. -/
structure MinHeap (S : Type) where
  nodes : List (HeapNode S)
  indexMap : List Int
  width : Nat
  length : Nat

/-- The index `y * h->width + x` into `indexMap`, in `uint32_t` arithmetic. -/
def mapIdx {S : Type} (h : MinHeap S) (x y : Nat) : Nat := (y * h.width + x) % 4294967296

/-- The function `initHeap`: an empty heap and a map of `width * length` entries `-1`. -/
def initHeap (S : Type) (width length : Nat) : MinHeap S :=
  { nodes := [], indexMap := List.replicate ((width * length) % 4294967296) (-1),
    width := width, length := length }

/-- The function `swapNodes` for two live indices: the nodes are exchanged and the map
entries of the two cells are set to their new heap indices, first that of the node now
at `i`, then that of the node now at `j`. -/
def swapNodes {S : Type} (h : MinHeap S) (i j : Nat) : MinHeap S :=
  match h.nodes[i]?, h.nodes[j]? with
  | some a, some b =>
    { h with nodes := (h.nodes.set i b).set j a,
             indexMap := (h.indexMap.set (mapIdx h b.x b.y) (i : Int)).set
               (mapIdx h a.x a.y) (j : Int) }
  | _, _ => h

/-- The test `h->nodes[a].score < h->nodes[b].score` for live indices. -/
def scoreLt {S : Type} [LinearOrder S] (nodes : List (HeapNode S)) (a b : Nat) : Bool :=
  match nodes[a]?, nodes[b]? with
  | some p, some q => decide (p.score < q.score)
  | _, _ => false

/-- The function `bubbleUp`; the loop runs at most `fuel` times. -/
def bubbleUp {S : Type} [LinearOrder S] : Nat → MinHeap S → Nat → MinHeap S
  | 0, h, _ => h
  | fuel + 1, h, index =>
    if index > 0 then
      let parent := (index - 1) / 2
      if scoreLt h.nodes index parent then bubbleUp fuel (swapNodes h index parent) parent
      else h
    else h

/-- The function `bubbleDown`; the loop runs at most `fuel` times. The indices
`2 * index + 1` and `2 * index + 2` do not wrap in a heap of fewer than `2 ^ 31` nodes. -/
def bubbleDown {S : Type} [LinearOrder S] : Nat → MinHeap S → Nat → MinHeap S
  | 0, h, _ => h
  | fuel + 1, h, index =>
    let left := 2 * index + 1
    let right := 2 * index + 2
    let smallest := index
    let smallest1 := if left < h.nodes.length ∧ scoreLt h.nodes left smallest then left
      else smallest
    let smallest2 := if right < h.nodes.length ∧ scoreLt h.nodes right smallest1 then right
      else smallest1
    if smallest2 ≠ index then bubbleDown fuel (swapNodes h index smallest2) smallest2
    else h

/-- The function `heapInsertOrUpdate`; `score` stands for the value that
`calculateScore` returns when it is called. The loop of `bubbleUp` is given the start
index as fuel. -/
def heapInsertOrUpdate {S : Type} [LinearOrder S] (h : MinHeap S) (grid : Grid) (x y : Nat)
    (score : S) : MinHeap S :=
  let currentHeapIdx := h.indexMap.getD (mapIdx h x y) (-1)
  if x ≥ h.width ∨ y ≥ h.length then h
  else if popcount (grid.get x y) ≤ 1 then h
  else if currentHeapIdx ≠ -1 then
    match h.nodes[currentHeapIdx.toNat]? with
    | some n =>
      if score < n.score then
        bubbleUp currentHeapIdx.toNat
          { h with nodes := h.nodes.set currentHeapIdx.toNat { n with score := score } }
          currentHeapIdx.toNat
      else h
    | none => h
  else
    let idx := h.nodes.length
    bubbleUp idx
      { h with nodes := h.nodes ++ [⟨x, y, score⟩],
               indexMap := h.indexMap.set (mapIdx h x y) (idx : Int) } idx

/-- The loop of `heapPop`, at most `fuel` iterations: the top is exchanged with the last
node and dropped, its map entry is reset, the new top sinks, and the popped cell is
returned when it is still in superposition. The loop of `bubbleDown` is given the node
count as fuel. -/
def heapPopLoop {S : Type} [LinearOrder S] : Nat → MinHeap S → Grid →
    MinHeap S × Option (Nat × Nat)
  | 0, h, _ => (h, none)
  | fuel + 1, h, grid =>
    match h.nodes[0]? with
    | some top =>
      let lastIdx := h.nodes.length - 1
      let h1 := swapNodes h 0 lastIdx
      let h2 : MinHeap S :=
        { h1 with nodes := h1.nodes.dropLast,
                  indexMap := h1.indexMap.set (mapIdx h top.x top.y) (-1) }
      let h3 := if h2.nodes.length > 0 then bubbleDown h2.nodes.length h2 0 else h2
      if popcount (grid.get top.x top.y) > 1 then (h3, some (top.x, top.y))
      else heapPopLoop fuel h3 grid
    | none => (h, none)

/-- The function `heapPop`: the heap it leaves and the popped cell, `none` for `false`.
The loop is given the node count as fuel. -/
def heapPop {S : Type} [LinearOrder S] (h : MinHeap S) (grid : Grid) :
    MinHeap S × Option (Nat × Nat) :=
  heapPopLoop h.nodes.length h grid

/-! ## Mask generation (`cgsme_noise.c`) -/

/-- The local `targetCount` of `generateRidgedMask` after its two clamps: the share
`targetFullness` percent of `totalPixels = width * length` in 64-bit arithmetic, raised to
20 when it is below, then lowered to `totalPixels` when it is above. -/
def targetCount (width length targetFullness : Nat) : Nat :=
  let totalPixels := (width * length) % 4294967296
  let targetCount :=
    (((totalPixels * targetFullness) % 18446744073709551616) / 100) % 4294967296
  let targetCount := if targetCount < 20 then 20 else targetCount
  if targetCount > totalPixels then totalPixels else targetCount

/-- The test of the first pass of `dilateMask` at the cell `(x, y)` of layer 0: the cell
is void and one of its neighbours inside the layer is not. The tests `x < width - 1` and
`y < length - 1` of the source are `x + 1 < W` and `y + 1 < L`. -/
def growthSpot (g0 : Grid) (W L x y : Nat) : Bool :=
  decide (g0.get x y = Empty_Tile ∧
    ((x > 0 ∧ g0.get (x - 1) y ≠ Empty_Tile) ∨ (x + 1 < W ∧ g0.get (x + 1) y ≠ Empty_Tile) ∨
      (y > 0 ∧ g0.get x (y - 1) ≠ Empty_Tile) ∨ (y + 1 < L ∧ g0.get x (y + 1) ≠ Empty_Tile)))

/-- The first pass of `dilateMask`: the array `toAdd`, indexed by `y * width + x`,
allocated by `calloc` and set at the growth spots of layer 0. -/
def markGrowth (g0 : Grid) (W L : Nat) : List Bool :=
  (rowMajor W L).foldl (fun toAdd c =>
    if growthSpot g0 W L c.1 c.2 then toAdd.set (c.2 * W + c.1) true else toAdd)
    (List.replicate (W * L) false)

/-- The loop `for (z = 0; z < height; z++) grid[z][y][x] = v`. -/
def setColumn (layers : List Grid) (H x y v : Nat) : List Grid :=
  (List.range H).foldl (fun ls z => ls.set z ((ls.getD z []).set x y v)) layers

/-- State of the second pass of `dilateMask`: the layers, `added`, and whether the
`goto done` has been taken. -/
structure DilateState where
  layers : List Grid
  added : Nat
  done : Bool

/-- Body of the second pass of `dilateMask` at the cell `c = (x, y)`. -/
def dilateCell (toAdd : List Bool) (W H : Nat) (maxToAdd : Int) (st : DilateState)
    (c : Nat × Nat) : DilateState :=
  if st.done then st
  else if toAdd.getD (c.2 * W + c.1) false then
    if (st.added : Int) ≥ maxToAdd then { st with done := true }
    else { layers := setColumn st.layers H c.1 c.2 All_Possible_State,
           added := st.added + 1, done := false }
  else st

/-- The function `dilateMask` on the layers `grid[0 .. height)`: the layers it leaves and
the count `added` it returns (allocation succeeds). -/
def dilateMask (layers : List Grid) (W L H : Nat) (maxToAdd : Int) : List Grid × Nat :=
  let toAdd := markGrowth (layers.getD 0 []) W L
  let st := (rowMajor W L).foldl (dilateCell toAdd W H maxToAdd)
    { layers := layers, added := 0, done := false }
  (st.layers, st.added)

/-- State of the breadth-first loops of `measureRegionSize` and `keepOnlyLargestMask`:
the mark array (`visited`, `isMain`), the queue contents `queue[0 .. tail)` and the
counter `count` (which `keepOnlyLargestMask` does not keep). -/
structure BfsState where
  marks : List Bool
  queue : List (Nat × Nat)
  count : Nat

/-- One neighbour visit of the breadth-first loops: a neighbour `(nx, ny)` that lies
inside the layer (`inside`), is non-void on layer 0 and is not marked yet is marked,
appended to the queue and counted. -/
def bfsVisit (g0 : Grid) (W : Nat) (st : BfsState) (inside : Prop) [Decidable inside]
    (nx ny : Nat) : BfsState :=
  if inside ∧ g0.get nx ny ≠ Empty_Tile ∧ st.marks.getD (ny * W + nx) false = false then
    { marks := st.marks.set (ny * W + nx) true, queue := st.queue ++ [(nx, ny)],
      count := st.count + 1 }
  else st

/-- Body of the `while (head < tail)` loops for the dequeued cell `(cx, cy)`: the four
visits in the order of `dx = {0, 0, 1, -1}`, `dy = {1, -1, 0, 0}`. -/
def bfsStep (g0 : Grid) (W L : Nat) (st : BfsState) (cx cy : Nat) : BfsState :=
  let s1 := bfsVisit g0 W st (cy + 1 < L) cx (cy + 1)
  let s2 := bfsVisit g0 W s1 (1 ≤ cy) cx (cy - 1)
  let s3 := bfsVisit g0 W s2 (cx + 1 < W) (cx + 1) cy
  bfsVisit g0 W s3 (1 ≤ cx) (cx - 1) cy

/-- The `while (head < tail)` loops of `measureRegionSize` and `keepOnlyLargestMask`, at
most `fuel` dequeues. -/
def bfsLoop (g0 : Grid) (W L : Nat) : Nat → BfsState → Nat → BfsState
  | 0, st, _ => st
  | fuel + 1, st, head =>
    if head < st.queue.length then
      let c := st.queue.getD head (0, 0)
      bfsLoop g0 W L fuel (bfsStep g0 W L st c.1 c.2) (head + 1)
    else st

/-- The function `measureRegionSize` on layer 0: the array `visited` it leaves and the
count it returns (allocation succeeds). The loop is given `W * L` dequeues, the size of
the allocated queue. -/
def measureRegionSize (g0 : Grid) (visited : List Bool) (W L startX startY : Nat) :
    List Bool × Nat :=
  let st := bfsLoop g0 W L (W * L)
    { marks := visited.set (startY * W + startX) true, queue := [(startX, startY)],
      count := 1 } 0
  (st.marks, st.count)

/-- Body of the delete loop of `keepOnlyLargestMask` at the cell `c = (x, y)`. -/
def deleteCell (isMain : List Bool) (W H : Nat) (layers : List Grid) (c : Nat × Nat) :
    List Grid :=
  if (layers.getD 0 []).get c.1 c.2 ≠ Empty_Tile ∧ isMain.getD (c.2 * W + c.1) false = false
  then setColumn layers H c.1 c.2 Empty_Tile
  else layers

/-- The function `keepOnlyLargestMask` on the layers `grid[0 .. height)` (allocation
succeeds); the loop is given `W * L` dequeues, the size of the allocated queue. -/
def keepOnlyLargestMask (layers : List Grid) (W L H startX startY : Nat) : List Grid :=
  let isMain := (bfsLoop (layers.getD 0 []) W L (W * L)
    { marks := (List.replicate (W * L) false).set (startY * W + startX) true,
      queue := [(startX, startY)], count := 0 } 0).marks
  (rowMajor W L).foldl (deleteCell isMain W H) layers

/-- State of the scan of the island sanitization: `visited`, `maxRegionSize` and the
pair `(bestX, bestY)`, `none` for `(-1, -1)`. -/
structure SanitizeState where
  visited : List Bool
  maxRegionSize : Nat
  best : Option (Nat × Nat)

/-- Body of the scan of the island sanitization at the cell `c = (x, y)`. -/
def sanitizeCell (g0 : Grid) (W L : Nat) (st : SanitizeState) (c : Nat × Nat) :
    SanitizeState :=
  if g0.get c.1 c.2 ≠ Empty_Tile ∧ st.visited.getD (c.2 * W + c.1) false = false then
    let r := measureRegionSize g0 st.visited W L c.1 c.2
    if r.2 > st.maxRegionSize then { visited := r.1, maxRegionSize := r.2, best := some c }
    else { st with visited := r.1 }
  else st

/-- The scan of the island sanitization of `generateRidgedMask` over layer 0. -/
def sanitizeScan (g0 : Grid) (W L : Nat) : SanitizeState :=
  (rowMajor W L).foldl (sanitizeCell g0 W L)
    { visited := List.replicate (W * L) false, maxRegionSize := 0, best := none }

/-- The island sanitization of `generateRidgedMask` (the block `SANITIZE (Delete
Islands)`, allocation succeeding): every component of layer 0 is measured, and
`keepOnlyLargestMask` is started at the best cell when there is one. -/
def sanitizeIslands (layers : List Grid) (W L H : Nat) : List Grid :=
  match (sanitizeScan (layers.getD 0 []) W L).best with
  | some b => keepOnlyLargestMask layers W L H b.1 b.2
  | none => layers

/-- The rescue loop of `generateRidgedMask`, `while (currentFilled < targetCount &&
safety < 1000)`, with `1000 - safety` iterations left: each pass dilates by at most the
number of cells still missing and the loop ends when a pass adds nothing. Returns the
layers and `currentFilled`. -/
def rescueLoop (W L H targetCount : Nat) : Nat → List Grid → Nat → List Grid × Nat
  | 0, layers, currentFilled => (layers, currentFilled)
  | left + 1, layers, currentFilled =>
    if currentFilled < targetCount then
      let needed : Int := (targetCount : Int) - (currentFilled : Int)
      let r := dilateMask layers W L H needed
      if r.2 = 0 then (r.1, currentFilled)
      else rescueLoop W L H targetCount left r.1 (currentFilled + r.2)
    else (layers, currentFilled)

/-- The two dilation stages of `generateRidgedMask` after the island sanitization: the
safety pass `dilateMask(grid, width, length, height, 1000000)` and the rescue loop. -/
def dilateStages (layers : List Grid) (W L H currentFilled targetCount : Nat) :
    List Grid × Nat :=
  let r := dilateMask layers W L H 1000000
  rescueLoop W L H targetCount 1000 r.1 (currentFilled + r.2)

/-! ## The entry point (`generator.c`) -/

/-- A call that `generateGrid` makes after its safety check. -/
inductive Work where
  | architect : Work
  | layer : Nat → Work
  deriving DecidableEq, Repr

/-- The derived seeds `args[i].seed = nextRandom(&seed)` of the layers `0 .. n - 1`. -/
def layerSeeds : Nat → Nat → List Nat
  | 0, _ => []
  | n + 1, seed => nextRandom seed :: layerSeeds n (nextRandom seed)

/-- The function `generateGrid`: `none` for `NULL`. After the safety check the grid is
allocated with `calloc` (allocation succeeds), `runArchitect` runs on it and every layer
is handed to `generateLayerThread` with the start point at the centre, its derived seed
and the fulness as stored in the `uint8_t` field `layerGenerationArgs.fulness`
(`args[i].fulness = fulness`), that is modulo 256, while `runArchitect` receives the
`uint32_t` fulness itself; the two functions are parameters here. The second component
records the calls made (the record is not program state). -/
def generateGrid (runArchitect : List Grid → Nat → Nat → Nat → Nat → Nat → List Grid)
    (generateLayerThread : Grid → Nat → Nat → Nat → Nat → Nat → Nat → Grid)
    (width length height seed fulness : Nat) : Option (List Grid) × List Work :=
  if width < 4 ∨ length < 4 ∨ height < 1 then (none, [])
  else
    let grid := List.replicate height (List.replicate length (List.replicate width 0))
    let grid := runArchitect grid width length height fulness seed
    let centerX := width / 2
    let centerY := length / 2
    let layers := (List.range height).map (fun i =>
      generateLayerThread (grid.getD i []) width length centerX centerY
        ((layerSeeds height seed).getD i 0) (fulness % 256))
    (some layers, Work.architect :: (List.range height).map Work.layer)

/-! ## Vocabulary of the statements -/

/-- The tile value `t` has its port in direction `d` open (`d` one of `DIR_N`, `DIR_E`,
`DIR_S`, `DIR_W`), per `getTileFlags`. -/
def hasPort (t d : Nat) : Prop := getTileFlags t &&& d ≠ 0

instance (t d : Nat) : Decidable (hasPort t d) := by unfold hasPort; infer_instance

/-- A single tile variant: exactly one of the sixteen bits. -/
def IsVariant (v : Nat) : Prop := ∃ k, k < 16 ∧ v = 2 ^ k

instance (v : Nat) : Decidable (IsVariant v) := by unfold IsVariant; infer_instance

/-- Every cell of the `W` by `L` layer is void or a single variant. -/
def Solved (g : Grid) (W L : Nat) : Prop :=
  ∀ x, x < W → ∀ y, y < L → g.get x y = 0 ∨ IsVariant (g.get x y)

instance (g : Grid) (W L : Nat) : Decidable (Solved g W L) := by unfold Solved; infer_instance

/-- Well-formedness as a list computation. -/
instance (g : Grid) (W L : Nat) : Decidable (g.WF W L) := by unfold Grid.WF; infer_instance

/-- The open ports of a packed cell `[RegionID : 12 | TileIndex : 4]`. -/
def packedFlags (p : Nat) : Nat := getTileFlags (indexToMask (p &&& 0xF))

/-- The result of propagation into a neighbour: the intersection, or `AllPossible` when
the intersection is empty. -/
def revive (v : Nat) : Nat := if v = 0 then All_Possible_State else v

/-- The open mask of a direction. -/
def openMask (d : Nat) : Nat :=
  if d = DIR_N then North_Open_Mask else if d = DIR_E then East_Open_Mask
  else if d = DIR_S then South_Open_Mask else West_Open_Mask

/-- The closed mask of a direction. -/
def closedMask (d : Nat) : Nat :=
  if d = DIR_N then North_Closed_Mask else if d = DIR_E then East_Closed_Mask
  else if d = DIR_S then South_Closed_Mask else West_Closed_Mask

/-- The mask that propagation from a cell of value `c` applies on side `d`, in the words
of the specification: the open mask when `c` is a single variant with its `d` port
open, the closed mask when `c` is a single variant with that port closed or is void,
and `0xFFFF` otherwise. -/
def propagationMask (c d : Nat) : Nat :=
  if c = 0 then closedMask d
  else if IsVariant c then (if hasPort c d then openMask d else closedMask d)
  else 0xFFFF

/-- Port `d` of a packed cell is open. -/
def portOpen (p d : Nat) : Prop := packedFlags p &&& d ≠ 0

instance (p d : Nat) : Decidable (portOpen p d) := by unfold portOpen; infer_instance

/-- The four direction flags. -/
def dirs : List Nat := [DIR_N, DIR_E, DIR_S, DIR_W]

/-- The record `b` describes an east or south adjacency of the packed layer `g` between
two non-void cells of different regions, with cell A at `(b.x, b.y)`. -/
def ValidBridge (g : Grid) (W L : Nat) (b : Bridge) : Prop :=
  b.x < W ∧ b.y < L ∧ g.get b.x b.y ≠ 0xFFFF ∧ b.regionA = g.get b.x b.y >>> 4 ∧
  b.regionA ≠ b.regionB ∧
  ((b.dir = DIR_E ∧ b.x + 1 < W ∧ g.get (b.x + 1) b.y ≠ 0xFFFF ∧
      b.regionB = g.get (b.x + 1) b.y >>> 4) ∨
   (b.dir = DIR_S ∧ b.y + 1 < L ∧ g.get b.x (b.y + 1) ≠ 0xFFFF ∧
      b.regionB = g.get b.x (b.y + 1) >>> 4))

/-- In the packed layer `g` the wall of bridge `b` is open on both sides: cell A has its
port toward B open and B has its port toward A open. -/
def BridgeOpen (g : Grid) (b : Bridge) : Prop :=
  (b.dir = DIR_E ∧ portOpen (g.get b.x b.y) DIR_E ∧ portOpen (g.get (b.x + 1) b.y) DIR_W) ∨
  (b.dir = DIR_S ∧ portOpen (g.get b.x b.y) DIR_S ∧ portOpen (g.get b.x (b.y + 1)) DIR_N)

/-- The port `d` of the cell `(x, y)` is one of the two ports of the bridge `b`. -/
def BridgePort (b : Bridge) (x y d : Nat) : Prop :=
  (b.dir = DIR_E ∧ ((x = b.x ∧ y = b.y ∧ d = DIR_E) ∨ (x = b.x + 1 ∧ y = b.y ∧ d = DIR_W))) ∨
  (b.dir = DIR_S ∧ ((x = b.x ∧ y = b.y ∧ d = DIR_S) ∨ (x = b.x ∧ y = b.y + 1 ∧ d = DIR_N)))

/-- What the Kruskal loop of the welder maintains, relative to the packed layer `g0` it
was started on. -/
structure WeldInv (g0 : Grid) (W L : Nat) (st : WeldState) : Prop where
  wf : st.grid.WF W L
  lt : ∀ x y, st.grid.get x y < 65536
  void_iff : ∀ x y, st.grid.get x y = 0xFFFF ↔ g0.get x y = 0xFFFF
  region : ∀ x y, st.grid.get x y >>> 4 = g0.get x y >>> 4
  ports : ∀ x y d, d ∈ dirs → (portOpen (st.grid.get x y) d ↔
    portOpen (g0.get x y) d ∨ ∃ b ∈ st.carved, BridgePort b x y d)
  valid : ∀ b ∈ st.carved, ValidBridge g0 W L b
  same : ∀ x y, (∀ b ∈ st.carved, ∀ d, ¬ BridgePort b x y d) → st.grid.get x y = g0.get x y

/-- The value one loop of `fixupEdges` leaves in a cell of value `v` on its strip. -/
def clearValue (v d : Nat) : Nat :=
  if getTileFlags v &&& d ≠ 0 then getTileFromFlags (getTileFlags v &&& (255 ^^^ d)) else v

/-- Cells below `65536`. -/
def Cells16 (g : Grid) (W L : Nat) : Prop := ∀ x, x < W → ∀ y, y < L → g.get x y < 65536

instance (g : Grid) (W L : Nat) : Decidable (Cells16 g W L) := by unfold Cells16; infer_instance

/-- No non-void cell of the layer has an open port facing an in-grid void cell. -/
def NoPortIntoVoid (g : Grid) (W L : Nat) : Prop :=
  ∀ x, x < W → ∀ y, y < L → g.get x y ≠ 0 →
    (hasPort (g.get x y) DIR_N → 1 ≤ y → g.get x (y - 1) ≠ 0) ∧
    (hasPort (g.get x y) DIR_E → x + 1 < W → g.get (x + 1) y ≠ 0) ∧
    (hasPort (g.get x y) DIR_S → y + 1 < L → g.get x (y + 1) ≠ 0) ∧
    (hasPort (g.get x y) DIR_W → 1 ≤ x → g.get (x - 1) y ≠ 0)

/-- No void cell of the layer has an in-grid neighbour whose port on the shared side is
open. -/
def VoidsUnfaced (g : Grid) (W L : Nat) : Prop :=
  ∀ x, x < W → ∀ y, y < L → g.get x y = 0 →
    (1 ≤ y → ¬ hasPort (g.get x (y - 1)) DIR_S) ∧
    (x + 1 < W → ¬ hasPort (g.get (x + 1) y) DIR_W) ∧
    (y + 1 < L → ¬ hasPort (g.get x (y + 1)) DIR_N) ∧
    (1 ≤ x → ¬ hasPort (g.get (x - 1) y) DIR_E)

/-- The value `fixupEdges` leaves in the cell `(x, y)` of value `v`: the four loops in
their order, each acting on its own strip. -/
def fixupValue (W L x y v : Nat) : Nat :=
  let v1 := if y = 0 then clearValue v DIR_N else v
  let v2 := if y = L - 1 then clearValue v1 DIR_S else v1
  let v3 := if x = 0 then clearValue v2 DIR_W else v2
  if x = W - 1 then clearValue v3 DIR_E else v3

/-- The direction `d` points out of the layer at the cell `(x, y)`. -/
def Outward (W L x y d : Nat) : Prop :=
  (d = DIR_N ∧ y = 0) ∨ (d = DIR_S ∧ y = L - 1) ∨ (d = DIR_W ∧ x = 0) ∨ (d = DIR_E ∧ x = W - 1)

instance (W L x y d : Nat) : Decidable (Outward W L x y d) := by unfold Outward; infer_instance

/-- The flood of region `r` turned the grid `g` into `g'`: every cell is unchanged, or was
an unassigned index and now carries the region. -/
def Stamped (r W L : Nat) (g g' : Grid) : Prop :=
  g'.WF W L ∧ ∀ x y, g'.get x y = g.get x y ∨ (g.get x y ≤ 15 ∧ g'.get x y = packCell r (g.get x y))

/-- Number of non-void cells of an unpacked layer. -/
def countNonVoid (g : Grid) (W L : Nat) : Nat :=
  ((rowMajor W L).filter (fun c => g.get c.1 c.2 ≠ 0)).length

/-- What the identification loop of `findConnectedRegionsInPlace` maintains after the
cells `pre`, relative to the unpacked layer `g0`. -/
structure ScanInv (g0 : Grid) (W L : Nat) (pre : List (Nat × Nat)) (st : ScanState) : Prop where
  wf : st.grid.WF W L
  rid_pos : 1 ≤ st.regionID
  rid_eq : st.regionID = min (st.seeds.length + 1) 4095
  cells : ∀ x, x < W → ∀ y, y < L →
    (g0.get x y = 0 ∧ st.grid.get x y = 0xFFFF) ∨
    (∃ k, k < 16 ∧ g0.get x y = 2 ^ k ∧
      (st.grid.get x y = k ∨ ∃ r, 1 ≤ r ∧ r < st.regionID ∧ st.grid.get x y = packCell r k))
  visited : ∀ c ∈ pre, st.grid.get c.1 c.2 ≤ 15 → 4095 ≤ st.seeds.length
  seeds_le : st.seeds.length ≤ (pre.filter (fun c => g0.get c.1 c.2 ≠ 0)).length

/-! ## Sample layers used to instantiate the statements -/

/-- A 2 by 2 unpacked layer whose four cells all have outward ports. -/
def sampleOutward : Grid := [[1024, 8192], [4096, 2048]]

/-- A 3 by 2 unpacked layer with two stray ports against voids. -/
def sampleStray : Grid := [[8192, 0, 0], [0, 0, 4096]]

/-- A 2 by 2 layer as the solver loop may leave it, with two superpositions. -/
def sampleUnsolved : Grid := [[65535, 8192], [3, 0]]

/-- A 3 by 2 unpacked layer with three regions. -/
def sampleThreeRegions : Grid := [[8192, 32768, 0], [4096, 0, 16384]]

/-- A packed 2 by 2 layer with three regions and a void cell. -/
def samplePacked : Grid := [[29, 45], [60, 65535]]

/-- The `float` operations read in exact rational arithmetic. -/
def exactOps : FloatOps ℚ where
  zero := 0
  small := 1 / 10000
  two32 := 4294967296
  ofNat := fun n => (n : ℚ)
  add := fun a b => a + b
  sub := fun a b => a - b
  mul := fun a b => a * b
  div := fun a b => a / b
  le := fun a b => decide (a ≤ b)

/-- The mask-mode spawn rates of `generateLayerThread` as exact rationals. -/
def maskModeRates (i : Nat) : ℚ :=
  [1 / 20, 1 / 5, 2 / 5, 3 / 10, 1 / 20, 0].getD i 0

/-- A 3 by 3 layer during solving: a collapsed corner piece in the centre, three
superpositions and a void around it. -/
def samplePropagation : Grid := [[0, 65535, 0], [65535, 1, 0], [0, 3, 0]]

/-- Port matching at the cell `(x, y)`: each of its open ports faces a neighbour that
lies inside the layer, is non-void and has its opposite port open (north is `y - 1`,
east `x + 1`, south `y + 1`, west `x - 1`). -/
def PortMatchedAt (g : Grid) (W L x y : Nat) : Prop :=
  (hasPort (g.get x y) DIR_N →
    1 ≤ y ∧ g.get x (y - 1) ≠ 0 ∧ hasPort (g.get x (y - 1)) DIR_S) ∧
  (hasPort (g.get x y) DIR_E →
    x + 1 < W ∧ g.get (x + 1) y ≠ 0 ∧ hasPort (g.get (x + 1) y) DIR_W) ∧
  (hasPort (g.get x y) DIR_S →
    y + 1 < L ∧ g.get x (y + 1) ≠ 0 ∧ hasPort (g.get x (y + 1)) DIR_N) ∧
  (hasPort (g.get x y) DIR_W →
    1 ≤ x ∧ g.get (x - 1) y ≠ 0 ∧ hasPort (g.get (x - 1) y) DIR_E)

instance (g : Grid) (W L x y : Nat) : Decidable (PortMatchedAt g W L x y) := by
  unfold PortMatchedAt; infer_instance

/-- Port matching: every open port of a non-void cell of the layer faces a neighbour
that lies inside the layer, is non-void and has its opposite port open. -/
def PortMatched (g : Grid) (W L : Nat) : Prop :=
  ∀ x, x < W → ∀ y, y < L → g.get x y ≠ 0 → PortMatchedAt g W L x y

instance (g : Grid) (W L : Nat) : Decidable (PortMatched g W L) := by
  unfold PortMatched; infer_instance

/-- Mutual ports at the cell `(x, y)`: whenever it has an open port facing an in-grid
non-void neighbour, that neighbour has its opposite port open. -/
def MutualPortsAt (g : Grid) (W L x y : Nat) : Prop :=
  (hasPort (g.get x y) DIR_N → 1 ≤ y → g.get x (y - 1) ≠ 0 →
    hasPort (g.get x (y - 1)) DIR_S) ∧
  (hasPort (g.get x y) DIR_E → x + 1 < W → g.get (x + 1) y ≠ 0 →
    hasPort (g.get (x + 1) y) DIR_W) ∧
  (hasPort (g.get x y) DIR_S → y + 1 < L → g.get x (y + 1) ≠ 0 →
    hasPort (g.get x (y + 1)) DIR_N) ∧
  (hasPort (g.get x y) DIR_W → 1 ≤ x → g.get (x - 1) y ≠ 0 →
    hasPort (g.get (x - 1) y) DIR_E)

instance (g : Grid) (W L x y : Nat) : Decidable (MutualPortsAt g W L x y) := by
  unfold MutualPortsAt; infer_instance

/-- Ports between neighbouring non-void cells are mutual: whenever a cell has an open
port facing an in-grid non-void neighbour, that neighbour has its opposite port open.
Ports facing a void cell or the outside of the layer are not constrained. -/
def MutualPorts (g : Grid) (W L : Nat) : Prop :=
  ∀ x, x < W → ∀ y, y < L → MutualPortsAt g W L x y

instance (g : Grid) (W L : Nat) : Decidable (MutualPorts g W L) := by
  unfold MutualPorts; infer_instance

/-- A 4 by 4 unpacked layer in which the cell `(0, 0)` opens east onto a non-void cell
whose west side is closed. -/
def sampleMismatch : Grid :=
  [[8192, 8192, 0, 0], [0, 0, 0, 0], [0, 0, 0, 0], [0, 0, 0, 0]]

/-- A 4 by 4 unpacked layer with mutual ports, a stray port against a void and outward
ports on the boundary. -/
def sampleMutual : Grid :=
  [[8192, 32, 32768, 0], [0, 0, 0, 16], [16384, 0, 0, 16], [4096, 0, 8192, 64]]

/-- The 4 by 7 layer that the solver sweep of `generateLayerThread` leaves for
`generateGrid(4, 7, 1, 253, 70)`, before the cleanup sequence: every cell is void or a
single tile variant, and the South_DeadEnd at `(1, 1)` opens south onto the
South_East_Corridor at `(1, 2)`, whose north side is closed. -/
def sampleSolverLayer : Grid :=
  [[0, 0, 0, 0], [0, 16384, 0, 0], [0, 2, 4, 2], [2, 64, 1024, 64], [16, 2, 8, 2],
    [16, 128, 32, 8], [8, 1, 32, 256]]

/-- The layer `sampleSolverLayer` after `sealMazeEdges` and `fixupEdges`, which is also
the layer that `generateGrid(4, 7, 1, 253, 70)` returns. -/
def sampleSealedLayer : Grid :=
  [[0, 0, 0, 0], [0, 16384, 0, 0], [0, 2, 4, 16384], [2, 64, 1024, 8], [16, 2, 8, 16384],
    [16, 128, 32, 8], [4096, 1, 32, 32768]]

/-! ## Connectivity vocabulary -/

/-- One step of the flood on the unpacked layer `g`: from the cell `p` through one of its
open ports to the in-grid non-void neighbour `q` on that side. -/
def Steps (g : Grid) (W L : Nat) (p q : Nat × Nat) : Prop :=
  p.1 < W ∧ p.2 < L ∧ q.1 < W ∧ q.2 < L ∧ g.get q.1 q.2 ≠ 0 ∧
  ((q.1 = p.1 ∧ q.2 + 1 = p.2 ∧ hasPort (g.get p.1 p.2) DIR_N) ∨
   (q.1 = p.1 + 1 ∧ q.2 = p.2 ∧ hasPort (g.get p.1 p.2) DIR_E) ∨
   (q.1 = p.1 ∧ q.2 = p.2 + 1 ∧ hasPort (g.get p.1 p.2) DIR_S) ∨
   (q.1 + 1 = p.1 ∧ q.2 = p.2 ∧ hasPort (g.get p.1 p.2) DIR_W))

/-- Open-port adjacency on the unpacked layer `g`: `p` and `q` are 4-adjacent cells of
the layer and each has its port facing the other open. -/
def Linked (g : Grid) (W L : Nat) (p q : Nat × Nat) : Prop :=
  p.1 < W ∧ p.2 < L ∧ q.1 < W ∧ q.2 < L ∧
  ((q.1 = p.1 ∧ q.2 + 1 = p.2 ∧ hasPort (g.get p.1 p.2) DIR_N ∧ hasPort (g.get q.1 q.2) DIR_S) ∨
   (q.1 = p.1 + 1 ∧ q.2 = p.2 ∧ hasPort (g.get p.1 p.2) DIR_E ∧ hasPort (g.get q.1 q.2) DIR_W) ∨
   (q.1 = p.1 ∧ q.2 = p.2 + 1 ∧ hasPort (g.get p.1 p.2) DIR_S ∧ hasPort (g.get q.1 q.2) DIR_N) ∨
   (q.1 + 1 = p.1 ∧ q.2 = p.2 ∧ hasPort (g.get p.1 p.2) DIR_W ∧ hasPort (g.get q.1 q.2) DIR_E))

/-- The cells `p` and `q` are joined by a path of 4-adjacent cells with mutually open
ports. -/
def Joined (g : Grid) (W L : Nat) (p q : Nat × Nat) : Prop :=
  Relation.ReflTransGen (Linked g W L) p q

/-- Position of a cell in the row-major order of a layer of width `W`. -/
def rmIndex (W : Nat) (c : Nat × Nat) : Nat := c.2 * W + c.1

/-- The packed layer `gs` shows the unpacked layer `g0`: the void sentinel for a void
cell, and for a variant a non-void 16-bit value with the variant's index in its low four
bits. -/
def TileView (g0 gs : Grid) (W L : Nat) : Prop :=
  ∀ x, x < W → ∀ y, y < L →
    (g0.get x y = 0 ∧ gs.get x y = 0xFFFF) ∨
    (∃ k, k < 16 ∧ g0.get x y = 2 ^ k ∧ gs.get x y ≠ 0xFFFF ∧ gs.get x y < 65536 ∧
      gs.get x y &&& 0xF = k)

/-- What the loop of `regionMarkerIterative` maintains for the state `(cur, queue, head)`
of a flood of region `r` started at `start` on the packed grid `gs` showing `g0`. -/
structure FloodInv (g0 gs : Grid) (W L r : Nat) (start : Nat × Nat) (cur : Grid)
    (queue : List (Nat × Nat)) (head : Nat) : Prop where
  stamped : Stamped r W L gs cur
  queued : ∀ c ∈ queue, c.1 < W ∧ c.2 < L ∧ gs.get c.1 c.2 ≤ 15 ∧
    cur.get c.1 c.2 = packCell r (gs.get c.1 c.2)
  changed : ∀ x y, cur.get x y ≠ gs.get x y → (x, y) ∈ queue
  nodup : queue.Nodup
  head_le : head ≤ queue.length
  closed : ∀ i, i < head → ∀ q, Steps g0 W L (queue.getD i (0, 0)) q → 15 < cur.get q.1 q.2
  reach : ∀ c ∈ queue, Relation.ReflTransGen (Steps g0 W L) start c

/-- What the identification loop of `findConnectedRegionsInPlace` maintains about
connectivity after the cells `pre`, as long as every flood it called for was started:
assigned regions are closed under open-port adjacency, every assigned cell is joined to
the seed of its region, seed number `i` carries the region `i + 1` and comes first in its
component, and the seeds are met in row-major order. -/
structure RegionInv (g0 : Grid) (W L : Nat) (pre : List (Nat × Nat)) (st : ScanState) : Prop where
  count : st.seeds.length < 4095
  closure : ∀ p q, Linked g0 W L p q → 15 < st.grid.get p.1 p.2 →
    15 < st.grid.get q.1 q.2 ∧ st.grid.get q.1 q.2 >>> 4 = st.grid.get p.1 p.2 >>> 4
  sound : ∀ x, x < W → ∀ y, y < L → g0.get x y ≠ 0 → 15 < st.grid.get x y →
    ∃ i, i < st.seeds.length ∧ st.grid.get x y >>> 4 = i + 1 ∧
      Joined g0 W L (st.seeds.getD i (0, 0)) (x, y)
  seed : ∀ i, i < st.seeds.length →
    (st.seeds.getD i (0, 0)).1 < W ∧ (st.seeds.getD i (0, 0)).2 < L ∧
    g0.get (st.seeds.getD i (0, 0)).1 (st.seeds.getD i (0, 0)).2 ≠ 0 ∧
    15 < st.grid.get (st.seeds.getD i (0, 0)).1 (st.seeds.getD i (0, 0)).2 ∧
    st.grid.get (st.seeds.getD i (0, 0)).1 (st.seeds.getD i (0, 0)).2 >>> 4 = i + 1
  first : ∀ i, i < st.seeds.length → ∀ p, Joined g0 W L (st.seeds.getD i (0, 0)) p →
    rmIndex W (st.seeds.getD i (0, 0)) ≤ rmIndex W p
  sub : st.seeds.Sublist pre

/-- The non-void cells of the layer fall into fewer than `n` connected components: fewer
than `n` cells suffice for every non-void cell to be joined to one of them. -/
def ComponentsFewerThan (g : Grid) (W L n : Nat) : Prop :=
  ∃ reps : List (Nat × Nat), reps.length < n ∧
    ∀ x, x < W → ∀ y, y < L → g.get x y ≠ 0 → ∃ r ∈ reps, Joined g W L r (x, y)

/-- The cell `c` is the first cell in row-major order of a connected component of the
layer. -/
def IsComponentFirst (g : Grid) (W L : Nat) (c : Nat × Nat) : Prop :=
  c.1 < W ∧ c.2 < L ∧ g.get c.1 c.2 ≠ 0 ∧ ∀ p, Joined g W L c p → rmIndex W c ≤ rmIndex W p

/-- A 4 by 4 unpacked layer with port matching whose first row holds two halls of two
dead ends each, next to each other with a wall between them. -/
def sampleTwoHalls : Grid :=
  [[8192, 32768, 8192, 32768], [0, 0, 0, 0], [0, 0, 0, 0], [0, 0, 0, 0]]

/-- Number of elements of the parent array that are not their own parent. -/
def nonRoots (parent : List Nat) : Nat :=
  (List.range parent.length).countP (fun i => decide (parent.getD i 0 ≠ i))

/-- What the parent array of the union-find maintains: `rep` names the representative of
every element, `rk` grows along parent links, and the largest rank `H` is at most the
number of elements that have been linked below another. -/
structure UFInv (parent : List Nat) (rep rk : Nat → Nat) (H : Nat) : Prop where
  bound : ∀ x, x < parent.length → parent.getD x 0 < parent.length
  rep_parent : ∀ x, x < parent.length → rep (parent.getD x 0) = rep x
  rep_root : ∀ x, x < parent.length → rep x < parent.length ∧ parent.getD (rep x) 0 = rep x
  root_rep : ∀ x, x < parent.length → parent.getD x 0 = x → rep x = x
  rank : ∀ x, x < parent.length → parent.getD x 0 ≠ x → rk x < rk (parent.getD x 0)
  rank_rep : ∀ x, x < parent.length → rep x ≠ x → rk x < rk (rep x)
  rk_le : ∀ x, x < parent.length → rk x ≤ H
  pot : H ≤ nonRoots parent

/-- Open-port adjacency on the packed layer `g`: `p` and `q` are 4-adjacent non-void cells
of the layer and each has its port facing the other open. -/
def LinkedPacked (g : Grid) (W L : Nat) (p q : Nat × Nat) : Prop :=
  p.1 < W ∧ p.2 < L ∧ q.1 < W ∧ q.2 < L ∧ g.get p.1 p.2 ≠ 0xFFFF ∧ g.get q.1 q.2 ≠ 0xFFFF ∧
  ((q.1 = p.1 ∧ q.2 + 1 = p.2 ∧
      portOpen (g.get p.1 p.2) DIR_N ∧ portOpen (g.get q.1 q.2) DIR_S) ∨
   (q.1 = p.1 + 1 ∧ q.2 = p.2 ∧
      portOpen (g.get p.1 p.2) DIR_E ∧ portOpen (g.get q.1 q.2) DIR_W) ∨
   (q.1 = p.1 ∧ q.2 = p.2 + 1 ∧
      portOpen (g.get p.1 p.2) DIR_S ∧ portOpen (g.get q.1 q.2) DIR_N) ∨
   (q.1 + 1 = p.1 ∧ q.2 = p.2 ∧
      portOpen (g.get p.1 p.2) DIR_W ∧ portOpen (g.get q.1 q.2) DIR_E))

instance (g : Grid) (W L : Nat) (p q : Nat × Nat) : Decidable (LinkedPacked g W L p q) := by
  unfold LinkedPacked; infer_instance

/-- The cells `p` and `q` of the packed layer are joined by a path of 4-adjacent non-void
cells with mutually open ports. -/
def JoinedPacked (g : Grid) (W L : Nat) (p q : Nat × Nat) : Prop :=
  Relation.ReflTransGen (LinkedPacked g W L) p q

/-- The cells `p` and `q` of the layer are 4-adjacent. -/
def Adjacent (W L : Nat) (p q : Nat × Nat) : Prop :=
  p.1 < W ∧ p.2 < L ∧ q.1 < W ∧ q.2 < L ∧
  ((q.1 = p.1 ∧ q.2 + 1 = p.2) ∨ (q.1 = p.1 + 1 ∧ q.2 = p.2) ∨
   (q.1 = p.1 ∧ q.2 = p.2 + 1) ∨ (q.1 + 1 = p.1 ∧ q.2 = p.2))

instance (W L : Nat) (p q : Nat × Nat) : Decidable (Adjacent W L p q) := by
  unfold Adjacent; infer_instance

/-- The non-void cells of the unpacked layer form one 4-connected set: there is a
non-void cell, and any two non-void cells are joined by a path of 4-adjacent non-void
cells. -/
def FourConnected (g : Grid) (W L : Nat) : Prop :=
  (∃ x, x < W ∧ ∃ y, y < L ∧ g.get x y ≠ 0) ∧
  ∀ p q : Nat × Nat, p.1 < W → p.2 < L → g.get p.1 p.2 ≠ 0 →
    q.1 < W → q.2 < L → g.get q.1 q.2 ≠ 0 →
    Relation.ReflTransGen (fun a b => Adjacent W L a b ∧ g.get b.1 b.2 ≠ 0) p q

/-- The non-void cells of the packed layer form exactly one connected component under
open-port adjacency: there is a non-void cell, and any two non-void cells are joined. -/
def OneComponent (g : Grid) (W L : Nat) : Prop :=
  (∃ x, x < W ∧ ∃ y, y < L ∧ g.get x y ≠ 0xFFFF) ∧
  ∀ p q : Nat × Nat, p.1 < W → p.2 < L → g.get p.1 p.2 ≠ 0xFFFF →
    q.1 < W → q.2 < L → g.get q.1 q.2 ≠ 0xFFFF → JoinedPacked g W L p q

/-- What the Kruskal loop of the welder maintains after the bridges `done`, relative to
the packed layer `g0` it was started on and the length `N` of the parent array: cells
whose regions have the same representative are joined in the current grid, and the two
regions of every bridge of `done` have the same representative. -/
def KruskalInv (g0 : Grid) (W L N : Nat) (done : List Bridge) (st : WeldState) : Prop :=
  WeldInv g0 W L st ∧ st.parent.length = N ∧
  ∃ (rep rk : Nat → Nat) (H : Nat), UFInv st.parent rep rk H ∧
    (∀ p q : Nat × Nat, p.1 < W → p.2 < L → g0.get p.1 p.2 ≠ 0xFFFF →
      q.1 < W → q.2 < L → g0.get q.1 q.2 ≠ 0xFFFF →
      rep (g0.get p.1 p.2 >>> 4) = rep (g0.get q.1 q.2 >>> 4) →
      JoinedPacked st.grid W L p q) ∧
    (∀ b ∈ done, rep b.regionA = rep b.regionB)

/-- In the layer `g` the cell `(x, y)` is faced from its side `d`: the neighbour on that
side lies inside the layer, is non-void and has its port on the shared side open. -/
def FacedFrom (g : Grid) (W L x y d : Nat) : Prop :=
  (d = DIR_N ∧ 1 ≤ y ∧ g.get x (y - 1) ≠ 0 ∧ hasPort (g.get x (y - 1)) DIR_S) ∨
  (d = DIR_E ∧ x + 1 < W ∧ g.get (x + 1) y ≠ 0 ∧ hasPort (g.get (x + 1) y) DIR_W) ∨
  (d = DIR_S ∧ y + 1 < L ∧ g.get x (y + 1) ≠ 0 ∧ hasPort (g.get x (y + 1)) DIR_N) ∨
  (d = DIR_W ∧ 1 ≤ x ∧ g.get (x - 1) y ≠ 0 ∧ hasPort (g.get (x - 1) y) DIR_E)

instance (g : Grid) (W L x y d : Nat) : Decidable (FacedFrom g W L x y d) := by
  unfold FacedFrom; infer_instance

/-- No flood step leaves any cell of the layer: every open port faces a void cell or the
outside of the layer, so each non-void cell is a region of its own. -/
def Isolated (g : Grid) (W L : Nat) : Prop := ∀ p q : Nat × Nat, ¬ Steps g W L p q

/-- A 4 by 4095 unpacked layer whose first column holds 4095 dead ends that open west,
out of the layer; the other three columns are void. -/
def sampleOverflow : Grid := List.replicate 4095 [32768, 0, 0, 0]

/-- The cells at which the identification loop of `findConnectedRegionsInPlace` met an
unassigned cell, in the order of the loop: they name the flood fills the layer calls
for. -/
def floodSeeds (g : Grid) (W L : Nat) : List (Nat × Nat) :=
  (findConnectedRegionsScan g W L).seeds

/-- The noise of `findBestSeedLocation` in thousandths: `noise n` is `n`, `minScore`
starts at `10 ^ 12`, compared as natural numbers. -/
def milliOps : NoiseOps Nat where
  big := 1000000000000
  noise := fun n => n
  lt := fun a b => decide (a < b)

/-- A 4 by 4 layer during solving with a contradicted cell at `(1, 1)` below a collapsed
corridor that opens south, and superpositions in the last row. -/
def sampleContradiction : Grid :=
  [[0, 16, 0, 0], [0, 0, 0, 0], [0, 0, 0, 0], [65535, 3, 0, 0]]

/-- The regions `a` and `b` are the two regions of a bridge satisfying `P`. -/
def RegionEdge (P : Bridge → Prop) (a b : Nat) : Prop :=
  ∃ c, P c ∧ ((c.regionA = a ∧ c.regionB = b) ∨ (c.regionA = b ∧ c.regionB = a))

/-- The regions `a` and `b` are joined in the region graph of the packed layer `g`, whose
edges are the east and south adjacencies between non-void cells of different RegionIDs. -/
def RegionJoined (g : Grid) (W L : Nat) (a b : Nat) : Prop :=
  Relation.ReflTransGen (RegionEdge (ValidBridge g W L)) a b

/-- The regions `a` and `b` are joined by bridges of the list `cs`. -/
def CarvedJoined (cs : List Bridge) (a b : Nat) : Prop :=
  Relation.ReflTransGen (RegionEdge (fun c => c ∈ cs)) a b

/-- The distinct RegionIDs of the non-void cells of the packed layer `g`: the nodes of its
region graph. -/
def usedRegions (g : Grid) (W L : Nat) : List Nat :=
  (((rowMajor W L).filter (fun c => g.get c.1 c.2 ≠ 0xFFFF)).map
    (fun c => g.get c.1 c.2 >>> 4)).dedup

/-- The list `reps` names one region from each connected component of the region graph
of `g`: its members are nodes, no two of them are joined, and every node is joined to
one of them. Its length is the number of components. -/
def IsComponentReps (g : Grid) (W L : Nat) (reps : List Nat) : Prop :=
  (∀ r ∈ reps, r ∈ usedRegions g W L) ∧
  reps.Pairwise (fun a b => ¬ RegionJoined g W L a b) ∧
  ∀ a ∈ usedRegions g W L, ∃ r ∈ reps, RegionJoined g W L r a

/-- What the Kruskal loop of the welder maintains about the carved bridges after the
bridges `done`: two regions have the same representative exactly when carved bridges
join them, the regions of every bridge of `done` have the same representative, every
carved bridge has removed one representative, and no carved bridge joined two regions
that earlier carved bridges had joined. -/
def ForestInv (g0 : Grid) (W L N : Nat) (done : List Bridge) (st : WeldState) : Prop :=
  WeldInv g0 W L st ∧ st.parent.length = N ∧
  ∃ (rep rk : Nat → Nat) (H : Nat), UFInv st.parent rep rk H ∧
    (∀ a b, rep a = rep b ↔ CarvedJoined st.carved a b) ∧
    (∀ b ∈ done, rep b.regionA = rep b.regionB) ∧
    st.carved.length + ((Finset.range N).filter (fun x => rep x = x)).card = N ∧
    (∀ pre b suf, st.carved = pre ++ b :: suf → ¬ CarvedJoined pre b.regionA b.regionB)

/-- A packed 4 by 4 layer with a cell of RegionID 0 next to a cell of RegionID 1. -/
def sampleRegionZero : Grid :=
  [[13, 29, 65535, 65535], [65535, 65535, 65535, 65535], [65535, 65535, 65535, 65535],
    [65535, 65535, 65535, 65535]]

/-- The packed 4 by 4 layer that region identification makes of `sampleTwoHalls`. -/
def samplePackedHalls : Grid :=
  [[29, 31, 45, 47], [65535, 65535, 65535, 65535], [65535, 65535, 65535, 65535],
    [65535, 65535, 65535, 65535]]

/-- The side map agrees with the heap array of a `W` by `L` heap: every node lies in the
grid and its map entry holds its heap index, and the entry of a cell that no node names
is `-1`. -/
structure MapInv {S : Type} (W L : Nat) (h : MinHeap S) : Prop where
  width : h.width = W
  length : h.length = L
  size : h.indexMap.length = W * L
  fwd : ∀ (i : Nat) (n : HeapNode S), h.nodes[i]? = some n →
    n.x < W ∧ n.y < L ∧ h.indexMap[n.y * W + n.x]? = some (i : Int)
  bwd : ∀ m : Nat, m < W * L →
    (∀ (i : Nat) (n : HeapNode S), h.nodes[i]? = some n → n.y * W + n.x ≠ m) →
    h.indexMap[m]? = some (-1)

/-- Min-heap order of the heap array: no node scores less than its parent, the parent of
index `i > 0` being index `(i - 1) / 2`. -/
def HeapOrder {S : Type} [LinearOrder S] (nodes : List (HeapNode S)) : Prop :=
  ∀ (i : Nat) (a p : HeapNode S), 0 < i → nodes[i]? = some a → nodes[(i - 1) / 2]? = some p →
    ¬ a.score < p.score

/-- The heap states reachable from `initHeap W L` by calls of `heapInsertOrUpdate` (any
grid, any cell, any fresh score) and `heapPop` (any grid). -/
inductive HeapReachable {S : Type} [LinearOrder S] (W L : Nat) : MinHeap S → Prop
  | init : HeapReachable W L (initHeap S W L)
  | insert (h : MinHeap S) (grid : Grid) (x y : Nat) (score : S) :
      HeapReachable W L h → HeapReachable W L (heapInsertOrUpdate h grid x y score)
  | pop (h : MinHeap S) (grid : Grid) :
      HeapReachable W L h → HeapReachable W L (heapPop h grid).1

/-- The score at index `i` of the heap array, `d` standing in beyond its end. -/
def scoreAt {S : Type} (nodes : List (HeapNode S)) (d : HeapNode S) (i : Nat) : S :=
  (nodes.getD i d).score

/-- Heap order of the scores `sc` of `n` nodes, except between index `k` and its parent;
the children of `k` respect the parent of `k`. -/
def OrdUp {S : Type} [LinearOrder S] (sc : Nat → S) (n k : Nat) : Prop :=
  (∀ i, 0 < i → i < n → i ≠ k → sc ((i - 1) / 2) ≤ sc i) ∧
  (∀ i, 0 < i → i < n → (i - 1) / 2 = k → 0 < k → sc ((k - 1) / 2) ≤ sc i)

/-- Heap order of the scores `sc` of `n` nodes, except between index `k` and its
children; the children of `k` respect the parent of `k`. -/
def OrdDown {S : Type} [LinearOrder S] (sc : Nat → S) (n k : Nat) : Prop :=
  (∀ i, 0 < i → i < n → (i - 1) / 2 ≠ k → sc ((i - 1) / 2) ≤ sc i) ∧
  (∀ i, 0 < i → i < n → (i - 1) / 2 = k → 0 < k → sc ((k - 1) / 2) ≤ sc i)

/-- A 4 by 4 layer under solving: the cells (0,0), (1,0), (0,1) are in superposition. -/
def sampleHeapGrid : Grid := [[65535, 3, 0, 0], [7, 1, 0, 0], [0, 0, 0, 0], [0, 0, 0, 0]]

/-- The layer `sampleHeapGrid` after the cell (0,0) has collapsed. -/
def sampleHeapGridLater : Grid := [[1, 3, 0, 0], [7, 1, 0, 0], [0, 0, 0, 0], [0, 0, 0, 0]]

/-- A heap of three entries over `sampleHeapGrid`, built by four calls of
`heapInsertOrUpdate` (scores in thousandths); the last call lowers the score of (0,0). -/
def sampleHeap : MinHeap Nat :=
  heapInsertOrUpdate (heapInsertOrUpdate (heapInsertOrUpdate (heapInsertOrUpdate
    (initHeap Nat 4 4) sampleHeapGrid 0 0 16005) sampleHeapGrid 1 0 2003)
    sampleHeapGrid 0 1 3001) sampleHeapGrid 0 0 1000

/-- The index `smallest` that one pass of the loop of `bubbleDown` computes at `index`. -/
def bubbleDownChoice {S : Type} [LinearOrder S] (nodes : List (HeapNode S)) (index : Nat) :
    Nat :=
  if 2 * index + 2 < nodes.length ∧
      scoreLt nodes (2 * index + 2)
        (if 2 * index + 1 < nodes.length ∧ scoreLt nodes (2 * index + 1) index
          then 2 * index + 1 else index)
  then 2 * index + 2
  else if 2 * index + 1 < nodes.length ∧ scoreLt nodes (2 * index + 1) index
    then 2 * index + 1 else index

/-- The heap after the removal steps of one pass of the loop of `heapPop`, `top` being
the node at index 0. -/
def popTop {S : Type} [LinearOrder S] (h : MinHeap S) (top : HeapNode S) : MinHeap S :=
  if (swapNodes h 0 (h.nodes.length - 1)).nodes.dropLast.length > 0 then
    bubbleDown (swapNodes h 0 (h.nodes.length - 1)).nodes.dropLast.length
      { swapNodes h 0 (h.nodes.length - 1) with
        nodes := (swapNodes h 0 (h.nodes.length - 1)).nodes.dropLast,
        indexMap := (swapNodes h 0 (h.nodes.length - 1)).indexMap.set
          (mapIdx h top.x top.y) (-1) } 0
  else
    { swapNodes h 0 (h.nodes.length - 1) with
      nodes := (swapNodes h 0 (h.nodes.length - 1)).nodes.dropLast,
      indexMap := (swapNodes h 0 (h.nodes.length - 1)).indexMap.set
        (mapIdx h top.x top.y) (-1) }

/-- The side opposite to a direction flag. -/
def oppositeDir (d : Nat) : Nat :=
  if d = DIR_N then DIR_S else if d = DIR_E then DIR_W else if d = DIR_S then DIR_N else DIR_E

/-- The T-junction variant that carries the name of side `d` (`North_T_Corridor` for
`DIR_N`, and so on). -/
def tCorridor (d : Nat) : Nat :=
  if d = DIR_N then North_T_Corridor else if d = DIR_E then East_T_Corridor
  else if d = DIR_S then South_T_Corridor else West_T_Corridor

/-- The mask that the `switch` of `updateNeighbours` selects for side `d` of a cell of
value `t`. -/
def maskFor (t d : Nat) : Nat :=
  if d = DIR_N then (neighbourMasks t).1 else if d = DIR_E then (neighbourMasks t).2.1
  else if d = DIR_S then (neighbourMasks t).2.2.1 else (neighbourMasks t).2.2.2

/-- The bitwise OR of the single-bit variants that satisfy `p`. -/
def variantsOr (p : Nat → Bool) : Nat :=
  ((List.range 16).filter (fun k => p (2 ^ k))).foldl (fun m k => m ||| 2 ^ k) 0

/-- The layers `grid[0 .. H)` are `H` well-formed `W` by `L` layers. -/
def LayersWF (layers : List Grid) (W L H : Nat) : Prop :=
  layers.length = H ∧ ∀ g ∈ layers, g.WF W L

instance (layers : List Grid) (W L H : Nat) : Decidable (LayersWF layers W L H) := by
  unfold LayersWF; infer_instance

/-- The growth spots of layer `g0` in row-major order: the void cells with a non-void
neighbour inside the layer. -/
def growthSpots (g0 : Grid) (W L : Nat) : List (Nat × Nat) :=
  (rowMajor W L).filter (fun c => growthSpot g0 W L c.1 c.2)

/-- What the second pass of `dilateMask` maintains after the cells `pre`, started on
`layers` with the limit `n`: the first `n` growth spots met so far are filled on every
layer and nothing else has changed. -/
structure DilateInv (layers : List Grid) (W L H n : Nat) (pre : List (Nat × Nat))
    (st : DilateState) : Prop where
  wf : LayersWF st.layers W L H
  added : st.added = min n (pre.filter (fun c =>
    growthSpot (layers.getD 0 []) W L c.1 c.2)).length
  done : st.done = true ↔ n < (pre.filter (fun c =>
    growthSpot (layers.getD 0 []) W L c.1 c.2)).length
  cells : ∀ z, z < H → ∀ x y, (st.layers.getD z []).get x y =
    if (x, y) ∈ (pre.filter (fun c => growthSpot (layers.getD 0 []) W L c.1 c.2)).take n
    then All_Possible_State else (layers.getD z []).get x y

/-- Two layers of a 4 by 4 mask: two filled cells in the middle of layer 0. -/
def sampleMaskLayers : List Grid :=
  [[[0, 0, 0, 0], [0, 65535, 65535, 0], [0, 0, 0, 0], [0, 0, 0, 0]],
   [[0, 0, 0, 0], [0, 0, 0, 0], [0, 0, 0, 0], [0, 0, 0, 0]]]

/-- Spawn rates that ask for dead ends only (category 4), as exact rationals; the slot of
Special X is 0. -/
def deadEndRates (i : Nat) : ℚ :=
  [0, 0, 0, 0, 1, 0].getD i 0

/-- The cell `q` is reached from `p` by a path of 4-adjacent non-void cells of the
layer `g`. -/
def Conn4 (g : Grid) (W L : Nat) (p q : Nat × Nat) : Prop :=
  Relation.ReflTransGen (fun a b => Adjacent W L a b ∧ g.get b.1 b.2 ≠ 0) p q

/-- The 4-connected component of the cell `p` in the layer `g` has exactly `n` cells. -/
def IsComponentSize (g : Grid) (W L : Nat) (p : Nat × Nat) (n : Nat) : Prop :=
  ∃ cells : List (Nat × Nat), cells.Nodup ∧ (∀ c, c ∈ cells ↔ Conn4 g W L p c) ∧
    cells.length = n

/-- What the breadth-first loops maintain for the state `st` and the queue position
`head`, started at the non-void cell `s` of layer `g0` with the marks `m0`: the marked
cells are those of `m0` and the queued ones, the queue holds distinct non-void cells
reached from `s` that `m0` does not mark, and every non-void neighbour of a dequeued
cell is marked. -/
structure BfsInv (g0 : Grid) (W L : Nat) (m0 : List Bool) (s : Nat × Nat) (st : BfsState)
    (head : Nat) : Prop where
  len : st.marks.length = W * L
  marked : ∀ c : Nat × Nat, c.1 < W → c.2 < L →
    (st.marks.getD (c.2 * W + c.1) false = true ↔
      (m0.getD (c.2 * W + c.1) false = true ∨ c ∈ st.queue))
  queued : ∀ c ∈ st.queue, c.1 < W ∧ c.2 < L ∧ g0.get c.1 c.2 ≠ 0 ∧
    m0.getD (c.2 * W + c.1) false = false ∧ Conn4 g0 W L s c
  nodup : st.queue.Nodup
  head_le : head ≤ st.queue.length
  closed : ∀ i, i < head → ∀ q : Nat × Nat, Adjacent W L (st.queue.getD i (0, 0)) q →
    g0.get q.1 q.2 ≠ 0 → st.marks.getD (q.2 * W + q.1) false = true

/-- What the scan of the island sanitization maintains after the cells `pre` of layer
`g0`: the visited cells are those of the components of the non-void cells met, the best
cell is the first cell of a component whose size is `maxRegionSize`, and every
component met is no larger, and comes later when it is as large. -/
structure SanitizeInv (g0 : Grid) (W L : Nat) (pre : List (Nat × Nat))
    (st : SanitizeState) : Prop where
  len : st.visited.length = W * L
  marks : ∀ c : Nat × Nat, c.1 < W → c.2 < L →
    (st.visited.getD (c.2 * W + c.1) false = true ↔
      ∃ p ∈ pre, g0.get p.1 p.2 ≠ 0 ∧ Conn4 g0 W L p c)
  none_void : st.best = none → ∀ p ∈ pre, g0.get p.1 p.2 = 0
  none_max : st.best = none → st.maxRegionSize = 0
  best : ∀ b, st.best = some b → b ∈ pre ∧ g0.get b.1 b.2 ≠ 0 ∧
    IsComponentSize g0 W L b st.maxRegionSize ∧
    ∀ c, Conn4 g0 W L b c → rmIndex W b ≤ rmIndex W c
  bound : ∀ p ∈ pre, g0.get p.1 p.2 ≠ 0 → ∀ n, IsComponentSize g0 W L p n →
    n ≤ st.maxRegionSize ∧
      ∀ b, st.best = some b → n = st.maxRegionSize → rmIndex W b ≤ rmIndex W p

/-- Two layers of a 4 by 4 mask before the island sanitization: layer 0 holds four
islands, of 2, 2, 3 and 2 cells; layer 1 is void, as allocated. -/
def sampleIslands : List Grid :=
  [[[65535, 65535, 0, 65535], [0, 0, 0, 65535], [65535, 65535, 0, 0], [65535, 0, 65535, 65535]],
   [[0, 0, 0, 0], [0, 0, 0, 0], [0, 0, 0, 0], [0, 0, 0, 0]]]

/-- A 4 by 4 unpacked layer with a stair cell (Special X) at `(1, 1)` whose west
neighbour `(0, 1)` is a dead end that opens north, away from it. -/
def sampleStair : Grid :=
  [[0, 0, 0, 0], [4096, 2048, 0, 0], [0, 0, 0, 0], [0, 0, 0, 0]]

/-- The packed 4 by 4 layer that region identification makes of `sampleStair`: the dead
end is region 1 and the stair cell, with tile index 11, is region 2. -/
def samplePackedStair : Grid :=
  [[65535, 65535, 65535, 65535], [28, 43, 65535, 65535], [65535, 65535, 65535, 65535],
    [65535, 65535, 65535, 65535]]

/-- The cell `(x, y)` is one of the two cells of the bridge `b`: cell A at `(b.x, b.y)`
or cell B, its east or south neighbour. -/
def BridgeEnd (b : Bridge) (x y : Nat) : Prop :=
  (x = b.x ∧ y = b.y) ∨
  (x = b.x + (if b.dir = DIR_E then 1 else 0) ∧ y = b.y + (if b.dir = DIR_S then 1 else 0))

instance (b : Bridge) (x y : Nat) : Decidable (BridgeEnd b x y) := by
  unfold BridgeEnd; infer_instance

/-- The cell `(nx, ny)` is the neighbour of `(x, y)` on side `d` and lies inside the
layer (north is `y - 1`, east `x + 1`, south `y + 1`, west `x - 1`). -/
def NeighbourOn (W L x y d nx ny : Nat) : Prop :=
  (d = DIR_N ∧ nx = x ∧ ny + 1 = y) ∨ (d = DIR_E ∧ nx = x + 1 ∧ ny = y ∧ nx < W) ∨
  (d = DIR_S ∧ nx = x ∧ ny = y + 1 ∧ ny < L) ∨ (d = DIR_W ∧ nx + 1 = x ∧ ny = y)

instance (W L x y d nx ny : Nat) : Decidable (NeighbourOn W L x y d nx ny) := by
  unfold NeighbourOn; infer_instance

/-- A 4 by 4 layer during solving: the corner corridor at `(1, 1)` opens north and east
and its four neighbours are in full superposition. -/
def samplePropagationCross : Grid :=
  [[0, 65535, 0, 0], [65535, 1, 65535, 0], [0, 65535, 0, 0], [0, 0, 0, 0]]

/-- Port matching at the cell `(x, y)` of a packed layer: each of its open ports faces a
neighbour that lies inside the layer, is non-void and has its opposite port open. -/
def PortMatchedPackedAt (g : Grid) (W L x y : Nat) : Prop :=
  (portOpen (g.get x y) DIR_N →
    1 ≤ y ∧ g.get x (y - 1) ≠ 0xFFFF ∧ portOpen (g.get x (y - 1)) DIR_S) ∧
  (portOpen (g.get x y) DIR_E →
    x + 1 < W ∧ g.get (x + 1) y ≠ 0xFFFF ∧ portOpen (g.get (x + 1) y) DIR_W) ∧
  (portOpen (g.get x y) DIR_S →
    y + 1 < L ∧ g.get x (y + 1) ≠ 0xFFFF ∧ portOpen (g.get x (y + 1)) DIR_N) ∧
  (portOpen (g.get x y) DIR_W →
    1 ≤ x ∧ g.get (x - 1) y ≠ 0xFFFF ∧ portOpen (g.get (x - 1) y) DIR_E)

instance (g : Grid) (W L x y : Nat) : Decidable (PortMatchedPackedAt g W L x y) := by
  unfold PortMatchedPackedAt; infer_instance

/-- Port matching on a packed layer: every open port of a non-void cell faces a
neighbour that lies inside the layer, is non-void and has its opposite port open. -/
def PortMatchedPacked (g : Grid) (W L : Nat) : Prop :=
  ∀ x, x < W → ∀ y, y < L → g.get x y ≠ 0xFFFF → PortMatchedPackedAt g W L x y

instance (g : Grid) (W L : Nat) : Decidable (PortMatchedPacked g W L) := by
  unfold PortMatchedPacked; infer_instance

/-- One step of the flood on the packed layer `gs`: from the cell `p` through one of its
open ports to the in-grid neighbour `q` on that side, which is unassigned (a bare index,
at most 15). -/
def FloodStep (gs : Grid) (W L : Nat) (p q : Nat × Nat) : Prop :=
  p.1 < W ∧ p.2 < L ∧ q.1 < W ∧ q.2 < L ∧ gs.get q.1 q.2 ≤ 15 ∧
  ((q.1 = p.1 ∧ q.2 + 1 = p.2 ∧ portOpen (gs.get p.1 p.2) DIR_N) ∨
   (q.1 = p.1 + 1 ∧ q.2 = p.2 ∧ portOpen (gs.get p.1 p.2) DIR_E) ∨
   (q.1 = p.1 ∧ q.2 = p.2 + 1 ∧ portOpen (gs.get p.1 p.2) DIR_S) ∨
   (q.1 + 1 = p.1 ∧ q.2 = p.2 ∧ portOpen (gs.get p.1 p.2) DIR_W))

instance (gs : Grid) (W L : Nat) (p q : Nat × Nat) : Decidable (FloodStep gs W L p q) := by
  unfold FloodStep; infer_instance

/-- The cell `c` is reached from the cell `s` of the packed layer `gs` by repeatedly
stepping from a cell through one of its open ports to an unassigned cell. -/
def FloodReach (gs : Grid) (W L : Nat) (s c : Nat × Nat) : Prop :=
  Relation.ReflTransGen (FloodStep gs W L) s c

/-- A packed 4 by 4 layer with two unassigned dead ends that face each other, `(0, 0)`
opening east and `(1, 0)` opening west. -/
def samplePackedPair : Grid :=
  [[13, 15, 65535, 65535], [65535, 65535, 65535, 65535], [65535, 65535, 65535, 65535],
    [65535, 65535, 65535, 65535]]

/-- Number of unassigned cells (bare indices) of the packed layer. -/
def unassignedCount (g : Grid) (W L : Nat) : Nat :=
  (rowMajor W L).countP (fun c => decide (g.get c.1 c.2 ≤ 15))

/-- What calls of `regionMarkerPacked` have done between the grids `cur` and `res`, in a
flood of region `r` started at `s` on the packed layer `gs`: cells were stamped only,
every stamped cell is reached from `s` over unassigned cells, and every flood step out
of a stamped cell ends on an assigned cell. -/
structure MarkInv (gs : Grid) (W L r : Nat) (s : Nat × Nat) (cur res : Grid) : Prop where
  stamped : Stamped r W L cur res
  reach : ∀ p : Nat × Nat, res.get p.1 p.2 ≠ cur.get p.1 p.2 → FloodReach gs W L s p
  closed : ∀ p : Nat × Nat, res.get p.1 p.2 ≠ cur.get p.1 p.2 →
    ∀ q : Nat × Nat, FloodStep gs W L p q → 15 < res.get q.1 q.2

/-- A packed 4 by 4 layer before a flood: an unassigned corridor `(0, 0)`, `(1, 0)`,
`(2, 0)` in the first row that opens south onto the cell `(2, 1)`, which carries the
RegionID 1, and an unassigned dead end at `(3, 3)`. -/
def samplePackedMaze : Grid :=
  [[1, 5, 2, 65535], [65535, 65535, 28, 65535], [65535, 65535, 65535, 65535],
    [65535, 65535, 65535, 12]]

end CGSME

/-! # Properties -/

namespace CGSME

theorem Grid.get_set (g : Grid) (x y v x' y' : Nat) :
    (g.set x y v).get x' y' =
      if x' = x ∧ y' = y ∧ y < g.length ∧ x < (g.getD y []).length then v else g.get x' y' := by
  unfold Grid.get Grid.set
  simp only [List.getD_eq_getElem?_getD, List.getElem?_set]
  by_cases hy : y = y'
  · subst hy
    by_cases hyl : y < g.length
    · simp only [hyl, if_true, Option.getD_some, List.getElem?_set]
      by_cases hx : x = x'
      · subst hx
        by_cases hxl : x < (g[y]?.getD []).length
        · simp [hxl]
        · have hn : (g[y]?.getD [])[x]? = none := by
            rw [List.getElem?_eq_none]; omega
          simp [hxl, hn]
      · have : ¬ x' = x := fun h => hx h.symm
        simp [hx, this]
    · have hn : g[y]? = none := by simp [List.getElem?_eq_none]; omega
      simp [hyl, hn]
  · have : ¬ y' = y := fun h => hy h.symm
    simp [hy, this]

theorem Grid.WF_set {g : Grid} {W L : Nat} (h : g.WF W L) (x y v : Nat) :
    (g.set x y v).WF W L := by
  obtain ⟨hl, hr⟩ := h
  refine ⟨by simp [Grid.set, hl], ?_⟩
  intro row hrow
  unfold Grid.set at hrow
  rcases List.mem_or_eq_of_mem_set hrow with h1 | h1
  · exact hr row h1
  · subst h1
    rw [List.length_set]
    by_cases hy : y < g.length
    · have : g.getD y [] ∈ g := by
        rw [List.getD_eq_getElem?_getD, List.getElem?_eq_getElem hy]; simp
      exact hr _ this
    · rw [List.set_eq_of_length_le (by omega)] at hrow
      have := hr _ hrow
      rwa [List.length_set] at this

theorem Grid.WF_row_length {g : Grid} {W L : Nat} (h : g.WF W L) {y : Nat} (hy : y < L) :
    (g.getD y []).length = W := by
  obtain ⟨hl, hr⟩ := h
  apply hr
  rw [List.getD_eq_getElem?_getD, List.getElem?_eq_getElem (by omega)]; simp

/-- Reading after a write inside a well-formed layer. -/
theorem Grid.get_set_of_WF {g : Grid} {W L : Nat} (h : g.WF W L) {x y : Nat} (hx : x < W)
    (hy : y < L) (v x' y' : Nat) :
    (g.set x y v).get x' y' = if x' = x ∧ y' = y then v else g.get x' y' := by
  rw [Grid.get_set, Grid.WF_row_length h hy, h.1]
  simp [hx, hy]

/-- A write outside the layer changes no cell. -/
theorem Grid.get_set_outside {g : Grid} {W L : Nat} (h : g.WF W L) {x y : Nat}
    (hxy : ¬ (x < W ∧ y < L)) (v x' y' : Nat) :
    (g.set x y v).get x' y' = g.get x' y' := by
  rw [Grid.get_set]
  by_cases hy : y < L
  · rw [Grid.WF_row_length h hy, h.1]
    have : ¬ x < W := fun hx => hxy ⟨hx, hy⟩
    simp [this]
  · rw [h.1]; simp [hy]

/-- Cells outside a well-formed layer read as `0`. -/
theorem Grid.get_outside {g : Grid} {W L : Nat} (h : g.WF W L) {x y : Nat}
    (hxy : ¬ (x < W ∧ y < L)) : g.get x y = 0 := by
  unfold Grid.get
  by_cases hy : y < L
  · have hx : ¬ x < W := fun hx => hxy ⟨hx, hy⟩
    have := Grid.WF_row_length h hy
    rw [List.getD_eq_getElem?_getD (g.getD y []), List.getElem?_eq_none (by omega)]; rfl
  · rw [List.getD_eq_getElem?_getD g, List.getElem?_eq_none (by rw [h.1]; omega)]; rfl

theorem mem_rowMajor {W L : Nat} {c : Nat × Nat} : c ∈ rowMajor W L ↔ c.1 < W ∧ c.2 < L := by
  unfold rowMajor
  simp only [List.mem_flatMap, List.mem_range, List.mem_map]
  constructor
  · rintro ⟨y, hy, x, hx, rfl⟩; exact ⟨hx, hy⟩
  · rintro ⟨hx, hy⟩; exact ⟨c.2, hy, c.1, hx, rfl⟩

theorem nodup_rowMajor (W L : Nat) : (rowMajor W L).Nodup := by
  unfold rowMajor
  rw [List.nodup_flatMap]
  refine ⟨fun y _ => ?_, ?_⟩
  · exact (List.nodup_range W).map (fun a b h => by simpa using h)
  · apply List.Pairwise.imp _ (List.nodup_range L)
    intro a b hab
    simp only [Function.onFun, List.disjoint_left, List.mem_map, List.mem_range]
    rintro c ⟨x, _, rfl⟩ ⟨x', _, h⟩
    simp at h
    exact hab h.2.symm

theorem foldl_prefix_induction {α β : Type} (P : List α → β → Prop) (f : β → α → β)
    (l : List α) (b : β) (h0 : P [] b)
    (hstep : ∀ pre a suf b', l = pre ++ a :: suf → P pre b' → P (pre ++ [a]) (f b' a)) :
    P l (l.foldl f b) := by
  have key : ∀ suf pre b', l = pre ++ suf → P pre b' → P l (suf.foldl f b') := by
    intro suf
    induction suf with
    | nil => intro pre b' hl hp; simpa [hl] using hp
    | cons a suf ih =>
      intro pre b' hl hp
      simp only [List.foldl_cons]
      apply ih (pre ++ [a]) (f b' a) (by simp [hl])
      exact hstep pre a suf b' hl hp
  exact key l [] b rfl h0

theorem ite_lt_of {c : Prop} [Decidable c] {a b n : Nat} (ha : a < n) (hb : b < n) :
    (if c then a else b) < n := by
  split <;> assumption

theorem flags_lt : ∀ t, getTileFlags t < 16 := by
  intro t; unfold getTileFlags
  iterate 17 (refine ite_lt_of (by decide) ?_)
  decide

theorem flags_fromFlags : ∀ f, f < 16 → getTileFlags (getTileFromFlags f) = f := by decide

theorem fromFlags_variant : ∀ f, f < 16 → f ≠ 0 → IsVariant (getTileFromFlags f) := by decide

theorem fromFlags_ne_zero : ∀ f, f < 16 → f ≠ 0 → getTileFromFlags f ≠ 0 := by decide

theorem variant_flags_ne_zero : ∀ k, k < 16 → getTileFlags (2 ^ k) ≠ 0 := by decide

theorem variant_north_open : ∀ k, k < 16 → (2 ^ k &&& North_Open_Mask ≠ 0 ↔ hasPort (2 ^ k) DIR_S) := by
  decide
theorem variant_south_open : ∀ k, k < 16 → (2 ^ k &&& South_Open_Mask ≠ 0 ↔ hasPort (2 ^ k) DIR_N) := by
  decide
theorem variant_west_open : ∀ k, k < 16 → (2 ^ k &&& West_Open_Mask ≠ 0 ↔ hasPort (2 ^ k) DIR_E) := by
  decide
theorem variant_east_open : ∀ k, k < 16 → (2 ^ k &&& East_Open_Mask ≠ 0 ↔ hasPort (2 ^ k) DIR_W) := by
  decide

theorem indexToMask_eq : ∀ k, k < 16 → indexToMask k = 2 ^ k := by decide
theorem maskToIndex_eq : ∀ k, k < 16 → maskToIndex (2 ^ k) = k := by decide
theorem ctz_variant : ∀ k, k < 16 → ctz (2 ^ k) = k := by decide
theorem popcount_variant : ∀ k, k < 16 → popcount (2 ^ k) = 1 := by decide

theorem shr4_eq (p : Nat) : p >>> 4 = p / 16 := by
  rw [Nat.shiftRight_eq_div_pow]

theorem and15_eq (p : Nat) : p &&& 0xF = p % 16 := by
  have := Nat.and_pow_two_sub_one_eq_mod p 4
  simpa using this

theorem packCell_eq {r n : Nat} (hr : r < 4096) (hn : n < 16) : packCell r n = 16 * r + n := by
  unfold packCell
  rw [Nat.shiftLeft_eq, Nat.mul_comm, ← Nat.mul_add_lt_is_or (i := 4) (by simpa using hn)]
  simp only [Nat.reducePow]
  omega

theorem packCell_shr {r n : Nat} (hr : r < 4096) (hn : n < 16) : packCell r n >>> 4 = r := by
  rw [packCell_eq hr hn, shr4_eq]; omega

theorem packCell_and {r n : Nat} (hr : r < 4096) (hn : n < 16) : packCell r n &&& 0xF = n := by
  rw [packCell_eq hr hn, and15_eq]; omega

theorem packCell_lt (r n : Nat) : packCell r n < 65536 := by
  unfold packCell; omega

/-- The new tile index computed by `openWallPacked` from the old index and the direction. -/
theorem openWall_index : ∀ i, i < 16 → ∀ d, d ∈ [DIR_N, DIR_E, DIR_S, DIR_W] →
    maskToIndex (getTileFromFlags ((getTileFlags (indexToMask i) ||| d) % 256)) < 16 ∧
    getTileFlags (indexToMask (maskToIndex (getTileFromFlags
      ((getTileFlags (indexToMask i) ||| d) % 256)))) = getTileFlags (indexToMask i) ||| d ∧
    (maskToIndex (getTileFromFlags ((getTileFlags (indexToMask i) ||| d) % 256)) = 15 → i = 15) := by
  decide

theorem or_dir_port : ∀ f, f < 16 → ∀ d, d ∈ dirs → ∀ d', d' ∈ dirs →
    ((f ||| d) &&& d' ≠ 0 ↔ f &&& d' ≠ 0 ∨ d' = d) := by decide

/-- The value `openWallPacked` stores into a non-void cell `p`. -/
theorem openWall_value (p d : Nat) (hp : p < 65536) (hne : p ≠ 0xFFFF) (hd : d ∈ dirs) :
    let q := packCell (p >>> 4) (maskToIndex (getTileFromFlags
      ((getTileFlags (indexToMask (p &&& 0xF)) ||| d) % 256)))
    q < 65536 ∧ q ≠ 0xFFFF ∧ q >>> 4 = p >>> 4 ∧ packedFlags q = packedFlags p ||| d := by
  intro q
  have hi : p &&& 0xF < 16 := by rw [and15_eq]; omega
  have hr : p >>> 4 < 4096 := by rw [shr4_eq]; omega
  obtain ⟨h1, h2, h3⟩ := openWall_index (p &&& 0xF) hi d hd
  refine ⟨packCell_lt _ _, ?_, packCell_shr hr h1, ?_⟩
  · intro hq
    have hq' : q = packCell (p >>> 4) _ := rfl
    rw [packCell_eq hr h1] at hq'
    have h15 : p &&& 0xF = 15 := by
      apply h3
      rw [hq] at hq'; rw [shr4_eq] at hq' hr; omega
    rw [hq] at hq'
    rw [and15_eq] at h15; rw [shr4_eq] at hq' hr
    apply hne; omega
  · show getTileFlags (indexToMask (q &&& 0xF)) = _
    rw [show q &&& 0xF = _ from packCell_and hr h1, h2]; rfl

theorem openWallPacked_WF {g : Grid} {W L : Nat} (h : g.WF W L) (x y d : Nat) :
    (openWallPacked g x y d).WF W L := by
  unfold openWallPacked; split
  · exact h
  · exact Grid.WF_set h _ _ _

theorem openWallPacked_get_other {g : Grid} {W L : Nat} (h : g.WF W L) (x y d x' y' : Nat)
    (hne : ¬ (x' = x ∧ y' = y)) : (openWallPacked g x y d).get x' y' = g.get x' y' := by
  unfold openWallPacked; split
  · rfl
  · by_cases hin : x < W ∧ y < L
    · simp only []; rw [Grid.get_set_of_WF h hin.1 hin.2, if_neg hne]
    · exact Grid.get_set_outside h hin _ _ _

theorem openWallPacked_get_self {g : Grid} {W L : Nat} (h : g.WF W L) {x y : Nat} (d : Nat)
    (hx : x < W) (hy : y < L) (hne : g.get x y ≠ 0xFFFF) :
    (openWallPacked g x y d).get x y = packCell (g.get x y >>> 4) (maskToIndex (getTileFromFlags
      ((getTileFlags (indexToMask (g.get x y &&& 0xF)) ||| d) % 256))) := by
  unfold openWallPacked; rw [if_neg hne]
  simp only []; rw [Grid.get_set_of_WF h hx hy]; simp

theorem openWallPacked_void {g : Grid} {x y : Nat} (d : Nat) (hv : g.get x y = 0xFFFF) :
    openWallPacked g x y d = g := by
  unfold openWallPacked; rw [if_pos hv]

/-- Cell by cell description of `openWallPacked` on a non-void in-grid cell. -/
theorem openWallPacked_spec {g : Grid} {W L : Nat} (h : g.WF W L) (h16 : ∀ x y, g.get x y < 65536)
    {x y d : Nat} (hx : x < W) (hy : y < L) (hd : d ∈ dirs) (hne : g.get x y ≠ 0xFFFF) :
    (∀ x' y', (openWallPacked g x y d).get x' y' < 65536) ∧
    (∀ x' y', (openWallPacked g x y d).get x' y' = 0xFFFF ↔ g.get x' y' = 0xFFFF) ∧
    (∀ x' y', (openWallPacked g x y d).get x' y' >>> 4 = g.get x' y' >>> 4) ∧
    (∀ x' y' d', d' ∈ dirs → (portOpen ((openWallPacked g x y d).get x' y') d' ↔
      portOpen (g.get x' y') d' ∨ (x' = x ∧ y' = y ∧ d' = d))) := by
  have hv := openWall_value (g.get x y) d (h16 x y) hne hd
  simp only [] at hv
  obtain ⟨v1, v2, v3, v4⟩ := hv
  have hself := openWallPacked_get_self h d hx hy hne
  refine ⟨?_, ?_, ?_, ?_⟩
  · intro x' y'
    by_cases hc : x' = x ∧ y' = y
    · rw [hc.1, hc.2, hself]; exact v1
    · rw [openWallPacked_get_other h _ _ _ _ _ hc]; exact h16 _ _
  · intro x' y'
    by_cases hc : x' = x ∧ y' = y
    · rw [hc.1, hc.2, hself]; constructor
      · intro h'; exact absurd h' v2
      · intro h'; exact absurd h' hne
    · rw [openWallPacked_get_other h _ _ _ _ _ hc]
  · intro x' y'
    by_cases hc : x' = x ∧ y' = y
    · rw [hc.1, hc.2, hself]; exact v3
    · rw [openWallPacked_get_other h _ _ _ _ _ hc]
  · intro x' y' d' hd'
    by_cases hc : x' = x ∧ y' = y
    · rw [hc.1, hc.2, hself]
      unfold portOpen
      rw [v4, or_dir_port (packedFlags (g.get x y)) (flags_lt _) d hd d' hd']
      simp
    · rw [openWallPacked_get_other h _ _ _ _ _ hc]
      constructor
      · intro h'; exact Or.inl h'
      · rintro (h' | ⟨h1, h2, _⟩)
        · exact h'
        · exact absurd ⟨h1, h2⟩ hc

theorem mem_dirs_E : DIR_E ∈ dirs := by decide
theorem mem_dirs_S : DIR_S ∈ dirs := by decide
theorem mem_dirs_W : DIR_W ∈ dirs := by decide
theorem mem_dirs_N : DIR_N ∈ dirs := by decide

/-- Carving one valid bridge keeps the welder invariant. -/
theorem weldInv_carve {g0 : Grid} {W L : Nat} {st : WeldState} (inv : WeldInv g0 W L st)
    {b : Bridge} (hb : ValidBridge g0 W L b) (parent : List Nat) :
    WeldInv g0 W L
      { grid := openWallPacked (openWallPacked st.grid b.x b.y b.dir)
          (b.x + (if b.dir = DIR_E then 1 else 0)) (b.y + (if b.dir = DIR_S then 1 else 0))
          (if b.dir = DIR_E then DIR_W else DIR_N),
        parent := parent, carved := st.carved ++ [b] } := by
  obtain ⟨hbx, hby, hA, hrA, hrne, hdir⟩ := hb
  have hb' : ValidBridge g0 W L b := ⟨hbx, hby, hA, hrA, hrne, hdir⟩
  have hAst : st.grid.get b.x b.y ≠ 0xFFFF := fun h => hA ((inv.void_iff _ _).1 h)
  -- normalise the second cell
  obtain ⟨nx, ny, opp, hn, hnx, hny, hopp, hB, hbp⟩ :
      ∃ nx ny opp, (b.x + (if b.dir = DIR_E then 1 else 0) = nx ∧
        b.y + (if b.dir = DIR_S then 1 else 0) = ny ∧
        (if b.dir = DIR_E then DIR_W else DIR_N) = opp) ∧ nx < W ∧ ny < L ∧ opp ∈ dirs ∧
        g0.get nx ny ≠ 0xFFFF ∧
        (∀ x y d, BridgePort b x y d ↔
          (x = b.x ∧ y = b.y ∧ d = b.dir) ∨ (x = nx ∧ y = ny ∧ d = opp)) := by
    rcases hdir with ⟨hd, h1, h2, _⟩ | ⟨hd, h1, h2, _⟩
    · refine ⟨b.x + 1, b.y, DIR_W, ⟨by simp [hd], by simp [hd, DIR_E, DIR_S], by simp [hd]⟩,
        h1, hby, mem_dirs_W, h2, ?_⟩
      intro x y d; unfold BridgePort; simp [hd, DIR_E, DIR_S]
    · refine ⟨b.x, b.y + 1, DIR_N, ⟨by simp [hd, DIR_E, DIR_S], by simp [hd],
        by simp [hd, DIR_E, DIR_S]⟩, hbx, h1, mem_dirs_N, h2, ?_⟩
      intro x y d; unfold BridgePort; simp [hd, DIR_E, DIR_S]
  obtain ⟨e1, e2, e3⟩ := hn
  rw [e1, e2, e3]
  have hdmem : b.dir ∈ dirs := by
    rcases hdir with ⟨hd, _⟩ | ⟨hd, _⟩ <;> rw [hd] <;> decide
  obtain ⟨a1, a2, a3, a4⟩ := openWallPacked_spec inv.wf inv.lt hbx hby hdmem hAst
  have wf1 := openWallPacked_WF inv.wf b.x b.y b.dir
  have hBst : (openWallPacked st.grid b.x b.y b.dir).get nx ny ≠ 0xFFFF :=
    fun h => hB ((inv.void_iff _ _).1 ((a2 _ _).1 h))
  obtain ⟨c1, c2, c3, c4⟩ := openWallPacked_spec wf1 a1 hnx hny hopp hBst
  refine ⟨openWallPacked_WF wf1 _ _ _, c1, ?_, ?_, ?_, ?_, ?_⟩
  · intro x y; rw [c2, a2]; exact inv.void_iff x y
  · intro x y; rw [c3, a3]; exact inv.region x y
  · intro x y d hd
    rw [c4 x y d hd, a4 x y d hd, inv.ports x y d hd]
    simp only [List.mem_append, List.mem_singleton]
    constructor
    · rintro (((h | ⟨b', hb1, hb2⟩) | h) | h)
      · exact Or.inl h
      · exact Or.inr ⟨b', Or.inl hb1, hb2⟩
      · exact Or.inr ⟨b, Or.inr rfl, (hbp x y d).2 (Or.inl h)⟩
      · exact Or.inr ⟨b, Or.inr rfl, (hbp x y d).2 (Or.inr h)⟩
    · rintro (h | ⟨b', hb1 | hb1, hb2⟩)
      · exact Or.inl (Or.inl (Or.inl h))
      · exact Or.inl (Or.inl (Or.inr ⟨b', hb1, hb2⟩))
      · subst hb1
        rcases (hbp x y d).1 hb2 with h | h
        · exact Or.inl (Or.inr h)
        · exact Or.inr h
  · intro b' hb1
    rcases List.mem_append.1 hb1 with h | h
    · exact inv.valid b' h
    · rw [List.mem_singleton.1 h]; exact hb'
  · intro x y hnone
    have h1 : ¬ (x = nx ∧ y = ny) := fun h =>
      hnone b (by simp) opp ((hbp x y opp).2 (Or.inr ⟨h.1, h.2, rfl⟩))
    have h2 : ¬ (x = b.x ∧ y = b.y) := fun h =>
      hnone b (by simp) b.dir ((hbp x y b.dir).2 (Or.inl ⟨h.1, h.2, rfl⟩))
    rw [openWallPacked_get_other wf1 _ _ _ _ _ h1, openWallPacked_get_other inv.wf _ _ _ _ _ h2]
    exact inv.same x y (fun b' hb' d => hnone b' (List.mem_append_left _ hb') d)

/-- One Kruskal step on a valid bridge keeps the welder invariant. -/
theorem weldInv_step {g0 : Grid} {W L : Nat} {st : WeldState} (inv : WeldInv g0 W L st)
    {b : Bridge} (hb : ValidBridge g0 W L b) (fuel : Nat) :
    WeldInv g0 W L (weldStep fuel st b) := by
  unfold weldStep
  simp only []
  split
  · exact weldInv_carve inv hb _
  · exact ⟨inv.wf, inv.lt, inv.void_iff, inv.region, inv.ports, inv.valid, inv.same⟩

theorem weldInv_foldl {g0 : Grid} {W L : Nat} (fuel : Nat) (bs : List Bridge)
    (hbs : ∀ b ∈ bs, ValidBridge g0 W L b) :
    ∀ st, WeldInv g0 W L st → WeldInv g0 W L (bs.foldl (weldStep fuel) st) := by
  induction bs with
  | nil => intro st h; exact h
  | cons b bs ih =>
    intro st h
    simp only [List.foldl_cons]
    exact ih (fun b' hb' => hbs b' (List.mem_cons_of_mem _ hb')) _
      (weldInv_step h (hbs b (List.mem_cons_self _ _)) fuel)

theorem weldInv_init {g : Grid} {W L : Nat} (h : g.WF W L) (h16 : ∀ x y, g.get x y < 65536)
    (parent : List Nat) : WeldInv g W L ⟨g, parent, []⟩ :=
  ⟨h, h16, fun _ _ => Iff.rfl, fun _ _ => rfl, fun _ _ _ _ => by simp, fun _ hb => by simp at hb,
    fun _ _ _ => rfl⟩

theorem collectCell_append (g : Grid) (W L : Nat) (bs : List Bridge) (x y : Nat) :
    collectCell g W L bs x y = bs ++ collectCell g W L [] x y := by
  unfold collectCell
  split
  · simp
  · simp only []
    split <;> split <;> simp

theorem collectBridges_eq (g : Grid) (W L : Nat) :
    collectBridges g W L = (rowMajor W L).flatMap (fun c => collectCell g W L [] c.1 c.2) := by
  unfold collectBridges
  have key : ∀ (l : List (Nat × Nat)) (acc : List Bridge),
      l.foldl (fun bs c => collectCell g W L bs c.1 c.2) acc =
        acc ++ l.flatMap (fun c => collectCell g W L [] c.1 c.2) := by
    intro l
    induction l with
    | nil => intro acc; simp
    | cons c l ih =>
      intro acc
      simp only [List.foldl_cons, List.flatMap_cons]
      rw [ih, collectCell_append, List.append_assoc]
  simpa using key (rowMajor W L) []

/-- The collected bridges are exactly the east and south adjacencies between non-void
cells of different regions. -/
theorem mem_collectBridges {g : Grid} {W L : Nat} {b : Bridge} :
    b ∈ collectBridges g W L ↔ ValidBridge g W L b := by
  rw [collectBridges_eq, List.mem_flatMap]
  constructor
  · rintro ⟨⟨x, y⟩, hc, hb⟩
    obtain ⟨hx, hy⟩ := mem_rowMajor.1 hc
    simp only [] at hx hy hb
    unfold collectCell at hb
    split at hb
    · simp at hb
    · rename_i hne
      simp only [] at hb
      split at hb <;> split at hb
      · rename_i h1 h2
        simp only [List.nil_append, List.cons_append, List.mem_cons, List.mem_singleton,
          List.not_mem_nil, or_false] at hb
        rcases hb with rfl | rfl
        · exact ⟨hx, hy, hne, rfl, h2.2.2, Or.inl ⟨rfl, Nat.add_lt_of_lt_sub h2.1, h2.2.1, rfl⟩⟩
        · exact ⟨hx, hy, hne, rfl, h1.2.2, Or.inr ⟨rfl, Nat.add_lt_of_lt_sub h1.1, h1.2.1, rfl⟩⟩
      · rename_i h1 h2
        simp only [List.nil_append, List.mem_singleton] at hb
        subst hb
        exact ⟨hx, hy, hne, rfl, h1.2.2, Or.inr ⟨rfl, Nat.add_lt_of_lt_sub h1.1, h1.2.1, rfl⟩⟩
      · rename_i h1 h2
        simp only [List.nil_append, List.mem_singleton] at hb
        subst hb
        exact ⟨hx, hy, hne, rfl, h2.2.2, Or.inl ⟨rfl, Nat.add_lt_of_lt_sub h2.1, h2.2.1, rfl⟩⟩
      · simp at hb
  · rintro ⟨hx, hy, hne, hrA, hrne, hdir⟩
    refine ⟨(b.x, b.y), mem_rowMajor.2 ⟨hx, hy⟩, ?_⟩
    simp only []
    unfold collectCell
    rw [if_neg hne]
    simp only []
    rcases hdir with ⟨hd, h1, h2, hrB⟩ | ⟨hd, h1, h2, hrB⟩
    · have hb : b = ⟨g.get b.x b.y >>> 4, g.get (b.x + 1) b.y >>> 4, b.x, b.y, DIR_E⟩ := by
        cases b; simp_all
      have hc : b.x < W - 1 ∧ g.get (b.x + 1) b.y ≠ 0xFFFF ∧
          g.get b.x b.y >>> 4 ≠ g.get (b.x + 1) b.y >>> 4 :=
        ⟨by omega, h2, by rw [← hrA, ← hrB]; exact hrne⟩
      rw [if_pos hc]
      split
      · rw [List.mem_append]; left; rw [List.nil_append, List.mem_singleton]; exact hb
      · rw [List.nil_append, List.mem_singleton]; exact hb
    · have hb : b = ⟨g.get b.x b.y >>> 4, g.get b.x (b.y + 1) >>> 4, b.x, b.y, DIR_S⟩ := by
        cases b; simp_all
      have hc : b.y < L - 1 ∧ g.get b.x (b.y + 1) ≠ 0xFFFF ∧
          g.get b.x b.y >>> 4 ≠ g.get b.x (b.y + 1) >>> 4 :=
        ⟨by omega, h2, by rw [← hrA, ← hrB]; exact hrne⟩
      rw [if_pos hc]
      rw [List.mem_append]; right; rw [List.mem_singleton]; exact hb

theorem swapBridges_length (bs : List Bridge) (i j : Nat) :
    (swapBridges bs i j).length = bs.length := by
  unfold swapBridges; simp

theorem swapBridges_getElem? (bs : List Bridge) {i j : Nat} (hi : i < bs.length)
    (hj : j < bs.length) (k : Nat) :
    (swapBridges bs i j)[k]? = bs[if k = j then i else if k = i then j else k]? := by
  unfold swapBridges
  rw [List.getElem?_set, List.getElem?_set, List.length_set]
  simp only [List.getD_eq_getElem?_getD, List.getElem?_eq_getElem hi,
    List.getElem?_eq_getElem hj, Option.getD_some]
  by_cases h1 : j = k
  · subst h1; simp [hj, hi]
  · have h1' : ¬ k = j := fun h => h1 h.symm
    by_cases h2 : i = k
    · subst h2; simp [h1, h1', hi, hj]
    · have h2' : ¬ k = i := fun h => h2 h.symm
      simp [h1, h1', h2, h2']

theorem mem_swapBridges (bs : List Bridge) {i j : Nat} (hi : i < bs.length)
    (hj : j < bs.length) (b : Bridge) : b ∈ swapBridges bs i j ↔ b ∈ bs := by
  simp only [List.mem_iff_getElem?]
  constructor
  · rintro ⟨k, hk⟩
    rw [swapBridges_getElem? bs hi hj] at hk
    exact ⟨_, hk⟩
  · rintro ⟨k, hk⟩
    refine ⟨if k = j then i else if k = i then j else k, ?_⟩
    rw [swapBridges_getElem? bs hi hj, ← hk]
    congr 1
    by_cases h1 : k = j
    · subst h1
      by_cases h2 : i = k
      · simp [h2]
      · simp [h2]
    · by_cases h2 : k = i
      · subst h2; simp [h1]
      · simp [h1, h2]

theorem shuffleBridges_spec (bs : List Bridge) (rng : Nat) :
    (shuffleBridges bs rng).1.length = bs.length ∧
    ∀ b, b ∈ (shuffleBridges bs rng).1 ↔ b ∈ bs := by
  unfold shuffleBridges
  apply foldl_prefix_induction
    (fun (_ : List Nat) (st : List Bridge × Nat) =>
      st.1.length = bs.length ∧ ∀ b, b ∈ st.1 ↔ b ∈ bs)
  · exact ⟨rfl, fun _ => Iff.rfl⟩
  · intro pre i suf st hl ⟨h1, h2⟩
    have hi : i < bs.length := by
      have : i ∈ List.range bs.length := by rw [hl]; simp
      exact List.mem_range.1 this
    have hpos : 0 < bs.length := by omega
    refine ⟨by simp only [swapBridges_length]; exact h1, fun b => ?_⟩
    simp only []
    rw [mem_swapBridges st.1 (by omega) (by rw [h1]; exact Nat.mod_lt _ hpos)]
    exact h2 b

/-- The welder invariant holds of the state in which `germanWelderInPlace` returns. -/
theorem germanWelderState_inv {g : Grid} {W L : Nat} (h : g.WF W L)
    (h16 : ∀ x y, g.get x y < 65536) (rng : Nat) :
    WeldInv g W L (germanWelderState g W L rng).1 := by
  unfold germanWelderState
  simp only []
  split
  · exact weldInv_init h h16 _
  · split
    · exact weldInv_init h h16 _
    · apply weldInv_foldl
      · intro b hb
        exact mem_collectBridges.1 (((shuffleBridges_spec _ rng).2 b).1 hb)
      · exact weldInv_init h h16 _

theorem fromFlags_zero : getTileFromFlags 0 = 0 := by decide

/-- The flag accumulation of `sealMazeEdges` over four abstract tests. -/
theorem flags_chain (a b c d : Prop) [Decidable a] [Decidable b] [Decidable c] [Decidable d] :
    let f1 := if a then (0 : Nat) ||| DIR_N else 0
    let f2 := if b then f1 ||| DIR_S else f1
    let f3 := if c then f2 ||| DIR_W else f2
    let f4 := if d then f3 ||| DIR_E else f3
    f4 < 16 ∧ (f4 &&& DIR_N ≠ 0 ↔ a) ∧ (f4 &&& DIR_S ≠ 0 ↔ b) ∧ (f4 &&& DIR_W ≠ 0 ↔ c) ∧
      (f4 &&& DIR_E ≠ 0 ↔ d) ∧ (f4 = 0 ↔ ¬ a ∧ ¬ b ∧ ¬ c ∧ ¬ d) := by
  by_cases ha : a <;> by_cases hb : b <;> by_cases hc : c <;> by_cases hd : d <;>
    simp only [ha, hb, hc, hd, if_true, if_false] <;> decide

theorem inwardFlags_spec (g : Grid) (W L x y : Nat) :
    inwardFlags g W L x y < 16 ∧
    (inwardFlags g W L x y &&& DIR_N ≠ 0 ↔
      (0 < y ∧ g.get x (y - 1) ≠ 0 ∧ g.get x (y - 1) &&& North_Open_Mask ≠ 0)) ∧
    (inwardFlags g W L x y &&& DIR_S ≠ 0 ↔
      (y < L - 1 ∧ g.get x (y + 1) ≠ 0 ∧ g.get x (y + 1) &&& South_Open_Mask ≠ 0)) ∧
    (inwardFlags g W L x y &&& DIR_W ≠ 0 ↔
      (0 < x ∧ g.get (x - 1) y ≠ 0 ∧ g.get (x - 1) y &&& West_Open_Mask ≠ 0)) ∧
    (inwardFlags g W L x y &&& DIR_E ≠ 0 ↔
      (x < W - 1 ∧ g.get (x + 1) y ≠ 0 ∧ g.get (x + 1) y &&& East_Open_Mask ≠ 0)) ∧
    (inwardFlags g W L x y = 0 ↔
      ¬ (0 < y ∧ g.get x (y - 1) ≠ 0 ∧ g.get x (y - 1) &&& North_Open_Mask ≠ 0) ∧
      ¬ (y < L - 1 ∧ g.get x (y + 1) ≠ 0 ∧ g.get x (y + 1) &&& South_Open_Mask ≠ 0) ∧
      ¬ (0 < x ∧ g.get (x - 1) y ≠ 0 ∧ g.get (x - 1) y &&& West_Open_Mask ≠ 0) ∧
      ¬ (x < W - 1 ∧ g.get (x + 1) y ≠ 0 ∧ g.get (x + 1) y &&& East_Open_Mask ≠ 0)) :=
  flags_chain _ _ _ _

/-- Mask tests on a variant made from a port set agree with the port set. -/
theorem fromFlags_masks : ∀ f, f < 16 →
    (getTileFromFlags f &&& North_Open_Mask ≠ 0 ↔ f &&& DIR_S ≠ 0) ∧
    (getTileFromFlags f &&& South_Open_Mask ≠ 0 ↔ f &&& DIR_N ≠ 0) ∧
    (getTileFromFlags f &&& West_Open_Mask ≠ 0 ↔ f &&& DIR_E ≠ 0) ∧
    (getTileFromFlags f &&& East_Open_Mask ≠ 0 ↔ f &&& DIR_W ≠ 0) := by decide

theorem flags_bits : ∀ f, f < 16 →
    f = (if f &&& DIR_N ≠ 0 then DIR_N else 0) ||| (if f &&& DIR_S ≠ 0 then DIR_S else 0) |||
      (if f &&& DIR_W ≠ 0 then DIR_W else 0) ||| (if f &&& DIR_E ≠ 0 then DIR_E else 0) := by
  decide

theorem flags_eq_of_bits (f : Nat) (hf : f < 16) (f' : Nat) (hf' : f' < 16)
    (hN : f &&& DIR_N ≠ 0 ↔ f' &&& DIR_N ≠ 0) (hS : f &&& DIR_S ≠ 0 ↔ f' &&& DIR_S ≠ 0)
    (hW : f &&& DIR_W ≠ 0 ↔ f' &&& DIR_W ≠ 0) (hE : f &&& DIR_E ≠ 0 ↔ f' &&& DIR_E ≠ 0) :
    f = f' := by
  have e1 := flags_bits f hf
  have e2 := flags_bits f' hf'
  rw [if_congr hN rfl rfl, if_congr hS rfl rfl, if_congr hW rfl rfl, if_congr hE rfl rfl,
    ← e2] at e1
  exact e1

/-- During the scan of `sealMazeEdges` the flags of a void cell computed on the current
grid are those computed on the input grid: a cell filled earlier never points at a cell
that was void in the input. -/
theorem inwardFlags_stable {g cur : Grid} {W L : Nat} (pre : List (Nat × Nat))
    (hcur : ∀ x y, cur.get x y =
      if (x, y) ∈ pre ∧ g.get x y = 0 then getTileFromFlags (inwardFlags g W L x y)
      else g.get x y)
    {x0 y0 : Nat} (h0 : g.get x0 y0 = 0) :
    inwardFlags cur W L x0 y0 = inwardFlags g W L x0 y0 := by
  obtain ⟨c1, cN, cS, cW, cE, _⟩ := inwardFlags_spec cur W L x0 y0
  obtain ⟨g1, gN, gS, gW, gE, _⟩ := inwardFlags_spec g W L x0 y0
  -- a neighbour `n` whose current value differs from the input is a filled cell
  have filled : ∀ x y, cur.get x y ≠ g.get x y →
      g.get x y = 0 ∧ cur.get x y = getTileFromFlags (inwardFlags g W L x y) := by
    intro x y hne
    rw [hcur x y] at hne ⊢
    split at hne
    · rename_i h; rw [if_pos h]; exact ⟨h.2, rfl⟩
    · exact absurd rfl hne
  apply flags_eq_of_bits _ c1 _ g1
  · rw [cN, gN]
    by_cases he : cur.get x0 (y0 - 1) = g.get x0 (y0 - 1)
    · rw [he]
    · obtain ⟨hz, hf⟩ := filled _ _ he
      constructor
      · rintro ⟨hy, _, hm⟩
        rw [hf, ((fromFlags_masks _ (inwardFlags_spec g W L _ _).1).1)] at hm
        have := ((inwardFlags_spec g W L x0 (y0 - 1)).2.2.1.1 hm).2.1
        rw [show y0 - 1 + 1 = y0 by omega] at this
        exact absurd h0 this
      · rintro ⟨_, hnz, _⟩; exact absurd hz hnz
  · rw [cS, gS]
    by_cases he : cur.get x0 (y0 + 1) = g.get x0 (y0 + 1)
    · rw [he]
    · obtain ⟨hz, hf⟩ := filled _ _ he
      constructor
      · rintro ⟨hy, _, hm⟩
        rw [hf, ((fromFlags_masks _ (inwardFlags_spec g W L _ _).1).2.1)] at hm
        have := ((inwardFlags_spec g W L x0 (y0 + 1)).2.1.1 hm).2.1
        rw [show y0 + 1 - 1 = y0 by omega] at this
        exact absurd h0 this
      · rintro ⟨_, hnz, _⟩; exact absurd hz hnz
  · rw [cW, gW]
    by_cases he : cur.get (x0 - 1) y0 = g.get (x0 - 1) y0
    · rw [he]
    · obtain ⟨hz, hf⟩ := filled _ _ he
      constructor
      · rintro ⟨hy, _, hm⟩
        rw [hf, ((fromFlags_masks _ (inwardFlags_spec g W L _ _).1).2.2.1)] at hm
        have := ((inwardFlags_spec g W L (x0 - 1) y0).2.2.2.2.1.1 hm).2.1
        rw [show x0 - 1 + 1 = x0 by omega] at this
        exact absurd h0 this
      · rintro ⟨_, hnz, _⟩; exact absurd hz hnz
  · rw [cE, gE]
    by_cases he : cur.get (x0 + 1) y0 = g.get (x0 + 1) y0
    · rw [he]
    · obtain ⟨hz, hf⟩ := filled _ _ he
      constructor
      · rintro ⟨hy, _, hm⟩
        rw [hf, ((fromFlags_masks _ (inwardFlags_spec g W L _ _).1).2.2.2)] at hm
        have := ((inwardFlags_spec g W L (x0 + 1) y0).2.2.2.1.1 hm).2.1
        rw [show x0 + 1 - 1 = x0 by omega] at this
        exact absurd h0 this
      · rintro ⟨_, hnz, _⟩; exact absurd hz hnz

/-- Cell by cell description of `sealMazeEdges`: non-void cells are kept, a void cell
becomes the variant made from the flags computed on the input layer. -/
theorem sealMazeEdges_get {g : Grid} {W L : Nat} (h : g.WF W L) :
    (sealMazeEdges g W L).WF W L ∧ ∀ x y, (sealMazeEdges g W L).get x y =
      if (x < W ∧ y < L) ∧ g.get x y = 0 then getTileFromFlags (inwardFlags g W L x y)
      else g.get x y := by
  have main : (sealMazeEdges g W L).WF W L ∧ ∀ x y, (sealMazeEdges g W L).get x y =
      if (x, y) ∈ rowMajor W L ∧ g.get x y = 0 then getTileFromFlags (inwardFlags g W L x y)
      else g.get x y := by
    unfold sealMazeEdges forCells
    apply foldl_prefix_induction (fun (pre : List (Nat × Nat)) (cur : Grid) =>
      cur.WF W L ∧ ∀ x y, cur.get x y =
        if (x, y) ∈ pre ∧ g.get x y = 0 then getTileFromFlags (inwardFlags g W L x y)
        else g.get x y)
    · exact ⟨h, fun x y => by simp⟩
    · rintro pre ⟨x0, y0⟩ suf cur hl ⟨hwf, hcur⟩
      have hmem : (x0, y0) ∈ rowMajor W L := by rw [hl]; simp
      obtain ⟨hx0, hy0⟩ := mem_rowMajor.1 hmem
      simp only [] at hx0 hy0
      have hnd := nodup_rowMajor W L
      rw [hl] at hnd
      have hnot : (x0, y0) ∉ pre := by
        intro hin
        have := (List.nodup_append.1 hnd).2.2
        exact this hin (List.mem_cons_self _ _) 
      have hc0 : cur.get x0 y0 = g.get x0 y0 := by
        rw [hcur]; simp [hnot]
      simp only []
      unfold sealCell Empty_Tile
      by_cases hv : g.get x0 y0 = 0
      · rw [hc0, if_neg (by simpa using hv), inwardFlags_stable pre hcur hv]
        by_cases hf : inwardFlags g W L x0 y0 = 0
        · rw [if_neg (by simpa using hf)]
          refine ⟨hwf, fun x y => ?_⟩
          rw [hcur]
          by_cases hxy : (x, y) = (x0, y0)
          · cases hxy
            simp [hnot, hv, hf, fromFlags_zero]
          · simp [hxy]
        · rw [if_pos hf]
          refine ⟨Grid.WF_set hwf _ _ _, fun x y => ?_⟩
          rw [Grid.get_set_of_WF hwf hx0 hy0]
          by_cases hxy : x = x0 ∧ y = y0
          · obtain ⟨rfl, rfl⟩ := hxy
            simp [hv]
          · have : ¬ (x, y) = (x0, y0) := fun e => hxy (by cases e; exact ⟨rfl, rfl⟩)
            rw [if_neg hxy, hcur]; simp [this]
      · rw [hc0, if_pos hv]
        refine ⟨hwf, fun x y => ?_⟩
        rw [hcur]
        by_cases hxy : (x, y) = (x0, y0)
        · cases hxy
          simp [hnot, hv]
        · simp [hxy]
  refine ⟨main.1, fun x y => ?_⟩
  rw [main.2]; simp only [mem_rowMajor]

/-- Mask tests against a void or single-variant cell agree with its ports. -/
theorem solved_masks {v : Nat} (hv : v = 0 ∨ IsVariant v) :
    (v &&& North_Open_Mask ≠ 0 ↔ hasPort v DIR_S) ∧
    (v &&& South_Open_Mask ≠ 0 ↔ hasPort v DIR_N) ∧
    (v &&& West_Open_Mask ≠ 0 ↔ hasPort v DIR_E) ∧
    (v &&& East_Open_Mask ≠ 0 ↔ hasPort v DIR_W) := by
  rcases hv with rfl | ⟨k, hk, rfl⟩
  · decide
  · exact ⟨variant_north_open k hk, variant_south_open k hk, variant_west_open k hk,
      variant_east_open k hk⟩

theorem fromFlags_hasPort {f : Nat} (hf : f < 16) (d : Nat) :
    hasPort (getTileFromFlags f) d ↔ f &&& d ≠ 0 := by
  unfold hasPort; rw [flags_fromFlags f hf]

/-- A sealed layer of void and single-variant cells is again one. -/
theorem sealMazeEdges_solved {g : Grid} {W L : Nat} (h : g.WF W L) (hs : Solved g W L) :
    Solved (sealMazeEdges g W L) W L := by
  intro x hx y hy
  rw [(sealMazeEdges_get h).2]
  split
  · by_cases hf : inwardFlags g W L x y = 0
    · left; rw [hf]; exact fromFlags_zero
    · right; exact fromFlags_variant _ (inwardFlags_spec g W L x y).1 hf
  · exact hs x hx y hy

/-- The ports of the cells of a sealed layer in terms of the input layer. -/
theorem sealMazeEdges_voids_unfaced {g : Grid} {W L : Nat} (h : g.WF W L) (hs : Solved g W L) :
    VoidsUnfaced (sealMazeEdges g W L) W L := by
  obtain ⟨_, hget⟩ := sealMazeEdges_get h
  intro x hx y hy hv
  -- the cell was void and nothing pointed at it in the input
  have hg0 : g.get x y = 0 := by
    by_contra hne
    rw [hget, if_neg (fun hh => hne hh.2)] at hv
    exact hne hv
  have hf0 : inwardFlags g W L x y = 0 := by
    by_contra hne
    rw [hget, if_pos ⟨⟨hx, hy⟩, hg0⟩] at hv
    exact fromFlags_ne_zero _ (inwardFlags_spec g W L x y).1 hne hv
  obtain ⟨nN, nS, nW, nE⟩ := (inwardFlags_spec g W L x y).2.2.2.2.2.1 hf0
  -- ports of a neighbour in the output
  have port : ∀ nx ny, nx < W → ny < L → ∀ d, hasPort ((sealMazeEdges g W L).get nx ny) d →
      (g.get nx ny ≠ 0 ∧ hasPort (g.get nx ny) d) ∨
      (g.get nx ny = 0 ∧ inwardFlags g W L nx ny &&& d ≠ 0) := by
    intro nx ny hnx hny d hp
    rw [hget] at hp
    by_cases hz : g.get nx ny = 0
    · rw [if_pos ⟨⟨hnx, hny⟩, hz⟩, fromFlags_hasPort (inwardFlags_spec g W L nx ny).1] at hp
      exact Or.inr ⟨hz, hp⟩
    · rw [if_neg (fun hh => hz hh.2)] at hp
      exact Or.inl ⟨hz, hp⟩
  refine ⟨?_, ?_, ?_, ?_⟩
  · intro hy1 hp
    rcases port x (y - 1) hx (by omega) _ hp with ⟨hnz, hp'⟩ | ⟨hz, hb⟩
    · exact nN ⟨by omega, hnz, (solved_masks (hs x hx (y - 1) (by omega))).1.2 hp'⟩
    · have := ((inwardFlags_spec g W L x (y - 1)).2.2.1.1 hb).2.1
      rw [show y - 1 + 1 = y by omega] at this
      exact this hg0
  · intro hx1 hp
    rcases port (x + 1) y hx1 hy _ hp with ⟨hnz, hp'⟩ | ⟨hz, hb⟩
    · exact nE ⟨by omega, hnz, (solved_masks (hs (x + 1) hx1 y hy)).2.2.2.2 hp'⟩
    · have := ((inwardFlags_spec g W L (x + 1) y).2.2.2.1.1 hb).2.1
      rw [show x + 1 - 1 = x by omega] at this
      exact this hg0
  · intro hy1 hp
    rcases port x (y + 1) hx hy1 _ hp with ⟨hnz, hp'⟩ | ⟨hz, hb⟩
    · exact nS ⟨by omega, hnz, (solved_masks (hs x hx (y + 1) hy1)).2.1.2 hp'⟩
    · have := ((inwardFlags_spec g W L x (y + 1)).2.1.1 hb).2.1
      rw [show y + 1 - 1 = y by omega] at this
      exact this hg0
  · intro hx1 hp
    rcases port (x - 1) y (by omega) hy _ hp with ⟨hnz, hp'⟩ | ⟨hz, hb⟩
    · exact nW ⟨by omega, hnz, (solved_masks (hs (x - 1) (by omega) y hy)).2.2.1.2 hp'⟩
    · have := ((inwardFlags_spec g W L (x - 1) y).2.2.2.2.1.1 hb).2.1
      rw [show x - 1 + 1 = x by omega] at this
      exact this hg0

theorem noPortIntoVoid_of_voidsUnfaced {g : Grid} {W L : Nat} (h : VoidsUnfaced g W L) :
    NoPortIntoVoid g W L := by
  intro x hx y hy _
  refine ⟨fun hp hy1 hz => ?_, fun hp hx1 hz => ?_, fun hp hy1 hz => ?_, fun hp hx1 hz => ?_⟩
  · have := (h x hx (y - 1) (by omega) hz).2.2.1 (by omega)
    rw [show y - 1 + 1 = y by omega] at this
    exact this hp
  · have := (h (x + 1) hx1 y hy hz).2.2.2 (by omega)
    rw [show x + 1 - 1 = x by omega] at this
    exact this hp
  · have := (h x hx (y + 1) hy1 hz).1 (by omega)
    rw [show y + 1 - 1 = y by omega] at this
    exact this hp
  · have := (h (x - 1) (by omega) y hy hz).2.1 (by omega)
    rw [show x - 1 + 1 = x by omega] at this
    exact this hp

theorem clearValue_zero : ∀ d, d ∈ dirs → clearValue 0 d = 0 := by decide

theorem clearValue_variant : ∀ k, k < 16 → ∀ d, d ∈ dirs →
    (clearValue (2 ^ k) d = 0 ∨ IsVariant (clearValue (2 ^ k) d)) ∧
    (¬ hasPort (2 ^ k) d → clearValue (2 ^ k) d = 2 ^ k) ∧
    ∀ d', d' ∈ dirs → (hasPort (clearValue (2 ^ k) d) d' ↔ hasPort (2 ^ k) d' ∧ d' ≠ d) := by
  decide

theorem clearValue_spec {v : Nat} (hv : v = 0 ∨ IsVariant v) {d : Nat} (hd : d ∈ dirs) :
    (clearValue v d = 0 ∨ IsVariant (clearValue v d)) ∧
    (¬ hasPort v d → clearValue v d = v) ∧
    ∀ d', d' ∈ dirs → (hasPort (clearValue v d) d' ↔ hasPort v d' ∧ d' ≠ d) := by
  rcases hv with rfl | ⟨k, hk, rfl⟩
  · rw [clearValue_zero d hd]
    refine ⟨Or.inl rfl, fun _ => rfl, fun d' _ => ?_⟩
    constructor
    · intro h; exact absurd h (by unfold hasPort; simp [getTileFlags, Empty_Tile])
    · intro h; exact h.1
  · exact clearValue_variant k hk d hd

/-- One loop of `fixupEdges` over a list of distinct cells. -/
theorem foldl_clearPort {g : Grid} {W L : Nat} (h : g.WF W L) (cells : List (Nat × Nat))
    (hnd : cells.Nodup) (d : Nat) :
    (cells.foldl (fun acc c => clearPort acc c.1 c.2 d) g).WF W L ∧
    ∀ x y, (cells.foldl (fun acc c => clearPort acc c.1 c.2 d) g).get x y =
      if (x, y) ∈ cells then clearValue (g.get x y) d else g.get x y := by
  apply foldl_prefix_induction (fun (pre : List (Nat × Nat)) (cur : Grid) =>
    cur.WF W L ∧ ∀ x y, cur.get x y =
      if (x, y) ∈ pre then clearValue (g.get x y) d else g.get x y)
  · exact ⟨h, fun x y => by simp⟩
  · rintro pre ⟨x0, y0⟩ suf cur hl ⟨hwf, hcur⟩
    rw [hl] at hnd
    have hnot : (x0, y0) ∉ pre := fun hin =>
      (List.nodup_append.1 hnd).2.2 hin (List.mem_cons_self _ _)
    have hc0 : cur.get x0 y0 = g.get x0 y0 := by rw [hcur]; simp [hnot]
    simp only []
    unfold clearPort
    rw [hc0]
    by_cases hp : getTileFlags (g.get x0 y0) &&& d ≠ 0
    · rw [if_pos hp]
      have hin : x0 < W ∧ y0 < L := by
        by_contra hout
        rw [Grid.get_outside h hout] at hp
        exact hp (by simp [getTileFlags, Empty_Tile])
      refine ⟨Grid.WF_set hwf _ _ _, fun x y => ?_⟩
      rw [Grid.get_set_of_WF hwf hin.1 hin.2]
      by_cases hxy : x = x0 ∧ y = y0
      · obtain ⟨rfl, rfl⟩ := hxy
        simp [clearValue, hp]
      · have : ¬ (x, y) = (x0, y0) := fun e => hxy (by cases e; exact ⟨rfl, rfl⟩)
        rw [if_neg hxy, hcur]; simp [this]
    · rw [if_neg hp]
      refine ⟨hwf, fun x y => ?_⟩
      rw [hcur]
      by_cases hxy : (x, y) = (x0, y0)
      · cases hxy
        simp [hnot, clearValue, hp]
      · simp [hxy]

theorem foldl_clearPort_row {g : Grid} {W L : Nat} (h : g.WF W L) (n y0 d : Nat) :
    ((List.range n).foldl (fun acc x => clearPort acc x y0 d) g).WF W L ∧
    ∀ x y, ((List.range n).foldl (fun acc x => clearPort acc x y0 d) g).get x y =
      if x < n ∧ y = y0 then clearValue (g.get x y) d else g.get x y := by
  have e : (List.range n).foldl (fun acc x => clearPort acc x y0 d) g =
      ((List.range n).map (fun x => (x, y0))).foldl (fun acc c => clearPort acc c.1 c.2 d) g := by
    rw [List.foldl_map]
  rw [e]
  have hnd : ((List.range n).map (fun x => (x, y0))).Nodup :=
    (List.nodup_range n).map (fun a b hab => by simpa using hab)
  obtain ⟨h1, h2⟩ := foldl_clearPort h _ hnd d
  refine ⟨h1, fun x y => ?_⟩
  rw [h2]
  congr 1
  simp only [List.mem_map, List.mem_range, Prod.mk.injEq, eq_iff_iff]
  constructor
  · rintro ⟨a, ha, rfl, rfl⟩; exact ⟨ha, rfl⟩
  · rintro ⟨ha, rfl⟩; exact ⟨x, ha, rfl, rfl⟩

theorem foldl_clearPort_col {g : Grid} {W L : Nat} (h : g.WF W L) (n x0 d : Nat) :
    ((List.range n).foldl (fun acc y => clearPort acc x0 y d) g).WF W L ∧
    ∀ x y, ((List.range n).foldl (fun acc y => clearPort acc x0 y d) g).get x y =
      if y < n ∧ x = x0 then clearValue (g.get x y) d else g.get x y := by
  have e : (List.range n).foldl (fun acc y => clearPort acc x0 y d) g =
      ((List.range n).map (fun y => (x0, y))).foldl (fun acc c => clearPort acc c.1 c.2 d) g := by
    rw [List.foldl_map]
  rw [e]
  have hnd : ((List.range n).map (fun y => (x0, y))).Nodup :=
    (List.nodup_range n).map (fun a b hab => by simpa using hab)
  obtain ⟨h1, h2⟩ := foldl_clearPort h _ hnd d
  refine ⟨h1, fun x y => ?_⟩
  rw [h2]
  congr 1
  simp only [List.mem_map, List.mem_range, Prod.mk.injEq, eq_iff_iff]
  constructor
  · rintro ⟨a, ha, rfl, rfl⟩; exact ⟨ha, rfl⟩
  · rintro ⟨ha, rfl⟩; exact ⟨y, ha, rfl, rfl⟩

/-- Cell by cell description of `fixupEdges`. -/
theorem fixupEdges_get {g : Grid} {W L : Nat} (h : g.WF W L) :
    (fixupEdges g W L).WF W L ∧ ∀ x, x < W → ∀ y, y < L →
      (fixupEdges g W L).get x y = fixupValue W L x y (g.get x y) := by
  unfold fixupEdges
  simp only []
  obtain ⟨w1, g1⟩ := foldl_clearPort_row h W 0 DIR_N
  obtain ⟨w2, g2⟩ := foldl_clearPort_row w1 W (L - 1) DIR_S
  obtain ⟨w3, g3⟩ := foldl_clearPort_col w2 L 0 DIR_W
  obtain ⟨w4, g4⟩ := foldl_clearPort_col w3 L (W - 1) DIR_E
  refine ⟨w4, fun x hx y hy => ?_⟩
  rw [g4, g3, g2, g1]
  unfold fixupValue
  simp only [hx, hy, true_and]

theorem condClear_spec (c : Prop) [Decidable c] {v : Nat} (hv : v = 0 ∨ IsVariant v) {d : Nat}
    (hd : d ∈ dirs) :
    ((if c then clearValue v d else v) = 0 ∨ IsVariant (if c then clearValue v d else v)) ∧
    ((c → ¬ hasPort v d) → (if c then clearValue v d else v) = v) ∧
    ∀ d', d' ∈ dirs →
      (hasPort (if c then clearValue v d else v) d' ↔ hasPort v d' ∧ ¬ (d' = d ∧ c)) := by
  obtain ⟨s1, s2, s3⟩ := clearValue_spec hv hd
  by_cases hc : c
  · simp only [hc, if_true, and_true]
    exact ⟨s1, fun h => s2 (h trivial), s3⟩
  · simp only [hc, if_false, and_false, not_false_eq_true, and_true]
    exact ⟨hv, fun _ => trivial, fun _ _ => trivial⟩

/-- What `fixupEdges` does to a void or single-variant cell. -/
theorem fixupValue_spec {v : Nat} (hv : v = 0 ∨ IsVariant v) (W L x y : Nat) :
    (fixupValue W L x y v = 0 ∨ IsVariant (fixupValue W L x y v)) ∧
    ((∀ d, d ∈ dirs → Outward W L x y d → ¬ hasPort v d) → fixupValue W L x y v = v) ∧
    ∀ d, d ∈ dirs → (hasPort (fixupValue W L x y v) d ↔ hasPort v d ∧ ¬ Outward W L x y d) := by
  unfold fixupValue
  simp only []
  obtain ⟨a1, a2, a3⟩ := condClear_spec (y = 0) hv mem_dirs_N
  obtain ⟨b1, b2, b3⟩ := condClear_spec (y = L - 1) a1 mem_dirs_S
  obtain ⟨c1, c2, c3⟩ := condClear_spec (x = 0) b1 mem_dirs_W
  obtain ⟨e1, e2, e3⟩ := condClear_spec (x = W - 1) c1 mem_dirs_E
  refine ⟨e1, fun hout => ?_, fun d hd => ?_⟩
  · have p1 := a2 (fun hy => hout DIR_N mem_dirs_N (Or.inl ⟨rfl, hy⟩))
    have p2 := b2 (fun hy => by
      rw [p1]; exact hout DIR_S mem_dirs_S (Or.inr (Or.inl ⟨rfl, hy⟩)))
    have p3 := c2 (fun hx => by
      rw [p2, p1]; exact hout DIR_W mem_dirs_W (Or.inr (Or.inr (Or.inl ⟨rfl, hx⟩))))
    have p4 := e2 (fun hx => by
      rw [p3, p2, p1]; exact hout DIR_E mem_dirs_E (Or.inr (Or.inr (Or.inr ⟨rfl, hx⟩))))
    rw [p4, p3, p2, p1]
  · rw [e3 d hd, c3 d hd, b3 d hd, a3 d hd]
    unfold Outward
    constructor
    · rintro ⟨⟨⟨⟨hp, n1⟩, n2⟩, n3⟩, n4⟩
      refine ⟨hp, ?_⟩
      rintro (h | h | h | h)
      exacts [n1 h, n2 h, n3 h, n4 h]
    · rintro ⟨hp, hn⟩
      exact ⟨⟨⟨⟨hp, fun h => hn (Or.inl h)⟩, fun h => hn (Or.inr (Or.inl h))⟩,
        fun h => hn (Or.inr (Or.inr (Or.inl h)))⟩, fun h => hn (Or.inr (Or.inr (Or.inr h)))⟩

theorem packCell_ge {r n : Nat} (hr1 : 1 ≤ r) (hr : r < 4096) (hn : n < 16) :
    15 < packCell r n := by
  rw [packCell_eq hr hn]; omega

theorem stamped_refl {r W L : Nat} {g : Grid} (h : g.WF W L) : Stamped r W L g g :=
  ⟨h, fun _ _ => Or.inl rfl⟩

theorem stamped_trans {r W L : Nat} (hr1 : 1 ≤ r) (hr : r < 4096) {g g' g'' : Grid}
    (h1 : Stamped r W L g g') (h2 : Stamped r W L g' g'') : Stamped r W L g g'' := by
  refine ⟨h2.1, fun x y => ?_⟩
  rcases h2.2 x y with e2 | ⟨l2, e2⟩
  · rw [e2]; exact h1.2 x y
  · rcases h1.2 x y with e1 | ⟨l1, e1⟩
    · rw [e1] at l2 e2; exact Or.inr ⟨l2, e2⟩
    · exfalso
      have := packCell_ge hr1 hr (show g.get x y < 16 by omega)
      rw [← e1] at this; omega

theorem stamped_set {r W L : Nat} {g : Grid} (h : g.WF W L) {x y : Nat}
    (hl : g.get x y ≤ 15) : Stamped r W L g (g.set x y (packCell r (g.get x y % 256))) := by
  refine ⟨Grid.WF_set h _ _ _, fun x' y' => ?_⟩
  by_cases hin : x < W ∧ y < L
  · rw [Grid.get_set_of_WF h hin.1 hin.2]
    by_cases hc : x' = x ∧ y' = y
    · obtain ⟨rfl, rfl⟩ := hc
      right
      refine ⟨hl, ?_⟩
      rw [if_pos ⟨rfl, rfl⟩, Nat.mod_eq_of_lt (by omega)]
    · left; rw [if_neg hc]
  · left; exact Grid.get_set_outside h hin _ _ _

theorem floodVisit_stamped {r W L : Nat} (st : Grid × List (Nat × Nat)) (cond : Prop)
    [Decidable cond] (nx ny : Nat) (h : st.1.WF W L) :
    Stamped r W L st.1 (floodVisit r st cond nx ny).1 := by
  unfold floodVisit
  split
  · rename_i hc
    exact stamped_set h hc.2.1
  · exact stamped_refl h

theorem floodStep_stamped {r W L : Nat} (hr1 : 1 ≤ r) (hr : r < 4096) (g : Grid)
    (queue : List (Nat × Nat)) (cx cy : Nat) (h : g.WF W L) :
    Stamped r W L g (floodStep W L r g queue cx cy).1 := by
  unfold floodStep
  simp only []
  have s1 := floodVisit_stamped (r := r) (W := W) (L := L) (g, queue)
    (indexToMask (g.get cx cy &&& 0xF) &&& South_Open_Mask ≠ 0 ∧ 1 ≤ cy) cx (cy - 1) h
  have s2 := floodVisit_stamped (r := r) (W := W) (L := L) _
    (indexToMask (g.get cx cy &&& 0xF) &&& North_Open_Mask ≠ 0 ∧ cy + 1 < L) cx (cy + 1) s1.1
  have s3 := floodVisit_stamped (r := r) (W := W) (L := L) _
    (indexToMask (g.get cx cy &&& 0xF) &&& West_Open_Mask ≠ 0 ∧ cx + 1 < W) (cx + 1) cy s2.1
  have s4 := floodVisit_stamped (r := r) (W := W) (L := L) _
    (indexToMask (g.get cx cy &&& 0xF) &&& East_Open_Mask ≠ 0 ∧ 1 ≤ cx) (cx - 1) cy s3.1
  exact stamped_trans hr1 hr (stamped_trans hr1 hr (stamped_trans hr1 hr s1 s2) s3) s4

theorem floodLoop_stamped {r W L : Nat} (hr1 : 1 ≤ r) (hr : r < 4096) :
    ∀ (fuel : Nat) (g : Grid) (queue : List (Nat × Nat)) (head : Nat), g.WF W L →
      Stamped r W L g (floodLoop W L r fuel g queue head).1 := by
  intro fuel
  induction fuel with
  | zero => intro g queue head h; exact stamped_refl h
  | succ n ih =>
    intro g queue head h
    unfold floodLoop
    split
    · have s := floodStep_stamped hr1 hr g queue (queue.getD head (0, 0)).1
        (queue.getD head (0, 0)).2 h
      exact stamped_trans hr1 hr s (ih _ _ _ s.1)
    · exact stamped_refl h

/-- Cell by cell effect of one flood fill started on an unassigned in-grid cell. -/
theorem regionMarkerIterative_stamped {r W L : Nat} (hr1 : 1 ≤ r) (hr : r < 4096) {g : Grid}
    (h : g.WF W L) {sx sy : Nat} (hsx : sx < W) (hsy : sy < L) (hs : g.get sx sy ≤ 15) :
    Stamped r W L g (regionMarkerIterative g W L r sx sy) ∧
    (regionMarkerIterative g W L r sx sy).get sx sy = packCell r (g.get sx sy) := by
  unfold regionMarkerIterative regionMarkerState
  simp only []
  have s0 := stamped_set (r := r) h hs
  have s1 := floodLoop_stamped hr1 hr (W * L) _ [(sx, sy)] 0 s0.1
  refine ⟨stamped_trans hr1 hr s0 s1, ?_⟩
  have e0 : (g.set sx sy (packCell r (g.get sx sy % 256))).get sx sy = packCell r (g.get sx sy) := by
    rw [Grid.get_set_of_WF h hsx hsy, if_pos ⟨rfl, rfl⟩, Nat.mod_eq_of_lt (by omega)]
  rcases s1.2 sx sy with e | ⟨l, _⟩
  · rw [e, e0]
  · exfalso
    rw [e0] at l
    have := packCell_ge hr1 hr (show g.get sx sy < 16 by omega)
    omega

/-- A row-major loop whose body rewrites the visited cell from its own value. -/
theorem forCells_pointwise {W L : Nat} (f : Nat → Nat) (body : Grid → Nat → Nat → Grid)
    (hbody : ∀ g x y, g.WF W L → x < W → y < L → (body g x y).WF W L ∧
      ∀ x' y', (body g x y).get x' y' = if x' = x ∧ y' = y then f (g.get x y) else g.get x' y')
    {g : Grid} (h : g.WF W L) :
    (forCells W L body g).WF W L ∧ ∀ x y, (forCells W L body g).get x y =
      if x < W ∧ y < L then f (g.get x y) else g.get x y := by
  have main : (forCells W L body g).WF W L ∧ ∀ x y, (forCells W L body g).get x y =
      if (x, y) ∈ rowMajor W L then f (g.get x y) else g.get x y := by
    unfold forCells
    apply foldl_prefix_induction (fun (pre : List (Nat × Nat)) (cur : Grid) =>
      cur.WF W L ∧ ∀ x y, cur.get x y = if (x, y) ∈ pre then f (g.get x y) else g.get x y)
    · exact ⟨h, fun x y => by simp⟩
    · rintro pre ⟨x0, y0⟩ suf cur hl ⟨hwf, hcur⟩
      have hmem : (x0, y0) ∈ rowMajor W L := by rw [hl]; simp
      obtain ⟨hx0, hy0⟩ := mem_rowMajor.1 hmem
      simp only [] at hx0 hy0
      have hnd := nodup_rowMajor W L
      rw [hl] at hnd
      have hnot : (x0, y0) ∉ pre := fun hin =>
        (List.nodup_append.1 hnd).2.2 hin (List.mem_cons_self _ _)
      have hc0 : cur.get x0 y0 = g.get x0 y0 := by rw [hcur]; simp [hnot]
      obtain ⟨b1, b2⟩ := hbody cur x0 y0 hwf hx0 hy0
      refine ⟨b1, fun x y => ?_⟩
      simp only []
      rw [b2]
      by_cases hxy : x = x0 ∧ y = y0
      · obtain ⟨rfl, rfl⟩ := hxy
        simp [hc0]
      · have : ¬ (x, y) = (x0, y0) := fun e => hxy (by cases e; exact ⟨rfl, rfl⟩)
        rw [if_neg hxy, hcur]; simp [this]
  refine ⟨main.1, fun x y => ?_⟩
  rw [main.2]; simp only [mem_rowMajor]

theorem compress_get {g : Grid} {W L : Nat} (h : g.WF W L) :
    (forCells W L compressCell g).WF W L ∧ ∀ x y, (forCells W L compressCell g).get x y =
      if x < W ∧ y < L then (if g.get x y = 0 then 0xFFFF else ctz (g.get x y))
      else g.get x y := by
  apply forCells_pointwise (fun v => if v = 0 then 0xFFFF else ctz v) compressCell _ h
  intro g x y hwf hx hy
  unfold compressCell Empty_Tile
  split
  · rename_i hz
    refine ⟨Grid.WF_set hwf _ _ _, fun x' y' => ?_⟩
    rw [Grid.get_set_of_WF hwf hx hy]; simp only [hz, if_true]
  · rename_i hz
    refine ⟨Grid.WF_set hwf _ _ _, fun x' y' => ?_⟩
    rw [Grid.get_set_of_WF hwf hx hy]; simp only [hz, if_false]

theorem unpack_get {g : Grid} {W L : Nat} (h : g.WF W L) :
    (unpackRegions g W L).WF W L ∧ ∀ x y, (unpackRegions g W L).get x y =
      if x < W ∧ y < L then
        (if g.get x y = 0xFFFF then 0 else indexToMask ((g.get x y &&& 0xF) % 256))
      else g.get x y := by
  unfold unpackRegions
  apply forCells_pointwise
    (fun v => if v = 0xFFFF then 0 else indexToMask ((v &&& 0xF) % 256)) unpackCell _ h
  intro g x y hwf hx hy
  unfold unpackCell Empty_Tile
  split
  · rename_i hz
    refine ⟨Grid.WF_set hwf _ _ _, fun x' y' => ?_⟩
    rw [Grid.get_set_of_WF hwf hx hy]; simp only [hz, if_true]
  · rename_i hz
    refine ⟨Grid.WF_set hwf _ _ _, fun x' y' => ?_⟩
    rw [Grid.get_set_of_WF hwf hx hy]; simp only [hz, if_false]

theorem sweep_get {g : Grid} {W L : Nat} (h : g.WF W L) :
    (forCells W L sweepCell g).WF W L ∧ ∀ x y, (forCells W L sweepCell g).get x y =
      if x < W ∧ y < L then (if popcount (g.get x y) > 1 then 0 else g.get x y)
      else g.get x y := by
  apply forCells_pointwise (fun v => if popcount v > 1 then 0 else v) sweepCell _ h
  intro g x y hwf hx hy
  unfold sweepCell Empty_Tile
  split
  · rename_i hz
    refine ⟨Grid.WF_set hwf _ _ _, fun x' y' => ?_⟩
    rw [Grid.get_set_of_WF hwf hx hy]; simp only [hz, if_true]
  · rename_i hz
    refine ⟨hwf, fun x' y' => ?_⟩
    by_cases hc : x' = x ∧ y' = y
    · obtain ⟨rfl, rfl⟩ := hc; simp only [hz, if_false, and_self, if_true]
    · rw [if_neg hc]

theorem two_pow_ne_zero (k : Nat) : (2 : Nat) ^ k ≠ 0 := by positivity

theorem scanInv_init {g0 : Grid} {W L : Nat} (h : g0.WF W L) (hs : Solved g0 W L) :
    ScanInv g0 W L [] { grid := forCells W L compressCell g0, regionID := 1, seeds := [] } := by
  obtain ⟨hwf, hget⟩ := compress_get h
  refine ⟨hwf, le_refl _, by simp, ?_, by simp, by simp⟩
  intro x hx y hy
  simp only []
  rw [hget, if_pos ⟨hx, hy⟩]
  rcases hs x hx y hy with hz | ⟨k, hk, hv⟩
  · left; exact ⟨hz, by rw [if_pos hz]⟩
  · right
    refine ⟨k, hk, hv, Or.inl ?_⟩
    rw [if_neg (by rw [hv]; exact two_pow_ne_zero k), hv, ctz_variant k hk]

theorem scanInv_step {g0 : Grid} {W L : Nat} {pre : List (Nat × Nat)} {st : ScanState}
    (inv : ScanInv g0 W L pre st) {x0 y0 : Nat} (hx0 : x0 < W) (hy0 : y0 < L) :
    ScanInv g0 W L (pre ++ [(x0, y0)]) (identifyCell W L st x0 y0) := by
  obtain ⟨wf, rpos, req, cells, visited, sle⟩ := inv
  have hfilter : ∀ (p : Nat × Nat → Bool), (pre.filter p).length ≤
      ((pre ++ [(x0, y0)]).filter p).length := by
    intro p; rw [List.filter_append, List.length_append]; omega
  unfold identifyCell
  split
  · rename_i hc
    -- the cell is an unassigned variant
    obtain ⟨k, hk, hg0, hgk⟩ : ∃ k, k < 16 ∧ g0.get x0 y0 = 2 ^ k ∧ st.grid.get x0 y0 = k := by
      rcases cells x0 hx0 y0 hy0 with ⟨_, h2⟩ | ⟨k, hk, h1, h2 | ⟨r, hr1, hr2, h2⟩⟩
      · exact absurd h2 hc.1
      · exact ⟨k, hk, h1, h2⟩
      · exfalso
        have := packCell_ge hr1 (by omega) hk
        rw [← h2] at this; omega
    have hnv : ((pre ++ [(x0, y0)]).filter (fun c => g0.get c.1 c.2 ≠ 0)).length =
        (pre.filter (fun c => g0.get c.1 c.2 ≠ 0)).length + 1 := by
      rw [List.filter_append, List.length_append]
      have : g0.get x0 y0 ≠ 0 := by rw [hg0]; exact two_pow_ne_zero k
      simp [this]
    split
    · rename_i hlt
      have hr4096 : st.regionID < 4096 := by omega
      obtain ⟨stamped, hstart⟩ := regionMarkerIterative_stamped rpos hr4096 wf hx0 hy0 hc.2
      have hlen : st.seeds.length + 1 = st.regionID := by omega
      refine ⟨stamped.1, ?_, ?_, ?_, ?_, ?_⟩
      · simp only []; omega
      · simp only [List.length_append, List.length_singleton]; omega
      · intro x hx y hy
        simp only []
        rw [Nat.mod_eq_of_lt (by omega)]
        rcases cells x hx y hy with ⟨h1, h2⟩ | ⟨k', hk', h1, h2⟩
        · left
          refine ⟨h1, ?_⟩
          rcases stamped.2 x y with e | ⟨l, _⟩
          · rw [e, h2]
          · rw [h2] at l; omega
        · right
          refine ⟨k', hk', h1, ?_⟩
          rcases stamped.2 x y with e | ⟨l, e⟩
          · rw [e]
            rcases h2 with h2 | ⟨r, hr1, hr2, h2⟩
            · exact Or.inl h2
            · exact Or.inr ⟨r, hr1, by omega, h2⟩
          · rcases h2 with h2 | ⟨r, hr1, hr2, h2⟩
            · right; exact ⟨st.regionID, rpos, by omega, by rw [e, h2]⟩
            · exfalso
              have := packCell_ge hr1 (by omega) hk'
              rw [← h2] at this; omega
      · intro c hcm hle
        exfalso
        simp only [] at hle
        rcases List.mem_append.1 hcm with hcp | hcs
        · have hold : st.grid.get c.1 c.2 ≤ 15 := by
            rcases stamped.2 c.1 c.2 with e | ⟨l, _⟩
            · rw [← e]; exact hle
            · exact l
          have := visited c hcp hold
          omega
        · rw [List.mem_singleton.1 hcs, hstart, hgk] at hle
          have := packCell_ge rpos hr4096 hk
          omega
      · simp only [List.length_append, List.length_singleton]; omega
    · rename_i hge
      refine ⟨wf, rpos, ?_, ?_, ?_, ?_⟩
      · simp only [List.length_append, List.length_singleton]; omega
      · exact cells
      · intro c _ _
        simp only [List.length_append, List.length_singleton]; omega
      · simp only [List.length_append, List.length_singleton]; omega
  · rename_i hc
    refine ⟨wf, rpos, req, cells, ?_, le_trans sle (hfilter _)⟩
    intro c hcm hle
    rcases List.mem_append.1 hcm with hcp | hcs
    · exact visited c hcp hle
    · exfalso
      rw [List.mem_singleton.1 hcs] at hle
      apply hc
      refine ⟨?_, hle⟩
      intro h; rw [h] at hle; omega

/-- The invariant holds of the state in which the identification loop ends. -/
theorem findConnectedRegionsScan_inv {g0 : Grid} {W L : Nat} (h : g0.WF W L)
    (hs : Solved g0 W L) :
    ScanInv g0 W L (rowMajor W L) (findConnectedRegionsScan g0 W L) := by
  unfold findConnectedRegionsScan
  apply foldl_prefix_induction (fun pre st => ScanInv g0 W L pre st)
  · exact scanInv_init h hs
  · rintro pre ⟨x0, y0⟩ suf st hl inv
    have hmem : (x0, y0) ∈ rowMajor W L := by rw [hl]; simp
    obtain ⟨hx0, hy0⟩ := mem_rowMajor.1 hmem
    exact scanInv_step inv hx0 hy0

theorem two_le_countP {p : Nat → Bool} {l : List Nat} {i j : Nat} (hi : i ∈ l) (hj : j ∈ l)
    (hij : i ≠ j) (pi : p i = true) (pj : p j = true) : 2 ≤ l.countP p := by
  rw [List.countP_eq_length_filter]
  have hsub : [i, j] ⊆ l.filter p := by
    intro a ha
    simp only [List.mem_cons, List.mem_singleton, List.not_mem_nil, or_false] at ha
    rcases ha with rfl | rfl
    · exact List.mem_filter.2 ⟨hi, pi⟩
    · exact List.mem_filter.2 ⟨hj, pj⟩
  have hnd : [i, j].Nodup := by simp [hij]
  exact (List.subperm_of_subset hnd hsub).length_le

/-- A 16-bit value with at most one set bit is void or a single variant. -/
theorem popcount_le_one {v : Nat} (h16 : v < 65536) (hp : popcount v ≤ 1) :
    v = 0 ∨ IsVariant v := by
  by_cases hall : ∀ i, i < 16 → v.testBit i = false
  · left
    apply Nat.eq_of_testBit_eq
    intro i
    rw [Nat.zero_testBit]
    by_cases hi : i < 16
    · exact hall i hi
    · apply Nat.testBit_lt_two_pow
      calc v < 2 ^ 16 := h16
        _ ≤ 2 ^ i := Nat.pow_le_pow_right (by decide) (by omega)
  · right
    push_neg at hall
    obtain ⟨i, hi, hb⟩ := hall
    have hb' : v.testBit i = true := by simpa using hb
    refine ⟨i, hi, ?_⟩
    apply Nat.eq_of_testBit_eq
    intro j
    rw [Nat.testBit_two_pow]
    by_cases hij : i = j
    · subst hij; simp [hb']
    · simp only [hij, decide_False]
      by_cases hj : j < 16
      · by_contra hne
        have hbj : v.testBit j = true := by simpa using hne
        have := two_le_countP (p := fun i => v.testBit i) (List.mem_range.2 hi)
          (List.mem_range.2 hj) hij hb' hbj
        unfold popcount at hp
        omega
      · apply Nat.testBit_lt_two_pow
        calc v < 2 ^ 16 := h16
          _ ≤ 2 ^ j := Nat.pow_le_pow_right (by decide) (by omega)

theorem popcount_zero : popcount 0 = 0 := by decide

/-- The sweep leaves a layer of void and single-variant cells. -/
theorem sweep_solved {g : Grid} {W L : Nat} (h : g.WF W L) (h16 : Cells16 g W L) :
    Solved (forCells W L sweepCell g) W L := by
  intro x hx y hy
  rw [(sweep_get h).2, if_pos ⟨hx, hy⟩]
  split
  · left; rfl
  · exact popcount_le_one (h16 x hx y hy) (by omega)

theorem fixupEdges_solved {g : Grid} {W L : Nat} (h : g.WF W L) (hs : Solved g W L) :
    Solved (fixupEdges g W L) W L := by
  intro x hx y hy
  rw [(fixupEdges_get h).2 x hx y hy]
  exact (fixupValue_spec (hs x hx y hy) W L x y).1

/-- The packed layer after region identification, cell by cell, whatever the number of
regions: the void sentinel for a void cell, and for a variant a non-void 16-bit value
with the variant's index in its low four bits. -/
theorem regions_view {g : Grid} {W L : Nat} (h : g.WF W L) (hs : Solved g W L) :
    (findConnectedRegionsInPlace g W L).WF W L ∧
    (∀ x y, (findConnectedRegionsInPlace g W L).get x y < 65536) ∧
    ∀ x, x < W → ∀ y, y < L →
      (g.get x y = 0 ∧ (findConnectedRegionsInPlace g W L).get x y = 0xFFFF) ∨
      (∃ k, k < 16 ∧ g.get x y = 2 ^ k ∧ (findConnectedRegionsInPlace g W L).get x y ≠ 0xFFFF ∧
        (findConnectedRegionsInPlace g W L).get x y &&& 0xF = k) := by
  have inv := findConnectedRegionsScan_inv h hs
  have hrid : (findConnectedRegionsScan g W L).regionID ≤ 4095 := by
    rw [inv.rid_eq]; exact Nat.min_le_right _ _
  have view : ∀ x, x < W → ∀ y, y < L →
      (g.get x y = 0 ∧ (findConnectedRegionsInPlace g W L).get x y = 0xFFFF) ∨
      (∃ k, k < 16 ∧ g.get x y = 2 ^ k ∧ (findConnectedRegionsInPlace g W L).get x y ≠ 0xFFFF ∧
        (findConnectedRegionsInPlace g W L).get x y &&& 0xF = k) := by
    intro x hx y hy
    unfold findConnectedRegionsInPlace
    rcases inv.cells x hx y hy with ⟨h1, h2⟩ | ⟨k, hk, h1, h2 | ⟨r, hr1, hr2, h2⟩⟩
    · exact Or.inl ⟨h1, h2⟩
    · right
      refine ⟨k, hk, h1, by rw [h2]; omega, ?_⟩
      rw [h2, and15_eq]; omega
    · right
      have hr : r < 4096 := by omega
      refine ⟨k, hk, h1, ?_, by rw [h2]; exact packCell_and hr hk⟩
      rw [h2, packCell_eq hr hk]; omega
  refine ⟨inv.wf, fun x y => ?_, view⟩
  by_cases hin : x < W ∧ y < L
  · rcases view x hin.1 y hin.2 with ⟨_, h2⟩ | ⟨k, hk, _, h2, h3⟩
    · rw [h2]; decide
    · unfold findConnectedRegionsInPlace at h2 h3 ⊢
      rcases inv.cells x hin.1 y hin.2 with ⟨_, e⟩ | ⟨k', hk', _, e | ⟨r, _, _, e⟩⟩
      · rw [e]; decide
      · rw [e]; omega
      · rw [e]; exact packCell_lt _ _
  · have : (findConnectedRegionsInPlace g W L).get x y = 0 := Grid.get_outside inv.wf hin
    rw [this]; decide

theorem indexToMask_lt : ∀ i, i < 16 → indexToMask i ≠ 0 ∧ IsVariant (indexToMask i) := by
  decide

/-- The output of region identification, welding and unpacking on a layer of void and
single-variant cells: voids stay void, every other cell is a variant whose open ports
are the input ports together with the ports of the carved bridges. -/
theorem weld_unpack_view {g : Grid} {W L : Nat} (h : g.WF W L) (hs : Solved g W L) (rng : Nat) :
    (unpackRegions (germanWelderInPlace (findConnectedRegionsInPlace g W L) W L rng).1 W L).WF W L ∧
    (∀ b ∈ carvedBridges (findConnectedRegionsInPlace g W L) W L rng,
      ValidBridge (findConnectedRegionsInPlace g W L) W L b) ∧
    ∀ x, x < W → ∀ y, y < L →
      ((unpackRegions (germanWelderInPlace (findConnectedRegionsInPlace g W L) W L rng).1
          W L).get x y = 0 ↔ g.get x y = 0) ∧
      ((unpackRegions (germanWelderInPlace (findConnectedRegionsInPlace g W L) W L rng).1
          W L).get x y = 0 ∨
        IsVariant ((unpackRegions (germanWelderInPlace (findConnectedRegionsInPlace g W L)
          W L rng).1 W L).get x y)) ∧
      ∀ d, d ∈ dirs →
        (hasPort ((unpackRegions (germanWelderInPlace (findConnectedRegionsInPlace g W L)
            W L rng).1 W L).get x y) d ↔
          hasPort (g.get x y) d ∨
            ∃ b ∈ carvedBridges (findConnectedRegionsInPlace g W L) W L rng,
              BridgePort b x y d) := by
  obtain ⟨wf3, lt3, view⟩ := regions_view h hs
  have inv := germanWelderState_inv wf3 lt3 rng
  obtain ⟨wfo, hget⟩ := unpack_get (show (germanWelderInPlace (findConnectedRegionsInPlace g W L)
    W L rng).1.WF W L from inv.wf)
  refine ⟨wfo, inv.valid, fun x hx y hy => ?_⟩
  rw [hget, if_pos ⟨hx, hy⟩]
  have hv := inv.void_iff x y
  have hp := inv.ports x y
  change (germanWelderInPlace (findConnectedRegionsInPlace g W L) W L rng).1.get x y = 0xFFFF ↔ _
    at hv
  change ∀ d, d ∈ dirs → (portOpen ((germanWelderInPlace (findConnectedRegionsInPlace g W L)
    W L rng).1.get x y) d ↔ _ ∨ ∃ b ∈ carvedBridges (findConnectedRegionsInPlace g W L) W L rng, _)
    at hp
  generalize (germanWelderInPlace (findConnectedRegionsInPlace g W L) W L rng).1.get x y = p
    at hv hp ⊢
  have hidx : p &&& 0xF < 16 := by rw [and15_eq]; omega
  have hmod : (p &&& 0xF) % 256 = p &&& 0xF := Nat.mod_eq_of_lt (by omega)
  rcases view x hx y hy with ⟨h1, h2⟩ | ⟨k, hk, h1, h2, h3⟩
  · -- a void cell
    have hpv : p = 0xFFFF := hv.2 h2
    rw [if_pos hpv]
    refine ⟨by simp [h1], Or.inl rfl, fun d hd => ?_⟩
    constructor
    · intro hh; exact absurd hh (by unfold hasPort; simp [getTileFlags, Empty_Tile])
    · rintro (hh | ⟨b, hb, hbp⟩)
      · rw [h1] at hh; exact absurd hh (by unfold hasPort; simp [getTileFlags, Empty_Tile])
      · exfalso
        obtain ⟨_, _, hA, _, _, hdir⟩ := inv.valid b hb
        rcases hbp with ⟨hd1, (⟨rfl, rfl, _⟩ | ⟨rfl, rfl, _⟩)⟩ | ⟨hd1, (⟨rfl, rfl, _⟩ | ⟨rfl, rfl, _⟩)⟩
        · exact hA h2
        · rcases hdir with ⟨_, _, hB, _⟩ | ⟨hd2, _⟩
          · exact hB h2
          · rw [hd1] at hd2; exact absurd hd2 (by decide)
        · exact hA h2
        · rcases hdir with ⟨hd2, _⟩ | ⟨_, _, hB, _⟩
          · rw [hd1] at hd2; exact absurd hd2 (by decide)
          · exact hB h2
  · -- a variant
    have hpn : p ≠ 0xFFFF := fun e => h2 (hv.1 e)
    rw [if_neg hpn, hmod]
    have hne : g.get x y ≠ 0 := by rw [h1]; exact two_pow_ne_zero k
    refine ⟨?_, Or.inr (indexToMask_lt _ hidx).2, fun d hd => ?_⟩
    · constructor
      · intro e; exact absurd e (indexToMask_lt _ hidx).1
      · intro e; exact absurd e hne
    · have := hp d hd
      unfold portOpen packedFlags at this
      unfold hasPort
      rw [this, h3, indexToMask_eq k hk, h1]

/-- Both ports of a valid bridge lie inside the layer and point inward. -/
theorem bridgePort_inward {g : Grid} {W L : Nat} {b : Bridge} (hv : ValidBridge g W L b)
    {x y d : Nat} (hp : BridgePort b x y d) :
    x < W ∧ y < L ∧ d ∈ dirs ∧ ¬ Outward W L x y d := by
  obtain ⟨hbx, hby, _, _, _, hdir⟩ := hv
  unfold Outward
  rcases hp with ⟨hd1, (⟨rfl, rfl, rfl⟩ | ⟨rfl, rfl, rfl⟩)⟩ | ⟨hd1, (⟨rfl, rfl, rfl⟩ | ⟨rfl, rfl, rfl⟩)⟩
  · rcases hdir with ⟨_, h1, _⟩ | ⟨hd2, _⟩
    · refine ⟨hbx, hby, mem_dirs_E, ?_⟩
      simp only [DIR_E, DIR_N, DIR_S, DIR_W]; omega
    · rw [hd1] at hd2; exact absurd hd2 (by decide)
  · rcases hdir with ⟨_, h1, _⟩ | ⟨hd2, _⟩
    · refine ⟨h1, hby, mem_dirs_W, ?_⟩
      simp only [DIR_E, DIR_N, DIR_S, DIR_W]; omega
    · rw [hd1] at hd2; exact absurd hd2 (by decide)
  · rcases hdir with ⟨hd2, _⟩ | ⟨_, h1, _⟩
    · rw [hd1] at hd2; exact absurd hd2 (by decide)
    · refine ⟨hbx, hby, mem_dirs_S, ?_⟩
      simp only [DIR_E, DIR_N, DIR_S, DIR_W]; omega
  · rcases hdir with ⟨hd2, _⟩ | ⟨_, h1, _⟩
    · rw [hd1] at hd2; exact absurd hd2 (by decide)
    · refine ⟨hbx, h1, mem_dirs_N, ?_⟩
      simp only [DIR_E, DIR_N, DIR_S, DIR_W]; omega

/-- **Claim C3** (boundary closure). For a layer of void and single-variant cells with
`W, L ≥ 1`, after `fixupEdges`, `findConnectedRegionsInPlace`, `germanWelderInPlace` (any
rng state) and unpacking, no cell of row `0` has its north port open, none of row `L - 1`
its south port, none of column `0` its west port and none of column `W - 1` its east
port; and both ports of every bridge the welder carves point into the layer. -/
theorem boundary_closed_after_fixup_and_weld (g : Grid) (W L rng : Nat) (hW : 1 ≤ W)
    (hL : 1 ≤ L) (hwf : g.WF W L) (hs : Solved g W L) :
    (∀ x, x < W →
      ¬ hasPort ((unpackRegions (germanWelderInPlace (findConnectedRegionsInPlace
          (fixupEdges g W L) W L) W L rng).1 W L).get x 0) DIR_N ∧
      ¬ hasPort ((unpackRegions (germanWelderInPlace (findConnectedRegionsInPlace
          (fixupEdges g W L) W L) W L rng).1 W L).get x (L - 1)) DIR_S) ∧
    (∀ y, y < L →
      ¬ hasPort ((unpackRegions (germanWelderInPlace (findConnectedRegionsInPlace
          (fixupEdges g W L) W L) W L rng).1 W L).get 0 y) DIR_W ∧
      ¬ hasPort ((unpackRegions (germanWelderInPlace (findConnectedRegionsInPlace
          (fixupEdges g W L) W L) W L rng).1 W L).get (W - 1) y) DIR_E) ∧
    (∀ b ∈ carvedBridges (findConnectedRegionsInPlace (fixupEdges g W L) W L) W L rng,
      ∀ x y d, BridgePort b x y d → x < W ∧ y < L ∧ ¬ Outward W L x y d) := by
  obtain ⟨wf2, get2⟩ := fixupEdges_get hwf
  have hs2 := fixupEdges_solved hwf hs
  obtain ⟨_, valid, view⟩ := weld_unpack_view wf2 hs2 rng
  -- an outward port is never open in the output
  have closed : ∀ x, x < W → ∀ y, y < L → ∀ d, d ∈ dirs → Outward W L x y d →
      ¬ hasPort ((unpackRegions (germanWelderInPlace (findConnectedRegionsInPlace
          (fixupEdges g W L) W L) W L rng).1 W L).get x y) d := by
    intro x hx y hy d hd hout hp
    rcases ((view x hx y hy).2.2 d hd).1 hp with h2 | ⟨b, hb, hbp⟩
    · rw [get2 x hx y hy, (fixupValue_spec (hs x hx y hy) W L x y).2.2 d hd] at h2
      exact h2.2 hout
    · exact (bridgePort_inward (valid b hb) hbp).2.2.2 hout
  refine ⟨fun x hx => ⟨?_, ?_⟩, fun y hy => ⟨?_, ?_⟩, fun b hb x y d hbp => ?_⟩
  · exact closed x hx 0 (by omega) DIR_N mem_dirs_N (Or.inl ⟨rfl, rfl⟩)
  · exact closed x hx (L - 1) (by omega) DIR_S mem_dirs_S (Or.inr (Or.inl ⟨rfl, rfl⟩))
  · exact closed 0 (by omega) y hy DIR_W mem_dirs_W (Or.inr (Or.inr (Or.inl ⟨rfl, rfl⟩)))
  · exact closed (W - 1) (by omega) y hy DIR_E mem_dirs_E (Or.inr (Or.inr (Or.inr ⟨rfl, rfl⟩)))
  · have := bridgePort_inward (valid b hb) hbp
    exact ⟨this.1, this.2.1, this.2.2.2⟩

/-- Instance of claim C3 on a 2 by 2 layer whose four cells all have outward ports. -/
theorem boundary_closed_after_fixup_and_weld_witness :
    (1 ≤ 2 ∧ Grid.WF sampleOutward 2 2 ∧ Solved sampleOutward 2 2) ∧
    ((∀ x, x < 2 →
      ¬ hasPort ((unpackRegions (germanWelderInPlace (findConnectedRegionsInPlace
          (fixupEdges sampleOutward 2 2) 2 2) 2 2 7).1 2 2).get x 0) DIR_N ∧
      ¬ hasPort ((unpackRegions (germanWelderInPlace (findConnectedRegionsInPlace
          (fixupEdges sampleOutward 2 2) 2 2) 2 2 7).1 2 2).get x (2 - 1)) DIR_S) ∧
    (∀ y, y < 2 →
      ¬ hasPort ((unpackRegions (germanWelderInPlace (findConnectedRegionsInPlace
          (fixupEdges sampleOutward 2 2) 2 2) 2 2 7).1 2 2).get 0 y) DIR_W ∧
      ¬ hasPort ((unpackRegions (germanWelderInPlace (findConnectedRegionsInPlace
          (fixupEdges sampleOutward 2 2) 2 2) 2 2 7).1 2 2).get (2 - 1) y) DIR_E) ∧
    (∀ b ∈ carvedBridges (findConnectedRegionsInPlace (fixupEdges sampleOutward
        2 2) 2 2) 2 2 7,
      ∀ x y d, BridgePort b x y d → x < 2 ∧ y < 2 ∧ ¬ Outward 2 2 x y d)) :=
  ⟨⟨by decide, by decide, by decide⟩,
    boundary_closed_after_fixup_and_weld sampleOutward 2 2 7 (by decide)
      (by decide) (by decide) (by decide)⟩

/-- **Claim C4** (void sealing). For a layer of void and single-variant cells, after
`sealMazeEdges` no non-void cell has an open port facing an in-grid void cell; put the
other way round, no void cell that remains has an in-grid neighbour whose port on the
shared side is open. -/
theorem sealMazeEdges_leaves_no_port_into_void (g : Grid) (W L : Nat) (hwf : g.WF W L)
    (hs : Solved g W L) :
    NoPortIntoVoid (sealMazeEdges g W L) W L ∧ VoidsUnfaced (sealMazeEdges g W L) W L :=
  ⟨noPortIntoVoid_of_voidsUnfaced (sealMazeEdges_voids_unfaced hwf hs),
    sealMazeEdges_voids_unfaced hwf hs⟩

/-- Instance of claim C4 on a 3 by 2 layer with two stray ports against voids. -/
theorem sealMazeEdges_leaves_no_port_into_void_witness :
    (Grid.WF sampleStray 3 2 ∧ Solved sampleStray 3 2) ∧
    (NoPortIntoVoid (sealMazeEdges sampleStray 3 2) 3 2 ∧
      VoidsUnfaced (sealMazeEdges sampleStray 3 2) 3 2) :=
  ⟨⟨by decide, by decide⟩,
    sealMazeEdges_leaves_no_port_into_void sampleStray 3 2 (by decide)
      (by decide)⟩

/-- **Claim C5** (output cells). For every well-formed layer of arbitrary 16-bit cell
values, step 5 of `generateLayerThread` (superposition sweep, `sealMazeEdges`,
`fixupEdges`, `findConnectedRegionsInPlace`, `germanWelderInPlace`, unpack) produces a
layer of the same dimensions in which every cell is `0` or one of the sixteen single-bit
values `2 ^ 0 .. 2 ^ 15`. -/
theorem layerFinish_cells_void_or_single_bit (g : Grid) (W L rng : Nat) (hwf : g.WF W L)
    (h16 : Cells16 g W L) :
    (layerFinish g W L rng).WF W L ∧
    ∀ x, x < W → ∀ y, y < L →
      (layerFinish g W L rng).get x y = 0 ∨ IsVariant ((layerFinish g W L rng).get x y) := by
  have wf1 := (sweep_get hwf).1
  have s1 := sweep_solved hwf h16
  have wf2 := (sealMazeEdges_get wf1).1
  have s2 := sealMazeEdges_solved wf1 s1
  have wf3 := (fixupEdges_get wf2).1
  have s3 := fixupEdges_solved wf2 s2
  obtain ⟨wfo, _, view⟩ := weld_unpack_view wf3 s3 rng
  exact ⟨wfo, fun x hx y hy => (view x hx y hy).2.1⟩

/-- Instance of claim C5 on a 2 by 2 layer with a superposition and a contradiction-free
mix of values. -/
theorem layerFinish_cells_void_or_single_bit_witness :
    (Grid.WF sampleUnsolved 2 2 ∧ Cells16 sampleUnsolved 2 2) ∧
    ((layerFinish sampleUnsolved 2 2 5).WF 2 2 ∧
      ∀ x, x < 2 → ∀ y, y < 2 →
        (layerFinish sampleUnsolved 2 2 5).get x y = 0 ∨
          IsVariant ((layerFinish sampleUnsolved 2 2 5).get x y)) :=
  ⟨⟨by decide, by decide⟩,
    layerFinish_cells_void_or_single_bit sampleUnsolved 2 2 5 (by decide) (by decide)⟩

/-- **Claim C8** (packing). For a layer of void and single-variant cells that calls for
fewer than 4095 flood fills (which is the case whenever it has at most 4094 non-void
cells), after `findConnectedRegionsInPlace` every void cell holds `0xFFFF` and every
non-void cell holds a 16-bit value other than `0xFFFF` whose low 4 bits are the bit index
of its variant and whose upper 12 bits are a RegionID between 1 and 4094. -/
theorem findConnectedRegions_packs_every_cell (g : Grid) (W L : Nat) (hwf : g.WF W L)
    (hs : Solved g W L) :
    (countNonVoid g W L ≤ 4094 → floodFillsCalled g W L < 4095) ∧
    (floodFillsCalled g W L < 4095 → ∀ x, x < W → ∀ y, y < L →
      (g.get x y = 0 → (findConnectedRegionsInPlace g W L).get x y = 0xFFFF) ∧
      (∀ k, k < 16 → g.get x y = 2 ^ k →
        (findConnectedRegionsInPlace g W L).get x y ≠ 0xFFFF ∧
        (findConnectedRegionsInPlace g W L).get x y < 65536 ∧
        (findConnectedRegionsInPlace g W L).get x y &&& 0xF = k ∧
        1 ≤ (findConnectedRegionsInPlace g W L).get x y >>> 4 ∧
        (findConnectedRegionsInPlace g W L).get x y >>> 4 ≤ 4094)) := by
  have inv := findConnectedRegionsScan_inv hwf hs
  have hrid : (findConnectedRegionsScan g W L).regionID ≤ 4095 := by
    rw [inv.rid_eq]; exact Nat.min_le_right _ _
  refine ⟨fun hc => ?_, fun hlt x hx y hy => ?_⟩
  · have := inv.seeds_le
    unfold floodFillsCalled
    unfold countNonVoid at hc
    omega
  · unfold floodFillsCalled at hlt
    unfold findConnectedRegionsInPlace
    have hbig : 15 < (findConnectedRegionsScan g W L).grid.get x y := by
      by_contra hle
      have := inv.visited (x, y) (mem_rowMajor.2 ⟨hx, hy⟩) (by simp only []; omega)
      omega
    rcases inv.cells x hx y hy with ⟨h1, h2⟩ | ⟨k, hk, h1, h2 | ⟨r, hr1, hr2, h2⟩⟩
    · refine ⟨fun _ => h2, fun k' _ hv => ?_⟩
      rw [h1] at hv; exact absurd hv.symm (two_pow_ne_zero k')
    · rw [h2] at hbig; omega
    · have hr : r < 4096 := by omega
      refine ⟨fun hz => ?_, fun k' hk' hv => ?_⟩
      · rw [h1] at hz; exact absurd hz (two_pow_ne_zero k)
      · have hkk : k' = k := by
          rw [h1] at hv; exact (Nat.pow_right_injective (le_refl 2) hv).symm
        subst hkk
        rw [h2]
        refine ⟨?_, packCell_lt _ _, packCell_and hr hk', ?_, ?_⟩
        · rw [packCell_eq hr hk']; omega
        · rw [packCell_shr hr hk']; exact hr1
        · rw [packCell_shr hr hk']; omega

/-- Instance of claim C8 on a 3 by 2 layer with three regions. -/
theorem findConnectedRegions_packs_every_cell_witness :
    (Grid.WF sampleThreeRegions 3 2 ∧
      Solved sampleThreeRegions 3 2) ∧
    ((countNonVoid sampleThreeRegions 3 2 ≤ 4094 →
      floodFillsCalled sampleThreeRegions 3 2 < 4095) ∧
    (floodFillsCalled sampleThreeRegions 3 2 < 4095 →
      ∀ x, x < 3 → ∀ y, y < 2 →
      (sampleThreeRegions.get x y = 0 →
        (findConnectedRegionsInPlace sampleThreeRegions 3 2).get x y = 0xFFFF) ∧
      (∀ k, k < 16 → sampleThreeRegions.get x y = 2 ^ k →
        (findConnectedRegionsInPlace sampleThreeRegions 3 2).get x y ≠ 0xFFFF ∧
        (findConnectedRegionsInPlace sampleThreeRegions 3 2).get x y < 65536 ∧
        (findConnectedRegionsInPlace sampleThreeRegions 3 2).get x y &&& 0xF = k ∧
        1 ≤ (findConnectedRegionsInPlace sampleThreeRegions 3 2).get x y >>> 4 ∧
        (findConnectedRegionsInPlace sampleThreeRegions 3 2).get x y >>> 4
          ≤ 4094))) :=
  ⟨⟨by decide, by decide⟩,
    findConnectedRegions_packs_every_cell sampleThreeRegions 3 2 (by decide)
      (by decide)⟩

theorem cells16_all {g : Grid} {W L : Nat} (h : g.WF W L) (h16 : Cells16 g W L) :
    ∀ x y, g.get x y < 65536 := by
  intro x y
  by_cases hin : x < W ∧ y < L
  · exact h16 x hin.1 y hin.2
  · rw [Grid.get_outside h hin]; decide

/-- **Claim C10** (wall opening). On a packed layer of 16-bit cells, `openWallPacked(x, y,
d)` with `d` one of the four direction flags turns a non-void cell into a non-void cell
with the same RegionID whose open-port set is the old set together with `d`, and leaves
a void (`0xFFFF`) cell, hence the layer, unchanged. Consequently every bridge carved by
`germanWelderInPlace` joins a cell A to its east or south neighbour B, both non-void and
inside the layer, and in the welded layer A has its port toward B open and B has its port
toward A open. -/
theorem openWallPacked_adds_port_and_bridges_open (g : Grid) (W L rng : Nat) (hwf : g.WF W L)
    (h16 : Cells16 g W L) :
    (∀ x, x < W → ∀ y, y < L → ∀ d, d ∈ dirs →
      (g.get x y ≠ 0xFFFF →
        (openWallPacked g x y d).get x y ≠ 0xFFFF ∧
        (openWallPacked g x y d).get x y >>> 4 = g.get x y >>> 4 ∧
        packedFlags ((openWallPacked g x y d).get x y) = packedFlags (g.get x y) ||| d) ∧
      (g.get x y = 0xFFFF → openWallPacked g x y d = g)) ∧
    (∀ b ∈ carvedBridges g W L rng,
      ValidBridge g W L b ∧ BridgeOpen (germanWelderInPlace g W L rng).1 b) := by
  have hall := cells16_all hwf h16
  refine ⟨fun x hx y hy d hd => ⟨fun hne => ?_, fun hv => openWallPacked_void d hv⟩,
    fun b hb => ?_⟩
  · rw [openWallPacked_get_self hwf d hx hy hne]
    have := openWall_value (g.get x y) d (hall x y) hne hd
    exact ⟨this.2.1, this.2.2.1, this.2.2.2⟩
  · have inv := germanWelderState_inv hwf hall rng
    have hval := inv.valid b hb
    refine ⟨hval, ?_⟩
    obtain ⟨_, _, _, _, _, hdir⟩ := hval
    unfold BridgeOpen
    rcases hdir with ⟨hd, _⟩ | ⟨hd, _⟩
    · left
      refine ⟨hd, (inv.ports _ _ _ mem_dirs_E).2 (Or.inr ⟨b, hb, ?_⟩),
        (inv.ports _ _ _ mem_dirs_W).2 (Or.inr ⟨b, hb, ?_⟩)⟩
      · exact Or.inl ⟨hd, Or.inl ⟨rfl, rfl, rfl⟩⟩
      · exact Or.inl ⟨hd, Or.inr ⟨rfl, rfl, rfl⟩⟩
    · right
      refine ⟨hd, (inv.ports _ _ _ mem_dirs_S).2 (Or.inr ⟨b, hb, ?_⟩),
        (inv.ports _ _ _ mem_dirs_N).2 (Or.inr ⟨b, hb, ?_⟩)⟩
      · exact Or.inr ⟨hd, Or.inl ⟨rfl, rfl, rfl⟩⟩
      · exact Or.inr ⟨hd, Or.inr ⟨rfl, rfl, rfl⟩⟩

/-- Instance of claim C10 on a packed 2 by 2 layer with three regions and a void cell. -/
theorem openWallPacked_adds_port_and_bridges_open_witness :
    (Grid.WF samplePacked 2 2 ∧ Cells16 samplePacked 2 2) ∧
    ((∀ x, x < 2 → ∀ y, y < 2 → ∀ d, d ∈ dirs →
      (samplePacked.get x y ≠ 0xFFFF →
        (openWallPacked samplePacked x y d).get x y ≠ 0xFFFF ∧
        (openWallPacked samplePacked x y d).get x y >>> 4 =
          samplePacked.get x y >>> 4 ∧
        packedFlags ((openWallPacked samplePacked x y d).get x y) =
          packedFlags (samplePacked.get x y) ||| d) ∧
      (samplePacked.get x y = 0xFFFF →
        openWallPacked samplePacked x y d = samplePacked)) ∧
    (∀ b ∈ carvedBridges samplePacked 2 2 1,
      ValidBridge samplePacked 2 2 b ∧
        BridgeOpen (germanWelderInPlace samplePacked 2 2 1).1 b)) :=
  ⟨⟨by decide, by decide⟩,
    openWallPacked_adds_port_and_bridges_open samplePacked 2 2 1 (by decide)
      (by decide)⟩

/-- A non-zero 16-bit value has a set bit among its sixteen positions. -/
theorem exists_bit {v : Nat} (h0 : v ≠ 0) (h16 : v < 65536) : ∃ i, i < 16 ∧ v.testBit i = true := by
  by_contra hno
  push_neg at hno
  apply h0
  apply Nat.eq_of_testBit_eq
  intro i
  rw [Nat.zero_testBit]
  by_cases hi : i < 16
  · simpa using hno i hi
  · apply Nat.testBit_lt_two_pow
    calc v < 2 ^ 16 := h16
      _ ≤ 2 ^ i := Nat.pow_le_pow_right (by decide) (by omega)

theorem one_shl_mod {i : Nat} (hi : i < 16) : (1 <<< i) % 65536 = 2 ^ i := by
  rw [Nat.one_shiftLeft]
  apply Nat.mod_eq_of_lt
  calc 2 ^ i < 2 ^ 16 := Nat.pow_lt_pow_right (by decide) hi
    _ = 65536 := by norm_num

theorem uniformPick_sound (tile r : Nat) :
    ∀ (l : List Nat) (found i : Nat), uniformPick tile r l found = some i →
      i ∈ l ∧ tile.testBit i = true := by
  intro l
  induction l with
  | nil => intro found i h; simp [uniformPick] at h
  | cons a l ih =>
    intro found i h
    unfold uniformPick at h
    split at h
    · rename_i hb
      split at h
      · simp only [Option.some.injEq] at h
        subst h
        exact ⟨List.mem_cons_self _ _, hb⟩
      · obtain ⟨h1, h2⟩ := ih _ _ h
        exact ⟨List.mem_cons_of_mem _ h1, h2⟩
    · obtain ⟨h1, h2⟩ := ih _ _ h
      exact ⟨List.mem_cons_of_mem _ h1, h2⟩

theorem uniformPick_complete (tile r : Nat) :
    ∀ (l : List Nat) (found : Nat), found ≤ r →
      r < found + l.countP (fun i => tile.testBit i) →
      ∃ i, uniformPick tile r l found = some i := by
  intro l
  induction l with
  | nil => intro found h1 h2; simp at h2; omega
  | cons a l ih =>
    intro found h1 h2
    unfold uniformPick
    by_cases hb : tile.testBit a = true
    · rw [if_pos hb]
      by_cases hf : found = r
      · rw [if_pos hf]; exact ⟨a, rfl⟩
      · rw [if_neg hf]
        apply ih (found + 1) (by omega)
        rw [List.countP_cons_of_pos _ _ hb] at h2
        have e : l.countP tile.testBit = l.countP (fun i => tile.testBit i) := rfl
        omega
    · rw [if_neg hb]
      apply ih found h1
      rw [List.countP_cons_of_neg _ _ hb] at h2
      have e : l.countP tile.testBit = l.countP (fun i => tile.testBit i) := rfl
      omega

theorem weightedPick_sound {F : Type} (ops : FloatOps F) (tile : Nat) (rates : Nat → F) :
    ∀ (l : List Nat) (v : F) (i : Nat), weightedPick ops tile rates l v = some i →
      i ∈ l ∧ tile.testBit i = true := by
  intro l
  induction l with
  | nil => intro v i h; simp [weightedPick] at h
  | cons a l ih =>
    intro v i h
    unfold weightedPick at h
    split at h
    · rename_i hb
      split at h
      · simp only [Option.some.injEq] at h
        subst h
        exact ⟨List.mem_cons_self _ _, hb⟩
      · obtain ⟨h1, h2⟩ := ih _ _ h
        exact ⟨List.mem_cons_of_mem _ h1, h2⟩
    · obtain ⟨h1, h2⟩ := ih _ _ h
      exact ⟨List.mem_cons_of_mem _ h1, h2⟩

theorem highestBit_spec {v : Nat} (h0 : v ≠ 0) (h16 : v < 65536) :
    ∃ i, highestBit v = some i ∧ i < 16 ∧ v.testBit i = true := by
  unfold highestBit
  obtain ⟨j, hj, hb⟩ := exists_bit h0 h16
  cases hf : (List.range 16).reverse.find? (fun i => v.testBit i) with
  | none =>
    rw [List.find?_eq_none] at hf
    exact absurd hb (by simpa using hf j (by simpa using hj))
  | some i =>
    refine ⟨i, rfl, ?_, ?_⟩
    · have := List.mem_of_find?_eq_some hf
      simpa using this
    · have := List.find?_some hf
      simpa using this

/-- **Claim C6** (weighted collapse). For every non-zero 16-bit cell value, every rates
vector, every rng state and every interpretation of the `float` operations,
`collapseTile` leaves the cell with exactly one bit set, and that bit was set in the
input value; for the cell value `0` it changes neither the cell nor the rng state. -/
theorem collapseTile_picks_one_set_bit {F : Type} (ops : FloatOps F) (rates : Nat → F)
    (rng : Nat) :
    (∀ tile, tile ≠ 0 → tile < 65536 →
      ∃ i, i < 16 ∧ (collapseTile ops tile rates rng).1 = 2 ^ i ∧ tile.testBit i = true ∧
        popcount (collapseTile ops tile rates rng).1 = 1) ∧
    collapseTile ops 0 rates rng = (0, rng) := by
  refine ⟨fun tile h0 h16 => ?_, by simp [collapseTile]⟩
  have fin : ∀ i, i < 16 → tile.testBit i = true → ∀ r,
      ∃ j, j < 16 ∧ (((1 <<< i) % 65536, r) : Nat × Nat).1 = 2 ^ j ∧ tile.testBit j = true ∧
        popcount (((1 <<< i) % 65536, r) : Nat × Nat).1 = 1 := by
    intro i hi hb r
    refine ⟨i, hi, one_shl_mod hi, hb, ?_⟩
    simp only []
    rw [one_shl_mod hi]; exact popcount_variant i hi
  unfold collapseTile
  rw [if_neg h0]
  simp only []
  split
  · -- uniform fallback
    have hpc : popcount tile ≠ 0 := by
      intro hz
      rcases popcount_le_one h16 (by omega) with h | ⟨k, hk, h⟩
      · exact h0 h
      · rw [h, popcount_variant k hk] at hz; omega
    rw [if_neg hpc]
    obtain ⟨i, hi⟩ := uniformPick_complete tile (nextRandom rng % popcount tile) (List.range 16) 0
      (Nat.zero_le _) (by
        rw [Nat.zero_add]
        exact Nat.mod_lt _ (Nat.pos_of_ne_zero hpc))
    rw [hi]
    obtain ⟨hm, hb⟩ := uniformPick_sound _ _ _ _ _ hi
    exact fin i (List.mem_range.1 hm) hb _
  · -- weighted choice
    cases hw : weightedPick ops tile rates (List.range 16)
        (ops.mul (ops.div (ops.ofNat (nextRandom rng)) ops.two32)
          (collapseWeights ops tile rates).1) with
    | some i =>
      obtain ⟨hm, hb⟩ := weightedPick_sound _ _ _ _ _ _ hw
      exact fin i (List.mem_range.1 hm) hb _
    | none =>
      obtain ⟨i, hh, hi, hb⟩ := highestBit_spec h0 h16
      simp only [hh]
      exact fin i hi hb (nextRandom rng)

/-- Instance of claim C6 at the value `AllPossible` with the mask-mode rates. -/
theorem collapseTile_picks_one_set_bit_witness :
    (65535 ≠ 0 ∧ 65535 < 65536) ∧
    ∃ i, i < 16 ∧ (collapseTile exactOps 65535 maskModeRates 7).1 = 2 ^ i ∧
      (65535 : Nat).testBit i = true ∧
      popcount (collapseTile exactOps 65535 maskModeRates 7).1 = 1 :=
  ⟨⟨by decide, by decide⟩,
    (collapseTile_picks_one_set_bit exactOps maskModeRates 7).1 65535 (by decide) (by decide)⟩

theorem neighbourMasks_variant : ∀ k, k < 16 →
    neighbourMasks (2 ^ k) = (propagationMask (2 ^ k) DIR_N, propagationMask (2 ^ k) DIR_E,
      propagationMask (2 ^ k) DIR_S, propagationMask (2 ^ k) DIR_W) := by decide

theorem neighbourMasks_other {c : Nat} (h0 : c ≠ 0) (hv : ¬ IsVariant c) :
    neighbourMasks c = (65535, 65535, 65535, 65535) := by
  unfold neighbourMasks Empty_Tile
  rw [if_neg h0]
  rw [if_neg (by
    rintro (e | e) <;> exact hv (by rw [e]; decide))]
  iterate 14 rw [if_neg (fun e => hv (by rw [e]; decide))]

/-- The `switch` of `updateNeighbours` selects the masks the specification names. -/
theorem neighbourMasks_eq (c : Nat) :
    neighbourMasks c = (propagationMask c DIR_N, propagationMask c DIR_E,
      propagationMask c DIR_S, propagationMask c DIR_W) := by
  by_cases h0 : c = 0
  · subst h0; decide
  · by_cases hv : IsVariant c
    · obtain ⟨k, hk, rfl⟩ := hv
      exact neighbourMasks_variant k hk
    · rw [neighbourMasks_other h0 hv]
      unfold propagationMask
      simp only [h0, hv, if_false]

theorem popcount_superposition {c : Nat} (h : popcount c > 1) : c ≠ 0 ∧ ¬ IsVariant c := by
  constructor
  · rintro rfl; rw [popcount_zero] at h; omega
  · rintro ⟨k, hk, rfl⟩; rw [popcount_variant k hk] at h; omega

theorem revive_ne_zero (v : Nat) : revive v ≠ 0 := by
  unfold revive All_Possible_State
  split
  · decide
  · assumption

/-- Grid effect of one neighbour block of `updateNeighbours`. -/
theorem updateNeighbour_grid {H : Type} (ins : H → Grid → Nat → Nat → Nat → H × Nat)
    {W L : Nat} (st : Grid × Option H × Nat) (cond : Prop) [Decidable cond] (nx ny mask : Nat)
    (hwf : st.1.WF W L) (hin : cond → nx < W ∧ ny < L) :
    (updateNeighbour ins st cond nx ny mask).1.WF W L ∧
    ∀ x' y', (updateNeighbour ins st cond nx ny mask).1.get x' y' =
      if (x' = nx ∧ y' = ny) ∧ cond ∧ popcount (st.1.get nx ny) > 1 then
        revive (st.1.get nx ny &&& mask)
      else st.1.get x' y' := by
  unfold updateNeighbour
  by_cases hc : cond ∧ popcount (st.1.get nx ny) > 1
  · rw [if_pos hc]
    obtain ⟨hnx, hny⟩ := hin hc.1
    have wf1 := Grid.WF_set hwf nx ny (st.1.get nx ny &&& mask)
    have e1 : (st.1.set nx ny (st.1.get nx ny &&& mask)).get nx ny = st.1.get nx ny &&& mask := by
      rw [Grid.get_set_of_WF hwf hnx hny]; simp
    -- the grid after the revival check
    have key : (if (st.1.set nx ny (st.1.get nx ny &&& mask)).get nx ny = 0 then
          (st.1.set nx ny (st.1.get nx ny &&& mask)).set nx ny All_Possible_State
        else st.1.set nx ny (st.1.get nx ny &&& mask)).WF W L ∧
        ∀ x' y', (if (st.1.set nx ny (st.1.get nx ny &&& mask)).get nx ny = 0 then
          (st.1.set nx ny (st.1.get nx ny &&& mask)).set nx ny All_Possible_State
        else st.1.set nx ny (st.1.get nx ny &&& mask)).get x' y' =
          if (x' = nx ∧ y' = ny) ∧ cond ∧ popcount (st.1.get nx ny) > 1 then
            revive (st.1.get nx ny &&& mask)
          else st.1.get x' y' := by
      rw [e1]
      unfold revive
      by_cases hz : st.1.get nx ny &&& mask = 0
      · rw [if_pos hz]
        refine ⟨Grid.WF_set wf1 _ _ _, fun x' y' => ?_⟩
        rw [Grid.get_set_of_WF wf1 hnx hny, Grid.get_set_of_WF hwf hnx hny]
        by_cases hxy : x' = nx ∧ y' = ny
        · simp [hxy, hc, hz]
        · simp [hxy]
      · rw [if_neg hz]
        refine ⟨wf1, fun x' y' => ?_⟩
        rw [Grid.get_set_of_WF hwf hnx hny]
        by_cases hxy : x' = nx ∧ y' = ny
        · simp [hxy, hc, hz]
        · simp [hxy]
    simp only []
    generalize (if (st.1.set nx ny (st.1.get nx ny &&& mask)).get nx ny = 0 then
          (st.1.set nx ny (st.1.get nx ny &&& mask)).set nx ny All_Possible_State
        else st.1.set nx ny (st.1.get nx ny &&& mask)) = g2 at key ⊢
    cases hh : st.2.1 with
    | none => exact key
    | some h =>
      simp only []
      split
      · exact key
      · exact key
  · rw [if_neg hc]
    refine ⟨hwf, fun x' y' => ?_⟩
    rw [if_neg (fun h => hc h.2)]

/-- Cell by cell description of the grid `updateNeighbours` leaves behind. -/
theorem updateNeighbours_get {H : Type} (ins : H → Grid → Nat → Nat → Nat → H × Nat)
    (g : Grid) (W L x y : Nat) (heap : Option H) (rng : Nat) (hwf : g.WF W L) (hx : x < W)
    (hy : y < L) :
    (updateNeighbours ins g W L x y heap rng).1.WF W L ∧
    ∀ x' y', (updateNeighbours ins g W L x y heap rng).1.get x' y' =
      if (x' + 1 = x ∧ y' = y) ∧ popcount (g.get x' y') > 1 then
        revive (g.get x' y' &&& propagationMask (g.get x y) DIR_W)
      else if (x' = x + 1 ∧ y' = y) ∧ x + 1 < W ∧ popcount (g.get x' y') > 1 then
        revive (g.get x' y' &&& propagationMask (g.get x y) DIR_E)
      else if (x' = x ∧ y' + 1 = y) ∧ popcount (g.get x' y') > 1 then
        revive (g.get x' y' &&& propagationMask (g.get x y) DIR_N)
      else if (x' = x ∧ y' = y + 1) ∧ y + 1 < L ∧ popcount (g.get x' y') > 1 then
        revive (g.get x' y' &&& propagationMask (g.get x y) DIR_S)
      else g.get x' y' := by
  unfold updateNeighbours
  simp only []
  rw [neighbourMasks_eq]
  simp only []
  obtain ⟨w1, e1⟩ := updateNeighbour_grid ins (g, heap, rng) (1 ≤ x) (x - 1) y
    (propagationMask (g.get x y) DIR_W) hwf (fun _ => ⟨by omega, hy⟩)
  obtain ⟨w2, e2⟩ := updateNeighbour_grid ins _ (x + 1 < W) (x + 1) y
    (propagationMask (g.get x y) DIR_E) w1 (fun h => ⟨h, hy⟩)
  obtain ⟨w3, e3⟩ := updateNeighbour_grid ins _ (1 ≤ y) x (y - 1)
    (propagationMask (g.get x y) DIR_N) w2 (fun _ => ⟨hx, by omega⟩)
  obtain ⟨w4, e4⟩ := updateNeighbour_grid ins _ (y + 1 < L) x (y + 1)
    (propagationMask (g.get x y) DIR_S) w3 (fun h => ⟨hx, h⟩)
  refine ⟨w4, fun x' y' => ?_⟩
  simp only [] at e1
  -- the values the later blocks read are still those of the input
  have r2 : ∀ b, (updateNeighbour ins (g, heap, rng) (1 ≤ x) (x - 1) y
      (propagationMask (g.get x y) DIR_W)).1.get (x + 1) b = g.get (x + 1) b := by
    intro b; rw [e1, if_neg (by omega)]
  have r3 : (updateNeighbour ins (updateNeighbour ins (g, heap, rng) (1 ≤ x) (x - 1) y
      (propagationMask (g.get x y) DIR_W)) (x + 1 < W) (x + 1) y
      (propagationMask (g.get x y) DIR_E)).1.get x (y - 1) = g.get x (y - 1) := by
    rw [e2, if_neg (by omega), e1, if_neg (by omega)]
  have r4 : (updateNeighbour ins (updateNeighbour ins (updateNeighbour ins (g, heap, rng)
      (1 ≤ x) (x - 1) y (propagationMask (g.get x y) DIR_W)) (x + 1 < W) (x + 1) y
      (propagationMask (g.get x y) DIR_E)) (1 ≤ y) x (y - 1)
      (propagationMask (g.get x y) DIR_N)).1.get x (y + 1) = g.get x (y + 1) := by
    rw [e3, if_neg (by omega), e2, if_neg (by omega), e1, if_neg (by omega)]
  rw [e4, r4, e3, r3, e2, r2, e1]
  clear e1 e2 e3 e4 r2 r3 r4 w1 w2 w3 w4
  generalize propagationMask (g.get x y) DIR_W = mW
  generalize propagationMask (g.get x y) DIR_E = mE
  generalize propagationMask (g.get x y) DIR_N = mN
  generalize propagationMask (g.get x y) DIR_S = mS
  by_cases hW : x' + 1 = x ∧ y' = y
  · have eg : g.get (x - 1) y = g.get x' y' := by rw [← hW.1, hW.2]; simp
    have c1 : ¬ (x' = x ∧ y' = y + 1) := by omega
    have c2 : ¬ (x' = x ∧ y' = y - 1) := by omega
    have c3 : ¬ (x' = x + 1 ∧ y' = y) := by omega
    have c5 : ¬ (x' = x ∧ y' + 1 = y) := by omega
    simp only [c1, c2, c3, c5, false_and, if_false, eg]
    apply if_congr _ rfl rfl
    constructor
    · intro h; exact ⟨hW, h.2.2⟩
    · intro h; exact ⟨⟨by omega, hW.2⟩, by omega, h.2⟩
  · by_cases hE : x' = x + 1 ∧ y' = y
    · have eg : g.get (x + 1) y = g.get x' y' := by rw [hE.1, hE.2]
      have c1 : ¬ (x' = x ∧ y' = y + 1) := by omega
      have c2 : ¬ (x' = x ∧ y' = y - 1) := by omega
      have c4 : ¬ (x' = x - 1 ∧ y' = y) := by omega
      have c5 : ¬ (x' = x ∧ y' + 1 = y) := by omega
      simp only [c1, c2, c4, c5, hW, false_and, if_false, eg]
    · by_cases hN : x' = x ∧ y' + 1 = y
      · have eg : g.get x (y - 1) = g.get x' y' := by rw [hN.1, ← hN.2]; simp
        have c1 : ¬ (x' = x ∧ y' = y + 1) := by omega
        have c4 : ¬ (x' = x - 1 ∧ y' = y) := by omega
        simp only [c1, c4, hW, hE, false_and, if_false, eg]
        apply if_congr _ rfl rfl
        constructor
        · intro h; exact ⟨hN, h.2.2⟩
        · intro h; exact ⟨⟨hN.1, by omega⟩, by omega, h.2⟩
      · by_cases hS : x' = x ∧ y' = y + 1
        · have eg : g.get x (y + 1) = g.get x' y' := by rw [hS.1, hS.2]
          have c2 : ¬ (x' = x ∧ y' = y - 1) := by omega
          have c4 : ¬ (x' = x - 1 ∧ y' = y) := by omega
          simp only [hW, hE, hN, c2, c4, false_and, if_false, eg]
        · have c2 : ∀ P : Prop, ¬ ((x' = x ∧ y' = y - 1) ∧ 1 ≤ y ∧ P) := fun P h => by omega
          have c4 : ∀ P : Prop, ¬ ((x' = x - 1 ∧ y' = y) ∧ 1 ≤ x ∧ P) := fun P h => by omega
          simp only [hW, hE, hN, hS, c2, c4, false_and, if_false]

/-- **Claim C7** (propagation). `updateNeighbours(x, y)` on an in-grid cell changes only
in-grid 4-neighbours of `(x, y)` that are in superposition (popcount above 1): such a
neighbour `n` on side `D` becomes `n AND m`, or `AllPossible` when that is `0`, where `m`
is the `D` open mask if the cell at `(x, y)` is a single variant with its `D` port open,
the `D` closed mask if it is a single variant with that port closed or is void, and
`0xFFFF` if `(x, y)` is itself a superposition. The cell `(x, y)`, every void or
collapsed cell and every cell that is not a neighbour are unchanged, and no void cell is
created or removed. This holds with or without a heap and for any `heapInsertOrUpdate`. -/
theorem updateNeighbours_changes_only_superposed_neighbours {H : Type}
    (ins : H → Grid → Nat → Nat → Nat → H × Nat) (g : Grid) (W L x y : Nat) (heap : Option H)
    (rng : Nat) (hwf : g.WF W L) (hx : x < W) (hy : y < L) :
    (neighbourMasks (g.get x y) = (propagationMask (g.get x y) DIR_N,
      propagationMask (g.get x y) DIR_E, propagationMask (g.get x y) DIR_S,
      propagationMask (g.get x y) DIR_W)) ∧
    (popcount (g.get x y) > 1 → ∀ d, propagationMask (g.get x y) d = 0xFFFF) ∧
    (∀ x' y', (updateNeighbours ins g W L x y heap rng).1.get x' y' =
      if (x' + 1 = x ∧ y' = y) ∧ popcount (g.get x' y') > 1 then
        revive (g.get x' y' &&& propagationMask (g.get x y) DIR_W)
      else if (x' = x + 1 ∧ y' = y) ∧ x + 1 < W ∧ popcount (g.get x' y') > 1 then
        revive (g.get x' y' &&& propagationMask (g.get x y) DIR_E)
      else if (x' = x ∧ y' + 1 = y) ∧ popcount (g.get x' y') > 1 then
        revive (g.get x' y' &&& propagationMask (g.get x y) DIR_N)
      else if (x' = x ∧ y' = y + 1) ∧ y + 1 < L ∧ popcount (g.get x' y') > 1 then
        revive (g.get x' y' &&& propagationMask (g.get x y) DIR_S)
      else g.get x' y') ∧
    (updateNeighbours ins g W L x y heap rng).1.get x y = g.get x y ∧
    (∀ x' y', popcount (g.get x' y') ≤ 1 →
      (updateNeighbours ins g W L x y heap rng).1.get x' y' = g.get x' y') ∧
    (∀ x' y', (updateNeighbours ins g W L x y heap rng).1.get x' y' = 0 ↔ g.get x' y' = 0) := by
  obtain ⟨_, hget⟩ := updateNeighbours_get ins g W L x y heap rng hwf hx hy
  refine ⟨neighbourMasks_eq _, fun hp d => ?_, hget, ?_, fun x' y' hp => ?_, fun x' y' => ?_⟩
  · obtain ⟨h0, hv⟩ := popcount_superposition hp
    unfold propagationMask
    rw [if_neg h0, if_neg hv]
  · rw [hget, if_neg (by omega), if_neg (by omega), if_neg (by omega), if_neg (by omega)]
  · rw [hget, if_neg (fun h => by omega), if_neg (fun h => by omega), if_neg (fun h => by omega),
      if_neg (fun h => by omega)]
  · rw [hget]
    by_cases hp : popcount (g.get x' y') > 1
    · have hne : g.get x' y' ≠ 0 := (popcount_superposition hp).1
      constructor
      · intro h
        exfalso
        split at h
        · exact revive_ne_zero _ h
        · split at h
          · exact revive_ne_zero _ h
          · split at h
            · exact revive_ne_zero _ h
            · split at h
              · exact revive_ne_zero _ h
              · exact hne h
      · intro h; exact absurd h hne
    · rw [if_neg (fun h => hp h.2), if_neg (fun h => hp h.2.2), if_neg (fun h => hp h.2),
        if_neg (fun h => hp h.2.2)]

/-- Instance of claim C7: propagation from the collapsed centre of `samplePropagation`
without a heap. -/
theorem updateNeighbours_changes_only_superposed_neighbours_witness :
    (samplePropagation.WF 3 3 ∧ 1 < 3) ∧
    (∀ x' y', (updateNeighbours (fun (h : Unit) _ _ _ r => (h, r)) samplePropagation 3 3 1 1
        none 0).1.get x' y' = 0 ↔ samplePropagation.get x' y' = 0) :=
  ⟨⟨by decide, by decide⟩,
    (updateNeighbours_changes_only_superposed_neighbours (fun (h : Unit) _ _ _ r => (h, r))
      samplePropagation 3 3 1 1 none 0 (by decide) (by decide) (by decide)).2.2.2.2.2⟩

theorem hasPort_zero (d : Nat) : ¬ hasPort 0 d := by
  unfold hasPort; simp [getTileFlags, Empty_Tile]

theorem ne_zero_of_hasPort {v d : Nat} (h : hasPort v d) : v ≠ 0 := by
  rintro rfl; exact hasPort_zero d h

/-- After `sealMazeEdges` on a layer with mutual ports, every open port that faces a cell
of the layer faces a non-void cell with its opposite port open. -/
theorem sealMazeEdges_matched {g : Grid} {W L : Nat} (h : g.WF W L) (hs : Solved g W L)
    (hm : MutualPorts g W L) :
    ∀ x, x < W → ∀ y, y < L →
      (hasPort ((sealMazeEdges g W L).get x y) DIR_N → 1 ≤ y →
        hasPort ((sealMazeEdges g W L).get x (y - 1)) DIR_S) ∧
      (hasPort ((sealMazeEdges g W L).get x y) DIR_E → x + 1 < W →
        hasPort ((sealMazeEdges g W L).get (x + 1) y) DIR_W) ∧
      (hasPort ((sealMazeEdges g W L).get x y) DIR_S → y + 1 < L →
        hasPort ((sealMazeEdges g W L).get x (y + 1)) DIR_N) ∧
      (hasPort ((sealMazeEdges g W L).get x y) DIR_W → 1 ≤ x →
        hasPort ((sealMazeEdges g W L).get (x - 1) y) DIR_E) := by
  obtain ⟨_, hget⟩ := sealMazeEdges_get h
  -- ports of an output cell: an input variant, or a filled cell with its inward flags
  have port : ∀ nx ny, nx < W → ny < L → ∀ d,
      (hasPort ((sealMazeEdges g W L).get nx ny) d ↔
        (g.get nx ny ≠ 0 ∧ hasPort (g.get nx ny) d) ∨
        (g.get nx ny = 0 ∧ inwardFlags g W L nx ny &&& d ≠ 0)) := by
    intro nx ny hnx hny d
    rw [hget]
    by_cases hz : g.get nx ny = 0
    · rw [if_pos ⟨⟨hnx, hny⟩, hz⟩, fromFlags_hasPort (inwardFlags_spec g W L nx ny).1]
      constructor
      · intro hp; exact Or.inr ⟨hz, hp⟩
      · rintro (⟨hnz, _⟩ | ⟨_, hp⟩)
        · exact absurd hz hnz
        · exact hp
    · rw [if_neg (fun hh => hz hh.2)]
      constructor
      · intro hp; exact Or.inl ⟨hz, hp⟩
      · rintro (⟨_, hp⟩ | ⟨hz', _⟩)
        · exact hp
        · exact absurd hz' hz
  intro x hx y hy
  obtain ⟨mN, mE, mS, mW⟩ := hm x hx y hy
  refine ⟨fun hp hy1 => ?_, fun hp hx1 => ?_, fun hp hy1 => ?_, fun hp hx1 => ?_⟩
  · rw [port x (y - 1) hx (by omega)]
    rcases (port x y hx hy _).1 hp with ⟨hnz, hp'⟩ | ⟨hz, hb⟩
    · by_cases hn : g.get x (y - 1) = 0
      · right
        refine ⟨hn, (inwardFlags_spec g W L x (y - 1)).2.2.1.2 ⟨by omega, ?_, ?_⟩⟩
        · rw [show y - 1 + 1 = y by omega]; exact hnz
        · rw [show y - 1 + 1 = y by omega]
          exact (solved_masks (hs x hx y hy)).2.1.2 hp'
      · left; exact ⟨hn, mN hp' hy1 hn⟩
    · obtain ⟨_, hnz, hmask⟩ := (inwardFlags_spec g W L x y).2.1.1 hb
      left
      exact ⟨hnz, (solved_masks (hs x hx (y - 1) (by omega))).1.1 hmask⟩
  · rw [port (x + 1) y hx1 hy]
    rcases (port x y hx hy _).1 hp with ⟨hnz, hp'⟩ | ⟨hz, hb⟩
    · by_cases hn : g.get (x + 1) y = 0
      · right
        refine ⟨hn, (inwardFlags_spec g W L (x + 1) y).2.2.2.1.2 ⟨by omega, ?_, ?_⟩⟩
        · rw [show x + 1 - 1 = x by omega]; exact hnz
        · rw [show x + 1 - 1 = x by omega]
          exact (solved_masks (hs x hx y hy)).2.2.1.2 hp'
      · left; exact ⟨hn, mE hp' hx1 hn⟩
    · obtain ⟨_, hnz, hmask⟩ := (inwardFlags_spec g W L x y).2.2.2.2.1.1 hb
      left
      exact ⟨hnz, (solved_masks (hs (x + 1) hx1 y hy)).2.2.2.1 hmask⟩
  · rw [port x (y + 1) hx hy1]
    rcases (port x y hx hy _).1 hp with ⟨hnz, hp'⟩ | ⟨hz, hb⟩
    · by_cases hn : g.get x (y + 1) = 0
      · right
        refine ⟨hn, (inwardFlags_spec g W L x (y + 1)).2.1.2 ⟨by omega, ?_, ?_⟩⟩
        · rw [show y + 1 - 1 = y by omega]; exact hnz
        · rw [show y + 1 - 1 = y by omega]
          exact (solved_masks (hs x hx y hy)).1.2 hp'
      · left; exact ⟨hn, mS hp' hy1 hn⟩
    · obtain ⟨_, hnz, hmask⟩ := (inwardFlags_spec g W L x y).2.2.1.1 hb
      left
      exact ⟨hnz, (solved_masks (hs x hx (y + 1) hy1)).2.1.1 hmask⟩
  · rw [port (x - 1) y (by omega) hy]
    rcases (port x y hx hy _).1 hp with ⟨hnz, hp'⟩ | ⟨hz, hb⟩
    · by_cases hn : g.get (x - 1) y = 0
      · right
        refine ⟨hn, (inwardFlags_spec g W L (x - 1) y).2.2.2.2.1.2 ⟨by omega, ?_, ?_⟩⟩
        · rw [show x - 1 + 1 = x by omega]; exact hnz
        · rw [show x - 1 + 1 = x by omega]
          exact (solved_masks (hs x hx y hy)).2.2.2.2 hp'
      · left; exact ⟨hn, mW hp' hx1 hn⟩
    · obtain ⟨_, hnz, hmask⟩ := (inwardFlags_spec g W L x y).2.2.2.1.1 hb
      left
      exact ⟨hnz, (solved_masks (hs (x - 1) (by omega) y hy)).2.2.1.1 hmask⟩

/-- `fixupEdges` turns a layer whose in-grid ports are matched into a port-matched
layer. -/
theorem fixupEdges_portMatched {g : Grid} {W L : Nat} (h : g.WF W L) (hs : Solved g W L)
    (hm : ∀ x, x < W → ∀ y, y < L →
      (hasPort (g.get x y) DIR_N → 1 ≤ y → hasPort (g.get x (y - 1)) DIR_S) ∧
      (hasPort (g.get x y) DIR_E → x + 1 < W → hasPort (g.get (x + 1) y) DIR_W) ∧
      (hasPort (g.get x y) DIR_S → y + 1 < L → hasPort (g.get x (y + 1)) DIR_N) ∧
      (hasPort (g.get x y) DIR_W → 1 ≤ x → hasPort (g.get (x - 1) y) DIR_E)) :
    PortMatched (fixupEdges g W L) W L := by
  obtain ⟨_, hget⟩ := fixupEdges_get h
  have port : ∀ x, x < W → ∀ y, y < L → ∀ d, d ∈ dirs →
      (hasPort ((fixupEdges g W L).get x y) d ↔ hasPort (g.get x y) d ∧ ¬ Outward W L x y d) := by
    intro x hx y hy d hd
    rw [hget x hx y hy]
    exact (fixupValue_spec (hs x hx y hy) W L x y).2.2 d hd
  intro x hx y hy _
  obtain ⟨mN, mE, mS, mW⟩ := hm x hx y hy
  refine ⟨fun hp => ?_, fun hp => ?_, fun hp => ?_, fun hp => ?_⟩
  · obtain ⟨hp1, hout⟩ := (port x hx y hy _ mem_dirs_N).1 hp
    have hy1 : 1 ≤ y := by
      by_contra hc
      exact hout (Or.inl ⟨rfl, by omega⟩)
    have hq : hasPort ((fixupEdges g W L).get x (y - 1)) DIR_S := by
      rw [port x hx (y - 1) (by omega) _ mem_dirs_S]
      refine ⟨mN hp1 hy1, ?_⟩
      unfold Outward; simp only [DIR_S, DIR_N, DIR_W, DIR_E]; omega
    exact ⟨hy1, ne_zero_of_hasPort hq, hq⟩
  · obtain ⟨hp1, hout⟩ := (port x hx y hy _ mem_dirs_E).1 hp
    have hx1 : x + 1 < W := by
      by_contra hc
      exact hout (Or.inr (Or.inr (Or.inr ⟨rfl, by omega⟩)))
    have hq : hasPort ((fixupEdges g W L).get (x + 1) y) DIR_W := by
      rw [port (x + 1) hx1 y hy _ mem_dirs_W]
      refine ⟨mE hp1 hx1, ?_⟩
      unfold Outward; simp only [DIR_S, DIR_N, DIR_W, DIR_E]; omega
    exact ⟨hx1, ne_zero_of_hasPort hq, hq⟩
  · obtain ⟨hp1, hout⟩ := (port x hx y hy _ mem_dirs_S).1 hp
    have hy1 : y + 1 < L := by
      by_contra hc
      exact hout (Or.inr (Or.inl ⟨rfl, by omega⟩))
    have hq : hasPort ((fixupEdges g W L).get x (y + 1)) DIR_N := by
      rw [port x hx (y + 1) hy1 _ mem_dirs_N]
      refine ⟨mS hp1 hy1, ?_⟩
      unfold Outward; simp only [DIR_S, DIR_N, DIR_W, DIR_E]; omega
    exact ⟨hy1, ne_zero_of_hasPort hq, hq⟩
  · obtain ⟨hp1, hout⟩ := (port x hx y hy _ mem_dirs_W).1 hp
    have hx1 : 1 ≤ x := by
      by_contra hc
      exact hout (Or.inr (Or.inr (Or.inl ⟨rfl, by omega⟩)))
    have hq : hasPort ((fixupEdges g W L).get (x - 1) y) DIR_E := by
      rw [port (x - 1) (by omega) y hy _ mem_dirs_E]
      refine ⟨mW hp1 hx1, ?_⟩
      unfold Outward; simp only [DIR_S, DIR_N, DIR_W, DIR_E]; omega
    exact ⟨hx1, ne_zero_of_hasPort hq, hq⟩

/-- The other port of a bridge: the neighbour in direction `d` of a bridge port
`(x, y, d)` carries the opposite port of the same bridge. -/
theorem bridgePort_opposite {b : Bridge} {x y d : Nat} (hp : BridgePort b x y d) :
    (d = DIR_N ∧ 1 ≤ y ∧ BridgePort b x (y - 1) DIR_S) ∨
    (d = DIR_E ∧ BridgePort b (x + 1) y DIR_W) ∨
    (d = DIR_S ∧ BridgePort b x (y + 1) DIR_N) ∨
    (d = DIR_W ∧ 1 ≤ x ∧ BridgePort b (x - 1) y DIR_E) := by
  rcases hp with ⟨hd1, (⟨rfl, rfl, rfl⟩ | ⟨rfl, rfl, rfl⟩)⟩ | ⟨hd1, (⟨rfl, rfl, rfl⟩ | ⟨rfl, rfl, rfl⟩)⟩
  · exact Or.inr (Or.inl ⟨rfl, Or.inl ⟨hd1, Or.inr ⟨rfl, rfl, rfl⟩⟩⟩)
  · exact Or.inr (Or.inr (Or.inr ⟨rfl, by omega, Or.inl ⟨hd1, Or.inl ⟨by simp, rfl, rfl⟩⟩⟩))
  · exact Or.inr (Or.inr (Or.inl ⟨rfl, Or.inr ⟨hd1, Or.inr ⟨rfl, rfl, rfl⟩⟩⟩))
  · exact Or.inl ⟨rfl, by omega, Or.inr ⟨hd1, Or.inl ⟨rfl, by simp, rfl⟩⟩⟩

/-- Region identification, welding and unpacking keep a port-matched layer port-matched. -/
theorem weld_unpack_portMatched {g : Grid} {W L : Nat} (h : g.WF W L) (hs : Solved g W L)
    (hm : PortMatched g W L) (rng : Nat) :
    PortMatched (unpackRegions (germanWelderInPlace (findConnectedRegionsInPlace g W L)
      W L rng).1 W L) W L := by
  obtain ⟨_, valid, view⟩ := weld_unpack_view h hs rng
  intro x hx y hy hne
  have hg : g.get x y ≠ 0 := fun e => hne ((view x hx y hy).1.2 e)
  obtain ⟨mN, mE, mS, mW⟩ := hm x hx y hy hg
  -- a port of the output comes from the input or from a carved bridge
  have src := fun d hd => ((view x hx y hy).2.2 d hd).1
  have bp : ∀ b ∈ carvedBridges (findConnectedRegionsInPlace g W L) W L rng, ∀ nx ny d,
      BridgePort b nx ny d →
      hasPort ((unpackRegions (germanWelderInPlace (findConnectedRegionsInPlace g W L)
        W L rng).1 W L).get nx ny) d ∧ nx < W ∧ ny < L := by
    intro b hb nx ny d hbp
    obtain ⟨i1, i2, i3, _⟩ := bridgePort_inward (valid b hb) hbp
    exact ⟨((view nx i1 ny i2).2.2 d i3).2 (Or.inr ⟨b, hb, hbp⟩), i1, i2⟩
  refine ⟨fun hp => ?_, fun hp => ?_, fun hp => ?_, fun hp => ?_⟩
  · rcases src _ mem_dirs_N hp with h1 | ⟨b, hb, hbp⟩
    · obtain ⟨a1, a2, a3⟩ := mN h1
      have hq := ((view x hx (y - 1) (by omega)).2.2 _ mem_dirs_S).2 (Or.inl a3)
      exact ⟨a1, ne_zero_of_hasPort hq, hq⟩
    · rcases bridgePort_opposite hbp with ⟨_, a1, a2⟩ | ⟨e, _⟩ | ⟨e, _⟩ | ⟨e, _⟩
      · have hq := (bp b hb _ _ _ a2).1
        exact ⟨a1, ne_zero_of_hasPort hq, hq⟩
      all_goals exact absurd e (by decide)
  · rcases src _ mem_dirs_E hp with h1 | ⟨b, hb, hbp⟩
    · obtain ⟨a1, a2, a3⟩ := mE h1
      have hq := ((view (x + 1) a1 y hy).2.2 _ mem_dirs_W).2 (Or.inl a3)
      exact ⟨a1, ne_zero_of_hasPort hq, hq⟩
    · rcases bridgePort_opposite hbp with ⟨e, _⟩ | ⟨_, a2⟩ | ⟨e, _⟩ | ⟨e, _⟩
      · exact absurd e (by decide)
      · have hq := bp b hb _ _ _ a2
        exact ⟨hq.2.1, ne_zero_of_hasPort hq.1, hq.1⟩
      all_goals exact absurd e (by decide)
  · rcases src _ mem_dirs_S hp with h1 | ⟨b, hb, hbp⟩
    · obtain ⟨a1, a2, a3⟩ := mS h1
      have hq := ((view x hx (y + 1) a1).2.2 _ mem_dirs_N).2 (Or.inl a3)
      exact ⟨a1, ne_zero_of_hasPort hq, hq⟩
    · rcases bridgePort_opposite hbp with ⟨e, _⟩ | ⟨e, _⟩ | ⟨_, a2⟩ | ⟨e, _⟩
      · exact absurd e (by decide)
      · exact absurd e (by decide)
      · have hq := bp b hb _ _ _ a2
        exact ⟨hq.2.2, ne_zero_of_hasPort hq.1, hq.1⟩
      · exact absurd e (by decide)
  · rcases src _ mem_dirs_W hp with h1 | ⟨b, hb, hbp⟩
    · obtain ⟨a1, a2, a3⟩ := mW h1
      have hq := ((view (x - 1) (by omega) y hy).2.2 _ mem_dirs_E).2 (Or.inl a3)
      exact ⟨a1, ne_zero_of_hasPort hq, hq⟩
    · rcases bridgePort_opposite hbp with ⟨e, _⟩ | ⟨e, _⟩ | ⟨e, _⟩ | ⟨_, a1, a2⟩
      · exact absurd e (by decide)
      · exact absurd e (by decide)
      · exact absurd e (by decide)
      · have hq := (bp b hb _ _ _ a2).1
        exact ⟨a1, ne_zero_of_hasPort hq, hq⟩

/-- The smallest layer on which a one-sided port survives the cleanup: on the 4 by 4
layer `sampleMismatch` of void and single-variant cells the cleanup sequence returns a
layer in which the cell `(0, 0)` opens east onto a cell whose west port is closed. -/
theorem cleanupSequence_sampleMismatch :
    4 ≤ 4 ∧ sampleMismatch.WF 4 4 ∧ Solved sampleMismatch 4 4 ∧
    ¬ PortMatched (cleanupSequence sampleMismatch 4 4 7) 4 4 ∧
    (cleanupSequence sampleMismatch 4 4 7).get 0 0 = East_DeadEnd ∧
    (cleanupSequence sampleMismatch 4 4 7).get 1 0 = East_DeadEnd := by
  set_option maxRecDepth 100000 in decide

/-- Port matching of the cleanup sequence on layers with mutual ports. For a layer of
void and single-variant cells in which ports between neighbouring non-void cells are
mutual, the cleanup sequence of `generateLayerThread` (`sealMazeEdges`, `fixupEdges`,
`findConnectedRegionsInPlace`, `germanWelderInPlace` with any rng state, unpacking)
yields a layer with port matching: every open port of a non-void cell faces a neighbour
that lies inside the layer, is non-void and has its opposite port open. The solver does
not establish the mutual ports on every layer it leaves (see `sampleSolverLayer`). -/
theorem cleanupSequence_port_matching_of_mutual (g : Grid) (W L rng : Nat) (hwf : g.WF W L)
    (hs : Solved g W L) (hm : MutualPorts g W L) :
    PortMatched (cleanupSequence g W L rng) W L := by
  unfold cleanupSequence
  simp only []
  have wf1 := (sealMazeEdges_get hwf).1
  have s1 := sealMazeEdges_solved hwf hs
  have m1 := sealMazeEdges_matched hwf hs hm
  have wf2 := (fixupEdges_get wf1).1
  have s2 := fixupEdges_solved wf1 s1
  have m2 := fixupEdges_portMatched wf1 s1 m1
  exact weld_unpack_portMatched wf2 s2 m2 rng

/-- Port matching of the cleanup sequence on the 4 by 4 layer `sampleMutual`, whose ports
are mutual. -/
theorem cleanupSequence_port_matching_of_mutual_sample :
    (sampleMutual.WF 4 4 ∧ Solved sampleMutual 4 4 ∧ MutualPorts sampleMutual 4 4) ∧
    PortMatched (cleanupSequence sampleMutual 4 4 7) 4 4 :=
  ⟨⟨by decide, by decide, by decide⟩,
    cleanupSequence_port_matching_of_mutual sampleMutual 4 4 7 (by decide) (by decide)
      (by decide)⟩

theorem stamped_mono {r W L : Nat} {a b : Grid} (h : Stamped r W L a b) {x y : Nat}
    (hb : 15 < a.get x y) : 15 < b.get x y := by
  rcases h.2 x y with e | ⟨l, _⟩
  · rw [e]; exact hb
  · omega

/-- A packed cell that is still a bare index shows a variant. -/
theorem tileView_unassigned {g0 gs : Grid} {W L : Nat} (view : TileView g0 gs W L) {x y : Nat}
    (hx : x < W) (hy : y < L) (hl : gs.get x y ≤ 15) :
    gs.get x y < 16 ∧ g0.get x y = 2 ^ gs.get x y ∧ g0.get x y ≠ 0 := by
  rcases view x hx y hy with ⟨_, h2⟩ | ⟨k, hk, h1, _, _, h3⟩
  · rw [h2] at hl; omega
  · have : gs.get x y = k := by
      rw [and15_eq] at h3; omega
    rw [this]
    exact ⟨hk, h1, by rw [h1]; exact two_pow_ne_zero k⟩

/-- One neighbour visit keeps the flood invariant and leaves the visited neighbour
assigned when it is a non-void cell. -/
theorem floodVisit_inv {g0 gs : Grid} {W L r : Nat} {start : Nat × Nat} {cur : Grid}
    {queue : List (Nat × Nat)} {head : Nat} (inv : FloodInv g0 gs W L r start cur queue head)
    (view : TileView g0 gs W L) (hr1 : 1 ≤ r) (hr : r < 4096) {c : Nat × Nat} (hc : c ∈ queue)
    (cond : Prop) [Decidable cond] (nx ny : Nat)
    (hcond : cond → nx < W ∧ ny < L ∧ (g0.get nx ny ≠ 0 → Steps g0 W L c (nx, ny))) :
    FloodInv g0 gs W L r start (floodVisit r (cur, queue) cond nx ny).1
      (floodVisit r (cur, queue) cond nx ny).2 head ∧
    Stamped r W L cur (floodVisit r (cur, queue) cond nx ny).1 ∧
    (∃ ext, (floodVisit r (cur, queue) cond nx ny).2 = queue ++ ext) ∧
    (cond → g0.get nx ny ≠ 0 → 15 < (floodVisit r (cur, queue) cond nx ny).1.get nx ny) := by
  have hst := floodVisit_stamped (r := r) (W := W) (L := L) (cur, queue) cond nx ny inv.stamped.1
  unfold floodVisit at hst ⊢
  simp only [] at hst ⊢
  by_cases hv : cond ∧ cur.get nx ny ≤ 15 ∧ cur.get nx ny ≠ 0xFFFF
  · rw [if_pos hv] at hst ⊢
    simp only [] at hst ⊢
    obtain ⟨hnx, hny, hstep⟩ := hcond hv.1
    have hgs : cur.get nx ny = gs.get nx ny := by
      rcases inv.stamped.2 nx ny with e | ⟨l, e⟩
      · exact e
      · exfalso
        have := packCell_ge hr1 hr (show gs.get nx ny < 16 by omega)
        rw [← e] at this; omega
    have hnotin : (nx, ny) ∉ queue := by
      intro hin
      obtain ⟨_, _, l, e⟩ := inv.queued _ hin
      have := packCell_ge hr1 hr (show gs.get nx ny < 16 by omega)
      simp only [] at e
      rw [← e] at this; omega
    have hmod : cur.get nx ny % 256 = gs.get nx ny := by
      rw [hgs]; exact Nat.mod_eq_of_lt (by omega)
    have hnew : ∀ x y, (cur.set nx ny (packCell r (cur.get nx ny % 256))).get x y =
        if x = nx ∧ y = ny then packCell r (gs.get nx ny) else cur.get x y := by
      intro x y; rw [Grid.get_set_of_WF inv.stamped.1 hnx hny, hmod]
    obtain ⟨u1, u2, u3⟩ := tileView_unassigned view hnx hny (by rw [← hgs]; exact hv.2.1)
    refine ⟨⟨stamped_trans hr1 hr inv.stamped hst, ?_, ?_, ?_, ?_, ?_, ?_⟩, hst, ⟨_, rfl⟩, ?_⟩
    · intro c' hc'
      rcases List.mem_append.1 hc' with hq | hq
      · obtain ⟨q1, q2, q3, q4⟩ := inv.queued c' hq
        refine ⟨q1, q2, q3, ?_⟩
        rw [hnew, if_neg, q4]
        rintro ⟨e1, e2⟩
        exact hnotin (by rw [← e1, ← e2]; exact hq)
      · rw [List.mem_singleton.1 hq]
        refine ⟨hnx, hny, by rw [← hgs]; exact hv.2.1, ?_⟩
        rw [hnew, if_pos ⟨rfl, rfl⟩]
    · intro x y hne
      rw [hnew] at hne
      by_cases hxy : x = nx ∧ y = ny
      · rw [hxy.1, hxy.2]; simp
      · rw [if_neg hxy] at hne
        exact List.mem_append_left _ (inv.changed x y hne)
    · rw [List.nodup_append]
      refine ⟨inv.nodup, by simp, ?_⟩
      intro a ha hb
      rw [List.mem_singleton.1 hb] at ha
      exact hnotin ha
    · rw [List.length_append]; have := inv.head_le; omega
    · intro i hi q hq
      rw [List.getD_append _ _ _ _ (by have := inv.head_le; omega)] at hq
      exact stamped_mono hst (inv.closed i hi q hq)
    · intro c' hc'
      rcases List.mem_append.1 hc' with hq | hq
      · exact inv.reach c' hq
      · rw [List.mem_singleton.1 hq]
        exact Relation.ReflTransGen.tail (inv.reach c hc) (hstep u3)
    · intro _ _
      rw [hnew, if_pos ⟨rfl, rfl⟩]
      exact packCell_ge hr1 hr u1
  · rw [if_neg hv] at hst ⊢
    simp only [] at hst ⊢
    refine ⟨inv, hst, ⟨[], by simp⟩, fun hc0 hne => ?_⟩
    by_contra hle
    have hl : cur.get nx ny ≤ 15 := by omega
    exact hv ⟨hc0, hl, by omega⟩

theorem floodVisit_inv_state {g0 gs : Grid} {W L r : Nat} {start : Nat × Nat}
    (st : Grid × List (Nat × Nat)) {head : Nat}
    (inv : FloodInv g0 gs W L r start st.1 st.2 head)
    (view : TileView g0 gs W L) (hr1 : 1 ≤ r) (hr : r < 4096) {c : Nat × Nat} (hc : c ∈ st.2)
    (cond : Prop) [Decidable cond] (nx ny : Nat)
    (hcond : cond → nx < W ∧ ny < L ∧ (g0.get nx ny ≠ 0 → Steps g0 W L c (nx, ny))) :
    FloodInv g0 gs W L r start (floodVisit r st cond nx ny).1 (floodVisit r st cond nx ny).2 head ∧
    Stamped r W L st.1 (floodVisit r st cond nx ny).1 ∧
    (∃ ext, (floodVisit r st cond nx ny).2 = st.2 ++ ext) ∧
    (cond → g0.get nx ny ≠ 0 → 15 < (floodVisit r st cond nx ny).1.get nx ny) := by
  obtain ⟨cur, queue⟩ := st
  exact floodVisit_inv inv view hr1 hr hc cond nx ny hcond

theorem getD_mem {α : Type} {l : List α} {i : Nat} (h : i < l.length) (d : α) : l.getD i d ∈ l := by
  rw [List.getD_eq_getElem?_getD, List.getElem?_eq_getElem h]
  exact List.getElem_mem h

/-- One dequeue keeps the flood invariant and closes the dequeued cell. -/
theorem floodStep_inv {g0 gs : Grid} {W L r : Nat} {start : Nat × Nat} {cur : Grid}
    {queue : List (Nat × Nat)} {head : Nat} (inv : FloodInv g0 gs W L r start cur queue head)
    (view : TileView g0 gs W L) (hr1 : 1 ≤ r) (hr : r < 4096) (hh : head < queue.length) :
    FloodInv g0 gs W L r start
      (floodStep W L r cur queue (queue.getD head (0, 0)).1 (queue.getD head (0, 0)).2).1
      (floodStep W L r cur queue (queue.getD head (0, 0)).1 (queue.getD head (0, 0)).2).2
      (head + 1) := by
  have hcq : queue.getD head (0, 0) ∈ queue := getD_mem hh _
  generalize hcdef : queue.getD head (0, 0) = c at hcq
  obtain ⟨cx, cy⟩ := c
  obtain ⟨hcx, hcy, hgl, hcur⟩ := inv.queued _ hcq
  simp only [] at hcx hcy hgl hcur
  obtain ⟨u1, u2, u3⟩ := tileView_unassigned view hcx hcy hgl
  -- the mask read by the loop body is the variant of the dequeued cell
  have hmask : indexToMask (cur.get cx cy &&& 0xF) = g0.get cx cy := by
    rw [hcur, packCell_and hr u1, indexToMask_eq _ u1, u2]
  have hsm := solved_masks (Or.inr ⟨gs.get cx cy, u1, u2⟩ : g0.get cx cy = 0 ∨ IsVariant (g0.get cx cy))
  unfold floodStep
  simp only []
  rw [hmask]
  obtain ⟨i1, s1, ⟨x1, q1⟩, c1⟩ := floodVisit_inv_state (cur, queue) inv view hr1 hr hcq
    (g0.get cx cy &&& South_Open_Mask ≠ 0 ∧ 1 ≤ cy) cx (cy - 1)
    (fun h => ⟨hcx, by omega, fun hne => ⟨hcx, hcy, hcx, by simp only []; omega, hne,
      Or.inl ⟨rfl, by simp only []; omega, hsm.2.1.1 h.1⟩⟩⟩)
  obtain ⟨i2, s2, ⟨x2, q2⟩, c2⟩ := floodVisit_inv_state _ i1 view hr1 hr
    (show (cx, cy) ∈ _ by rw [q1]; exact List.mem_append_left _ hcq)
    (g0.get cx cy &&& North_Open_Mask ≠ 0 ∧ cy + 1 < L) cx (cy + 1)
    (fun h => ⟨hcx, h.2, fun hne => ⟨hcx, hcy, hcx, h.2, hne,
      Or.inr (Or.inr (Or.inl ⟨rfl, rfl, hsm.1.1 h.1⟩))⟩⟩)
  obtain ⟨i3, s3, ⟨x3, q3⟩, c3⟩ := floodVisit_inv_state _ i2 view hr1 hr
    (show (cx, cy) ∈ _ by rw [q2, q1]; exact List.mem_append_left _ (List.mem_append_left _ hcq))
    (g0.get cx cy &&& West_Open_Mask ≠ 0 ∧ cx + 1 < W) (cx + 1) cy
    (fun h => ⟨h.2, hcy, fun hne => ⟨hcx, hcy, h.2, hcy, hne,
      Or.inr (Or.inl ⟨rfl, rfl, hsm.2.2.1.1 h.1⟩)⟩⟩)
  obtain ⟨i4, s4, ⟨x4, q4⟩, c4⟩ := floodVisit_inv_state _ i3 view hr1 hr
    (show (cx, cy) ∈ _ by
      rw [q3, q2, q1]
      exact List.mem_append_left _ (List.mem_append_left _ (List.mem_append_left _ hcq)))
    (g0.get cx cy &&& East_Open_Mask ≠ 0 ∧ 1 ≤ cx) (cx - 1) cy
    (fun h => ⟨by omega, hcy, fun hne => ⟨hcx, hcy, by simp only []; omega, hcy, hne,
      Or.inr (Or.inr (Or.inr ⟨by simp only []; omega, rfl, hsm.2.2.2.1 h.1⟩))⟩⟩)
  have hq4 : ∃ ext, (floodVisit r (floodVisit r (floodVisit r (floodVisit r (cur, queue)
      (g0.get cx cy &&& South_Open_Mask ≠ 0 ∧ 1 ≤ cy) cx (cy - 1))
      (g0.get cx cy &&& North_Open_Mask ≠ 0 ∧ cy + 1 < L) cx (cy + 1))
      (g0.get cx cy &&& West_Open_Mask ≠ 0 ∧ cx + 1 < W) (cx + 1) cy)
      (g0.get cx cy &&& East_Open_Mask ≠ 0 ∧ 1 ≤ cx) (cx - 1) cy).2 = queue ++ ext := by
    refine ⟨x1 ++ x2 ++ x3 ++ x4, ?_⟩
    rw [q4, q3, q2, q1]; simp
  obtain ⟨ext, hext⟩ := hq4
  refine ⟨i4.stamped, i4.queued, i4.changed, i4.nodup, ?_, ?_, i4.reach⟩
  · rw [hext, List.length_append]; omega
  · intro i hi q hq
    by_cases hlt : i < head
    · exact i4.closed i hlt q hq
    · have hi' : i = head := by omega
      subst hi'
      rw [hext, List.getD_append _ _ _ _ hh, hcdef] at hq
      obtain ⟨_, _, hqx, hqy, hqne, hdir⟩ := hq
      simp only [] at hdir
      obtain ⟨qx, qy⟩ := q
      simp only [] at hqx hqy hqne hdir ⊢
      rcases hdir with ⟨e1, e2, hp⟩ | ⟨e1, e2, hp⟩ | ⟨e1, e2, hp⟩ | ⟨e1, e2, hp⟩
      · have hy : qy = cy - 1 := by omega
        subst e1; subst hy
        exact stamped_mono s4 (stamped_mono s3 (stamped_mono s2
          (c1 ⟨hsm.2.1.2 hp, by omega⟩ hqne)))
      · subst e1; subst e2
        exact stamped_mono s4 (c3 ⟨hsm.2.2.1.2 hp, hqx⟩ hqne)
      · subst e1; subst e2
        exact stamped_mono s4 (stamped_mono s3 (c2 ⟨hsm.1.2 hp, hqy⟩ hqne))
      · have hx : qx = cx - 1 := by omega
        subst hx; subst e2
        exact c4 ⟨hsm.2.2.2.2 hp, by omega⟩ hqne

theorem length_rowMajor (W L : Nat) : (rowMajor W L).length = W * L := by
  unfold rowMajor
  induction L with
  | zero => simp
  | succ n ih =>
    rw [List.range_succ, List.flatMap_append, List.length_append, ih]
    simp [Nat.mul_succ]

theorem length_le_of_nodup_in_grid {W L : Nat} {l : List (Nat × Nat)} (hnd : l.Nodup)
    (hin : ∀ c ∈ l, c.1 < W ∧ c.2 < L) : l.length ≤ W * L := by
  rw [← length_rowMajor W L]
  exact (List.subperm_of_subset hnd (fun c hc => mem_rowMajor.2 (hin c hc))).length_le

/-- The loop of `regionMarkerIterative` keeps the flood invariant and, given `W * L`
dequeues in total, ends with an empty queue (`head = tail`) rather than out of fuel. -/
theorem floodLoop_inv {g0 gs : Grid} {W L r : Nat} {start : Nat × Nat}
    (view : TileView g0 gs W L) (hr1 : 1 ≤ r) (hr : r < 4096) :
    ∀ (fuel : Nat) (cur : Grid) (queue : List (Nat × Nat)) (head : Nat),
      FloodInv g0 gs W L r start cur queue head → W * L ≤ fuel + head →
      FloodInv g0 gs W L r start (floodLoop W L r fuel cur queue head).1
        (floodLoop W L r fuel cur queue head).2.1 (floodLoop W L r fuel cur queue head).2.2 ∧
      (floodLoop W L r fuel cur queue head).2.2 =
        (floodLoop W L r fuel cur queue head).2.1.length := by
  intro fuel
  induction fuel with
  | zero =>
    intro cur queue head inv hf
    unfold floodLoop
    refine ⟨inv, ?_⟩
    simp only []
    have h1 := inv.head_le
    have h2 := length_le_of_nodup_in_grid inv.nodup (fun c hc => ⟨(inv.queued c hc).1,
      (inv.queued c hc).2.1⟩)
    omega
  | succ n ih =>
    intro cur queue head inv hf
    unfold floodLoop
    split
    · rename_i hh
      exact ih _ _ _ (floodStep_inv inv view hr1 hr hh) (by omega)
    · rename_i hh
      refine ⟨inv, ?_⟩
      simp only []
      have h1 := inv.head_le
      omega

/-- The state in which `regionMarkerIterative` leaves its loop when started on an
unassigned in-grid cell: the invariant holds, the queue is drained and contains the
start cell. -/
theorem regionMarkerState_spec {g0 gs : Grid} {W L r : Nat} (hwf : gs.WF W L)
    (view : TileView g0 gs W L) (hr1 : 1 ≤ r) (hr : r < 4096) {sx sy : Nat} (hsx : sx < W)
    (hsy : sy < L) (hs : gs.get sx sy ≤ 15) :
    FloodInv g0 gs W L r (sx, sy) (regionMarkerState gs W L r sx sy).1
      (regionMarkerState gs W L r sx sy).2.1 (regionMarkerState gs W L r sx sy).2.2 ∧
    (regionMarkerState gs W L r sx sy).2.2 = (regionMarkerState gs W L r sx sy).2.1.length ∧
    (sx, sy) ∈ (regionMarkerState gs W L r sx sy).2.1 := by
  have hset : ∀ x y, (gs.set sx sy (packCell r (gs.get sx sy % 256))).get x y =
      if x = sx ∧ y = sy then packCell r (gs.get sx sy) else gs.get x y := by
    intro x y
    rw [Grid.get_set_of_WF hwf hsx hsy, Nat.mod_eq_of_lt (show gs.get sx sy < 256 by omega)]
  have init : FloodInv g0 gs W L r (sx, sy) (gs.set sx sy (packCell r (gs.get sx sy % 256)))
      [(sx, sy)] 0 := by
    refine ⟨stamped_set hwf hs, ?_, ?_, by simp, by simp, ?_, ?_⟩
    · intro c hc
      rw [List.mem_singleton.1 hc]
      refine ⟨hsx, hsy, hs, ?_⟩
      rw [hset, if_pos ⟨rfl, rfl⟩]
    · intro x y hne
      rw [hset] at hne
      by_cases hxy : x = sx ∧ y = sy
      · rw [hxy.1, hxy.2]; simp
      · rw [if_neg hxy] at hne; exact absurd rfl hne
    · intro i hi; omega
    · intro c hc
      rw [List.mem_singleton.1 hc]
  obtain ⟨inv, hdr⟩ := floodLoop_inv view hr1 hr (W * L) _ _ 0 init (by omega)
  unfold regionMarkerState
  simp only []
  refine ⟨inv, hdr, ?_⟩
  -- the start cell was stamped, hence is in the queue
  apply inv.changed
  have h1 : (gs.set sx sy (packCell r (gs.get sx sy % 256))).get sx sy =
      packCell r (gs.get sx sy) := by rw [hset, if_pos ⟨rfl, rfl⟩]
  have h2 := packCell_ge hr1 hr (show gs.get sx sy < 16 by omega)
  have h3 := stamped_mono (floodLoop_stamped hr1 hr (W * L) _ [(sx, sy)] 0
    (Grid.WF_set hwf _ _ _)) (show 15 < (gs.set sx sy (packCell r (gs.get sx sy % 256))).get sx sy
      by rw [h1]; exact h2)
  intro e
  rw [e] at h3
  omega

theorem linked_symm {g : Grid} {W L : Nat} {p q : Nat × Nat} (h : Linked g W L p q) :
    Linked g W L q p := by
  obtain ⟨h1, h2, h3, h4, h5⟩ := h
  refine ⟨h3, h4, h1, h2, ?_⟩
  rcases h5 with ⟨a, b, c, d⟩ | ⟨a, b, c, d⟩ | ⟨a, b, c, d⟩ | ⟨a, b, c, d⟩
  · exact Or.inr (Or.inr (Or.inl ⟨a.symm, b.symm, d, c⟩))
  · exact Or.inr (Or.inr (Or.inr ⟨a.symm, b.symm, d, c⟩))
  · exact Or.inl ⟨a.symm, b.symm, d, c⟩
  · exact Or.inr (Or.inl ⟨a.symm, b.symm, d, c⟩)

theorem joined_symm {g : Grid} {W L : Nat} {p q : Nat × Nat} (h : Joined g W L p q) :
    Joined g W L q p :=
  Relation.ReflTransGen.symmetric (fun _ _ h => linked_symm h) h

theorem linked_steps {g : Grid} {W L : Nat} {p q : Nat × Nat} (h : Linked g W L p q) :
    Steps g W L p q := by
  obtain ⟨h1, h2, h3, h4, h5⟩ := h
  refine ⟨h1, h2, h3, h4, ?_, ?_⟩
  · rcases h5 with ⟨_, _, _, d⟩ | ⟨_, _, _, d⟩ | ⟨_, _, _, d⟩ | ⟨_, _, _, d⟩ <;>
      exact ne_zero_of_hasPort d
  · rcases h5 with ⟨a, b, c, _⟩ | ⟨a, b, c, _⟩ | ⟨a, b, c, _⟩ | ⟨a, b, c, _⟩
    · exact Or.inl ⟨a, b, c⟩
    · exact Or.inr (Or.inl ⟨a, b, c⟩)
    · exact Or.inr (Or.inr (Or.inl ⟨a, b, c⟩))
    · exact Or.inr (Or.inr (Or.inr ⟨a, b, c⟩))

/-- With mutual ports a flood step is an open-port adjacency. -/
theorem steps_linked {g : Grid} {W L : Nat} (hm : MutualPorts g W L) {p q : Nat × Nat}
    (h : Steps g W L p q) : Linked g W L p q := by
  obtain ⟨h1, h2, h3, h4, hq, h5⟩ := h
  obtain ⟨mN, mE, mS, mW⟩ := hm p.1 h1 p.2 h2
  obtain ⟨px, py⟩ := p
  obtain ⟨qx, qy⟩ := q
  simp only [] at *
  refine ⟨h1, h2, h3, h4, ?_⟩
  rcases h5 with ⟨a, b, c⟩ | ⟨a, b, c⟩ | ⟨a, b, c⟩ | ⟨a, b, c⟩
  · subst a
    have e : qy = py - 1 := by omega
    subst e
    exact Or.inl ⟨rfl, b, c, mN c (by omega) hq⟩
  · subst a; subst b
    exact Or.inr (Or.inl ⟨rfl, rfl, c, mE c h3 hq⟩)
  · subst a; subst b
    exact Or.inr (Or.inr (Or.inl ⟨rfl, rfl, c, mS c h4 hq⟩))
  · subst b
    have e : qx = px - 1 := by omega
    subst e
    exact Or.inr (Or.inr (Or.inr ⟨a, rfl, c, mW c (by omega) hq⟩))

theorem steps_joined {g : Grid} {W L : Nat} (hm : MutualPorts g W L) {p q : Nat × Nat}
    (h : Relation.ReflTransGen (Steps g W L) p q) : Joined g W L p q :=
  Relation.ReflTransGen.mono (fun _ _ h => steps_linked hm h) h

/-- A cell joined to an in-grid non-void cell is an in-grid non-void cell. -/
theorem joined_cell {g : Grid} {W L : Nat} {p q : Nat × Nat} (h : Joined g W L p q)
    (hp : p.1 < W ∧ p.2 < L ∧ g.get p.1 p.2 ≠ 0) : q.1 < W ∧ q.2 < L ∧ g.get q.1 q.2 ≠ 0 := by
  induction h with
  | refl => exact hp
  | tail _ hl _ =>
    have := linked_steps hl
    exact ⟨this.2.2.1, this.2.2.2.1, this.2.2.2.2.1⟩

theorem pairwise_rowMajor (W L : Nat) :
    (rowMajor W L).Pairwise (fun a b => rmIndex W a < rmIndex W b) := by
  unfold rowMajor
  rw [List.pairwise_flatMap]
  constructor
  · intro y _
    rw [List.pairwise_map]
    refine List.Pairwise.imp ?_ (List.pairwise_lt_range W)
    intro a b hab
    unfold rmIndex; simp only []; omega
  · refine List.Pairwise.imp_of_mem ?_ (List.pairwise_lt_range L)
    intro a b _ _ hab c hc d hd
    simp only [List.mem_map, List.mem_range] at hc hd
    obtain ⟨x, hx, rfl⟩ := hc
    obtain ⟨x', hx', rfl⟩ := hd
    unfold rmIndex; simp only []
    have : (a + 1) * W ≤ b * W := Nat.mul_le_mul_right W hab
    rw [Nat.add_mul] at this
    omega

/-- In the row-major enumeration every cell that comes before `c` in row-major order has
been met before `c`. -/
theorem rowMajor_before {W L : Nat} {pre suf : List (Nat × Nat)} {c : Nat × Nat}
    (hl : rowMajor W L = pre ++ c :: suf) {p : Nat × Nat} (hx : p.1 < W) (hy : p.2 < L)
    (hlt : rmIndex W p < rmIndex W c) : p ∈ pre := by
  have hp : p ∈ rowMajor W L := mem_rowMajor.2 ⟨hx, hy⟩
  have hs := pairwise_rowMajor W L
  rw [hl] at hp hs
  rcases List.mem_append.1 hp with h | h
  · exact h
  · rcases List.mem_cons.1 h with h | h
    · rw [h] at hlt; omega
    · have := (List.pairwise_cons.1 (List.pairwise_append.1 hs).2.1).1 p h
      omega

theorem mem_getD {α : Type} {l : List α} {a : α} (h : a ∈ l) (d : α) :
    ∃ i, i < l.length ∧ l.getD i d = a := by
  obtain ⟨i, hi, e⟩ := List.getElem_of_mem h
  refine ⟨i, hi, ?_⟩
  rw [List.getD_eq_getElem?_getD, List.getElem?_eq_getElem hi]
  exact e

/-- What one call of `regionMarkerIterative` on an unassigned in-grid cell does to the
grid: the seed is stamped; a cell is stamped only if it was unassigned and is reachable
from the seed by flood steps; and every flood step out of a stamped cell ends on an
assigned cell. -/
theorem regionMarkerIterative_spec {g0 gs : Grid} {W L r : Nat} (hwf : gs.WF W L)
    (view : TileView g0 gs W L) (hr1 : 1 ≤ r) (hr : r < 4096) {sx sy : Nat} (hsx : sx < W)
    (hsy : sy < L) (hs : gs.get sx sy ≤ 15) :
    (regionMarkerIterative gs W L r sx sy).WF W L ∧
    (regionMarkerIterative gs W L r sx sy).get sx sy = packCell r (gs.get sx sy) ∧
    (∀ x y, (regionMarkerIterative gs W L r sx sy).get x y = gs.get x y ∨
      (x < W ∧ y < L ∧ gs.get x y ≤ 15 ∧
        (regionMarkerIterative gs W L r sx sy).get x y = packCell r (gs.get x y) ∧
        Relation.ReflTransGen (Steps g0 W L) (sx, sy) (x, y))) ∧
    (∀ p q, (regionMarkerIterative gs W L r sx sy).get p.1 p.2 ≠ gs.get p.1 p.2 →
      Steps g0 W L p q → 15 < (regionMarkerIterative gs W L r sx sy).get q.1 q.2) := by
  obtain ⟨inv, hdr, hmem⟩ := regionMarkerState_spec hwf view hr1 hr hsx hsy hs
  unfold regionMarkerIterative
  refine ⟨inv.stamped.1, (inv.queued _ hmem).2.2.2, ?_, ?_⟩
  · intro x y
    by_cases e : (regionMarkerState gs W L r sx sy).1.get x y = gs.get x y
    · exact Or.inl e
    · right
      have hq := inv.changed x y e
      obtain ⟨a, b, c, d⟩ := inv.queued _ hq
      exact ⟨a, b, c, d, inv.reach _ hq⟩
  · intro p q hne hst
    have hq := inv.changed p.1 p.2 hne
    obtain ⟨i, hi, e⟩ := mem_getD hq (0, 0)
    have := inv.closed i (by rw [hdr]; exact hi) q
    rw [e] at this
    exact this hst

theorem getD_append_lt {α : Type} (l l' : List α) (d : α) {i : Nat} (h : i < l.length) :
    (l ++ l').getD i d = l.getD i d := by
  rw [List.getD_eq_getElem?_getD, List.getD_eq_getElem?_getD, List.getElem?_append_left h]

theorem getD_append_length {α : Type} (l : List α) (a d : α) :
    (l ++ [a]).getD l.length d = a := by
  rw [List.getD_eq_getElem?_getD, List.getElem?_append_right (le_refl _)]
  simp

/-- The packed grid of the identification loop shows the unpacked layer. -/
theorem scanInv_view {g0 : Grid} {W L : Nat} {pre : List (Nat × Nat)} {st : ScanState}
    (inv : ScanInv g0 W L pre st) : TileView g0 st.grid W L := by
  have hrid : st.regionID ≤ 4095 := by rw [inv.rid_eq]; exact Nat.min_le_right _ _
  intro x hx y hy
  rcases inv.cells x hx y hy with ⟨h1, h2⟩ | ⟨k, hk, h1, h2 | ⟨r, hr1, hr2, h2⟩⟩
  · exact Or.inl ⟨h1, h2⟩
  · right
    refine ⟨k, hk, h1, by omega, by omega, ?_⟩
    rw [h2, and15_eq]; omega
  · right
    have hr : r < 4096 := by omega
    refine ⟨k, hk, h1, ?_, ?_, ?_⟩
    · rw [h2, packCell_eq hr hk]; omega
    · rw [h2]; exact packCell_lt _ _
    · rw [h2]; exact packCell_and hr hk

/-- Assigned regions are closed under paths of open-port adjacencies. -/
theorem regionInv_path {g0 : Grid} {W L : Nat} {pre : List (Nat × Nat)} {st : ScanState}
    (inv : RegionInv g0 W L pre st) {p q : Nat × Nat} (h : Joined g0 W L p q)
    (hp : 15 < st.grid.get p.1 p.2) :
    15 < st.grid.get q.1 q.2 ∧ st.grid.get q.1 q.2 >>> 4 = st.grid.get p.1 p.2 >>> 4 := by
  induction h with
  | refl => exact ⟨hp, rfl⟩
  | tail _ hl ih =>
    obtain ⟨h1, h2⟩ := inv.closure _ _ hl ih.1
    exact ⟨h1, h2.trans ih.2⟩

theorem regionInv_init {g0 : Grid} {W L : Nat} {st : ScanState}
    (sinv : ScanInv g0 W L [] st) (h1 : st.regionID = 1) (hs : st.seeds = []) :
    RegionInv g0 W L [] st := by
  have small : ∀ x, x < W → ∀ y, y < L → g0.get x y ≠ 0 → st.grid.get x y ≤ 15 := by
    intro x hx y hy hnz
    rcases sinv.cells x hx y hy with ⟨h1, _⟩ | ⟨k, hk, _, h2 | ⟨r, hr1, hr2, _⟩⟩
    · exact absurd h1 hnz
    · omega
    · omega
  refine ⟨by simp [hs], ?_, ?_, ?_, ?_, by simp [hs]⟩
  · intro p q hl hp
    have hst := linked_steps (linked_symm hl)
    have := small p.1 hst.2.2.1 p.2 hst.2.2.2.1 hst.2.2.2.2.1
    omega
  · intro x hx y hy hnz hbig
    have := small x hx y hy hnz
    omega
  · intro i hi; simp [hs] at hi
  · intro i hi; simp [hs] at hi

/-- One iteration of the identification loop keeps the connectivity invariant, provided
the flood is started whenever the loop meets an unassigned cell. -/
theorem regionInv_step {g0 : Grid} {W L : Nat} (hm : MutualPorts g0 W L)
    {pre : List (Nat × Nat)} {st : ScanState} (sinv : ScanInv g0 W L pre st)
    (inv : RegionInv g0 W L pre st) {x0 y0 : Nat} (hx0 : x0 < W) (hy0 : y0 < L)
    (hpre : ∀ p : Nat × Nat, p.1 < W → p.2 < L → rmIndex W p < rmIndex W (x0, y0) → p ∈ pre)
    (hflood : st.grid.get x0 y0 ≠ 0xFFFF → st.grid.get x0 y0 ≤ 15 → st.regionID < 4095) :
    RegionInv g0 W L (pre ++ [(x0, y0)]) (identifyCell W L st x0 y0) := by
  unfold identifyCell
  split
  · rename_i hc
    have hlt := hflood hc.1 hc.2
    rw [if_pos hlt]
    have req : st.regionID = st.seeds.length + 1 := by
      have := sinv.rid_eq
      omega
    have hr1 := sinv.rid_pos
    have hr : st.regionID < 4096 := by omega
    have view := scanInv_view sinv
    obtain ⟨c1, c2, c3⟩ := tileView_unassigned view hx0 hy0 hc.2
    obtain ⟨_, hseed, chg, hclosed⟩ :=
      regionMarkerIterative_spec sinv.wf view hr1 hr hx0 hy0 hc.2
    have hlen : (st.seeds ++ [(x0, y0)]).length = st.seeds.length + 1 := by simp
    have hcount := inv.count
    refine ⟨?_, ?_, ?_, ?_, ?_, ?_⟩
    · simp only []; rw [hlen]; omega
    · intro p q hl hp
      simp only [] at hp ⊢
      rcases chg p.1 p.2 with ep | ⟨_, _, lp, ep, _⟩
      · rw [ep] at hp
        obtain ⟨hq, hreg⟩ := inv.closure p q hl hp
        rcases chg q.1 q.2 with eq | ⟨_, _, lq, _, _⟩
        · rw [eq, ep]; exact ⟨hq, hreg⟩
        · omega
      · have hpk := packCell_ge hr1 hr (show st.grid.get p.1 p.2 < 16 by omega)
        have hne : (regionMarkerIterative st.grid W L st.regionID x0 y0).get p.1 p.2 ≠
            st.grid.get p.1 p.2 := by rw [ep]; omega
        have hq := hclosed p q hne (linked_steps hl)
        rcases chg q.1 q.2 with eq | ⟨_, _, lq, eq, _⟩
        · rw [eq] at hq
          have := (inv.closure q p (linked_symm hl) hq).1
          omega
        · refine ⟨hq, ?_⟩
          rw [eq, ep, packCell_shr hr (by omega), packCell_shr hr (by omega)]
    · intro x hx y hy hnz hbig
      simp only [] at hbig ⊢
      rcases chg x y with e | ⟨_, _, l, e, hreach⟩
      · rw [e] at hbig ⊢
        obtain ⟨i, hi, hreg, hj⟩ := inv.sound x hx y hy hnz hbig
        refine ⟨i, by rw [hlen]; omega, hreg, ?_⟩
        rw [getD_append_lt _ _ _ hi]; exact hj
      · refine ⟨st.seeds.length, by rw [hlen]; omega, ?_, ?_⟩
        · rw [e, packCell_shr hr (by omega)]; exact req
        · rw [getD_append_length]; exact steps_joined hm hreach
    · intro i hi
      simp only [] at hi ⊢
      rw [hlen] at hi
      by_cases hil : i < st.seeds.length
      · rw [getD_append_lt _ _ _ hil]
        obtain ⟨a, b, c, d, e⟩ := inv.seed i hil
        refine ⟨a, b, c, ?_⟩
        rcases chg (st.seeds.getD i (0, 0)).1 (st.seeds.getD i (0, 0)).2 with h | ⟨_, _, l, _, _⟩
        · rw [h]; exact ⟨d, e⟩
        · omega
      · have hil : i = st.seeds.length := by omega
        subst hil
        rw [getD_append_length]
        simp only []
        refine ⟨hx0, hy0, c3, ?_, ?_⟩
        · rw [hseed]; exact packCell_ge hr1 hr c1
        · rw [hseed, packCell_shr hr c1]; exact req
    · intro i hi p hj
      simp only [] at hi hj ⊢
      rw [hlen] at hi
      by_cases hil : i < st.seeds.length
      · rw [getD_append_lt _ _ _ hil] at hj ⊢
        exact inv.first i hil p hj
      · have hil : i = st.seeds.length := by omega
        subst hil
        rw [getD_append_length] at hj ⊢
        by_contra hlt'
        have hcell := joined_cell hj ⟨hx0, hy0, c3⟩
        have hp := hpre p hcell.1 hcell.2.1 (by omega)
        have hv := sinv.visited p hp
        have hbig : 15 < st.grid.get p.1 p.2 := by
          by_contra hle
          have := hv (by omega)
          omega
        have := (regionInv_path inv (joined_symm hj) hbig).1
        simp only [] at this
        omega
    · exact List.Sublist.append inv.sub (List.Sublist.refl _)
  · exact ⟨inv.count, inv.closure, inv.sound, inv.seed, inv.first,
      inv.sub.trans (List.sublist_append_left _ _)⟩

/-- Pigeonhole for covers: indices whose cells are pairwise unrelated need at least as many
representatives. -/
theorem cover_card_le {n : Nat} {reps : List (Nat × Nat)} (R : Nat → Nat × Nat → Prop)
    (hcov : ∀ i, i < n → ∃ r ∈ reps, R i r)
    (hinj : ∀ i, i < n → ∀ j, j < n → ∀ r, R i r → R j r → i = j) : n ≤ reps.length := by
  classical
  have h := Finset.card_le_card_of_forall_subsingleton (s := Finset.range n)
    (t := reps.toFinset) R
    (by
      intro a ha
      obtain ⟨r, hr, h⟩ := hcov a (Finset.mem_range.1 ha)
      exact ⟨r, List.mem_toFinset.2 hr, h⟩)
    (by
      intro b _ i hi j hj
      exact hinj i (Finset.mem_range.1 hi.1) j (Finset.mem_range.1 hj.1) b hi.2 hj.2)
  rw [Finset.card_range] at h
  exact h.trans (List.toFinset_card_le reps)

/-- When the layer has fewer than 4095 components, the identification loop still has a
region number below 4095 whenever it meets an unassigned cell. -/
theorem regionInv_room {g0 : Grid} {W L : Nat} (hc : ComponentsFewerThan g0 W L 4095)
    {pre : List (Nat × Nat)} {st : ScanState} (sinv : ScanInv g0 W L pre st)
    (inv : RegionInv g0 W L pre st) {x0 y0 : Nat} (hx0 : x0 < W) (hy0 : y0 < L)
    (hl : st.grid.get x0 y0 ≤ 15) : st.regionID < 4095 := by
  obtain ⟨reps, hlen, hcov⟩ := hc
  obtain ⟨_, _, c3⟩ := tileView_unassigned (scanInv_view sinv) hx0 hy0 hl
  have key : st.seeds.length + 1 ≤ reps.length := by
    apply cover_card_le
      (fun i r => Joined g0 W L r ((st.seeds ++ [(x0, y0)]).getD i (0, 0)))
    · intro i hi
      by_cases hil : i < st.seeds.length
      · simp only [getD_append_lt _ _ _ hil]
        obtain ⟨a, b, c, _⟩ := inv.seed i hil
        exact hcov _ a _ b c
      · have hil : i = st.seeds.length := by omega
        subst hil
        simp only [getD_append_length]
        exact hcov x0 hx0 y0 hy0 c3
    · intro i hi j hj r hri hrj
      have hij : Joined g0 W L ((st.seeds ++ [(x0, y0)]).getD i (0, 0))
          ((st.seeds ++ [(x0, y0)]).getD j (0, 0)) :=
        Relation.ReflTransGen.trans (joined_symm hri) hrj
      by_cases hil : i < st.seeds.length
      · rw [getD_append_lt _ _ _ hil] at hij
        obtain ⟨_, _, _, d, e⟩ := inv.seed i hil
        have hp := regionInv_path inv hij d
        by_cases hjl : j < st.seeds.length
        · rw [getD_append_lt _ _ _ hjl] at hp
          have := (inv.seed j hjl).2.2.2.2
          omega
        · have hjl : j = st.seeds.length := by omega
          subst hjl
          rw [getD_append_length] at hp
          have := hp.1
          simp only [] at this
          omega
      · have hil : i = st.seeds.length := by omega
        by_cases hjl : j < st.seeds.length
        · rw [getD_append_lt _ _ _ hjl] at hij
          obtain ⟨_, _, _, d, e⟩ := inv.seed j hjl
          have hp := regionInv_path inv (joined_symm hij) d
          rw [hil, getD_append_length] at hp
          have := hp.1
          simp only [] at this
          omega
        · omega
  have := sinv.rid_eq
  omega

theorem identifyCell_seeds_le (W L : Nat) (st : ScanState) (x y : Nat) :
    st.seeds.length ≤ (identifyCell W L st x y).seeds.length := by
  unfold identifyCell
  split
  · split <;> simp
  · exact le_refl _

theorem foldl_identifyCell_seeds_le (W L : Nat) (l : List (Nat × Nat)) (st : ScanState) :
    st.seeds.length ≤
      (l.foldl (fun st c => identifyCell W L st c.1 c.2) st).seeds.length := by
  induction l generalizing st with
  | nil => exact le_refl _
  | cons a l ih =>
    simp only [List.foldl_cons]
    exact (identifyCell_seeds_le W L st a.1 a.2).trans (ih _)

/-- The connectivity invariant holds of the state in which the identification loop ends,
for a layer with mutual ports, provided every flood the loop called for was started:
either because the layer has fewer than 4095 components, or because fewer than 4095
floods were called for. -/
theorem findConnectedRegionsScan_regions {g0 : Grid} {W L : Nat} (h : g0.WF W L)
    (hs : Solved g0 W L) (hm : MutualPorts g0 W L)
    (hc : ComponentsFewerThan g0 W L 4095 ∨ floodFillsCalled g0 W L < 4095) :
    RegionInv g0 W L (rowMajor W L) (findConnectedRegionsScan g0 W L) := by
  have main : (fun pre st =>
      st = pre.foldl (fun st c => identifyCell W L st c.1 c.2)
        { grid := forCells W L compressCell g0, regionID := 1, seeds := [] } ∧
      ScanInv g0 W L pre st ∧ RegionInv g0 W L pre st) (rowMajor W L)
      (findConnectedRegionsScan g0 W L) := by
    unfold findConnectedRegionsScan
    apply foldl_prefix_induction (fun pre st =>
      st = pre.foldl (fun st c => identifyCell W L st c.1 c.2)
        { grid := forCells W L compressCell g0, regionID := 1, seeds := [] } ∧
      ScanInv g0 W L pre st ∧ RegionInv g0 W L pre st)
    · exact ⟨rfl, scanInv_init h hs, regionInv_init (scanInv_init h hs) rfl rfl⟩
    · rintro pre ⟨x0, y0⟩ suf st hl ⟨hst, sinv, inv⟩
      have hmem : (x0, y0) ∈ rowMajor W L := by rw [hl]; simp
      obtain ⟨hx0, hy0⟩ := mem_rowMajor.1 hmem
      refine ⟨?_, scanInv_step sinv hx0 hy0, ?_⟩
      · rw [List.foldl_append, ← hst]; rfl
      · apply regionInv_step hm sinv inv hx0 hy0
        · intro p hpx hpy hlt
          exact rowMajor_before hl hpx hpy hlt
        · intro hne hle
          rcases hc with hc | hc
          · exact regionInv_room hc sinv inv hx0 hy0 hle
          · by_contra hge
            have h1 : (identifyCell W L st x0 y0).seeds.length = st.seeds.length + 1 := by
              unfold identifyCell
              rw [if_pos ⟨hne, hle⟩, if_neg hge]
              simp
            have h2 := foldl_identifyCell_seeds_le W L suf (identifyCell W L st x0 y0)
            have h3 : floodFillsCalled g0 W L =
                (suf.foldl (fun st c => identifyCell W L st c.1 c.2)
                  (identifyCell W L st x0 y0)).seeds.length := by
              unfold floodFillsCalled findConnectedRegionsScan
              rw [hl, List.foldl_append, ← hst]; rfl
            have := sinv.rid_eq
            omega
  exact main.2.2

theorem rmIndex_inj {W : Nat} {c d : Nat × Nat} (hc : c.1 < W) (hd : d.1 < W)
    (h : rmIndex W c = rmIndex W d) : c = d := by
  obtain ⟨cx, cy⟩ := c
  obtain ⟨dx, dy⟩ := d
  unfold rmIndex at h
  simp only [] at hc hd h
  have hy : cy = dy := by
    rcases Nat.lt_trichotomy cy dy with hlt | heq | hgt
    · have := Nat.mul_le_mul_right W (show cy + 1 ≤ dy from hlt)
      rw [Nat.add_mul] at this
      omega
    · exact heq
    · have := Nat.mul_le_mul_right W (show dy + 1 ≤ cy from hgt)
      rw [Nat.add_mul] at this
      omega
  subst hy
  have hx : cx = dx := by omega
  rw [hx]

theorem portMatched_mutual {g : Grid} {W L : Nat} (h : PortMatched g W L) :
    MutualPorts g W L := by
  intro x hx y hy
  by_cases hz : g.get x y = 0
  · unfold MutualPortsAt
    rw [hz]
    exact ⟨fun h => absurd h (hasPort_zero _), fun h => absurd h (hasPort_zero _),
      fun h => absurd h (hasPort_zero _), fun h => absurd h (hasPort_zero _)⟩
  · obtain ⟨a, b, c, d⟩ := h x hx y hy hz
    exact ⟨fun p _ _ => (a p).2.2, fun p _ _ => (b p).2.2, fun p _ _ => (c p).2.2,
      fun p _ _ => (d p).2.2⟩

/-- Regions after identification, for a layer with mutual ports all of whose floods were
started: the list of flood seeds consists of the first cells of the components in
row-major order, seed number `i` and exactly the cells joined to it carry the region
`i + 1`, and every non-void cell carries such a region. -/
theorem regions_components {g : Grid} {W L : Nat} (hwf : g.WF W L) (hs : Solved g W L)
    (hm : MutualPorts g W L)
    (hc : ComponentsFewerThan g W L 4095 ∨ floodFillsCalled g W L < 4095) :
    (findConnectedRegionsScan g W L).seeds.length < 4095 ∧
    (findConnectedRegionsScan g W L).seeds.Sublist (rowMajor W L) ∧
    (∀ c, c ∈ (findConnectedRegionsScan g W L).seeds ↔ IsComponentFirst g W L c) ∧
    (∀ x, x < W → ∀ y, y < L → g.get x y ≠ 0 →
      ∃ i, i < (findConnectedRegionsScan g W L).seeds.length ∧
        (findConnectedRegionsInPlace g W L).get x y >>> 4 = i + 1) ∧
    (∀ i, i < (findConnectedRegionsScan g W L).seeds.length → ∀ x, x < W → ∀ y, y < L →
      g.get x y ≠ 0 →
      ((findConnectedRegionsInPlace g W L).get x y >>> 4 = i + 1 ↔
        Joined g W L ((findConnectedRegionsScan g W L).seeds.getD i (0, 0)) (x, y))) := by
  have sinv := findConnectedRegionsScan_inv hwf hs
  have inv := findConnectedRegionsScan_regions hwf hs hm hc
  have hcount := inv.count
  unfold findConnectedRegionsInPlace
  have big : ∀ x, x < W → ∀ y, y < L → 15 < (findConnectedRegionsScan g W L).grid.get x y := by
    intro x hx y hy
    by_contra hle
    have := sinv.visited (x, y) (mem_rowMajor.2 ⟨hx, hy⟩) (by simp only []; omega)
    omega
  refine ⟨hcount, inv.sub, ?_, ?_, ?_⟩
  · intro c
    constructor
    · intro hmem
      obtain ⟨i, hi, e⟩ := mem_getD hmem (0, 0)
      obtain ⟨a, b, c', _⟩ := inv.seed i hi
      have hf := inv.first i hi
      rw [e] at a b c' hf
      exact ⟨a, b, c', hf⟩
    · rintro ⟨a, b, c', hf⟩
      obtain ⟨i, hi, _, hj⟩ := inv.sound c.1 a c.2 b c' (big _ a _ b)
      have h1 := inv.first i hi _ hj
      have h2 := hf _ (joined_symm hj)
      have e := rmIndex_inj (inv.seed i hi).1 a (show rmIndex W _ = rmIndex W (c.1, c.2) by
        simp only [Prod.mk.eta] at h1 h2 ⊢; omega)
      simp only [Prod.mk.eta] at e
      rw [← e]
      exact getD_mem hi _
  · intro x hx y hy hnz
    obtain ⟨i, hi, hr, _⟩ := inv.sound x hx y hy hnz (big _ hx _ hy)
    exact ⟨i, hi, hr⟩
  · intro i hi x hx y hy hnz
    constructor
    · intro hr
      obtain ⟨j, hj, hr', hjoin⟩ := inv.sound x hx y hy hnz (big _ hx _ hy)
      have : j = i := by omega
      rw [this] at hjoin
      exact hjoin
    · intro hjoin
      obtain ⟨_, _, _, d, e⟩ := inv.seed i hi
      have := (regionInv_path inv hjoin d).2
      simp only [] at this
      rw [this, e]

/-- **Claim C9** (regions are the connected components). For a layer of void and
single-variant cells that satisfies port matching and has fewer than 4095 connected
components, after `findConnectedRegionsInPlace` two non-void cells carry the same
RegionID exactly when they are joined by a path of 4-adjacent cells with mutually open
ports. Moreover there is a list `firsts` of cells, in row-major order, consisting exactly
of the first cells of the components, so that its length `k` is the number of components;
the RegionIDs carried by non-void cells are exactly `1, ..., k`; and the cells carrying
RegionID `i + 1` are exactly those of the component of the `i`-th first cell. -/
theorem findConnectedRegions_regions_are_components (g : Grid) (W L : Nat) (hwf : g.WF W L)
    (hs : Solved g W L) (hpm : PortMatched g W L) (hc : ComponentsFewerThan g W L 4095) :
    (∀ x1, x1 < W → ∀ y1, y1 < L → ∀ x2, x2 < W → ∀ y2, y2 < L →
      g.get x1 y1 ≠ 0 → g.get x2 y2 ≠ 0 →
      ((findConnectedRegionsInPlace g W L).get x1 y1 >>> 4 =
          (findConnectedRegionsInPlace g W L).get x2 y2 >>> 4 ↔
        Joined g W L (x1, y1) (x2, y2))) ∧
    ∃ firsts : List (Nat × Nat),
      firsts.Sublist (rowMajor W L) ∧
      (∀ c, c ∈ firsts ↔ IsComponentFirst g W L c) ∧
      (∀ r, (∃ x, x < W ∧ ∃ y, y < L ∧ g.get x y ≠ 0 ∧
          (findConnectedRegionsInPlace g W L).get x y >>> 4 = r) ↔
        1 ≤ r ∧ r ≤ firsts.length) ∧
      (∀ i, i < firsts.length → ∀ x, x < W → ∀ y, y < L → g.get x y ≠ 0 →
        ((findConnectedRegionsInPlace g W L).get x y >>> 4 = i + 1 ↔
          Joined g W L (firsts.getD i (0, 0)) (x, y))) := by
  obtain ⟨_, hsub, hfirst, hall, hnum⟩ :=
    regions_components hwf hs (portMatched_mutual hpm) (Or.inl hc)
  refine ⟨?_, (findConnectedRegionsScan g W L).seeds, hsub, hfirst, ?_, hnum⟩
  · intro x1 hx1 y1 hy1 x2 hx2 y2 hy2 hn1 hn2
    obtain ⟨i, hi, hr1⟩ := hall x1 hx1 y1 hy1 hn1
    have j1 := (hnum i hi x1 hx1 y1 hy1 hn1).1 hr1
    constructor
    · intro e
      have j2 := (hnum i hi x2 hx2 y2 hy2 hn2).1 (by rw [← e]; exact hr1)
      exact Relation.ReflTransGen.trans (joined_symm j1) j2
    · intro hj
      have := (hnum i hi x2 hx2 y2 hy2 hn2).2 (Relation.ReflTransGen.trans j1 hj)
      rw [hr1, this]
  · intro r
    constructor
    · rintro ⟨x, hx, y, hy, hnz, hr⟩
      obtain ⟨i, hi, hr'⟩ := hall x hx y hy hnz
      omega
    · rintro ⟨h1, h2⟩
      have hi : r - 1 < (findConnectedRegionsScan g W L).seeds.length := by omega
      obtain ⟨a, b, c, _⟩ := (hfirst _).1 (getD_mem hi (0, 0))
      refine ⟨_, a, _, b, c, ?_⟩
      have := (hnum (r - 1) hi _ a _ b c).2 Relation.ReflTransGen.refl
      rw [this]; omega

/-- Instance of claim C9 on a 4 by 4 layer with two components. -/
theorem findConnectedRegions_regions_are_components_witness :
    (Grid.WF sampleTwoHalls 4 4 ∧ Solved sampleTwoHalls 4 4 ∧
      PortMatched sampleTwoHalls 4 4 ∧ ComponentsFewerThan sampleTwoHalls 4 4 4095) ∧
    ((∀ x1, x1 < 4 → ∀ y1, y1 < 4 → ∀ x2, x2 < 4 → ∀ y2, y2 < 4 →
      sampleTwoHalls.get x1 y1 ≠ 0 → sampleTwoHalls.get x2 y2 ≠ 0 →
      ((findConnectedRegionsInPlace sampleTwoHalls 4 4).get x1 y1 >>> 4 =
          (findConnectedRegionsInPlace sampleTwoHalls 4 4).get x2 y2 >>> 4 ↔
        Joined sampleTwoHalls 4 4 (x1, y1) (x2, y2))) ∧
    ∃ firsts : List (Nat × Nat),
      firsts.Sublist (rowMajor 4 4) ∧
      (∀ c, c ∈ firsts ↔ IsComponentFirst sampleTwoHalls 4 4 c) ∧
      (∀ r, (∃ x, x < 4 ∧ ∃ y, y < 4 ∧ sampleTwoHalls.get x y ≠ 0 ∧
          (findConnectedRegionsInPlace sampleTwoHalls 4 4).get x y >>> 4 = r) ↔
        1 ≤ r ∧ r ≤ firsts.length) ∧
      (∀ i, i < firsts.length → ∀ x, x < 4 → ∀ y, y < 4 → sampleTwoHalls.get x y ≠ 0 →
        ((findConnectedRegionsInPlace sampleTwoHalls 4 4).get x y >>> 4 = i + 1 ↔
          Joined sampleTwoHalls 4 4 (firsts.getD i (0, 0)) (x, y)))) :=
  have hc : ComponentsFewerThan sampleTwoHalls 4 4 4095 :=
    ⟨rowMajor 4 4, by decide, fun x hx y hy _ =>
      ⟨(x, y), mem_rowMajor.2 ⟨hx, hy⟩, Relation.ReflTransGen.refl⟩⟩
  ⟨⟨by decide, by decide, by decide, hc⟩,
    findConnectedRegions_regions_are_components sampleTwoHalls 4 4 (by decide) (by decide)
      (by decide) hc⟩

theorem getD_set_nat (l : List Nat) (i v x : Nat) (hi : i < l.length) :
    (l.set i v).getD x 0 = if x = i then v else l.getD x 0 := by
  rw [List.getD_eq_getElem?_getD, List.getD_eq_getElem?_getD, List.getElem?_set]
  by_cases h : i = x
  · subst h; simp [hi]
  · rw [if_neg h, if_neg (fun e => h e.symm)]

theorem nonRoots_le (parent : List Nat) : nonRoots parent ≤ parent.length := by
  unfold nonRoots
  exact (List.countP_le_length _).trans (by simp)

theorem countP_lt_of {l : List Nat} {p q : Nat → Bool} (hpq : ∀ x ∈ l, p x = true → q x = true)
    {a : Nat} (ha : a ∈ l) (hpa : p a = false) (hqa : q a = true) :
    l.countP p < l.countP q := by
  induction l with
  | nil => simp at ha
  | cons b l ih =>
    rw [List.countP_cons, List.countP_cons]
    have hmono : l.countP p ≤ l.countP q :=
      List.countP_mono_left (fun x hx => hpq x (List.mem_cons_of_mem _ hx))
    rcases List.mem_cons.1 ha with e | hl
    · subst e
      rw [hpa, hqa]; simp; omega
    · have := ih (fun x hx => hpq x (List.mem_cons_of_mem _ hx)) hl
      by_cases hb : p b = true
      · rw [hb, hpq b (List.mem_cons_self _ _) hb]; omega
      · have hb' : p b = false := by simpa using hb
        rw [hb']; simp; omega

/-- Overwriting an entry by a value other than its index keeps every linked element
linked. -/
theorem nonRoots_set_le (parent : List Nat) {i v : Nat} (hi : i < parent.length) (hv : v ≠ i) :
    nonRoots parent ≤ nonRoots (parent.set i v) := by
  unfold nonRoots
  rw [List.length_set]
  apply List.countP_mono_left
  intro x _ hx
  rw [getD_set_nat _ _ _ _ hi]
  by_cases e : x = i
  · rw [if_pos e, e]; simpa using hv
  · rw [if_neg e]; exact hx

/-- Linking a root below another element adds a linked element. -/
theorem nonRoots_set_lt (parent : List Nat) {i v : Nat} (hi : i < parent.length) (hv : v ≠ i)
    (hroot : parent.getD i 0 = i) : nonRoots parent < nonRoots (parent.set i v) := by
  unfold nonRoots
  rw [List.length_set]
  apply countP_lt_of (a := i)
  · intro x _ hx
    rw [getD_set_nat _ _ _ _ hi]
    by_cases e : x = i
    · rw [if_pos e, e]; simpa using hv
    · rw [if_neg e]; exact hx
  · exact List.mem_range.2 hi
  · simpa using hroot
  · rw [getD_set_nat _ _ _ _ hi, if_pos rfl]; simpa using hv

theorem ufInv_init (n : Nat) : UFInv (createUnionFind n) id (fun _ => 0) 0 := by
  have hg : ∀ x, x < (createUnionFind n).length → (createUnionFind n).getD x 0 = x := by
    intro x hx
    unfold createUnionFind at hx ⊢
    rw [List.getD_eq_getElem?_getD, List.getElem?_eq_getElem hx]
    simp
  refine ⟨?_, ?_, ?_, ?_, ?_, ?_, ?_, Nat.zero_le _⟩
  · intro x hx; rw [hg x hx]; exact hx
  · intro x hx; rw [hg x hx]
  · intro x hx; exact ⟨hx, hg x hx⟩
  · intro x _ _; rfl
  · intro x hx h; exact absurd (hg x hx) h
  · intro x _ h; exact absurd rfl h
  · intro x _; exact le_refl _

/-- An element other than its representative lies strictly below it. -/
theorem ufInv_rep_ne {parent : List Nat} {rep rk : Nat → Nat} {H : Nat}
    (inv : UFInv parent rep rk H) {i : Nat} (hi : i < parent.length)
    (hne : parent.getD i 0 ≠ i) : rep i ≠ i := by
  intro e
  have h1 := inv.rank i hi hne
  have hj := inv.bound i hi
  have h2 := inv.rep_parent i hi
  by_cases h3 : rep (parent.getD i 0) = parent.getD i 0
  · rw [h3, e] at h2; exact hne h2
  · have := inv.rank_rep _ hj h3
    rw [h2, e] at this
    omega

/-- Compressing one element onto its representative keeps the invariant. -/
theorem ufInv_compress {parent : List Nat} {rep rk : Nat → Nat} {H : Nat}
    (inv : UFInv parent rep rk H) {i : Nat} (hi : i < parent.length) (hne : rep i ≠ i) :
    UFInv (parent.set i (rep i)) rep rk H := by
  have hg := getD_set_nat parent i (rep i)
  refine ⟨?_, ?_, ?_, ?_, ?_, ?_, ?_, ?_⟩
  all_goals try simp only [List.length_set]
  · intro x hx
    rw [hg x hi]
    split
    · exact (inv.rep_root i hi).1
    · exact inv.bound x hx
  · intro x hx
    rw [hg x hi]
    split
    · rename_i e
      rw [e]
      have := inv.rep_root i hi
      exact inv.root_rep _ this.1 this.2
    · exact inv.rep_parent x hx
  · intro x hx
    refine ⟨(inv.rep_root x hx).1, ?_⟩
    rw [hg _ hi]
    split
    · rename_i e
      have := inv.rep_root x hx
      have h2 := inv.root_rep _ this.1 this.2
      rw [e] at h2 ⊢
      exact h2
    · exact (inv.rep_root x hx).2
  · intro x hx h
    rw [hg x hi] at h
    split at h
    · rename_i e; rw [e] at h ⊢; exact h
    · exact inv.root_rep x hx h
  · intro x hx h
    rw [hg x hi] at h ⊢
    split
    · rename_i e; rw [e]; exact inv.rank_rep i hi hne
    · rename_i e; rw [if_neg e] at h; exact inv.rank x hx h
  · exact inv.rank_rep
  · exact inv.rk_le
  · exact inv.pot.trans (nonRoots_set_le parent hi hne)

/-- The function `findSet` returns the representative and keeps the invariant, when the
fuel covers the distance to the largest rank. -/
theorem findSet_spec {rep rk : Nat → Nat} {H : Nat} :
    ∀ (fuel : Nat) (parent : List Nat) (i : Nat), UFInv parent rep rk H → i < parent.length →
      H - rk i ≤ fuel →
      (findSet fuel parent i).2 = rep i ∧ (findSet fuel parent i).1.length = parent.length ∧
      UFInv (findSet fuel parent i).1 rep rk H := by
  intro fuel
  induction fuel with
  | zero =>
    intro parent i inv hi hf
    unfold findSet
    refine ⟨?_, rfl, inv⟩
    by_contra hne
    have h1 := inv.rank_rep i hi (fun e => hne e.symm)
    have h2 := inv.rk_le _ (inv.rep_root i hi).1
    omega
  | succ fuel ih =>
    intro parent i inv hi hf
    unfold findSet
    split
    · rename_i e
      exact ⟨(inv.root_rep i hi e).symm, rfl, inv⟩
    · rename_i hne
      have hj := inv.bound i hi
      have h1 := inv.rank i hi hne
      have h2 := inv.rk_le _ hj
      obtain ⟨r1, r2, r3⟩ := ih parent (parent.getD i 0) inv hj (by omega)
      simp only []
      rw [r1, inv.rep_parent i hi]
      refine ⟨rfl, by rw [List.length_set, r2], ?_⟩
      exact ufInv_compress r3 (by rw [r2]; exact hi) (ufInv_rep_ne inv hi hne)

/-- Linking the root `ri` below the root `rj` keeps the invariant for the merged
representatives. -/
theorem ufInv_link {parent : List Nat} {rep rk : Nat → Nat} {H : Nat}
    (inv : UFInv parent rep rk H) {ri rj : Nat} (hi : ri < parent.length)
    (hj : rj < parent.length) (hri : parent.getD ri 0 = ri) (hrj : parent.getD rj 0 = rj)
    (hne : ri ≠ rj) :
    UFInv (parent.set ri rj) (fun x => if rep x = ri then rj else rep x)
      (fun x => if x = rj then max (rk rj) (rk ri + 1) else rk x) (H + 1) := by
  have hg := getD_set_nat parent ri rj
  have eri := inv.root_rep ri hi hri
  have erj := inv.root_rep rj hj hrj
  refine ⟨?_, ?_, ?_, ?_, ?_, ?_, ?_, ?_⟩
  all_goals try simp only [List.length_set]
  · intro x hx
    rw [hg x hi]
    split
    · exact hj
    · exact inv.bound x hx
  · intro x hx
    rw [hg x hi]
    by_cases e : x = ri
    · rw [if_pos e, e, erj, eri, if_neg (fun h => hne h.symm), if_pos rfl]
    · rw [if_neg e, inv.rep_parent x hx]
  · intro x hx
    by_cases e : rep x = ri
    · rw [if_pos e]
      refine ⟨hj, ?_⟩
      rw [hg rj hi, if_neg (fun h => hne h.symm)]; exact hrj
    · rw [if_neg e]
      refine ⟨(inv.rep_root x hx).1, ?_⟩
      rw [hg _ hi, if_neg e]; exact (inv.rep_root x hx).2
  · intro x hx h
    rw [hg x hi] at h
    by_cases e : x = ri
    · rw [if_pos e] at h; exact absurd (h.trans e).symm hne
    · rw [if_neg e] at h
      have := inv.root_rep x hx h
      rw [this, if_neg e]
  · intro x hx h
    rw [hg x hi] at h ⊢
    by_cases e : x = ri
    · rw [if_pos e, e, if_neg hne, if_pos rfl]
      omega
    · rw [if_neg e] at h ⊢
      have h1 := inv.rank x hx h
      have hxj : x ≠ rj := fun e' => h (by rw [e']; exact hrj)
      rw [if_neg hxj]
      split
      · rename_i e2; rw [e2] at h1; omega
      · exact h1
  · intro x hx h
    by_cases e : rep x = ri
    · rw [if_pos e] at h ⊢
      rw [if_neg (fun e' => h e'.symm), if_pos rfl]
      by_cases exi : x = ri
      · rw [exi]; omega
      · have := inv.rank_rep x hx (by rw [e]; exact fun h' => exi h'.symm)
        rw [e] at this
        omega
    · rw [if_neg e] at h ⊢
      have h1 := inv.rank_rep x hx h
      have hxj : x ≠ rj := by
        intro e'
        rw [e', erj] at h
        exact h rfl
      rw [if_neg hxj]
      split
      · rename_i e2; rw [e2] at h1; omega
      · exact h1
  · intro x hx
    have := inv.rk_le x hx
    have h1 := inv.rk_le rj hj
    have h2 := inv.rk_le ri hi
    split <;> omega
  · have := nonRoots_set_lt parent hi (fun h => hne h.symm) hri
    have := inv.pot
    omega

theorem unionSets_spec {rep rk : Nat → Nat} {H fuel : Nat} {parent : List Nat}
    (inv : UFInv parent rep rk H) {a b : Nat} (ha : a < parent.length) (hb : b < parent.length)
    (hf : H ≤ fuel) (hne : rep a ≠ rep b) :
    (unionSets fuel parent a b).length = parent.length ∧
    UFInv (unionSets fuel parent a b) (fun x => if rep x = rep a then rep b else rep x)
      (fun x => if x = rep b then max (rk (rep b)) (rk (rep a) + 1) else rk x) (H + 1) := by
  obtain ⟨a1, a2, a3⟩ := findSet_spec fuel parent a inv ha (by omega)
  obtain ⟨b1, b2, b3⟩ := findSet_spec fuel (findSet fuel parent a).1 b a3 (by rw [a2]; exact hb)
    (by omega)
  unfold unionSets
  simp only []
  rw [a1, b1, if_pos hne]
  have hl : (findSet fuel (findSet fuel parent a).1 b).1.length = parent.length := by
    rw [b2, a2]
  have ra := b3.rep_root a (by rw [hl]; exact ha)
  have rb := b3.rep_root b (by rw [hl]; exact hb)
  refine ⟨by rw [List.length_set, hl], ?_⟩
  exact ufInv_link b3 ra.1 rb.1 ra.2 rb.2 hne

theorem weldStep_carve {fuel : Nat} {st : WeldState} {b : Bridge}
    (h : (findSet fuel st.parent b.regionA).2 ≠
      (findSet fuel (findSet fuel st.parent b.regionA).1 b.regionB).2) :
    weldStep fuel st b =
      { grid := openWallPacked (openWallPacked st.grid b.x b.y b.dir)
          (b.x + (if b.dir = DIR_E then 1 else 0)) (b.y + (if b.dir = DIR_S then 1 else 0))
          (if b.dir = DIR_E then DIR_W else DIR_N),
        parent := unionSets fuel (findSet fuel (findSet fuel st.parent b.regionA).1 b.regionB).1
          b.regionA b.regionB,
        carved := st.carved ++ [b] } := by
  unfold weldStep
  simp only []
  rw [if_pos h]

theorem weldStep_skip {fuel : Nat} {st : WeldState} {b : Bridge}
    (h : ¬ (findSet fuel st.parent b.regionA).2 ≠
      (findSet fuel (findSet fuel st.parent b.regionA).1 b.regionB).2) :
    weldStep fuel st b =
      { st with parent := (findSet fuel (findSet fuel st.parent b.regionA).1 b.regionB).1 } := by
  unfold weldStep
  simp only []
  rw [if_neg h]

/-- Carving only adds links: a link of an earlier Kruskal state is a link of a later one. -/
theorem linkedPacked_mono {g0 : Grid} {W L : Nat} {st st' : WeldState}
    (inv : WeldInv g0 W L st) (inv' : WeldInv g0 W L st')
    (hsub : ∀ b ∈ st.carved, b ∈ st'.carved) {p q : Nat × Nat}
    (h : LinkedPacked st.grid W L p q) : LinkedPacked st'.grid W L p q := by
  have port : ∀ x y d, d ∈ dirs → portOpen (st.grid.get x y) d → portOpen (st'.grid.get x y) d := by
    intro x y d hd hp
    rcases (inv.ports x y d hd).1 hp with h0 | ⟨b, hb, hbp⟩
    · exact (inv'.ports x y d hd).2 (Or.inl h0)
    · exact (inv'.ports x y d hd).2 (Or.inr ⟨b, hsub b hb, hbp⟩)
  have void : ∀ x y, st.grid.get x y ≠ 0xFFFF → st'.grid.get x y ≠ 0xFFFF := by
    intro x y hne e
    exact hne ((inv.void_iff x y).2 ((inv'.void_iff x y).1 e))
  obtain ⟨h1, h2, h3, h4, h5, h6, h7⟩ := h
  refine ⟨h1, h2, h3, h4, void _ _ h5, void _ _ h6, ?_⟩
  rcases h7 with ⟨a, b, c, d⟩ | ⟨a, b, c, d⟩ | ⟨a, b, c, d⟩ | ⟨a, b, c, d⟩
  · exact Or.inl ⟨a, b, port _ _ _ mem_dirs_N c, port _ _ _ mem_dirs_S d⟩
  · exact Or.inr (Or.inl ⟨a, b, port _ _ _ mem_dirs_E c, port _ _ _ mem_dirs_W d⟩)
  · exact Or.inr (Or.inr (Or.inl ⟨a, b, port _ _ _ mem_dirs_S c, port _ _ _ mem_dirs_N d⟩))
  · exact Or.inr (Or.inr (Or.inr ⟨a, b, port _ _ _ mem_dirs_W c, port _ _ _ mem_dirs_E d⟩))

theorem linkedPacked_symm {g : Grid} {W L : Nat} {p q : Nat × Nat}
    (h : LinkedPacked g W L p q) : LinkedPacked g W L q p := by
  obtain ⟨h1, h2, h3, h4, h5, h6, h7⟩ := h
  refine ⟨h3, h4, h1, h2, h6, h5, ?_⟩
  rcases h7 with ⟨a, b, c, d⟩ | ⟨a, b, c, d⟩ | ⟨a, b, c, d⟩ | ⟨a, b, c, d⟩
  · exact Or.inr (Or.inr (Or.inl ⟨a.symm, b.symm, d, c⟩))
  · exact Or.inr (Or.inr (Or.inr ⟨a.symm, b.symm, d, c⟩))
  · exact Or.inl ⟨a.symm, b.symm, d, c⟩
  · exact Or.inr (Or.inl ⟨a.symm, b.symm, d, c⟩)

/-- The two cells of a carved bridge: the second cell lies in the layer, is non-void,
carries region B, and the two cells are linked in the current grid. -/
theorem carved_link {g0 : Grid} {W L : Nat} {st : WeldState} (inv : WeldInv g0 W L st)
    {b : Bridge} (hb : b ∈ st.carved) :
    ∃ c : Nat × Nat, c.1 < W ∧ c.2 < L ∧ g0.get c.1 c.2 ≠ 0xFFFF ∧
      b.regionB = g0.get c.1 c.2 >>> 4 ∧ LinkedPacked st.grid W L (b.x, b.y) c := by
  obtain ⟨hx, hy, hA, _, _, hdir⟩ := inv.valid b hb
  have nv : ∀ x y, g0.get x y ≠ 0xFFFF → st.grid.get x y ≠ 0xFFFF :=
    fun x y hne e => hne ((inv.void_iff x y).1 e)
  rcases hdir with ⟨hd, hx1, hB, hrB⟩ | ⟨hd, hy1, hB, hrB⟩
  · refine ⟨(b.x + 1, b.y), hx1, hy, hB, hrB, hx, hy, hx1, hy, nv _ _ hA, nv _ _ hB, ?_⟩
    refine Or.inr (Or.inl ⟨rfl, rfl, ?_, ?_⟩)
    · exact (inv.ports _ _ _ mem_dirs_E).2 (Or.inr ⟨b, hb, Or.inl ⟨hd, Or.inl ⟨rfl, rfl, rfl⟩⟩⟩)
    · exact (inv.ports _ _ _ mem_dirs_W).2 (Or.inr ⟨b, hb, Or.inl ⟨hd, Or.inr ⟨rfl, rfl, rfl⟩⟩⟩)
  · refine ⟨(b.x, b.y + 1), hx, hy1, hB, hrB, hx, hy, hx, hy1, nv _ _ hA, nv _ _ hB, ?_⟩
    refine Or.inr (Or.inr (Or.inl ⟨rfl, rfl, ?_, ?_⟩))
    · exact (inv.ports _ _ _ mem_dirs_S).2 (Or.inr ⟨b, hb, Or.inr ⟨hd, Or.inl ⟨rfl, rfl, rfl⟩⟩⟩)
    · exact (inv.ports _ _ _ mem_dirs_N).2 (Or.inr ⟨b, hb, Or.inr ⟨hd, Or.inr ⟨rfl, rfl, rfl⟩⟩⟩)

/-- The second cell of a valid bridge. -/
theorem validBridge_second {g0 : Grid} {W L : Nat} {b : Bridge} (hb : ValidBridge g0 W L b) :
    ∃ c : Nat × Nat, c.1 < W ∧ c.2 < L ∧ g0.get c.1 c.2 ≠ 0xFFFF ∧
      b.regionB = g0.get c.1 c.2 >>> 4 := by
  obtain ⟨hx, hy, hA, _, _, hdir⟩ := hb
  rcases hdir with ⟨hd, hx1, hB, hrB⟩ | ⟨hd, hy1, hB, hrB⟩
  · exact ⟨(b.x + 1, b.y), hx1, hy, hB, hrB⟩
  · exact ⟨(b.x, b.y + 1), hx, hy1, hB, hrB⟩

/-- One Kruskal step on a valid bridge keeps the Kruskal invariant. -/
theorem kruskal_step {g0 : Grid} {W L N : Nat} {done : List Bridge} {st : WeldState}
    (inv : KruskalInv g0 W L N done st) {b : Bridge} (hb : ValidBridge g0 W L b)
    (hN : ∀ x, x < W → ∀ y, y < L → g0.get x y ≠ 0xFFFF → g0.get x y >>> 4 < N) :
    KruskalInv g0 W L N (done ++ [b]) (weldStep N st b) := by
  obtain ⟨weld, hlen, rep, rk, H, uf, k2, k3⟩ := inv
  have weld' := weldInv_step weld hb N
  have hHN : H ≤ N := by
    have := uf.pot
    have := nonRoots_le st.parent
    omega
  have hA : b.regionA < st.parent.length := by
    rw [hlen, hb.2.2.2.1]; exact hN _ hb.1 _ hb.2.1 hb.2.2.1
  obtain ⟨cB, cB1, cB2, cB3, cB4⟩ := validBridge_second hb
  have hB : b.regionB < st.parent.length := by
    rw [hlen, cB4]; exact hN _ cB1 _ cB2 cB3
  obtain ⟨a1, a2, a3⟩ := findSet_spec N st.parent b.regionA uf hA (by omega)
  obtain ⟨b1, b2, b3⟩ := findSet_spec N (findSet N st.parent b.regionA).1 b.regionB a3
    (by rw [a2]; exact hB) (by omega)
  have hl : (findSet N (findSet N st.parent b.regionA).1 b.regionB).1.length =
      st.parent.length := by rw [b2, a2]
  by_cases hc : (findSet N st.parent b.regionA).2 ≠
      (findSet N (findSet N st.parent b.regionA).1 b.regionB).2
  · have hne : rep b.regionA ≠ rep b.regionB := by rw [← a1, ← b1]; exact hc
    have e := weldStep_carve hc
    obtain ⟨u1, u2⟩ := unionSets_spec b3 (by rw [hl]; exact hA) (by rw [hl]; exact hB) hHN hne
    have hcar : (weldStep N st b).carved = st.carved ++ [b] := by rw [e]
    have hpar : (weldStep N st b).parent = unionSets N
        (findSet N (findSet N st.parent b.regionA).1 b.regionB).1 b.regionA b.regionB := by
      rw [e]
    have mono : ∀ p q, JoinedPacked st.grid W L p q → JoinedPacked (weldStep N st b).grid W L p q :=
      fun p q h => Relation.ReflTransGen.mono
        (fun _ _ h => linkedPacked_mono weld weld' (fun b' hb' => by
          rw [hcar]; exact List.mem_append_left _ hb') h) h
    obtain ⟨c, c1, c2, c3, c4, clink⟩ := carved_link weld' (b := b) (by rw [hcar]; simp)
    have hAB : JoinedPacked (weldStep N st b).grid W L (b.x, b.y) c :=
      Relation.ReflTransGen.single clink
    have hBA : JoinedPacked (weldStep N st b).grid W L c (b.x, b.y) :=
      Relation.ReflTransGen.single (linkedPacked_symm clink)
    have rA : b.regionA = g0.get b.x b.y >>> 4 := hb.2.2.2.1
    refine ⟨weld', by rw [hpar, u1, hl, hlen], _, _, _, by rw [hpar]; exact u2, ?_, ?_⟩
    · intro p q p1 p2 p3 q1 q2 q3 hrep
      by_cases hp : rep (g0.get p.1 p.2 >>> 4) = rep b.regionA
      · by_cases hq : rep (g0.get q.1 q.2 >>> 4) = rep b.regionA
        · exact mono _ _ (k2 p q p1 p2 p3 q1 q2 q3 (hp.trans hq.symm))
        · rw [if_pos hp, if_neg hq] at hrep
          have j1 := mono _ _ (k2 p (b.x, b.y) p1 p2 p3 hb.1 hb.2.1 hb.2.2.1 (by rw [hp, rA]))
          have j2 := mono _ _ (k2 c q c1 c2 c3 q1 q2 q3 (by rw [← c4, hrep]))
          exact Relation.ReflTransGen.trans j1 (Relation.ReflTransGen.trans hAB j2)
      · by_cases hq : rep (g0.get q.1 q.2 >>> 4) = rep b.regionA
        · rw [if_neg hp, if_pos hq] at hrep
          have j1 := mono _ _ (k2 p c p1 p2 p3 c1 c2 c3 (by rw [← c4, hrep]))
          have j2 := mono _ _ (k2 (b.x, b.y) q hb.1 hb.2.1 hb.2.2.1 q1 q2 q3 (by rw [hq, rA]))
          exact Relation.ReflTransGen.trans j1 (Relation.ReflTransGen.trans hBA j2)
        · rw [if_neg hp, if_neg hq] at hrep
          exact mono _ _ (k2 p q p1 p2 p3 q1 q2 q3 hrep)
    · intro b' hb'
      rcases List.mem_append.1 hb' with h | h
      · rw [k3 b' h]
      · rw [List.mem_singleton.1 h, if_pos rfl]
        split <;> rfl
  · have heq : rep b.regionA = rep b.regionB := by
      rw [← a1, ← b1]; exact not_not.1 hc
    have e := weldStep_skip hc
    have hg : (weldStep N st b).grid = st.grid := by rw [e]
    have hpar : (weldStep N st b).parent =
        (findSet N (findSet N st.parent b.regionA).1 b.regionB).1 := by rw [e]
    refine ⟨weld', by rw [hpar, hl, hlen], rep, rk, H, by rw [hpar]; exact b3, ?_, ?_⟩
    · rw [hg]; exact k2
    · intro b' hb'
      rcases List.mem_append.1 hb' with h | h
      · exact k3 b' h
      · rw [List.mem_singleton.1 h]; exact heq

theorem kruskal_foldl {g0 : Grid} {W L N : Nat}
    (hN : ∀ x, x < W → ∀ y, y < L → g0.get x y ≠ 0xFFFF → g0.get x y >>> 4 < N)
    (bs : List Bridge) (hbs : ∀ b ∈ bs, ValidBridge g0 W L b) :
    ∀ done st, KruskalInv g0 W L N done st →
      KruskalInv g0 W L N (done ++ bs) (bs.foldl (weldStep N) st) := by
  induction bs with
  | nil => intro done st h; simpa using h
  | cons b bs ih =>
    intro done st h
    simp only [List.foldl_cons]
    have := ih (fun b' hb' => hbs b' (List.mem_cons_of_mem _ hb')) (done ++ [b]) _
      (kruskal_step h (hbs b (List.mem_cons_self _ _)) hN)
    simpa using this

theorem foldl_maxRegion_ge (g : Grid) (l : List (Nat × Nat)) :
    ∀ m, m ≤ l.foldl (fun m c =>
        if g.get c.1 c.2 = 0xFFFF then m
        else if g.get c.1 c.2 >>> 4 > m then g.get c.1 c.2 >>> 4 else m) m ∧
      ∀ c ∈ l, g.get c.1 c.2 ≠ 0xFFFF → g.get c.1 c.2 >>> 4 ≤ l.foldl (fun m c =>
        if g.get c.1 c.2 = 0xFFFF then m
        else if g.get c.1 c.2 >>> 4 > m then g.get c.1 c.2 >>> 4 else m) m := by
  induction l with
  | nil => intro m; exact ⟨le_refl _, fun c hc => by simp at hc⟩
  | cons a l ih =>
    intro m
    simp only [List.foldl_cons]
    obtain ⟨h1, h2⟩ := ih (if g.get a.1 a.2 = 0xFFFF then m
        else if g.get a.1 a.2 >>> 4 > m then g.get a.1 a.2 >>> 4 else m)
    have hm : m ≤ (if g.get a.1 a.2 = 0xFFFF then m
        else if g.get a.1 a.2 >>> 4 > m then g.get a.1 a.2 >>> 4 else m) := by
      split
      · exact le_refl _
      · split <;> omega
    refine ⟨hm.trans h1, ?_⟩
    intro c hc hne
    rcases List.mem_cons.1 hc with e | hl
    · subst e
      refine le_trans ?_ h1
      rw [if_neg hne]
      split <;> omega
    · exact h2 c hl hne

/-- The first loop of the welder finds a bound of every region in use. -/
theorem maxRegionScan_ge {g : Grid} {W L : Nat} {x y : Nat} (hx : x < W) (hy : y < L)
    (hne : g.get x y ≠ 0xFFFF) : g.get x y >>> 4 ≤ maxRegionScan g W L := by
  unfold maxRegionScan
  exact (foldl_maxRegion_ge g (rowMajor W L) 0).2 (x, y) (mem_rowMajor.2 ⟨hx, hy⟩) hne

/-- Kruskal's loop leaves regions that face each other across a wall in one set, and
cells of one set joined. -/
theorem germanWelderState_sets {g : Grid} {W L : Nat} (hwf : g.WF W L)
    (h16 : ∀ x y, g.get x y < 65536) (rng : Nat)
    (hreg : ∀ p q : Nat × Nat, p.1 < W → p.2 < L → g.get p.1 p.2 ≠ 0xFFFF →
      q.1 < W → q.2 < L → g.get q.1 q.2 ≠ 0xFFFF →
      g.get p.1 p.2 >>> 4 = g.get q.1 q.2 >>> 4 → JoinedPacked g W L p q)
    (hpos : ∀ x, x < W → ∀ y, y < L → g.get x y ≠ 0xFFFF → 1 ≤ g.get x y >>> 4) :
    ∃ rep : Nat → Nat,
      (∀ b, ValidBridge g W L b → rep b.regionA = rep b.regionB) ∧
      (∀ p q : Nat × Nat, p.1 < W → p.2 < L → g.get p.1 p.2 ≠ 0xFFFF →
        q.1 < W → q.2 < L → g.get q.1 q.2 ≠ 0xFFFF →
        rep (g.get p.1 p.2 >>> 4) = rep (g.get q.1 q.2 >>> 4) →
        JoinedPacked (germanWelderState g W L rng).1.grid W L p q) := by
  unfold germanWelderState
  simp only []
  split
  · rename_i hmax
    refine ⟨id, ?_, hreg⟩
    intro b hb
    obtain ⟨c, c1, c2, c3, c4⟩ := validBridge_second hb
    have h1 := hpos _ hb.1 _ hb.2.1 hb.2.2.1
    have h2 := maxRegionScan_ge hb.1 hb.2.1 hb.2.2.1
    have h3 := hpos _ c1 _ c2 c3
    have h4 := maxRegionScan_ge c1 c2 c3
    simp only [id]
    rw [hb.2.2.2.1, c4]
    omega
  · split
    · rename_i hlen
      refine ⟨id, ?_, hreg⟩
      intro b hb
      have := mem_collectBridges.2 hb
      rw [List.length_eq_zero.1 hlen] at this
      simp at this
    · have hinit : KruskalInv g W L (createUnionFind (maxRegionScan g W L)).length []
          ⟨g, createUnionFind (maxRegionScan g W L), []⟩ := by
        refine ⟨weldInv_init hwf h16 _, rfl, id, fun _ => 0, 0, ufInv_init _, ?_, ?_⟩
        · exact hreg
        · intro b hb; simp at hb
      have hN : ∀ x, x < W → ∀ y, y < L → g.get x y ≠ 0xFFFF →
          g.get x y >>> 4 < (createUnionFind (maxRegionScan g W L)).length := by
        intro x hx y hy hne
        have := maxRegionScan_ge hx hy hne
        unfold createUnionFind
        simp only [List.length_range]
        omega
      have hval : ∀ b ∈ (shuffleBridges (collectBridges g W L) rng).1, ValidBridge g W L b :=
        fun b hb => mem_collectBridges.1 (((shuffleBridges_spec _ rng).2 b).1 hb)
      obtain ⟨_, _, rep, _, _, _, k2, k3⟩ := kruskal_foldl hN _ hval [] _ hinit
      refine ⟨rep, ?_, k2⟩
      intro b hb
      apply k3
      simp only [List.nil_append]
      exact ((shuffleBridges_spec _ rng).2 b).2 (mem_collectBridges.2 hb)

/-- Two 4-adjacent non-void cells of a packed layer have the same region or face each
other across a valid bridge. -/
theorem adjacent_bridge {g : Grid} {W L : Nat} {rep : Nat → Nat}
    (hbr : ∀ b, ValidBridge g W L b → rep b.regionA = rep b.regionB)
    {bx by' cx cy : Nat} (b3 : g.get bx by' ≠ 0xFFFF) (c3 : g.get cx cy ≠ 0xFFFF)
    (hadj : Adjacent W L (bx, by') (cx, cy)) :
    rep (g.get bx by' >>> 4) = rep (g.get cx cy >>> 4) := by
  obtain ⟨b1, b2, c1, c2, hadj⟩ := hadj
  simp only [] at b1 b2 c1 c2 hadj
  by_cases heq : g.get bx by' >>> 4 = g.get cx cy >>> 4
  · rw [heq]
  · rcases hadj with ⟨e1, e2⟩ | ⟨e1, e2⟩ | ⟨e1, e2⟩ | ⟨e1, e2⟩
    · subst e1; subst e2
      exact (hbr ⟨g.get cx cy >>> 4, g.get cx (cy + 1) >>> 4, cx, cy, DIR_S⟩
        ⟨c1, c2, c3, rfl, fun e => heq e.symm, Or.inr ⟨rfl, b2, b3, rfl⟩⟩).symm
    · subst e1; subst e2
      exact hbr ⟨g.get bx cy >>> 4, g.get (bx + 1) cy >>> 4, bx, cy, DIR_E⟩
        ⟨b1, b2, b3, rfl, heq, Or.inl ⟨rfl, c1, c3, rfl⟩⟩
    · subst e1; subst e2
      exact hbr ⟨g.get cx by' >>> 4, g.get cx (by' + 1) >>> 4, cx, by', DIR_S⟩
        ⟨b1, b2, b3, rfl, heq, Or.inr ⟨rfl, c2, c3, rfl⟩⟩
    · subst e1; subst e2
      exact (hbr ⟨g.get cx cy >>> 4, g.get (cx + 1) cy >>> 4, cx, cy, DIR_E⟩
        ⟨c1, c2, c3, rfl, fun e => heq e.symm, Or.inl ⟨rfl, b1, b3, rfl⟩⟩).symm

/-- Across every wall between two non-void cells the welder leaves the two regions in one
set, so 4-connected non-void cells end up joined. -/
theorem germanWelder_connects {g : Grid} {W L : Nat} (hwf : g.WF W L)
    (h16 : ∀ x y, g.get x y < 65536) (rng : Nat)
    (hreg : ∀ p q : Nat × Nat, p.1 < W → p.2 < L → g.get p.1 p.2 ≠ 0xFFFF →
      q.1 < W → q.2 < L → g.get q.1 q.2 ≠ 0xFFFF →
      g.get p.1 p.2 >>> 4 = g.get q.1 q.2 >>> 4 → JoinedPacked g W L p q)
    (hpos : ∀ x, x < W → ∀ y, y < L → g.get x y ≠ 0xFFFF → 1 ≤ g.get x y >>> 4)
    {p q : Nat × Nat} (hp1 : p.1 < W) (hp2 : p.2 < L) (hp3 : g.get p.1 p.2 ≠ 0xFFFF)
    (hpath : Relation.ReflTransGen (fun a b => Adjacent W L a b ∧ g.get b.1 b.2 ≠ 0xFFFF) p q) :
    JoinedPacked (germanWelderInPlace g W L rng).1 W L p q := by
  obtain ⟨rep, hbr, hjoin⟩ := germanWelderState_sets hwf h16 rng hreg hpos
  have key : q.1 < W ∧ q.2 < L ∧ g.get q.1 q.2 ≠ 0xFFFF ∧
      rep (g.get p.1 p.2 >>> 4) = rep (g.get q.1 q.2 >>> 4) := by
    induction hpath with
    | refl => exact ⟨hp1, hp2, hp3, rfl⟩
    | tail _ hstep ih =>
      obtain ⟨_, _, b3, ih⟩ := ih
      exact ⟨hstep.1.2.2.1, hstep.1.2.2.2.1, hstep.2,
        ih.trans (adjacent_bridge hbr b3 hstep.2 hstep.1)⟩
  exact hjoin p q hp1 hp2 hp3 key.1 key.2.1 key.2.2.1 key.2.2.2

/-- A packed cell showing a variant has the ports of the variant. -/
theorem portOpen_of_view {v p k d : Nat} (hk : k < 16) (hv : v = 2 ^ k) (hp : p &&& 0xF = k) :
    portOpen p d ↔ hasPort v d := by
  unfold portOpen packedFlags hasPort
  rw [hp, indexToMask_eq k hk, hv]

/-- An open-port adjacency of the unpacked layer is one of its packed view. -/
theorem linked_packed {g gs : Grid} {W L : Nat} (view : TileView g gs W L) {p q : Nat × Nat}
    (h : Linked g W L p q) : LinkedPacked gs W L p q := by
  have cell : ∀ x, x < W → ∀ y, y < L → ∀ d, hasPort (g.get x y) d →
      gs.get x y ≠ 0xFFFF ∧ portOpen (gs.get x y) d := by
    intro x hx y hy d hd
    rcases view x hx y hy with ⟨hz, _⟩ | ⟨k, hk, hv, hne, _, hidx⟩
    · exact absurd hz (ne_zero_of_hasPort hd)
    · exact ⟨hne, (portOpen_of_view hk hv hidx).2 hd⟩
  obtain ⟨h1, h2, h3, h4, h5⟩ := h
  rcases h5 with ⟨a, b, c, d⟩ | ⟨a, b, c, d⟩ | ⟨a, b, c, d⟩ | ⟨a, b, c, d⟩
  · exact ⟨h1, h2, h3, h4, (cell _ h1 _ h2 _ c).1, (cell _ h3 _ h4 _ d).1,
      Or.inl ⟨a, b, (cell _ h1 _ h2 _ c).2, (cell _ h3 _ h4 _ d).2⟩⟩
  · exact ⟨h1, h2, h3, h4, (cell _ h1 _ h2 _ c).1, (cell _ h3 _ h4 _ d).1,
      Or.inr (Or.inl ⟨a, b, (cell _ h1 _ h2 _ c).2, (cell _ h3 _ h4 _ d).2⟩)⟩
  · exact ⟨h1, h2, h3, h4, (cell _ h1 _ h2 _ c).1, (cell _ h3 _ h4 _ d).1,
      Or.inr (Or.inr (Or.inl ⟨a, b, (cell _ h1 _ h2 _ c).2, (cell _ h3 _ h4 _ d).2⟩))⟩
  · exact ⟨h1, h2, h3, h4, (cell _ h1 _ h2 _ c).1, (cell _ h3 _ h4 _ d).1,
      Or.inr (Or.inr (Or.inr ⟨a, b, (cell _ h1 _ h2 _ c).2, (cell _ h3 _ h4 _ d).2⟩))⟩

/-- Region identification followed by welding joins all non-void cells of a layer with
mutual ports whose non-void cells are 4-connected. -/
theorem regions_weld_joined {g : Grid} {W L : Nat} (rng : Nat) (hwf : g.WF W L)
    (hs : Solved g W L) (hm : MutualPorts g W L) (h4 : FourConnected g W L)
    (hr : floodFillsCalled g W L < 4095) :
    OneComponent (germanWelderInPlace (findConnectedRegionsInPlace g W L) W L rng).1 W L := by
  obtain ⟨wf3, lt3, view3⟩ := regions_view hwf hs
  obtain ⟨_, _, _, hall, hnum⟩ := regions_components hwf hs hm (Or.inr hr)
  have sinv := findConnectedRegionsScan_inv hwf hs
  have view : TileView g (findConnectedRegionsInPlace g W L) W L := scanInv_view sinv
  have nz : ∀ x, x < W → ∀ y, y < L →
      ((findConnectedRegionsInPlace g W L).get x y ≠ 0xFFFF ↔ g.get x y ≠ 0) := by
    intro x hx y hy
    rcases view3 x hx y hy with ⟨a, b⟩ | ⟨k, _, a, b, _⟩
    · exact ⟨fun h => absurd b h, fun h => absurd a h⟩
    · exact ⟨fun _ => by rw [a]; exact two_pow_ne_zero k, fun _ => b⟩
  have winv := germanWelderState_inv wf3 lt3 rng
  have outv : ∀ x y, (germanWelderInPlace (findConnectedRegionsInPlace g W L) W L rng).1.get x y
      = 0xFFFF ↔ (findConnectedRegionsInPlace g W L).get x y = 0xFFFF := winv.void_iff
  have hreg : ∀ p q : Nat × Nat, p.1 < W → p.2 < L →
      (findConnectedRegionsInPlace g W L).get p.1 p.2 ≠ 0xFFFF →
      q.1 < W → q.2 < L → (findConnectedRegionsInPlace g W L).get q.1 q.2 ≠ 0xFFFF →
      (findConnectedRegionsInPlace g W L).get p.1 p.2 >>> 4 =
        (findConnectedRegionsInPlace g W L).get q.1 q.2 >>> 4 →
      JoinedPacked (findConnectedRegionsInPlace g W L) W L p q := by
    intro p q p1 p2 p3 q1 q2 q3 e
    have pn := (nz _ p1 _ p2).1 p3
    have qn := (nz _ q1 _ q2).1 q3
    obtain ⟨i, hi, hri⟩ := hall _ p1 _ p2 pn
    have j1 := (hnum i hi _ p1 _ p2 pn).1 hri
    have j2 := (hnum i hi _ q1 _ q2 qn).1 (by rw [← e]; exact hri)
    have : Joined g W L p q := Relation.ReflTransGen.trans (joined_symm j1) j2
    exact Relation.ReflTransGen.mono (fun _ _ h => linked_packed view h) this
  have hpos : ∀ x, x < W → ∀ y, y < L → (findConnectedRegionsInPlace g W L).get x y ≠ 0xFFFF →
      1 ≤ (findConnectedRegionsInPlace g W L).get x y >>> 4 := by
    intro x hx y hy hne
    obtain ⟨i, _, hri⟩ := hall x hx y hy ((nz x hx y hy).1 hne)
    omega
  obtain ⟨⟨x0, hx0, y0, hy0, h0⟩, hconn⟩ := h4
  refine ⟨⟨x0, hx0, y0, hy0, fun e => (nz x0 hx0 y0 hy0).2 h0 ((outv x0 y0).1 e)⟩, ?_⟩
  intro p q p1 p2 p3 q1 q2 q3
  have p3' : (findConnectedRegionsInPlace g W L).get p.1 p.2 ≠ 0xFFFF :=
    fun e => p3 ((outv _ _).2 e)
  have q3' : (findConnectedRegionsInPlace g W L).get q.1 q.2 ≠ 0xFFFF :=
    fun e => q3 ((outv _ _).2 e)
  have path := hconn p q p1 p2 ((nz _ p1 _ p2).1 p3') q1 q2 ((nz _ q1 _ q2).1 q3')
  apply germanWelder_connects wf3 lt3 rng hreg hpos p1 p2 p3'
  refine Relation.ReflTransGen.mono ?_ path
  intro a b ⟨hadj, hb⟩
  exact ⟨hadj, (nz _ hadj.2.2.1 _ hadj.2.2.2.1).2 hb⟩

/-- A layer whose non-void cells are all reached from one non-void cell by paths of
4-adjacent non-void cells is 4-connected. -/
theorem fourConnected_of_hub {g : Grid} {W L : Nat} (hub : Nat × Nat) (h1 : hub.1 < W)
    (h2 : hub.2 < L) (h3 : g.get hub.1 hub.2 ≠ 0)
    (hall : ∀ x, x < W → ∀ y, y < L → g.get x y ≠ 0 →
      Relation.ReflTransGen (fun a b => Adjacent W L a b ∧ g.get b.1 b.2 ≠ 0) hub (x, y)) :
    FourConnected g W L := by
  have back : ∀ c, Relation.ReflTransGen (fun a b => Adjacent W L a b ∧ g.get b.1 b.2 ≠ 0) hub c →
      g.get c.1 c.2 ≠ 0 ∧
      Relation.ReflTransGen (fun a b => Adjacent W L a b ∧ g.get b.1 b.2 ≠ 0) c hub := by
    intro c hc
    induction hc with
    | refl => exact ⟨h3, Relation.ReflTransGen.refl⟩
    | tail _ hstep ih =>
      refine ⟨hstep.2, Relation.ReflTransGen.head ⟨?_, ih.1⟩ ih.2⟩
      obtain ⟨⟨a1, a2, a3, a4, a5⟩, _⟩ := hstep
      refine ⟨a3, a4, a1, a2, ?_⟩
      rcases a5 with ⟨e1, e2⟩ | ⟨e1, e2⟩ | ⟨e1, e2⟩ | ⟨e1, e2⟩
      · exact Or.inr (Or.inr (Or.inl ⟨e1.symm, e2.symm⟩))
      · exact Or.inr (Or.inr (Or.inr ⟨e1.symm, e2.symm⟩))
      · exact Or.inl ⟨e1.symm, e2.symm⟩
      · exact Or.inr (Or.inl ⟨e1.symm, e2.symm⟩)
  refine ⟨⟨hub.1, h1, hub.2, h2, h3⟩, ?_⟩
  intro p q p1 p2 p3 q1 q2 q3
  exact Relation.ReflTransGen.trans (back p (hall p.1 p1 p.2 p2 p3)).2 (hall q.1 q1 q.2 q2 q3)

/-- The smallest layer on which welding leaves two components: the two non-void cells of
the 4 by 4 layer `sampleMismatch` are 4-adjacent dead ends that both open east. The flood
of region
identification follows the east port of `(0, 0)` into `(1, 0)`, so the layer yields one
region and the welder carves nothing; but `(1, 0)` has no west port, so the two cells
are not linked and the output has two components. -/
theorem regions_then_weld_sampleMismatch :
    4 ≤ 4 ∧ sampleMismatch.WF 4 4 ∧ Solved sampleMismatch 4 4 ∧
    FourConnected sampleMismatch 4 4 ∧ floodFillsCalled sampleMismatch 4 4 < 4095 ∧
    (germanWelderInPlace (findConnectedRegionsInPlace sampleMismatch 4 4) 4 4 7).1 =
      [[29, 29, 65535, 65535], [65535, 65535, 65535, 65535], [65535, 65535, 65535, 65535],
        [65535, 65535, 65535, 65535]] ∧
    ¬ JoinedPacked (germanWelderInPlace (findConnectedRegionsInPlace sampleMismatch 4 4)
      4 4 7).1 4 4 (0, 0) (1, 0) ∧
    ¬ OneComponent (germanWelderInPlace (findConnectedRegionsInPlace sampleMismatch 4 4)
      4 4 7).1 4 4 := by
  have hout : (germanWelderInPlace (findConnectedRegionsInPlace sampleMismatch 4 4) 4 4 7).1 =
      [[29, 29, 65535, 65535], [65535, 65535, 65535, 65535], [65535, 65535, 65535, 65535],
        [65535, 65535, 65535, 65535]] := by
    set_option maxRecDepth 100000 in decide
  have h4 : FourConnected sampleMismatch 4 4 := by
    apply fourConnected_of_hub (0, 0) (by decide) (by decide) (by decide)
    intro x hx y hy hne
    have hxy : (x = 0 ∨ x = 1) ∧ y = 0 := by
      revert hne
      revert y
      revert x
      decide
    obtain ⟨hx' | hx', hy'⟩ := hxy
    · subst hx'; subst hy'; exact Relation.ReflTransGen.refl
    · subst hx'; subst hy'
      exact Relation.ReflTransGen.single ⟨by decide, by decide⟩
  have hnot : ¬ JoinedPacked (germanWelderInPlace (findConnectedRegionsInPlace sampleMismatch
      4 4) 4 4 7).1 4 4 (0, 0) (1, 0) := by
    rw [hout]
    intro hj
    rcases Relation.ReflTransGen.cases_head hj with e | ⟨c, hl, _⟩
    · exact absurd e (by decide)
    · have hno : ∀ x, x < 4 → ∀ y, y < 4 → ¬ LinkedPacked
          [[29, 29, 65535, 65535], [65535, 65535, 65535, 65535], [65535, 65535, 65535, 65535],
            [65535, 65535, 65535, 65535]] 4 4 (0, 0) (x, y) := by decide
      exact hno c.1 hl.2.2.1 c.2 hl.2.2.2.1 hl
  refine ⟨le_refl _, by decide, by decide, h4, ?_, hout, hnot, ?_⟩
  · set_option maxRecDepth 100000 in decide
  · intro h
    refine hnot (h.2 (0, 0) (1, 0) (by decide) (by decide) ?_ (by decide) (by decide) ?_)
    · rw [hout]; decide
    · rw [hout]; decide

/-- Single component after welding on layers with mutual ports. For a layer of void and
single-variant cells in which ports between neighbouring non-void cells are mutual,
whose non-void cells form one 4-connected set and which yields fewer than 4095 regions,
after `findConnectedRegionsInPlace` followed by `germanWelderInPlace` (any rng state) the
non-void cells form exactly one connected component under open-port adjacency, where two
4-adjacent cells are linked when each has its port facing the other open. The solver does
not establish the mutual ports on every layer it leaves (see `sampleSealedLayer`). -/
theorem regions_then_weld_single_component_of_mutual (g : Grid) (W L rng : Nat) (hwf : g.WF W L)
    (hs : Solved g W L) (hm : MutualPorts g W L) (h4 : FourConnected g W L)
    (hr : floodFillsCalled g W L < 4095) :
    OneComponent (germanWelderInPlace (findConnectedRegionsInPlace g W L) W L rng).1 W L :=
  regions_weld_joined rng hwf hs hm h4 hr

/-- Single component after welding on a 4 by 4 layer with mutual ports and two regions,
which the welder joins by carving the wall between them. -/
theorem regions_then_weld_single_component_of_mutual_sample :
    (sampleTwoHalls.WF 4 4 ∧ Solved sampleTwoHalls 4 4 ∧ MutualPorts sampleTwoHalls 4 4 ∧
      FourConnected sampleTwoHalls 4 4 ∧ floodFillsCalled sampleTwoHalls 4 4 < 4095) ∧
    OneComponent (germanWelderInPlace (findConnectedRegionsInPlace sampleTwoHalls 4 4)
      4 4 7).1 4 4 :=
  have h4 : FourConnected sampleTwoHalls 4 4 := by
    apply fourConnected_of_hub (0, 0) (by decide) (by decide) (by decide)
    intro x hx y hy hne
    have hy' : y = 0 := by
      revert hne
      revert y
      revert x
      decide
    subst hy'
    have s1 : Relation.ReflTransGen
        (fun a b => Adjacent 4 4 a b ∧ sampleTwoHalls.get b.1 b.2 ≠ 0) (0, 0) (1, 0) :=
      Relation.ReflTransGen.single ⟨by decide, by decide⟩
    have s2 : Relation.ReflTransGen
        (fun a b => Adjacent 4 4 a b ∧ sampleTwoHalls.get b.1 b.2 ≠ 0) (0, 0) (2, 0) :=
      Relation.ReflTransGen.tail s1 ⟨by decide, by decide⟩
    have s3 : Relation.ReflTransGen
        (fun a b => Adjacent 4 4 a b ∧ sampleTwoHalls.get b.1 b.2 ≠ 0) (0, 0) (3, 0) :=
      Relation.ReflTransGen.tail s2 ⟨by decide, by decide⟩
    interval_cases x
    · exact Relation.ReflTransGen.refl
    · exact s1
    · exact s2
    · exact s3
  have hr : floodFillsCalled sampleTwoHalls 4 4 < 4095 := by
    set_option maxRecDepth 100000 in decide
  ⟨⟨by decide, by decide, by decide, h4, hr⟩,
    regions_then_weld_single_component_of_mutual sampleTwoHalls 4 4 7 (by decide) (by decide)
      (by decide) h4 hr⟩

theorem sampleTwoHalls_fourConnected : FourConnected sampleTwoHalls 4 4 := by
  apply fourConnected_of_hub (0, 0) (by decide) (by decide) (by decide)
  intro x hx y hy hne
  have hy' : y = 0 := by
    revert hne
    revert y
    revert x
    decide
  subst hy'
  have s1 : Relation.ReflTransGen
      (fun a b => Adjacent 4 4 a b ∧ sampleTwoHalls.get b.1 b.2 ≠ 0) (0, 0) (1, 0) :=
    Relation.ReflTransGen.single ⟨by decide, by decide⟩
  have s2 : Relation.ReflTransGen
      (fun a b => Adjacent 4 4 a b ∧ sampleTwoHalls.get b.1 b.2 ≠ 0) (0, 0) (2, 0) :=
    Relation.ReflTransGen.tail s1 ⟨by decide, by decide⟩
  have s3 : Relation.ReflTransGen
      (fun a b => Adjacent 4 4 a b ∧ sampleTwoHalls.get b.1 b.2 ≠ 0) (0, 0) (3, 0) :=
    Relation.ReflTransGen.tail s2 ⟨by decide, by decide⟩
  interval_cases x
  · exact Relation.ReflTransGen.refl
  · exact s1
  · exact s2
  · exact s3

/-- Counterexample to claim C12 as stated: on the 4 by 4 layer `sampleTwoHalls`, whose
non-void cells are 4-connected, region identification finds two regions; the welder
opens the wall between `(1, 0)` and `(2, 0)` and leaves the upper 12 bits of every cell
as they were, so after welding the non-void cells `(0, 0)` and `(2, 0)` carry the
RegionIDs 1 and 2. -/
theorem weld_keeps_region_ids_counterexample :
    4 ≤ 4 ∧ sampleTwoHalls.WF 4 4 ∧ Solved sampleTwoHalls 4 4 ∧
    FourConnected sampleTwoHalls 4 4 ∧
    findConnectedRegionsInPlace sampleTwoHalls 4 4 =
      [[29, 31, 45, 47], [65535, 65535, 65535, 65535], [65535, 65535, 65535, 65535],
        [65535, 65535, 65535, 65535]] ∧
    (germanWelderInPlace (findConnectedRegionsInPlace sampleTwoHalls 4 4) 4 4 7).1 =
      [[29, 21, 37, 47], [65535, 65535, 65535, 65535], [65535, 65535, 65535, 65535],
        [65535, 65535, 65535, 65535]] ∧
    (germanWelderInPlace (findConnectedRegionsInPlace sampleTwoHalls 4 4) 4 4 7).1.get 0 0
      ≠ 0xFFFF ∧
    (germanWelderInPlace (findConnectedRegionsInPlace sampleTwoHalls 4 4) 4 4 7).1.get 2 0
      ≠ 0xFFFF ∧
    (germanWelderInPlace (findConnectedRegionsInPlace sampleTwoHalls 4 4) 4 4 7).1.get 0 0
      >>> 4 = 1 ∧
    (germanWelderInPlace (findConnectedRegionsInPlace sampleTwoHalls 4 4) 4 4 7).1.get 2 0
      >>> 4 = 2 := by
  have h0 : findConnectedRegionsInPlace sampleTwoHalls 4 4 =
      [[29, 31, 45, 47], [65535, 65535, 65535, 65535], [65535, 65535, 65535, 65535],
        [65535, 65535, 65535, 65535]] := by
    set_option maxRecDepth 100000 in decide
  have h1 : (germanWelderInPlace (findConnectedRegionsInPlace sampleTwoHalls 4 4) 4 4 7).1 =
      [[29, 21, 37, 47], [65535, 65535, 65535, 65535], [65535, 65535, 65535, 65535],
        [65535, 65535, 65535, 65535]] := by
    rw [h0]
    set_option maxRecDepth 100000 in decide
  refine ⟨le_refl _, by decide, by decide, sampleTwoHalls_fourConnected, h0, h1, ?_, ?_, ?_, ?_⟩
  all_goals rw [h1]; decide

/-- **Claim C12, amended** (RegionIDs after welding). For every packed layer produced by
`findConnectedRegionsInPlace` from a layer of void and single-variant cells (4-connected
or not), after `germanWelderInPlace` (any rng state) every cell carries in its upper
12 bits the RegionID it carried before welding: the welder joins regions by opening
walls and does not renumber them. Hence all non-void cells carry one and the same
RegionID after welding exactly when they did so before welding. -/
theorem weld_keeps_region_ids (g : Grid) (W L rng : Nat) (hwf : g.WF W L)
    (hs : Solved g W L) :
    (∀ x y, (germanWelderInPlace (findConnectedRegionsInPlace g W L) W L rng).1.get x y >>> 4 =
      (findConnectedRegionsInPlace g W L).get x y >>> 4) ∧
    (∀ x y, (germanWelderInPlace (findConnectedRegionsInPlace g W L) W L rng).1.get x y = 0xFFFF ↔
      (findConnectedRegionsInPlace g W L).get x y = 0xFFFF) ∧
    ((∀ x1 y1 x2 y2, x1 < W → y1 < L → x2 < W → y2 < L →
        (germanWelderInPlace (findConnectedRegionsInPlace g W L) W L rng).1.get x1 y1 ≠ 0xFFFF →
        (germanWelderInPlace (findConnectedRegionsInPlace g W L) W L rng).1.get x2 y2 ≠ 0xFFFF →
        (germanWelderInPlace (findConnectedRegionsInPlace g W L) W L rng).1.get x1 y1 >>> 4 =
          (germanWelderInPlace (findConnectedRegionsInPlace g W L) W L rng).1.get x2 y2 >>> 4) ↔
      (∀ x1 y1 x2 y2, x1 < W → y1 < L → x2 < W → y2 < L →
        (findConnectedRegionsInPlace g W L).get x1 y1 ≠ 0xFFFF →
        (findConnectedRegionsInPlace g W L).get x2 y2 ≠ 0xFFFF →
        (findConnectedRegionsInPlace g W L).get x1 y1 >>> 4 =
          (findConnectedRegionsInPlace g W L).get x2 y2 >>> 4)) := by
  obtain ⟨wf3, lt3, _⟩ := regions_view hwf hs
  have winv := germanWelderState_inv wf3 lt3 rng
  have hreg : ∀ x y, (germanWelderInPlace (findConnectedRegionsInPlace g W L) W L rng).1.get x y
      >>> 4 = (findConnectedRegionsInPlace g W L).get x y >>> 4 := winv.region
  have hvoid : ∀ x y, (germanWelderInPlace (findConnectedRegionsInPlace g W L) W L rng).1.get x y
      = 0xFFFF ↔ (findConnectedRegionsInPlace g W L).get x y = 0xFFFF := winv.void_iff
  refine ⟨hreg, hvoid, ?_, ?_⟩
  · intro h x1 y1 x2 y2 a b c d e f
    rw [← hreg, ← hreg]
    exact h x1 y1 x2 y2 a b c d (fun h' => e ((hvoid _ _).1 h')) (fun h' => f ((hvoid _ _).1 h'))
  · intro h x1 y1 x2 y2 a b c d e f
    rw [hreg, hreg]
    exact h x1 y1 x2 y2 a b c d (fun h' => e ((hvoid _ _).2 h')) (fun h' => f ((hvoid _ _).2 h'))

/-- Instance of the amended claim C12 on the 4 by 4 layer `sampleTwoHalls`. -/
theorem weld_keeps_region_ids_witness :
    (sampleTwoHalls.WF 4 4 ∧ Solved sampleTwoHalls 4 4) ∧
    (∀ x y, (germanWelderInPlace (findConnectedRegionsInPlace sampleTwoHalls 4 4) 4 4 7).1.get x y
        >>> 4 = (findConnectedRegionsInPlace sampleTwoHalls 4 4).get x y >>> 4) :=
  ⟨⟨by decide, by decide⟩,
    (weld_keeps_region_ids sampleTwoHalls 4 4 7 (by decide) (by decide)).1⟩

theorem variant_has_port : ∀ k, k < 16 → ∃ d, d ∈ dirs ∧ hasPort (2 ^ k) d := by decide

/-- **Claim C20** (boundary strips). For a layer of void and single-variant cells, after
`fixupEdges` every cell is void or a single variant whose open ports are its previous
open ports minus the directions that point out of the layer at its position (north on
row 0, south on row `L - 1`, west on column 0, east on column `W - 1`, a corner losing
both); a cell left with no open port is void, and a cell that had no outward-facing
open port keeps its exact value. -/
theorem fixupEdges_clears_outward_ports (g : Grid) (W L : Nat) (hwf : g.WF W L)
    (hs : Solved g W L) :
    (fixupEdges g W L).WF W L ∧
    ∀ x, x < W → ∀ y, y < L →
      ((fixupEdges g W L).get x y = 0 ∨ IsVariant ((fixupEdges g W L).get x y)) ∧
      (∀ d, d ∈ dirs → (hasPort ((fixupEdges g W L).get x y) d ↔
        hasPort (g.get x y) d ∧ ¬ Outward W L x y d)) ∧
      ((∀ d, d ∈ dirs → ¬ hasPort ((fixupEdges g W L).get x y) d) →
        (fixupEdges g W L).get x y = 0) ∧
      ((∀ d, d ∈ dirs → Outward W L x y d → ¬ hasPort (g.get x y) d) →
        (fixupEdges g W L).get x y = g.get x y) := by
  obtain ⟨wf', hget⟩ := fixupEdges_get hwf
  refine ⟨wf', fun x hx y hy => ?_⟩
  rw [hget x hx y hy]
  obtain ⟨s1, s2, s3⟩ := fixupValue_spec (hs x hx y hy) W L x y
  refine ⟨s1, s3, ?_, s2⟩
  intro hno
  rcases s1 with h0 | ⟨k, hk, hv⟩
  · exact h0
  · obtain ⟨d, hd, hp⟩ := variant_has_port k hk
    rw [← hv] at hp
    exact absurd hp (hno d hd)

/-- Instance of claim C20 on a 2 by 2 layer whose four cells all have outward ports. -/
theorem fixupEdges_clears_outward_ports_witness :
    (sampleOutward.WF 2 2 ∧ Solved sampleOutward 2 2) ∧
    ((fixupEdges sampleOutward 2 2).WF 2 2 ∧
    ∀ x, x < 2 → ∀ y, y < 2 →
      ((fixupEdges sampleOutward 2 2).get x y = 0 ∨
        IsVariant ((fixupEdges sampleOutward 2 2).get x y)) ∧
      (∀ d, d ∈ dirs → (hasPort ((fixupEdges sampleOutward 2 2).get x y) d ↔
        hasPort (sampleOutward.get x y) d ∧ ¬ Outward 2 2 x y d)) ∧
      ((∀ d, d ∈ dirs → ¬ hasPort ((fixupEdges sampleOutward 2 2).get x y) d) →
        (fixupEdges sampleOutward 2 2).get x y = 0) ∧
      ((∀ d, d ∈ dirs → Outward 2 2 x y d → ¬ hasPort (sampleOutward.get x y) d) →
        (fixupEdges sampleOutward 2 2).get x y = sampleOutward.get x y)) :=
  ⟨⟨by decide, by decide⟩,
    fixupEdges_clears_outward_ports sampleOutward 2 2 (by decide) (by decide)⟩

/-- Two well-formed layers with the same cells are equal. -/
theorem Grid.ext_of_WF {g g' : Grid} {W L : Nat} (h : g.WF W L) (h' : g'.WF W L)
    (hget : ∀ x, x < W → ∀ y, y < L → g.get x y = g'.get x y) : g = g' := by
  apply List.ext_getElem (by rw [h.1, h'.1])
  intro y hy hy'
  have hr : (g[y]).length = W := h.2 _ (List.getElem_mem hy)
  have hr' : (g'[y]).length = W := h'.2 _ (List.getElem_mem hy')
  apply List.ext_getElem (by rw [hr, hr'])
  intro x hx hx'
  have := hget x (by rw [← hr]; exact hx) y (by rw [← h.1]; exact hy)
  unfold Grid.get at this
  simpa [List.getD_eq_getElem?_getD, List.getElem?_eq_getElem hy, List.getElem?_eq_getElem hy',
    List.getElem?_eq_getElem hx, List.getElem?_eq_getElem hx'] using this

/-- Cell by cell description of the sealing loop run over the cells in any order. -/
theorem sealOrder_get {g : Grid} {W L : Nat} (h : g.WF W L) (order : List (Nat × Nat))
    (hnd : order.Nodup) (hin : ∀ c ∈ order, c.1 < W ∧ c.2 < L) :
    (order.foldl (fun acc c => sealCell W L acc c.1 c.2) g).WF W L ∧
    ∀ x y, (order.foldl (fun acc c => sealCell W L acc c.1 c.2) g).get x y =
      if (x, y) ∈ order ∧ g.get x y = 0 then getTileFromFlags (inwardFlags g W L x y)
      else g.get x y := by
  apply foldl_prefix_induction (fun (pre : List (Nat × Nat)) (cur : Grid) =>
    cur.WF W L ∧ ∀ x y, cur.get x y =
      if (x, y) ∈ pre ∧ g.get x y = 0 then getTileFromFlags (inwardFlags g W L x y)
      else g.get x y)
  · exact ⟨h, fun x y => by simp⟩
  · rintro pre ⟨x0, y0⟩ suf cur hl ⟨hwf, hcur⟩
    have hmem : (x0, y0) ∈ order := by rw [hl]; simp
    obtain ⟨hx0, hy0⟩ := hin _ hmem
    simp only [] at hx0 hy0
    rw [hl] at hnd
    have hnot : (x0, y0) ∉ pre := by
      intro hin'
      have := (List.nodup_append.1 hnd).2.2
      exact this hin' (List.mem_cons_self _ _)
    have hc0 : cur.get x0 y0 = g.get x0 y0 := by
      rw [hcur]; simp [hnot]
    simp only []
    unfold sealCell Empty_Tile
    by_cases hv : g.get x0 y0 = 0
    · rw [hc0, if_neg (by simpa using hv), inwardFlags_stable pre hcur hv]
      by_cases hf : inwardFlags g W L x0 y0 = 0
      · rw [if_neg (by simpa using hf)]
        refine ⟨hwf, fun x y => ?_⟩
        rw [hcur]
        by_cases hxy : (x, y) = (x0, y0)
        · cases hxy
          simp [hnot, hv, hf, fromFlags_zero]
        · simp [hxy]
      · rw [if_pos hf]
        refine ⟨Grid.WF_set hwf _ _ _, fun x y => ?_⟩
        rw [Grid.get_set_of_WF hwf hx0 hy0]
        by_cases hxy : x = x0 ∧ y = y0
        · obtain ⟨rfl, rfl⟩ := hxy
          simp [hv]
        · have : ¬ (x, y) = (x0, y0) := fun e => hxy (by cases e; exact ⟨rfl, rfl⟩)
          rw [if_neg hxy, hcur]; simp [this]
    · rw [hc0, if_pos hv]
      refine ⟨hwf, fun x y => ?_⟩
      rw [hcur]
      by_cases hxy : (x, y) = (x0, y0)
      · cases hxy
        simp [hnot, hv]
      · simp [hxy]

/-- The sealing loop gives the same layer whatever the order in which it visits the
cells. -/
theorem sealOrder_eq {g : Grid} {W L : Nat} (h : g.WF W L) (order : List (Nat × Nat))
    (hp : order.Perm (rowMajor W L)) :
    order.foldl (fun acc c => sealCell W L acc c.1 c.2) g = sealMazeEdges g W L := by
  obtain ⟨w1, g1⟩ := sealOrder_get h order (hp.nodup_iff.2 (nodup_rowMajor W L))
    (fun c hc => mem_rowMajor.1 (hp.mem_iff.1 hc))
  obtain ⟨w2, g2⟩ := sealMazeEdges_get h
  apply Grid.ext_of_WF w1 w2
  intro x hx y hy
  rw [g1, g2]
  have : (x, y) ∈ order := hp.mem_iff.2 (mem_rowMajor.2 ⟨hx, hy⟩)
  simp only [this, hx, hy, and_self, true_and]

/-- The flags collected for a cell of a layer of void and single-variant cells name the
sides from which the cell is faced. -/
theorem inwardFlags_faced {g : Grid} {W L : Nat} (hs : Solved g W L) {x y : Nat} (hx : x < W)
    (hy : y < L) {d : Nat} (hd : d ∈ dirs) :
    inwardFlags g W L x y &&& d ≠ 0 ↔ FacedFrom g W L x y d := by
  obtain ⟨_, fN, fS, fW, fE, _⟩ := inwardFlags_spec g W L x y
  unfold FacedFrom
  have hd' : d = DIR_N ∨ d = DIR_E ∨ d = DIR_S ∨ d = DIR_W := by
    simpa [dirs] using hd
  rcases hd' with rfl | rfl | rfl | rfl
  · rw [fN]
    constructor
    · rintro ⟨a, b, c⟩
      exact Or.inl ⟨rfl, a, b, (solved_masks (hs x hx (y - 1) (by omega))).1.1 c⟩
    · rintro (⟨_, a, b, c⟩ | ⟨e, _⟩ | ⟨e, _⟩ | ⟨e, _⟩)
      · exact ⟨a, b, (solved_masks (hs x hx (y - 1) (by omega))).1.2 c⟩
      · exact absurd e (by decide)
      · exact absurd e (by decide)
      · exact absurd e (by decide)
  · rw [fE]
    constructor
    · rintro ⟨a, b, c⟩
      exact Or.inr (Or.inl ⟨rfl, by omega, b,
        (solved_masks (hs (x + 1) (by omega) y hy)).2.2.2.1 c⟩)
    · rintro (⟨e, _⟩ | ⟨_, a, b, c⟩ | ⟨e, _⟩ | ⟨e, _⟩)
      · exact absurd e (by decide)
      · exact ⟨by omega, b, (solved_masks (hs (x + 1) a y hy)).2.2.2.2 c⟩
      · exact absurd e (by decide)
      · exact absurd e (by decide)
  · rw [fS]
    constructor
    · rintro ⟨a, b, c⟩
      exact Or.inr (Or.inr (Or.inl ⟨rfl, by omega, b,
        (solved_masks (hs x hx (y + 1) (by omega))).2.1.1 c⟩))
    · rintro (⟨e, _⟩ | ⟨e, _⟩ | ⟨_, a, b, c⟩ | ⟨e, _⟩)
      · exact absurd e (by decide)
      · exact absurd e (by decide)
      · exact ⟨by omega, b, (solved_masks (hs x hx (y + 1) a)).2.1.2 c⟩
      · exact absurd e (by decide)
  · rw [fW]
    constructor
    · rintro ⟨a, b, c⟩
      exact Or.inr (Or.inr (Or.inr ⟨rfl, a, b,
        (solved_masks (hs (x - 1) (by omega) y hy)).2.2.1.1 c⟩))
    · rintro (⟨e, _⟩ | ⟨e, _⟩ | ⟨e, _⟩ | ⟨_, a, b, c⟩)
      · exact absurd e (by decide)
      · exact absurd e (by decide)
      · exact absurd e (by decide)
      · exact ⟨a, b, (solved_masks (hs (x - 1) (by omega) y hy)).2.2.1.2 c⟩

theorem flags_zero_iff : ∀ f, f < 16 → (f = 0 ↔ ∀ d, d ∈ dirs → ¬ f &&& d ≠ 0) := by decide

/-- **Claim C19** (sealing fills voids by the input). For a layer of void and
single-variant cells, `sealMazeEdges` leaves every non-void cell unchanged and replaces
each void cell by the variant whose open ports are exactly the sides on which the input
layer has an in-grid non-void neighbour with its port on the shared side open (the cell
stays void when there is no such side). The result is the same for every order in which
the cells are visited, and `getTileFromFlags f` is a single variant with open-port set
exactly `f` for each of the 15 non-empty port sets `f`. -/
theorem sealMazeEdges_fills_voids_by_input (g : Grid) (W L : Nat) (hwf : g.WF W L)
    (hs : Solved g W L) :
    (∀ x, x < W → ∀ y, y < L → g.get x y ≠ 0 → (sealMazeEdges g W L).get x y = g.get x y) ∧
    (∀ x, x < W → ∀ y, y < L → g.get x y = 0 →
      ((sealMazeEdges g W L).get x y = 0 ∨ IsVariant ((sealMazeEdges g W L).get x y)) ∧
      (∀ d, d ∈ dirs → (hasPort ((sealMazeEdges g W L).get x y) d ↔ FacedFrom g W L x y d)) ∧
      ((sealMazeEdges g W L).get x y = 0 ↔ ∀ d, d ∈ dirs → ¬ FacedFrom g W L x y d)) ∧
    (∀ order : List (Nat × Nat), order.Perm (rowMajor W L) →
      order.foldl (fun acc c => sealCell W L acc c.1 c.2) g = sealMazeEdges g W L) ∧
    (∀ f, 1 ≤ f → f < 16 →
      IsVariant (getTileFromFlags f) ∧ getTileFlags (getTileFromFlags f) = f) := by
  obtain ⟨_, hget⟩ := sealMazeEdges_get hwf
  refine ⟨?_, ?_, fun order hp => sealOrder_eq hwf order hp, ?_⟩
  · intro x hx y hy hne
    rw [hget, if_neg (fun h => hne h.2)]
  · intro x hx y hy hz
    rw [hget, if_pos ⟨⟨hx, hy⟩, hz⟩]
    have hf := (inwardFlags_spec g W L x y).1
    refine ⟨?_, ?_, ?_⟩
    · by_cases h0 : inwardFlags g W L x y = 0
      · left; rw [h0]; exact fromFlags_zero
      · right; exact fromFlags_variant _ hf h0
    · intro d hd
      rw [fromFlags_hasPort hf d]
      exact inwardFlags_faced hs hx hy hd
    · constructor
      · intro h0 d hd hfaced
        have hp := (fromFlags_hasPort hf d).2 ((inwardFlags_faced hs hx hy hd).2 hfaced)
        rw [h0] at hp
        exact hasPort_zero d hp
      · intro hno
        have : inwardFlags g W L x y = 0 :=
          (flags_zero_iff _ hf).2 (fun d hd h => hno d hd ((inwardFlags_faced hs hx hy hd).1 h))
        rw [this]; exact fromFlags_zero
  · intro f h1 hf
    exact ⟨fromFlags_variant f hf (by omega), flags_fromFlags f hf⟩

/-- Instance of claim C19 on a 4 by 4 layer with stray ports against voids. -/
theorem sealMazeEdges_fills_voids_by_input_witness :
    (sampleMutual.WF 4 4 ∧ Solved sampleMutual 4 4) ∧
    ((∀ x, x < 4 → ∀ y, y < 4 → sampleMutual.get x y ≠ 0 →
      (sealMazeEdges sampleMutual 4 4).get x y = sampleMutual.get x y) ∧
    (∀ x, x < 4 → ∀ y, y < 4 → sampleMutual.get x y = 0 →
      ((sealMazeEdges sampleMutual 4 4).get x y = 0 ∨
        IsVariant ((sealMazeEdges sampleMutual 4 4).get x y)) ∧
      (∀ d, d ∈ dirs → (hasPort ((sealMazeEdges sampleMutual 4 4).get x y) d ↔
        FacedFrom sampleMutual 4 4 x y d)) ∧
      ((sealMazeEdges sampleMutual 4 4).get x y = 0 ↔
        ∀ d, d ∈ dirs → ¬ FacedFrom sampleMutual 4 4 x y d)) ∧
    (∀ order : List (Nat × Nat), order.Perm (rowMajor 4 4) →
      order.foldl (fun acc c => sealCell 4 4 acc c.1 c.2) sampleMutual =
        sealMazeEdges sampleMutual 4 4) ∧
    (∀ f, 1 ≤ f → f < 16 →
      IsVariant (getTileFromFlags f) ∧ getTileFlags (getTileFromFlags f) = f)) :=
  ⟨⟨by decide, by decide⟩,
    sealMazeEdges_fills_voids_by_input sampleMutual 4 4 (by decide) (by decide)⟩

/-- The flood seeds after the identification loop, whatever their number: seed number
`i` received the RegionID `i + 1` when `i < 4094`, and kept its bare index otherwise. -/
theorem findConnectedRegionsScan_seeds {g : Grid} {W L : Nat} (hwf : g.WF W L)
    (hs : Solved g W L) :
    ∀ i, i < (findConnectedRegionsScan g W L).seeds.length →
      ((findConnectedRegionsScan g W L).seeds.getD i (0, 0)).1 < W ∧
      ((findConnectedRegionsScan g W L).seeds.getD i (0, 0)).2 < L ∧
      ∃ k, k < 16 ∧
        g.get ((findConnectedRegionsScan g W L).seeds.getD i (0, 0)).1
          ((findConnectedRegionsScan g W L).seeds.getD i (0, 0)).2 = 2 ^ k ∧
        (i < 4094 → (findConnectedRegionsScan g W L).grid.get
          ((findConnectedRegionsScan g W L).seeds.getD i (0, 0)).1
          ((findConnectedRegionsScan g W L).seeds.getD i (0, 0)).2 = packCell (i + 1) k) ∧
        (4094 ≤ i → (findConnectedRegionsScan g W L).grid.get
          ((findConnectedRegionsScan g W L).seeds.getD i (0, 0)).1
          ((findConnectedRegionsScan g W L).seeds.getD i (0, 0)).2 = k) := by
  have main : (fun (pre : List (Nat × Nat)) (st : ScanState) =>
      ScanInv g W L pre st ∧ ∀ i, i < st.seeds.length →
        (st.seeds.getD i (0, 0)).1 < W ∧ (st.seeds.getD i (0, 0)).2 < L ∧
        ∃ k, k < 16 ∧ g.get (st.seeds.getD i (0, 0)).1 (st.seeds.getD i (0, 0)).2 = 2 ^ k ∧
          (i < 4094 → st.grid.get (st.seeds.getD i (0, 0)).1 (st.seeds.getD i (0, 0)).2 =
            packCell (i + 1) k) ∧
          (4094 ≤ i → st.grid.get (st.seeds.getD i (0, 0)).1 (st.seeds.getD i (0, 0)).2 = k))
      (rowMajor W L) (findConnectedRegionsScan g W L) := by
    unfold findConnectedRegionsScan
    apply foldl_prefix_induction (fun (pre : List (Nat × Nat)) (st : ScanState) =>
      ScanInv g W L pre st ∧ ∀ i, i < st.seeds.length →
        (st.seeds.getD i (0, 0)).1 < W ∧ (st.seeds.getD i (0, 0)).2 < L ∧
        ∃ k, k < 16 ∧ g.get (st.seeds.getD i (0, 0)).1 (st.seeds.getD i (0, 0)).2 = 2 ^ k ∧
          (i < 4094 → st.grid.get (st.seeds.getD i (0, 0)).1 (st.seeds.getD i (0, 0)).2 =
            packCell (i + 1) k) ∧
          (4094 ≤ i → st.grid.get (st.seeds.getD i (0, 0)).1 (st.seeds.getD i (0, 0)).2 = k))
    · exact ⟨scanInv_init hwf hs, fun i hi => by simp at hi⟩
    · rintro pre ⟨x0, y0⟩ suf st hl ⟨sinv, hseed⟩
      have hmem : (x0, y0) ∈ rowMajor W L := by rw [hl]; simp
      obtain ⟨hx0, hy0⟩ := mem_rowMajor.1 hmem
      simp only [] at hx0 hy0
      refine ⟨scanInv_step sinv hx0 hy0, ?_⟩
      simp only []
      unfold identifyCell
      split
      · rename_i hc
        have view := scanInv_view sinv
        obtain ⟨c1, c2, c3⟩ := tileView_unassigned view hx0 hy0 hc.2
        have hlen : (st.seeds ++ [(x0, y0)]).length = st.seeds.length + 1 := by simp
        have hreq := sinv.rid_eq
        split
        · rename_i hlt
          have hr1 := sinv.rid_pos
          have hr : st.regionID < 4096 := by omega
          have req : st.regionID = st.seeds.length + 1 := by omega
          obtain ⟨_, hseed0, chg, _⟩ :=
            regionMarkerIterative_spec sinv.wf view hr1 hr hx0 hy0 hc.2
          intro i hi
          simp only [] at hi ⊢
          rw [hlen] at hi
          by_cases hil : i < st.seeds.length
          · rw [getD_append_lt _ _ _ hil]
            obtain ⟨a, b, k, hk, hg, h1, h2⟩ := hseed i hil
            refine ⟨a, b, k, hk, hg, fun hi4 => ?_, fun hi4 => by omega⟩
            have hold := h1 hi4
            have hbig := packCell_ge (show 1 ≤ i + 1 by omega) (show i + 1 < 4096 by omega) hk
            rcases chg (st.seeds.getD i (0, 0)).1 (st.seeds.getD i (0, 0)).2 with
              e | ⟨_, _, l, _, _⟩
            · rw [e]; exact hold
            · rw [hold] at l; omega
          · have hil : i = st.seeds.length := by omega
            subst hil
            rw [getD_append_length]
            simp only []
            refine ⟨hx0, hy0, st.grid.get x0 y0, c1, c2, fun _ => ?_, fun _ => by omega⟩
            rw [hseed0, req]
        · rename_i hge
          intro i hi
          simp only [] at hi ⊢
          rw [hlen] at hi
          by_cases hil : i < st.seeds.length
          · rw [getD_append_lt _ _ _ hil]
            exact hseed i hil
          · have hil : i = st.seeds.length := by omega
            subst hil
            rw [getD_append_length]
            simp only []
            exact ⟨hx0, hy0, st.grid.get x0 y0, c1, c2, fun _ => by omega, fun _ => rfl⟩
      · exact hseed
  exact main.2

/-- In a layer without flood steps the flood seeds are the non-void cells in row-major
order. -/
theorem isolated_seeds {g : Grid} {W L : Nat} (hwf : g.WF W L) (hs : Solved g W L)
    (hiso : Isolated g W L) :
    (findConnectedRegionsScan g W L).seeds =
      (rowMajor W L).filter (fun c => g.get c.1 c.2 ≠ 0) := by
  have main : (fun (pre : List (Nat × Nat)) (st : ScanState) =>
      ScanInv g W L pre st ∧ st.seeds = pre.filter (fun c => g.get c.1 c.2 ≠ 0) ∧
      ∀ x, x < W → ∀ y, y < L → 15 < st.grid.get x y → g.get x y ≠ 0 → (x, y) ∈ st.seeds)
      (rowMajor W L) (findConnectedRegionsScan g W L) := by
    unfold findConnectedRegionsScan
    apply foldl_prefix_induction (fun (pre : List (Nat × Nat)) (st : ScanState) =>
      ScanInv g W L pre st ∧ st.seeds = pre.filter (fun c => g.get c.1 c.2 ≠ 0) ∧
      ∀ x, x < W → ∀ y, y < L → 15 < st.grid.get x y → g.get x y ≠ 0 → (x, y) ∈ st.seeds)
    · refine ⟨scanInv_init hwf hs, rfl, ?_⟩
      intro x hx y hy hbig hnz
      rcases (scanInv_init hwf hs).cells x hx y hy with ⟨h1, _⟩ | ⟨k, hk, _, h2 | ⟨r, hr1, hr2, _⟩⟩
      · exact absurd h1 hnz
      · simp only [] at h2 hbig; omega
      · simp only [] at hr2; omega
    · rintro pre ⟨x0, y0⟩ suf st hl ⟨sinv, hseeds, hassigned⟩
      have hmem : (x0, y0) ∈ rowMajor W L := by rw [hl]; simp
      obtain ⟨hx0, hy0⟩ := mem_rowMajor.1 hmem
      simp only [] at hx0 hy0
      have hnd := nodup_rowMajor W L
      rw [hl] at hnd
      have hnot : (x0, y0) ∉ pre := by
        intro hin'
        exact (List.nodup_append.1 hnd).2.2 hin' (List.mem_cons_self _ _)
      refine ⟨scanInv_step sinv hx0 hy0, ?_⟩
      simp only []
      rw [List.filter_append]
      by_cases hz : g.get x0 y0 = 0
      · -- a void cell is skipped
        have hv : st.grid.get x0 y0 = 0xFFFF := by
          rcases sinv.cells x0 hx0 y0 hy0 with ⟨_, h2⟩ | ⟨k, _, h1, _⟩
          · exact h2
          · rw [hz] at h1; exact absurd h1.symm (two_pow_ne_zero k)
        unfold identifyCell
        rw [if_neg (by rw [hv]; simp)]
        refine ⟨by rw [hseeds]; simp [hz], hassigned⟩
      · -- a non-void cell is still unassigned when the loop meets it
        have hsmall : st.grid.get x0 y0 ≤ 15 := by
          by_contra hbig
          have := hassigned x0 hx0 y0 hy0 (by omega) hz
          rw [hseeds] at this
          exact hnot (List.mem_filter.1 this).1
        have hne : st.grid.get x0 y0 ≠ 0xFFFF := by omega
        have hfil : List.filter (fun c => decide (g.get c.1 c.2 ≠ 0)) [(x0, y0)] = [(x0, y0)] := by
          simp [hz]
        unfold identifyCell
        rw [if_pos ⟨hne, hsmall⟩, hfil]
        split
        · rename_i hlt
          refine ⟨by simp only []; rw [hseeds], ?_⟩
          have hr1 := sinv.rid_pos
          have hr : st.regionID < 4096 := by omega
          obtain ⟨_, _, chg, _⟩ :=
            regionMarkerIterative_spec sinv.wf (scanInv_view sinv) hr1 hr hx0 hy0 hsmall
          intro x hx y hy hbig hnz
          simp only [] at hbig ⊢
          rcases chg x y with e | ⟨_, _, _, _, hreach⟩
          · rw [e] at hbig
            exact List.mem_append_left _ (hassigned x hx y hy hbig hnz)
          · rcases Relation.ReflTransGen.cases_head hreach with e | ⟨c, hst, _⟩
            · rw [← e]; simp
            · exact absurd hst (hiso _ _)
        · refine ⟨by simp only []; rw [hseeds], ?_⟩
          intro x hx y hy hbig hnz
          exact List.mem_append_left _ (hassigned x hx y hy hbig hnz)
  exact main.2.1

theorem getD_replicate {α : Type} (n : Nat) (a d : α) (i : Nat) :
    (List.replicate n a).getD i d = if i < n then a else d := by
  rw [List.getD_eq_getElem?_getD, List.getElem?_replicate]
  split <;> rfl

theorem sampleOverflow_get (x y : Nat) :
    sampleOverflow.get x y = if y < 4095 ∧ x = 0 then 32768 else 0 := by
  unfold sampleOverflow Grid.get
  rw [getD_replicate]
  by_cases hy : y < 4095
  · rw [if_pos hy]
    match x with
    | 0 => simp [hy]
    | 1 => simp
    | 2 => simp
    | 3 => simp
    | n + 4 => simp
  · rw [if_neg hy]; simp [hy]

theorem sampleOverflow_WF : sampleOverflow.WF 4 4095 := by
  unfold sampleOverflow
  refine ⟨List.length_replicate _ _, fun row hrow => ?_⟩
  rw [List.eq_of_mem_replicate hrow]; rfl

theorem sampleOverflow_solved : Solved sampleOverflow 4 4095 := by
  intro x _ y _
  rw [sampleOverflow_get]
  split
  · right; exact ⟨15, by decide, by decide⟩
  · left; rfl

theorem sampleOverflow_isolated : Isolated sampleOverflow 4 4095 := by
  rintro ⟨px, py⟩ ⟨qx, qy⟩ ⟨_, hp2, _, hq2, hq, hdir⟩
  simp only [] at hp2 hq2 hq hdir
  rw [sampleOverflow_get] at hq hdir
  have hq0 : qx = 0 := by
    by_contra h
    rw [if_neg (fun h' => h h'.2)] at hq
    exact hq rfl
  by_cases hp0 : px = 0
  · rw [if_pos ⟨hp2, hp0⟩] at hdir
    rcases hdir with ⟨_, _, h⟩ | ⟨h, _⟩ | ⟨_, _, h⟩ | ⟨h, _⟩
    · exact absurd h (by decide)
    · omega
    · exact absurd h (by decide)
    · omega
  · rw [if_neg (fun h' => hp0 h'.2)] at hdir
    rcases hdir with ⟨_, _, h⟩ | ⟨_, _, h⟩ | ⟨_, _, h⟩ | ⟨_, _, h⟩ <;>
      exact hasPort_zero _ h

theorem rowMajor_succ (W L : Nat) :
    rowMajor W (L + 1) = rowMajor W L ++ (List.range W).map (fun x => (x, L)) := by
  unfold rowMajor
  rw [List.range_succ, List.flatMap_append]
  simp

theorem sampleOverflow_filter : ∀ n, n ≤ 4095 →
    (rowMajor 4 n).filter (fun c => sampleOverflow.get c.1 c.2 ≠ 0) =
      (List.range n).map (fun y => (0, y)) := by
  intro n
  induction n with
  | zero => intro _; rfl
  | succ n ih =>
    intro hn
    have h4 : List.range 4 = [0, 1, 2, 3] := by decide
    rw [rowMajor_succ, List.filter_append, ih (by omega), h4,
      show List.range (n + 1) = List.range n ++ [n] from List.range_succ n, List.map_append]
    congr 1
    have hn' : n < 4095 := by omega
    simp [List.filter, sampleOverflow_get, hn']

theorem floodSeeds_length (g : Grid) (W L : Nat) :
    (floodSeeds g W L).length = floodFillsCalled g W L := rfl

/-- The flood seeds in the packed layer: seed number `i` carries the RegionID `i + 1` when
`i < 4094`, and its bare tile index otherwise. -/
theorem regions_seeds {g : Grid} {W L : Nat} (hwf : g.WF W L) (hs : Solved g W L) (i : Nat)
    (hi : i < floodFillsCalled g W L) :
    ((floodSeeds g W L).getD i (0, 0)).1 < W ∧ ((floodSeeds g W L).getD i (0, 0)).2 < L ∧
    ∃ k, k < 16 ∧
      g.get ((floodSeeds g W L).getD i (0, 0)).1 ((floodSeeds g W L).getD i (0, 0)).2 = 2 ^ k ∧
      (i < 4094 → (findConnectedRegionsInPlace g W L).get ((floodSeeds g W L).getD i (0, 0)).1
        ((floodSeeds g W L).getD i (0, 0)).2 = packCell (i + 1) k) ∧
      (4094 ≤ i → (findConnectedRegionsInPlace g W L).get ((floodSeeds g W L).getD i (0, 0)).1
        ((floodSeeds g W L).getD i (0, 0)).2 = k) :=
  findConnectedRegionsScan_seeds hwf hs i hi

theorem isolated_floodSeeds {g : Grid} {W L : Nat} (hwf : g.WF W L) (hs : Solved g W L)
    (hiso : Isolated g W L) :
    floodSeeds g W L = (rowMajor W L).filter (fun c => g.get c.1 c.2 ≠ 0) :=
  isolated_seeds hwf hs hiso

theorem sampleOverflow_seeds :
    floodSeeds sampleOverflow 4 4095 = (List.range 4095).map (fun y => (0, y)) := by
  rw [isolated_floodSeeds sampleOverflow_WF sampleOverflow_solved sampleOverflow_isolated]
  exact sampleOverflow_filter 4095 (le_refl _)

theorem sampleOverflow_seed (i : Nat) (hi : i < 4095) :
    (floodSeeds sampleOverflow 4 4095).getD i (0, 0) = (0, i) := by
  rw [sampleOverflow_seeds, List.getD_eq_getElem?_getD, List.getElem?_map,
    List.getElem?_range hi]
  rfl

theorem sampleOverflow_floods : floodFillsCalled sampleOverflow 4 4095 = 4095 := by
  rw [← floodSeeds_length, sampleOverflow_seeds]; simp

/-- Counterexample to claim C13 as stated: the 4 by 4095 layer `sampleOverflow` has
exactly 4095 regions, each a single dead end in the first column. The guard
`regionID < 4095` lets the floods run for RegionIDs 1 to 4094 only: the cell
`(0, 4093)` receives RegionID 4094, and the non-void cell `(0, 4094)` of the 4095th
region keeps its bare tile index 15, so its upper 12 bits hold 0 and not 4095. -/
theorem findConnectedRegions_region_cap_counterexample :
    4 ≤ 4 ∧ 4 ≤ 4095 ∧ sampleOverflow.WF 4 4095 ∧ Solved sampleOverflow 4 4095 ∧
    Isolated sampleOverflow 4 4095 ∧ countNonVoid sampleOverflow 4 4095 = 4095 ∧
    floodFillsCalled sampleOverflow 4 4095 = 4095 ∧
    sampleOverflow.get 0 4094 = West_DeadEnd ∧
    (findConnectedRegionsInPlace sampleOverflow 4 4095).get 0 4093 >>> 4 = 4094 ∧
    (findConnectedRegionsInPlace sampleOverflow 4 4095).get 0 4094 = 15 ∧
    (findConnectedRegionsInPlace sampleOverflow 4 4095).get 0 4094 >>> 4 = 0 := by
  have hlast : (findConnectedRegionsInPlace sampleOverflow 4 4095).get 0 4094 = 15 := by
    obtain ⟨_, _, k, hk, hg, _, h2⟩ :=
      regions_seeds sampleOverflow_WF sampleOverflow_solved 4094
        (by rw [sampleOverflow_floods]; decide)
    rw [sampleOverflow_seed 4094 (by decide)] at hg h2
    simp only [] at hg h2
    rw [sampleOverflow_get, if_pos ⟨by decide, rfl⟩] at hg
    have e15 : 2 ^ k = 2 ^ 15 := hg.symm
    have hk15 : k = 15 := Nat.pow_right_injective (le_refl 2) e15
    rw [h2 (le_refl _), hk15]
  have hprev : (findConnectedRegionsInPlace sampleOverflow 4 4095).get 0 4093 >>> 4 = 4094 := by
    obtain ⟨_, _, k, hk, hg, h1, _⟩ :=
      regions_seeds sampleOverflow_WF sampleOverflow_solved 4093
        (by rw [sampleOverflow_floods]; decide)
    rw [sampleOverflow_seed 4093 (by decide)] at h1
    simp only [] at h1
    rw [h1 (by decide), packCell_shr (by decide) hk]
  refine ⟨le_refl _, by decide, sampleOverflow_WF, sampleOverflow_solved,
    sampleOverflow_isolated, ?_, sampleOverflow_floods, ?_, hprev, hlast, ?_⟩
  · unfold countNonVoid
    rw [sampleOverflow_filter 4095 (le_refl _)]; simp
  · rw [sampleOverflow_get, if_pos ⟨by decide, rfl⟩]; decide
  · rw [hlast]; decide

/-- **Claim C13, amended** (region cap). `findConnectedRegionsInPlace` assigns the
RegionIDs 1, 2, ... up to and including 4094, its guard being `regionID < 4095`: every
non-void cell ends up with its bare tile index or with a RegionID between 1 and 4094,
never 4095; flood seed number `i` (counted from 0) receives RegionID `i + 1` as long as
`i < 4094`, and the seeds of the 4095th and later floods keep their bare tile index; in
a layer that calls for at most 4094 floods every non-void cell receives a RegionID, and
a non-void cell keeps its bare index only in a layer that calls for at least 4095. -/
theorem findConnectedRegions_region_cap (g : Grid) (W L : Nat) (hwf : g.WF W L)
    (hs : Solved g W L) :
    (∀ x, x < W → ∀ y, y < L → ∀ k, k < 16 → g.get x y = 2 ^ k →
      ((findConnectedRegionsInPlace g W L).get x y = k ∨
        ∃ r, 1 ≤ r ∧ r ≤ 4094 ∧ (findConnectedRegionsInPlace g W L).get x y = packCell r k) ∧
      (findConnectedRegionsInPlace g W L).get x y >>> 4 ≠ 4095) ∧
    (∀ i, i < floodFillsCalled g W L →
      ((floodSeeds g W L).getD i (0, 0)).1 < W ∧ ((floodSeeds g W L).getD i (0, 0)).2 < L ∧
      g.get ((floodSeeds g W L).getD i (0, 0)).1 ((floodSeeds g W L).getD i (0, 0)).2 ≠ 0 ∧
      (i < 4094 → (findConnectedRegionsInPlace g W L).get ((floodSeeds g W L).getD i (0, 0)).1
        ((floodSeeds g W L).getD i (0, 0)).2 >>> 4 = i + 1) ∧
      (4094 ≤ i → (findConnectedRegionsInPlace g W L).get ((floodSeeds g W L).getD i (0, 0)).1
        ((floodSeeds g W L).getD i (0, 0)).2 ≤ 15)) ∧
    (floodFillsCalled g W L ≤ 4094 → ∀ x, x < W → ∀ y, y < L → g.get x y ≠ 0 →
      15 < (findConnectedRegionsInPlace g W L).get x y ∧
      1 ≤ (findConnectedRegionsInPlace g W L).get x y >>> 4 ∧
      (findConnectedRegionsInPlace g W L).get x y >>> 4 ≤ 4094) ∧
    (∀ x, x < W → ∀ y, y < L → g.get x y ≠ 0 →
      (findConnectedRegionsInPlace g W L).get x y ≤ 15 → 4095 ≤ floodFillsCalled g W L) := by
  have inv := findConnectedRegionsScan_inv hwf hs
  have hrid : (findConnectedRegionsScan g W L).regionID ≤ 4095 := by
    rw [inv.rid_eq]; exact Nat.min_le_right _ _
  have cell : ∀ x, x < W → ∀ y, y < L → ∀ k, k < 16 → g.get x y = 2 ^ k →
      ((findConnectedRegionsInPlace g W L).get x y = k ∨
        ∃ r, 1 ≤ r ∧ r ≤ 4094 ∧ (findConnectedRegionsInPlace g W L).get x y = packCell r k) := by
    intro x hx y hy k hk hv
    unfold findConnectedRegionsInPlace
    rcases inv.cells x hx y hy with ⟨h1, _⟩ | ⟨k', hk', h1, h2 | ⟨r, hr1, hr2, h2⟩⟩
    · rw [h1] at hv; exact absurd hv.symm (two_pow_ne_zero k)
    · have : k' = k := Nat.pow_right_injective (le_refl 2) (h1.symm.trans hv)
      left; rw [h2, this]
    · have : k' = k := Nat.pow_right_injective (le_refl 2) (h1.symm.trans hv)
      right; exact ⟨r, hr1, by omega, by rw [h2, this]⟩
  have visited : ∀ x, x < W → ∀ y, y < L →
      (findConnectedRegionsInPlace g W L).get x y ≤ 15 → 4095 ≤ floodFillsCalled g W L :=
    fun x hx y hy hle => inv.visited (x, y) (mem_rowMajor.2 ⟨hx, hy⟩) hle
  refine ⟨?_, ?_, ?_, fun x hx y hy _ hle => visited x hx y hy hle⟩
  · intro x hx y hy k hk hv
    refine ⟨cell x hx y hy k hk hv, ?_⟩
    rcases cell x hx y hy k hk hv with h | ⟨r, _, hr, h⟩
    · rw [h, shr4_eq]; omega
    · rw [h, packCell_shr (by omega) hk]; omega
  · intro i hi
    obtain ⟨a, b, k, hk, hg, h1, h2⟩ := regions_seeds hwf hs i hi
    refine ⟨a, b, by rw [hg]; exact two_pow_ne_zero k, fun hi4 => ?_, fun hi4 => ?_⟩
    · rw [h1 hi4, packCell_shr (by omega) hk]
    · rw [h2 hi4]; omega
  · intro hle x hx y hy hnz
    have hbig : 15 < (findConnectedRegionsInPlace g W L).get x y := by
      by_contra hsmall
      have := visited x hx y hy (by omega)
      omega
    rcases hs x hx y hy with h0 | ⟨k, hk, hv⟩
    · exact absurd h0 hnz
    · rcases cell x hx y hy k hk hv with h | ⟨r, hr1, hr, h⟩
      · omega
      · refine ⟨hbig, ?_, ?_⟩ <;> rw [h, packCell_shr (by omega) hk] <;> assumption

/-- Instance of the amended claim C13 on the 4 by 4 layer `sampleTwoHalls`. -/
theorem findConnectedRegions_region_cap_witness :
    (sampleTwoHalls.WF 4 4 ∧ Solved sampleTwoHalls 4 4) ∧
    (floodFillsCalled sampleTwoHalls 4 4 ≤ 4094 → ∀ x, x < 4 → ∀ y, y < 4 →
      sampleTwoHalls.get x y ≠ 0 →
      15 < (findConnectedRegionsInPlace sampleTwoHalls 4 4).get x y ∧
      1 ≤ (findConnectedRegionsInPlace sampleTwoHalls 4 4).get x y >>> 4 ∧
      (findConnectedRegionsInPlace sampleTwoHalls 4 4).get x y >>> 4 ≤ 4094) :=
  ⟨⟨by decide, by decide⟩,
    (findConnectedRegions_region_cap sampleTwoHalls 4 4 (by decide) (by decide)).2.2.1⟩

/-- A non-zero 16-bit value has a set bit. -/
theorem popcount_ne_zero {v : Nat} (h16 : v < 65536) (hv : v ≠ 0) : popcount v ≠ 0 := by
  intro h0
  rcases popcount_le_one h16 (by omega) with h | ⟨k, hk, rfl⟩
  · exact hv h
  · rw [popcount_variant k hk] at h0; omega

theorem and_ffff_lt (a : Nat) : a &&& 0xFFFF < 65536 :=
  Nat.lt_of_le_of_lt Nat.and_le_right (by decide)

/-- The body of `findBestSeedLocation` at a cell of a 16-bit grid, before any early
return: a void or collapsed cell is skipped, a superposition draws a noise value and
becomes the candidate when the noise is below `minScore`; the grid is not touched. -/
theorem seedCell_spec {F : Type} (ops : NoiseOps F) (W L : Nat) (st : SeedState F) (j i : Nat)
    (hret : st.returned = false) (h16 : st.grid.get j i < 65536) :
    (popcount (st.grid.get j i) ≤ 1 → seedCell ops W L st j i = st) ∧
    (1 < popcount (st.grid.get j i) →
      seedCell ops W L st j i =
        if ops.lt (ops.noise ((((i * W + j) % 4294967296) ^^^ nextRandom st.rng) &&& 0xFFFF))
            st.minScore then
          { st with rng := nextRandom st.rng,
                    minScore := ops.noise
                      ((((i * W + j) % 4294967296) ^^^ nextRandom st.rng) &&& 0xFFFF),
                    out := (j, i), found := true }
        else { st with rng := nextRandom st.rng }) := by
  unfold seedCell
  rw [hret]
  simp only [Bool.false_eq_true, if_false]
  by_cases h0 : st.grid.get j i = Empty_Tile
  · rw [if_pos h0]
    refine ⟨fun _ => rfl, fun h => ?_⟩
    rw [h0] at h
    unfold Empty_Tile at h
    rw [popcount_zero] at h
    omega
  · rw [if_neg h0]
    have hp0 : popcount (st.grid.get j i) ≠ 0 := popcount_ne_zero h16 h0
    by_cases h1 : popcount (st.grid.get j i) = 1
    · rw [if_pos h1]
      exact ⟨fun _ => rfl, fun h => by omega⟩
    · rw [if_neg h1, if_neg hp0, hret]
      simp only [Bool.false_eq_true, if_false]
      exact ⟨fun h => by omega, fun _ => trivial⟩

/-- What the loops of `findBestSeedLocation` maintain on a 16-bit grid: no early return
is taken, the grid is untouched, and `found` tells whether a superposition has been met,
in which case `(*outX, *outY)` names one. -/
theorem findBestSeedScan_inv {F : Type} (ops : NoiseOps F) (g : Grid) (W L : Nat)
    (out0 : Nat × Nat) (rng : Nat) (h16 : Cells16 g W L)
    (hbig : ∀ n, n < 65536 → ops.lt (ops.noise n) ops.big = true) :
    (findBestSeedScan ops g W L out0 rng).returned = false ∧
    (findBestSeedScan ops g W L out0 rng).grid = g ∧
    ((findBestSeedScan ops g W L out0 rng).found = true ↔
      ∃ x, x < W ∧ ∃ y, y < L ∧ 1 < popcount (g.get x y)) ∧
    ((findBestSeedScan ops g W L out0 rng).found = true →
      (findBestSeedScan ops g W L out0 rng).out.1 < W ∧
      (findBestSeedScan ops g W L out0 rng).out.2 < L ∧
      1 < popcount (g.get (findBestSeedScan ops g W L out0 rng).out.1
        (findBestSeedScan ops g W L out0 rng).out.2)) := by
  have main : (fun (pre : List (Nat × Nat)) (st : SeedState F) =>
      st.returned = false ∧ st.grid = g ∧ (st.found = false → st.minScore = ops.big) ∧
      (st.found = true ↔ ∃ c ∈ pre, 1 < popcount (g.get c.1 c.2)) ∧
      (st.found = true → st.out.1 < W ∧ st.out.2 < L ∧ 1 < popcount (g.get st.out.1 st.out.2)))
      (rowMajor W L) (findBestSeedScan ops g W L out0 rng) := by
    unfold findBestSeedScan
    apply foldl_prefix_induction (fun (pre : List (Nat × Nat)) (st : SeedState F) =>
      st.returned = false ∧ st.grid = g ∧ (st.found = false → st.minScore = ops.big) ∧
      (st.found = true ↔ ∃ c ∈ pre, 1 < popcount (g.get c.1 c.2)) ∧
      (st.found = true → st.out.1 < W ∧ st.out.2 < L ∧ 1 < popcount (g.get st.out.1 st.out.2)))
    · refine ⟨rfl, rfl, fun _ => rfl, ?_, ?_⟩
      · simp
      · intro h; simp at h
    · rintro pre ⟨x0, y0⟩ suf st hl ⟨hret, hgrid, hmin, hfound, hout⟩
      have hmem : (x0, y0) ∈ rowMajor W L := by rw [hl]; simp
      obtain ⟨hx0, hy0⟩ := mem_rowMajor.1 hmem
      simp only [] at hx0 hy0
      have hcell : st.grid.get x0 y0 < 65536 := by rw [hgrid]; exact h16 x0 hx0 y0 hy0
      obtain ⟨s1, s2⟩ := seedCell_spec ops W L st x0 y0 hret hcell
      rw [hgrid] at s1 s2
      simp only []
      by_cases hp : popcount (g.get x0 y0) ≤ 1
      · rw [s1 hp]
        refine ⟨hret, hgrid, hmin, ?_, hout⟩
        rw [hfound]
        constructor
        · rintro ⟨c, hc, h⟩; exact ⟨c, List.mem_append_left _ hc, h⟩
        · rintro ⟨c, hc, h⟩
          rcases List.mem_append.1 hc with hc | hc
          · exact ⟨c, hc, h⟩
          · rw [List.mem_singleton.1 hc] at h
            simp only [] at h; omega
      · have hp' : 1 < popcount (g.get x0 y0) := by omega
        rw [s2 hp']
        split
        · refine ⟨hret, rfl, fun h => by simp at h, ?_, fun _ => ⟨hx0, hy0, hp'⟩⟩
          simp only [true_iff]
          exact ⟨(x0, y0), by simp, hp'⟩
        · rename_i hlt
          have hf : st.found = true := by
            by_contra hnf
            have hnf' : st.found = false := by simpa using hnf
            rw [hmin hnf', hbig _ (and_ffff_lt _)] at hlt
            exact hlt rfl
          refine ⟨hret, rfl, fun h => by simp only [] at h; rw [hf] at h; simp at h, ?_, hout⟩
          simp only [hf, true_iff]
          exact ⟨(x0, y0), by simp, hp'⟩
  obtain ⟨m1, m2, _, m4, m5⟩ := main
  refine ⟨m1, m2, ?_, m5⟩
  rw [m4]
  constructor
  · rintro ⟨c, hc, h⟩
    exact ⟨c.1, (mem_rowMajor.1 hc).1, c.2, (mem_rowMajor.1 hc).2, h⟩
  · rintro ⟨x, hx, y, hy, h⟩
    exact ⟨(x, y), mem_rowMajor.2 ⟨hx, hy⟩, h⟩

/-- **Claim C17** (seed search). On a grid of 16-bit cells, `findBestSeedLocation`
returns false exactly when no cell of the grid is in superposition (popcount above 1);
when it returns true, the returned `(x, y)` lies inside the grid and names a cell with
popcount above 1. The grid is left as it was. The one fact used about `float` is that
every noise value `n * 0.001` with `n < 65536` is below the initial `minScore` of
`1e9`. -/
theorem findBestSeedLocation_finds_superposition {F : Type} (ops : NoiseOps F) (g : Grid)
    (W L : Nat) (out0 : Nat × Nat) (rng : Nat) (h16 : Cells16 g W L)
    (hbig : ∀ n, n < 65536 → ops.lt (ops.noise n) ops.big = true) :
    ((findBestSeedLocation ops g W L out0 rng).1 = false ↔
      ∀ x, x < W → ∀ y, y < L → ¬ 1 < popcount (g.get x y)) ∧
    ((findBestSeedLocation ops g W L out0 rng).1 = true →
      (findBestSeedLocation ops g W L out0 rng).2.1.1 < W ∧
      (findBestSeedLocation ops g W L out0 rng).2.1.2 < L ∧
      1 < popcount (g.get (findBestSeedLocation ops g W L out0 rng).2.1.1
        (findBestSeedLocation ops g W L out0 rng).2.1.2)) ∧
    (findBestSeedLocation ops g W L out0 rng).2.2.1 = g := by
  obtain ⟨m1, m2, m3, m4⟩ := findBestSeedScan_inv ops g W L out0 rng h16 hbig
  have hval : (findBestSeedLocation ops g W L out0 rng).1 =
      (findBestSeedScan ops g W L out0 rng).found := by
    unfold findBestSeedLocation
    simp only []
    rw [m1]; rfl
  refine ⟨?_, ?_, m2⟩
  · rw [hval]
    constructor
    · intro hf x hx y hy hp
      have := m3.2 ⟨x, hx, y, hy, hp⟩
      rw [hf] at this; exact absurd this (by simp)
    · intro hno
      by_contra hf
      have hf' : (findBestSeedScan ops g W L out0 rng).found = true := by simpa using hf
      obtain ⟨x, hx, y, hy, hp⟩ := m3.1 hf'
      exact hno x hx y hy hp
  · intro ht
    rw [hval] at ht
    exact m4 ht

theorem milliOps_big : ∀ n, n < 65536 → milliOps.lt (milliOps.noise n) milliOps.big = true := by
  intro n hn
  unfold milliOps
  simp only [decide_eq_true_eq]
  omega

/-- Instance of claim C17 on a 4 by 4 layer with two superpositions, with the noise
counted in thousandths. -/
theorem findBestSeedLocation_finds_superposition_witness :
    (Cells16 sampleContradiction 4 4 ∧
      ∀ n, n < 65536 → milliOps.lt (milliOps.noise n) milliOps.big = true) ∧
    (((findBestSeedLocation milliOps sampleContradiction 4 4 (9, 9) 7).1 = false ↔
      ∀ x, x < 4 → ∀ y, y < 4 → ¬ 1 < popcount (sampleContradiction.get x y)) ∧
    ((findBestSeedLocation milliOps sampleContradiction 4 4 (9, 9) 7).1 = true →
      (findBestSeedLocation milliOps sampleContradiction 4 4 (9, 9) 7).2.1.1 < 4 ∧
      (findBestSeedLocation milliOps sampleContradiction 4 4 (9, 9) 7).2.1.2 < 4 ∧
      1 < popcount (sampleContradiction.get
        (findBestSeedLocation milliOps sampleContradiction 4 4 (9, 9) 7).2.1.1
        (findBestSeedLocation milliOps sampleContradiction 4 4 (9, 9) 7).2.1.2)) ∧
    (findBestSeedLocation milliOps sampleContradiction 4 4 (9, 9) 7).2.2.1 =
      sampleContradiction) :=
  ⟨⟨by decide, milliOps_big⟩,
    findBestSeedLocation_finds_superposition milliOps sampleContradiction 4 4 (9, 9) 7
      (by decide) milliOps_big⟩

/-- Evaluation for claim C18: on the 4 by 4 layer `sampleContradiction` the contradicted
cell `(1, 1)` holds 0, the value of a void cell, so the loop skips it at its first test
and never enters the revival block: the call returns the superposition `(1, 3)` and
leaves the grid, cell `(1, 1)` included, as it was. -/
theorem findBestSeedLocation_skips_contradicted_cell :
    sampleContradiction.get 1 1 = 0 ∧ popcount (sampleContradiction.get 1 1) = 0 ∧
    findBestSeedLocation milliOps sampleContradiction 4 4 (9, 9) 7 =
      (true, (1, 3), sampleContradiction, 3923423697) ∧
    (findBestSeedLocation milliOps sampleContradiction 4 4 (9, 9) 7).2.2.1.get 1 1 = 0 := by
  set_option maxRecDepth 100000 in decide

theorem regionEdge_symm {P : Bridge → Prop} {a b : Nat} (h : RegionEdge P a b) :
    RegionEdge P b a := by
  obtain ⟨c, hc, h⟩ := h
  exact ⟨c, hc, h.symm⟩

theorem regionEdge_mono {P Q : Bridge → Prop} (hPQ : ∀ c, P c → Q c) {a b : Nat}
    (h : RegionEdge P a b) : RegionEdge Q a b := by
  obtain ⟨c, hc, h⟩ := h
  exact ⟨c, hPQ c hc, h⟩

theorem carvedJoined_symm {cs : List Bridge} {a b : Nat} (h : CarvedJoined cs a b) :
    CarvedJoined cs b a :=
  Relation.ReflTransGen.symmetric (fun _ _ h => regionEdge_symm h) h

theorem regionJoined_symm {g : Grid} {W L : Nat} {a b : Nat} (h : RegionJoined g W L a b) :
    RegionJoined g W L b a :=
  Relation.ReflTransGen.symmetric (fun _ _ h => regionEdge_symm h) h

theorem carvedJoined_mono {cs cs' : List Bridge} (hsub : ∀ c ∈ cs, c ∈ cs') {a b : Nat}
    (h : CarvedJoined cs a b) : CarvedJoined cs' a b :=
  Relation.ReflTransGen.mono (fun _ _ h => regionEdge_mono hsub h) h

/-- Regions joined by bridges whose two regions always have the same image under `f`
have the same image under `f`. -/
theorem joined_image_eq {P : Bridge → Prop} {f : Nat → Nat}
    (hP : ∀ c, P c → f c.regionA = f c.regionB) {a b : Nat}
    (h : Relation.ReflTransGen (RegionEdge P) a b) : f a = f b := by
  induction h with
  | refl => rfl
  | tail _ hstep ih =>
    obtain ⟨c, hc, h | h⟩ := hstep
    · rw [ih, ← h.1, ← h.2]; exact hP c hc
    · rw [ih, ← h.1, ← h.2]; exact (hP c hc).symm

/-- Two different regions joined by bridges are both regions of some bridge. -/
theorem joined_endpoints {P : Bridge → Prop} {a b : Nat}
    (h : Relation.ReflTransGen (RegionEdge P) a b) (hne : a ≠ b) :
    (∃ c, P c ∧ (c.regionA = a ∨ c.regionB = a)) ∧ (∃ c, P c ∧ (c.regionA = b ∨ c.regionB = b)) := by
  constructor
  · rcases Relation.ReflTransGen.cases_head h with e | ⟨m, ⟨c, hc, hcm⟩, _⟩
    · exact absurd e hne
    · rcases hcm with h' | h'
      · exact ⟨c, hc, Or.inl h'.1⟩
      · exact ⟨c, hc, Or.inr h'.2⟩
  · rcases Relation.ReflTransGen.cases_tail h with e | ⟨m, _, ⟨c, hc, hcm⟩⟩
    · exact absurd e.symm hne
    · rcases hcm with h' | h'
      · exact ⟨c, hc, Or.inr h'.2⟩
      · exact ⟨c, hc, Or.inl h'.1⟩

theorem mem_usedRegions {g : Grid} {W L a : Nat} :
    a ∈ usedRegions g W L ↔
      ∃ x, x < W ∧ ∃ y, y < L ∧ g.get x y ≠ 0xFFFF ∧ g.get x y >>> 4 = a := by
  unfold usedRegions
  rw [List.mem_dedup, List.mem_map]
  constructor
  · rintro ⟨c, hc, rfl⟩
    obtain ⟨hm, hv⟩ := List.mem_filter.1 hc
    exact ⟨c.1, (mem_rowMajor.1 hm).1, c.2, (mem_rowMajor.1 hm).2, by simpa using hv, rfl⟩
  · rintro ⟨x, hx, y, hy, hv, rfl⟩
    exact ⟨(x, y), List.mem_filter.2 ⟨mem_rowMajor.2 ⟨hx, hy⟩, by simpa using hv⟩, rfl⟩

theorem nodup_usedRegions (g : Grid) (W L : Nat) : (usedRegions g W L).Nodup :=
  List.nodup_dedup _

/-- Both regions of a valid bridge are nodes of the region graph. -/
theorem validBridge_used {g : Grid} {W L : Nat} {b : Bridge} (hb : ValidBridge g W L b) :
    b.regionA ∈ usedRegions g W L ∧ b.regionB ∈ usedRegions g W L := by
  obtain ⟨c, c1, c2, c3, c4⟩ := validBridge_second hb
  exact ⟨mem_usedRegions.2 ⟨b.x, hb.1, b.y, hb.2.1, hb.2.2.1, hb.2.2.2.1.symm⟩,
    mem_usedRegions.2 ⟨c.1, c1, c.2, c2, c3, c4.symm⟩⟩

/-- Merging the class of `ri` into the class of the fixed point `rj` removes exactly the
fixed point `ri`. -/
theorem fixpoints_merge {rep : Nat → Nat} {N ri rj : Nat} (hi : ri < N) (hri : rep ri = ri)
    (hrj : rep rj = rj) (hne : ri ≠ rj) :
    ((Finset.range N).filter (fun x => (if rep x = ri then rj else rep x) = x)).card + 1 =
      ((Finset.range N).filter (fun x => rep x = x)).card := by
  have heq : (Finset.range N).filter (fun x => (if rep x = ri then rj else rep x) = x) =
      ((Finset.range N).filter (fun x => rep x = x)).erase ri := by
    ext x
    simp only [Finset.mem_filter, Finset.mem_range, Finset.mem_erase]
    constructor
    · rintro ⟨hx, h⟩
      by_cases e : rep x = ri
      · rw [if_pos e] at h
        rw [← h, hrj] at e
        exact absurd e.symm hne
      · rw [if_neg e] at h
        exact ⟨fun e' => e (by rw [e']; exact hri), hx, h⟩
    · rintro ⟨hxne, hx, h⟩
      refine ⟨hx, ?_⟩
      rw [if_neg (by rw [h]; exact hxne)]
      exact h
  rw [heq, Finset.card_erase_of_mem (by simp [hi, hri])]
  have : 0 < ((Finset.range N).filter (fun x => rep x = x)).card :=
    Finset.card_pos.2 ⟨ri, by simp [hi, hri]⟩
  omega

/-- One Kruskal step on a valid bridge keeps the forest invariant. -/
theorem forest_step {g0 : Grid} {W L N : Nat} {done : List Bridge} {st : WeldState}
    (inv : ForestInv g0 W L N done st) {b : Bridge} (hb : ValidBridge g0 W L b)
    (hN : ∀ x, x < W → ∀ y, y < L → g0.get x y ≠ 0xFFFF → g0.get x y >>> 4 < N) :
    ForestInv g0 W L N (done ++ [b]) (weldStep N st b) := by
  obtain ⟨weld, hlen, rep, rk, H, uf, f2, f3, f1, f4⟩ := inv
  have weld' := weldInv_step weld hb N
  have hHN : H ≤ N := by
    have := uf.pot
    have := nonRoots_le st.parent
    omega
  have hA : b.regionA < st.parent.length := by
    rw [hlen, hb.2.2.2.1]; exact hN _ hb.1 _ hb.2.1 hb.2.2.1
  obtain ⟨cB, cB1, cB2, cB3, cB4⟩ := validBridge_second hb
  have hB : b.regionB < st.parent.length := by
    rw [hlen, cB4]; exact hN _ cB1 _ cB2 cB3
  obtain ⟨a1, a2, a3⟩ := findSet_spec N st.parent b.regionA uf hA (by omega)
  obtain ⟨b1, b2, b3⟩ := findSet_spec N (findSet N st.parent b.regionA).1 b.regionB a3
    (by rw [a2]; exact hB) (by omega)
  have hl : (findSet N (findSet N st.parent b.regionA).1 b.regionB).1.length =
      st.parent.length := by rw [b2, a2]
  by_cases hc : (findSet N st.parent b.regionA).2 ≠
      (findSet N (findSet N st.parent b.regionA).1 b.regionB).2
  · have hne : rep b.regionA ≠ rep b.regionB := by rw [← a1, ← b1]; exact hc
    have e := weldStep_carve hc
    obtain ⟨u1, u2⟩ := unionSets_spec b3 (by rw [hl]; exact hA) (by rw [hl]; exact hB) hHN hne
    have hcar : (weldStep N st b).carved = st.carved ++ [b] := by rw [e]
    have hpar : (weldStep N st b).parent = unionSets N
        (findSet N (findSet N st.parent b.regionA).1 b.regionB).1 b.regionA b.regionB := by
      rw [e]
    have rA := uf.rep_root b.regionA hA
    have rB := uf.rep_root b.regionB hB
    have fixA : rep (rep b.regionA) = rep b.regionA := uf.root_rep _ rA.1 rA.2
    have fixB : rep (rep b.regionB) = rep b.regionB := uf.root_rep _ rB.1 rB.2
    have mono : ∀ x y, CarvedJoined st.carved x y → CarvedJoined (st.carved ++ [b]) x y :=
      fun x y h => carvedJoined_mono (fun c hc => List.mem_append_left _ hc) h
    have hAB : CarvedJoined (st.carved ++ [b]) b.regionA b.regionB :=
      Relation.ReflTransGen.single ⟨b, by simp, Or.inl ⟨rfl, rfl⟩⟩
    refine ⟨weld', by rw [hpar, u1, hl, hlen], _, _, _, by rw [hpar]; exact u2, ?_, ?_, ?_, ?_⟩
    · intro x y
      rw [hcar]
      constructor
      · intro hrep
        by_cases hx : rep x = rep b.regionA
        · by_cases hy : rep y = rep b.regionA
          · exact mono _ _ ((f2 x y).1 (hx.trans hy.symm))
          · rw [if_pos hx, if_neg hy] at hrep
            have j1 := mono _ _ ((f2 x b.regionA).1 hx)
            have j2 := mono _ _ ((f2 b.regionB y).1 hrep)
            exact Relation.ReflTransGen.trans j1 (Relation.ReflTransGen.trans hAB j2)
        · by_cases hy : rep y = rep b.regionA
          · rw [if_neg hx, if_pos hy] at hrep
            have j1 := mono _ _ ((f2 x b.regionB).1 hrep)
            have j2 := mono _ _ ((f2 b.regionA y).1 hy.symm)
            exact Relation.ReflTransGen.trans j1
              (Relation.ReflTransGen.trans (carvedJoined_symm hAB) j2)
          · rw [if_neg hx, if_neg hy] at hrep
            exact mono _ _ ((f2 x y).1 hrep)
      · intro hj
        refine joined_image_eq (f := fun x => if rep x = rep b.regionA then rep b.regionB
          else rep x) ?_ hj
        intro c hc
        rcases List.mem_append.1 hc with h | h
        · have : rep c.regionA = rep c.regionB :=
            (f2 _ _).2 (Relation.ReflTransGen.single ⟨c, h, Or.inl ⟨rfl, rfl⟩⟩)
          simp only [this]
        · rw [List.mem_singleton.1 h]
          simp only [if_true]
          rw [if_neg (fun e' => hne e'.symm)]
    · intro b' hb'
      rcases List.mem_append.1 hb' with h | h
      · rw [f3 b' h]
      · rw [List.mem_singleton.1 h, if_pos rfl]
        split <;> rfl
    · rw [hcar, List.length_append, List.length_singleton]
      have := @fixpoints_merge rep N (rep b.regionA) (rep b.regionB)
        (by rw [← hlen]; exact rA.1) fixA fixB hne
      omega
    · intro pre b' suf hsplit
      rw [hcar] at hsplit
      rcases List.eq_nil_or_concat suf with hs | ⟨suf', l, hs⟩
      · subst hs
        have h1 : st.carved ++ [b] = pre ++ [b'] := hsplit
        obtain ⟨e1, e2⟩ := List.append_inj' h1 rfl
        rw [← e1]
        have e3 : b = b' := by simpa using e2
        rw [← e3]
        exact fun hj => hne ((f2 _ _).2 hj)
      · subst hs
        have h1 : st.carved ++ [b] = (pre ++ b' :: suf') ++ [l] := by
          rw [hsplit]; simp
        obtain ⟨e1, _⟩ := List.append_inj' h1 rfl
        exact f4 pre b' suf' e1
  · have heq : rep b.regionA = rep b.regionB := by
      rw [← a1, ← b1]; exact not_not.1 hc
    have e := weldStep_skip hc
    have hcar : (weldStep N st b).carved = st.carved := by rw [e]
    have hpar : (weldStep N st b).parent =
        (findSet N (findSet N st.parent b.regionA).1 b.regionB).1 := by rw [e]
    refine ⟨weld', by rw [hpar, hl, hlen], rep, rk, H, by rw [hpar]; exact b3, ?_, ?_, ?_, ?_⟩
    · rw [hcar]; exact f2
    · intro b' hb'
      rcases List.mem_append.1 hb' with h | h
      · exact f3 b' h
      · rw [List.mem_singleton.1 h]; exact heq
    · rw [hcar]; exact f1
    · rw [hcar]; exact f4

theorem forest_foldl {g0 : Grid} {W L N : Nat}
    (hN : ∀ x, x < W → ∀ y, y < L → g0.get x y ≠ 0xFFFF → g0.get x y >>> 4 < N)
    (bs : List Bridge) (hbs : ∀ b ∈ bs, ValidBridge g0 W L b) :
    ∀ done st, ForestInv g0 W L N done st →
      ForestInv g0 W L N (done ++ bs) (bs.foldl (weldStep N) st) := by
  induction bs with
  | nil => intro done st h; simpa using h
  | cons b bs ih =>
    intro done st h
    simp only [List.foldl_cons]
    have := ih (fun b' hb' => hbs b' (List.mem_cons_of_mem _ hb')) (done ++ [b]) _
      (forest_step h (hbs b (List.mem_cons_self _ _)) hN)
    simpa using this

theorem carvedJoined_nil {a b : Nat} : CarvedJoined [] a b ↔ a = b := by
  constructor
  · intro h
    rcases Relation.ReflTransGen.cases_head h with e | ⟨m, ⟨c, hc, _⟩, _⟩
    · exact e
    · simp at hc
  · rintro rfl; exact Relation.ReflTransGen.refl

/-- Counting the fixed points of the representative map: the nodes outside `used` are
fixed, and the fixed points inside `used` correspond to a system of representatives. -/
theorem forest_count {N : Nat} {rep : Nat → Nat} {used reps : List Nat} (hnd : used.Nodup)
    (hlt : ∀ a ∈ used, a < N) (hidem : ∀ x, x < N → rep (rep x) = rep x)
    (hunused : ∀ x, x < N → x ∉ used → rep x = x) (hused : ∀ x ∈ used, rep x ∈ used)
    (hsub : ∀ r ∈ reps, r ∈ used) (hpw : reps.Pairwise (fun a b => rep a ≠ rep b))
    (hcov : ∀ a ∈ used, ∃ r ∈ reps, rep r = rep a) :
    ((Finset.range N).filter (fun x => rep x = x)).card + used.length = N + reps.length := by
  classical
  have hU : ((Finset.range N).filter (fun x => x ∈ used)).card = used.length := by
    rw [← List.toFinset_card_of_nodup hnd]
    congr 1
    ext x
    simp only [Finset.mem_filter, Finset.mem_range, List.mem_toFinset]
    exact ⟨fun h => h.2, fun h => ⟨hlt x h, h⟩⟩
  have hsplitN := Finset.filter_card_add_filter_neg_card_eq_card (s := Finset.range N)
    (fun x => x ∈ used)
  rw [Finset.card_range] at hsplitN
  have hsplitF := Finset.filter_card_add_filter_neg_card_eq_card
    (s := (Finset.range N).filter (fun x => rep x = x)) (fun x => x ∈ used)
  have hA : ((Finset.range N).filter (fun x => rep x = x)).filter (fun x => ¬ x ∈ used) =
      (Finset.range N).filter (fun x => ¬ x ∈ used) := by
    ext x
    simp only [Finset.mem_filter, Finset.mem_range]
    exact ⟨fun h => ⟨h.1.1, h.2⟩, fun h => ⟨⟨h.1, hunused x h.1 h.2⟩, h.2⟩⟩
  have hrnd : reps.Nodup := by
    refine List.Pairwise.imp ?_ hpw
    intro a b h e
    exact h (by rw [e])
  have hB : (((Finset.range N).filter (fun x => rep x = x)).filter (fun x => x ∈ used)).card =
      reps.length := by
    rw [← List.toFinset_card_of_nodup hrnd]
    have himg : ((Finset.range N).filter (fun x => rep x = x)).filter (fun x => x ∈ used) =
        reps.toFinset.image rep := by
      ext x
      simp only [Finset.mem_filter, Finset.mem_range, Finset.mem_image, List.mem_toFinset]
      constructor
      · rintro ⟨⟨_, hfix⟩, hx⟩
        obtain ⟨r, hr, e⟩ := hcov x hx
        exact ⟨r, hr, by rw [e, hfix]⟩
      · rintro ⟨r, hr, rfl⟩
        have hru := hsub r hr
        exact ⟨⟨hlt _ (hused r hru), hidem r (hlt r hru)⟩, hused r hru⟩
    rw [himg]
    apply Finset.card_image_of_injOn
    intro a ha b hb hab
    simp only [Finset.coe_sort_coe, List.coe_toFinset, Set.mem_setOf_eq] at ha hb
    by_contra hne
    have hsym : Symmetric (fun a b : Nat => rep a ≠ rep b) := fun _ _ h e => h e.symm
    exact List.Pairwise.forall hsym hpw ha hb hne hab
  rw [hA] at hsplitF
  omega

theorem forestInv_init {g : Grid} {W L : Nat} (hwf : g.WF W L) (h16 : ∀ x y, g.get x y < 65536)
    (n : Nat) :
    ForestInv g W L (createUnionFind n).length [] ⟨g, createUnionFind n, []⟩ := by
  refine ⟨weldInv_init hwf h16 _, rfl, id, fun _ => 0, 0, ufInv_init _, ?_, ?_, ?_, ?_⟩
  · intro a b; exact carvedJoined_nil.symm
  · intro b hb; simp at hb
  · simp
  · intro pre b suf h; simp at h

/-- Summary of a run of the welder on a packed layer in which RegionID 0 does not occur
next to RegionID 1 alone: a representative map on the RegionIDs that identifies exactly
the regions joined by carved bridges, identifies the two regions of every bridge of the
region graph, and has lost one fixed point per carved bridge. -/
theorem germanWelderState_forest {g : Grid} {W L : Nat} (hwf : g.WF W L)
    (h16 : ∀ x y, g.get x y < 65536) (rng : Nat)
    (hreg : (∃ x, x < W ∧ ∃ y, y < L ∧ g.get x y ≠ 0xFFFF ∧ 2 ≤ g.get x y >>> 4) ∨
      (∀ x, x < W → ∀ y, y < L → g.get x y ≠ 0xFFFF → 1 ≤ g.get x y >>> 4)) :
    ∃ (N : Nat) (rep : Nat → Nat),
      (∀ a ∈ usedRegions g W L, a < N) ∧
      (∀ x, x < N → rep (rep x) = rep x) ∧
      (∀ a b, rep a = rep b ↔ CarvedJoined (carvedBridges g W L rng) a b) ∧
      (∀ b, ValidBridge g W L b → rep b.regionA = rep b.regionB) ∧
      (carvedBridges g W L rng).length +
        ((Finset.range N).filter (fun x => rep x = x)).card = N ∧
      (∀ pre b suf, carvedBridges g W L rng = pre ++ b :: suf →
        ¬ CarvedJoined pre b.regionA b.regionB) ∧
      (∀ c ∈ carvedBridges g W L rng, ValidBridge g W L c) := by
  have hN : ∀ x, x < W → ∀ y, y < L → g.get x y ≠ 0xFFFF →
      g.get x y >>> 4 < (createUnionFind (maxRegionScan g W L)).length := by
    intro x hx y hy hne
    have := maxRegionScan_ge hx hy hne
    unfold createUnionFind
    simp only [List.length_range]
    omega
  have hused : ∀ a ∈ usedRegions g W L, a < (createUnionFind (maxRegionScan g W L)).length := by
    intro a ha
    obtain ⟨x, hx, y, hy, hne, rfl⟩ := mem_usedRegions.1 ha
    exact hN x hx y hy hne
  -- the two early returns: nothing is carved and the region graph has no edge
  have early : (∀ b, ¬ ValidBridge g W L b) →
      ∃ (N : Nat) (rep : Nat → Nat),
        (∀ a ∈ usedRegions g W L, a < N) ∧
        (∀ x, x < N → rep (rep x) = rep x) ∧
        (∀ a b, rep a = rep b ↔ CarvedJoined ([] : List Bridge) a b) ∧
        (∀ b, ValidBridge g W L b → rep b.regionA = rep b.regionB) ∧
        ([] : List Bridge).length + ((Finset.range N).filter (fun x => rep x = x)).card = N ∧
        (∀ pre b suf, ([] : List Bridge) = pre ++ b :: suf →
          ¬ CarvedJoined pre b.regionA b.regionB) ∧
        (∀ c ∈ ([] : List Bridge), ValidBridge g W L c) := by
    intro hno
    refine ⟨_, id, hused, fun _ _ => rfl, fun a b => carvedJoined_nil.symm,
      fun b hb => absurd hb (hno b), by simp, fun pre b suf h => by simp at h,
      fun c hc => by simp at hc⟩
  unfold carvedBridges germanWelderState
  simp only []
  split
  · rename_i hmax
    apply early
    intro b hb
    obtain ⟨c, c1, c2, c3, c4⟩ := validBridge_second hb
    have h2 := maxRegionScan_ge hb.1 hb.2.1 hb.2.2.1
    have h4 := maxRegionScan_ge c1 c2 c3
    rcases hreg with ⟨x, hx, y, hy, hne, h⟩ | hpos
    · have := maxRegionScan_ge hx hy hne
      omega
    · have h1 := hpos _ hb.1 _ hb.2.1 hb.2.2.1
      have h3 := hpos _ c1 _ c2 c3
      have := hb.2.2.2.2.1
      rw [hb.2.2.2.1, c4] at this
      omega
  · split
    · rename_i hlen
      apply early
      intro b hb
      have := mem_collectBridges.2 hb
      rw [List.length_eq_zero.1 hlen] at this
      simp at this
    · have hval : ∀ b ∈ (shuffleBridges (collectBridges g W L) rng).1, ValidBridge g W L b :=
        fun b hb => mem_collectBridges.1 (((shuffleBridges_spec _ rng).2 b).1 hb)
      obtain ⟨weld, hlen, rep, rk, H, uf, f2, f3, f1, f4⟩ :=
        forest_foldl hN _ hval [] _ (forestInv_init hwf h16 (maxRegionScan g W L))
      refine ⟨_, rep, hused, ?_, f2, ?_, f1, f4, weld.valid⟩
      · intro x hx
        have := uf.rep_root x (by rw [hlen]; exact hx)
        exact uf.root_rep _ this.1 this.2
      · intro b hb
        apply f3
        simp only [List.nil_append]
        exact ((shuffleBridges_spec _ rng).2 b).2 (mem_collectBridges.2 hb)

/-- Counterexample to claim C11 as stated: in the packed 4 by 4 layer `sampleRegionZero`
the cell `(0, 0)` carries RegionID 0 and its east neighbour `(1, 0)` RegionID 1, so the
region graph has the two nodes 0 and 1 and one edge between them: two regions and one
component. The largest RegionID is 1, so the welder returns before collecting bridges:
it carves nothing, where a spanning forest has `2 - 1 = 1` bridge. -/
theorem germanWelder_carves_spanning_forest_counterexample :
    4 ≤ 4 ∧ sampleRegionZero.WF 4 4 ∧ Cells16 sampleRegionZero 4 4 ∧
    usedRegions sampleRegionZero 4 4 = [0, 1] ∧
    ValidBridge sampleRegionZero 4 4 ⟨0, 1, 0, 0, DIR_E⟩ ∧
    RegionJoined sampleRegionZero 4 4 0 1 ∧
    IsComponentReps sampleRegionZero 4 4 [0] ∧
    maxRegionScan sampleRegionZero 4 4 = 1 ∧
    carvedBridges sampleRegionZero 4 4 7 = [] ∧
    (carvedBridges sampleRegionZero 4 4 7).length + [0].length ≠
      (usedRegions sampleRegionZero 4 4).length := by
  have hv : ValidBridge sampleRegionZero 4 4 ⟨0, 1, 0, 0, DIR_E⟩ := by
    unfold ValidBridge; decide
  have hj : RegionJoined sampleRegionZero 4 4 0 1 :=
    Relation.ReflTransGen.single ⟨_, hv, Or.inl ⟨rfl, rfl⟩⟩
  have hu : usedRegions sampleRegionZero 4 4 = [0, 1] := by decide
  have hc : carvedBridges sampleRegionZero 4 4 7 = [] := by decide
  refine ⟨le_refl _, by decide, by decide, hu, hv, hj, ?_, by decide, hc, ?_⟩
  · refine ⟨?_, List.pairwise_singleton _ _, ?_⟩
    · intro r hr; rw [hu]; simp at hr; simp [hr]
    · intro a ha
      rw [hu] at ha
      refine ⟨0, by simp, ?_⟩
      simp at ha
      rcases ha with rfl | rfl
      · exact Relation.ReflTransGen.refl
      · exact hj
  · rw [hc, hu]; decide

/-- **Claim C11, amended** (spanning forest). For every packed layer of 16-bit cells in
which every non-void cell carries a RegionID of at least 1, or some non-void cell carries
a RegionID of at least 2, and for every rng state, the bridges carved by
`germanWelderInPlace` form a spanning forest of the region graph (nodes: the distinct
RegionIDs of non-void cells; edges: east and south adjacencies between non-void cells of
different RegionIDs): every carved bridge is an edge, no carved bridge joins two regions
already joined by earlier carved bridges, the carved bridges join exactly the regions
that the region graph joins, and with `R` nodes and `C` components (`C` the length of
any list naming one region per component, and such a list exists) the number of carved
bridges is `R - C`, hence `R - 1` when the region graph is connected. -/
theorem germanWelder_carves_spanning_forest (g : Grid) (W L rng : Nat) (hwf : g.WF W L)
    (h16 : Cells16 g W L)
    (hreg : (∃ x, x < W ∧ ∃ y, y < L ∧ g.get x y ≠ 0xFFFF ∧ 2 ≤ g.get x y >>> 4) ∨
      (∀ x, x < W → ∀ y, y < L → g.get x y ≠ 0xFFFF → 1 ≤ g.get x y >>> 4)) :
    (∀ c ∈ carvedBridges g W L rng, ValidBridge g W L c) ∧
    (∀ pre b suf, carvedBridges g W L rng = pre ++ b :: suf →
      ¬ CarvedJoined pre b.regionA b.regionB) ∧
    (∀ a b, RegionJoined g W L a b ↔ CarvedJoined (carvedBridges g W L rng) a b) ∧
    (∃ reps, IsComponentReps g W L reps) ∧
    (∀ reps, IsComponentReps g W L reps →
      (carvedBridges g W L rng).length + reps.length = (usedRegions g W L).length) ∧
    (usedRegions g W L ≠ [] →
      (∀ a ∈ usedRegions g W L, ∀ b ∈ usedRegions g W L, RegionJoined g W L a b) →
      (carvedBridges g W L rng).length + 1 = (usedRegions g W L).length) := by
  obtain ⟨N, rep, hlt, hidem, f2, hvalid, f1, f4, hcv⟩ :=
    germanWelderState_forest hwf (cells16_all hwf h16) rng hreg
  have toRegion : ∀ a b, CarvedJoined (carvedBridges g W L rng) a b → RegionJoined g W L a b :=
    fun a b h => Relation.ReflTransGen.mono (fun _ _ h => regionEdge_mono hcv h) h
  have repOf : ∀ a b, RegionJoined g W L a b → rep a = rep b :=
    fun a b h => joined_image_eq hvalid h
  have hiff : ∀ a b, RegionJoined g W L a b ↔ CarvedJoined (carvedBridges g W L rng) a b :=
    fun a b => ⟨fun h => (f2 a b).1 (repOf a b h), toRegion a b⟩
  have hunused : ∀ x, x < N → x ∉ usedRegions g W L → rep x = x := by
    intro x hx hnot
    by_contra hne
    have hj : CarvedJoined (carvedBridges g W L rng) (rep x) x := (f2 _ _).1 (hidem x hx)
    obtain ⟨_, c, hc, hcx⟩ := joined_endpoints hj hne
    have := validBridge_used (hcv c hc)
    rcases hcx with e | e
    · exact hnot (e ▸ this.1)
    · exact hnot (e ▸ this.2)
  have hused : ∀ x ∈ usedRegions g W L, rep x ∈ usedRegions g W L := by
    intro x hx
    by_cases hne : rep x = x
    · rw [hne]; exact hx
    · have hj : CarvedJoined (carvedBridges g W L rng) (rep x) x :=
        (f2 _ _).1 (hidem x (hlt x hx))
      obtain ⟨⟨c, hc, hcx⟩, _⟩ := joined_endpoints hj hne
      have := validBridge_used (hcv c hc)
      rcases hcx with e | e
      · exact e ▸ this.1
      · exact e ▸ this.2
  have count : ∀ reps, IsComponentReps g W L reps →
      (carvedBridges g W L rng).length + reps.length = (usedRegions g W L).length := by
    rintro reps ⟨hsub, hpw, hcov⟩
    have := forest_count (nodup_usedRegions g W L) hlt hidem hunused hused hsub
      (List.Pairwise.imp (fun {a b} h e => h ((hiff a b).2 ((f2 a b).1 e))) hpw)
      (fun a ha => by
        obtain ⟨r, hr, hj⟩ := hcov a ha
        exact ⟨r, hr, repOf r a hj⟩)
    omega
  refine ⟨hcv, f4, hiff, ?_, count, ?_⟩
  · refine ⟨(usedRegions g W L).filter (fun x => rep x = x), ?_, ?_, ?_⟩
    · intro r hr; exact (List.mem_filter.1 hr).1
    · have hnd : ((usedRegions g W L).filter (fun x => rep x = x)).Nodup :=
        (nodup_usedRegions g W L).filter _
      refine List.Pairwise.imp_of_mem ?_ hnd
      intro a b ha hb hne hj
      have ea : rep a = a := by simpa using (List.mem_filter.1 ha).2
      have eb : rep b = b := by simpa using (List.mem_filter.1 hb).2
      have := repOf a b hj
      rw [ea, eb] at this
      exact hne this
    · intro a ha
      refine ⟨rep a, List.mem_filter.2 ⟨hused a ha, by simpa using hidem a (hlt a ha)⟩, ?_⟩
      exact toRegion _ _ ((f2 _ _).1 (hidem a (hlt a ha)))
  · intro hne hconn
    obtain ⟨a0, rest, hl⟩ := List.exists_cons_of_ne_nil hne
    have ha0 : a0 ∈ usedRegions g W L := by rw [hl]; simp
    have := count [a0] ⟨fun r hr => by rw [List.mem_singleton.1 hr]; exact ha0,
      List.pairwise_singleton _ _, fun a ha => ⟨a0, by simp, hconn a0 ha0 a ha⟩⟩
    simpa using this

/-- Instance of the amended claim C11 on the packed 4 by 4 layer `samplePackedHalls` with
two regions. -/
theorem germanWelder_carves_spanning_forest_witness :
    (samplePackedHalls.WF 4 4 ∧ Cells16 samplePackedHalls 4 4 ∧
      ((∃ x, x < 4 ∧ ∃ y, y < 4 ∧ samplePackedHalls.get x y ≠ 0xFFFF ∧
          2 ≤ samplePackedHalls.get x y >>> 4) ∨
        (∀ x, x < 4 → ∀ y, y < 4 → samplePackedHalls.get x y ≠ 0xFFFF →
          1 ≤ samplePackedHalls.get x y >>> 4))) ∧
    ((∀ c ∈ carvedBridges samplePackedHalls 4 4 7, ValidBridge samplePackedHalls 4 4 c) ∧
    (∀ pre b suf, carvedBridges samplePackedHalls 4 4 7 = pre ++ b :: suf →
      ¬ CarvedJoined pre b.regionA b.regionB) ∧
    (∀ a b, RegionJoined samplePackedHalls 4 4 a b ↔
      CarvedJoined (carvedBridges samplePackedHalls 4 4 7) a b) ∧
    (∃ reps, IsComponentReps samplePackedHalls 4 4 reps) ∧
    (∀ reps, IsComponentReps samplePackedHalls 4 4 reps →
      (carvedBridges samplePackedHalls 4 4 7).length + reps.length =
        (usedRegions samplePackedHalls 4 4).length) ∧
    (usedRegions samplePackedHalls 4 4 ≠ [] →
      (∀ a ∈ usedRegions samplePackedHalls 4 4, ∀ b ∈ usedRegions samplePackedHalls 4 4,
        RegionJoined samplePackedHalls 4 4 a b) →
      (carvedBridges samplePackedHalls 4 4 7).length + 1 =
        (usedRegions samplePackedHalls 4 4).length)) :=
  ⟨⟨by decide, by decide, by decide⟩,
    germanWelder_carves_spanning_forest samplePackedHalls 4 4 7 (by decide) (by decide)
      (by decide)⟩

/-- With the order restored at `k` the scores are in heap order. -/
theorem ordUp_done {S : Type} [LinearOrder S] (sc : Nat → S) (n k : Nat) (h : OrdUp sc n k)
    (hk : k = 0 ∨ sc ((k - 1) / 2) ≤ sc k) :
    ∀ i, 0 < i → i < n → sc ((i - 1) / 2) ≤ sc i := by
  intro i hi hin
  by_cases e : i = k
  · subst e
    rcases hk with hk | hk
    · omega
    · exact hk
  · exact h.1 i hi hin e

/-- Exchanging `k` with its greater parent moves the exception to the parent. -/
theorem ordUp_swap {S : Type} [LinearOrder S] (sc sc' : Nat → S) (n k : Nat) (hk : 0 < k)
    (hlt : sc k < sc ((k - 1) / 2))
    (hsw : ∀ i, sc' i = if i = (k - 1) / 2 then sc k else if i = k then sc ((k - 1) / 2)
      else sc i)
    (h : OrdUp sc n k) (hkn : k < n) : OrdUp sc' n ((k - 1) / 2) := by
  obtain ⟨h1, h2⟩ := h
  refine ⟨fun i hi hin hne => ?_, fun i hi hin hpar hp0 => ?_⟩
  · rw [hsw i, hsw ((i - 1) / 2), if_neg hne]
    by_cases e1 : i = k
    · rw [if_pos e1]; subst e1; rw [if_pos rfl]; exact le_of_lt hlt
    · rw [if_neg e1]
      by_cases e2 : (i - 1) / 2 = (k - 1) / 2
      · rw [if_pos e2]
        have := h1 i hi hin e1
        rw [e2] at this
        exact le_trans (le_of_lt hlt) this
      · rw [if_neg e2]
        by_cases e3 : (i - 1) / 2 = k
        · rw [if_pos e3]; exact h2 i hi hin e3 hk
        · rw [if_neg e3]; exact h1 i hi hin e1
  · have hi1 : i ≠ (k - 1) / 2 := by omega
    have hg1 : ((k - 1) / 2 - 1) / 2 ≠ (k - 1) / 2 := by omega
    have hg2 : ((k - 1) / 2 - 1) / 2 ≠ k := by omega
    rw [hsw i, hsw (((k - 1) / 2 - 1) / 2), if_neg hi1, if_neg hg1, if_neg hg2]
    have hpp := h1 ((k - 1) / 2) hp0 (by omega) (by omega)
    by_cases e1 : i = k
    · rw [if_pos e1]; exact hpp
    · rw [if_neg e1]
      have := h1 i hi hin e1
      rw [hpar] at this
      exact le_trans hpp this

/-- With `k` no greater than its children the scores are in heap order. -/
theorem ordDown_done {S : Type} [LinearOrder S] (sc : Nat → S) (n k : Nat)
    (h : OrdDown sc n k) (hl : 2 * k + 1 < n → sc k ≤ sc (2 * k + 1))
    (hr : 2 * k + 2 < n → sc k ≤ sc (2 * k + 2)) :
    ∀ i, 0 < i → i < n → sc ((i - 1) / 2) ≤ sc i := by
  intro i hi hin
  by_cases e : (i - 1) / 2 = k
  · rw [e]
    have : i = 2 * k + 1 ∨ i = 2 * k + 2 := by omega
    rcases this with e1 | e1
    · rw [e1]; exact hl (by omega)
    · rw [e1]; exact hr (by omega)
  · exact h.1 i hi hin e

/-- Exchanging `k` with its least child `m` moves the exception to `m`. -/
theorem ordDown_swap {S : Type} [LinearOrder S] (sc sc' : Nat → S) (n k m : Nat)
    (hm : m = 2 * k + 1 ∨ m = 2 * k + 2) (hlt : sc m < sc k)
    (hl : 2 * k + 1 < n → sc m ≤ sc (2 * k + 1))
    (hr : 2 * k + 2 < n → sc m ≤ sc (2 * k + 2))
    (hsw : ∀ i, sc' i = if i = m then sc k else if i = k then sc m else sc i)
    (h : OrdDown sc n k) (hmn : m < n) : OrdDown sc' n m := by
  obtain ⟨h1, h2⟩ := h
  have hmk : (m - 1) / 2 = k := by omega
  refine ⟨fun i hi hin hne => ?_, fun i hi hin hpar hp0 => ?_⟩
  · rw [hsw i, hsw ((i - 1) / 2), if_neg hne]
    by_cases e1 : (i - 1) / 2 = k
    · rw [if_pos e1]
      by_cases e2 : i = m
      · rw [if_pos e2]; exact le_of_lt hlt
      · rw [if_neg e2, if_neg (by omega)]
        have : i = 2 * k + 1 ∨ i = 2 * k + 2 := by omega
        rcases this with e3 | e3
        · rw [e3]; exact hl (by omega)
        · rw [e3]; exact hr (by omega)
    · rw [if_neg e1, if_neg (by omega)]
      by_cases e2 : i = k
      · rw [if_pos e2]
        have := h2 m (by omega) hmn hmk (by omega)
        rw [e2]
        exact this
      · rw [if_neg e2]; exact h1 i hi hin e1
  · have hi1 : i ≠ m := by omega
    have hi2 : i ≠ k := by omega
    rw [hsw i, hsw ((m - 1) / 2), if_neg hi1, if_neg hi2, hmk, if_neg (by omega), if_pos rfl]
    have := h1 i hi hin (by omega)
    rw [hpar] at this
    exact this

/-- Overwriting an entry with the head and putting the entry in front permutes. -/
theorem set_perm_cons {α : Type} : ∀ (t : List α) (j : Nat) (a b : α), t[j]? = some b →
    (b :: t.set j a).Perm (a :: t)
  | [], _, _, _, h => by simp at h
  | c :: t, 0, a, b, h => by
    simp only [List.getElem?_cons_zero, Option.some.injEq] at h
    subst h
    exact List.Perm.swap _ _ _
  | c :: t, j + 1, a, b, h => by
    simp only [List.getElem?_cons_succ] at h
    simp only [List.set_cons_succ]
    exact ((List.Perm.swap c b _).trans ((set_perm_cons t j a b h).cons c)).trans
      (List.Perm.swap a c _)

/-- Exchanging two entries of a list permutes it. -/
theorem set_set_perm {α : Type} : ∀ (l : List α) (i j : Nat) (a b : α), l[i]? = some a →
    l[j]? = some b → ((l.set i b).set j a).Perm l
  | [], _, _, _, _, h, _ => by simp at h
  | c :: t, 0, 0, a, b, hi, hj => by
    simp only [List.getElem?_cons_zero, Option.some.injEq] at hi hj
    subst hi
    simp
  | c :: t, 0, j + 1, a, b, hi, hj => by
    simp only [List.getElem?_cons_zero, Option.some.injEq, List.getElem?_cons_succ] at hi hj
    subst hi
    simp only [List.set_cons_zero, List.set_cons_succ]
    exact set_perm_cons t j c b hj
  | c :: t, i + 1, 0, a, b, hi, hj => by
    simp only [List.getElem?_cons_zero, Option.some.injEq, List.getElem?_cons_succ] at hi hj
    subst hj
    simp only [List.set_cons_zero, List.set_cons_succ]
    exact set_perm_cons t i c a hi
  | c :: t, i + 1, j + 1, a, b, hi, hj => by
    simp only [List.getElem?_cons_succ] at hi hj
    simp only [List.set_cons_succ]
    exact (set_set_perm t i j a b hi hj).cons c

/-- The index of an in-grid cell lies below the cell count. -/
theorem cell_lt {W L x y : Nat} (hx : x < W) (hy : y < L) : y * W + x < W * L := by
  have h1 : (y + 1) * W ≤ L * W := Nat.mul_le_mul_right W hy
  rw [Nat.succ_mul] at h1
  rw [Nat.mul_comm W L]
  omega

/-- For an in-grid cell of a layer that fits 32 bits `mapIdx` does not wrap. -/
theorem mapIdx_eq {S : Type} {W L : Nat} (h : MinHeap S) (hw : h.width = W) {x y : Nat}
    (hx : x < W) (hy : y < L) (hsz : W * L < 4294967296) : mapIdx h x y = y * W + x := by
  unfold mapIdx
  rw [hw]
  exact Nat.mod_eq_of_lt (lt_trans (cell_lt hx hy) hsz)

/-- The exchange of two live nodes, written out. -/
theorem swapNodes_eq {S : Type} (h : MinHeap S) (i j : Nat) (a b : HeapNode S)
    (hi : h.nodes[i]? = some a) (hj : h.nodes[j]? = some b) :
    swapNodes h i j =
      { h with nodes := (h.nodes.set i b).set j a,
               indexMap := (h.indexMap.set (mapIdx h b.x b.y) (i : Int)).set
                 (mapIdx h a.x a.y) (j : Int) } := by
  simp only [swapNodes, hi, hj]

/-- The entries of a list after an exchange. -/
theorem set_set_get {α : Type} (l : List α) (i j : Nat) (a b : α) (hi : l[i]? = some a)
    (hj : l[j]? = some b) (k : Nat) :
    ((l.set i b).set j a)[k]? = if k = j then some a else if k = i then some b else l[k]? := by
  have hil : i < l.length := (List.getElem?_eq_some.1 hi).1
  have hjl : j < l.length := (List.getElem?_eq_some.1 hj).1
  rw [List.getElem?_set, List.getElem?_set, List.length_set]
  by_cases e1 : k = j
  · rw [if_pos e1.symm, if_pos hjl, if_pos e1]
  · rw [if_neg (fun e => e1 e.symm), if_neg e1]
    by_cases e2 : k = i
    · rw [if_pos e2.symm, if_pos hil, if_pos e2]
    · rw [if_neg (fun e => e2 e.symm), if_neg e2]

/-- The nodes after `swapNodes`. -/
theorem swapNodes_get {S : Type} (h : MinHeap S) (i j : Nat) (a b : HeapNode S)
    (hi : h.nodes[i]? = some a) (hj : h.nodes[j]? = some b) (k : Nat) :
    (swapNodes h i j).nodes[k]? =
      if k = j then some a else if k = i then some b else h.nodes[k]? := by
  rw [swapNodes_eq h i j a b hi hj]
  exact set_set_get h.nodes i j a b hi hj k

/-- The function `swapNodes` permutes the nodes. -/
theorem swapNodes_perm {S : Type} (h : MinHeap S) (i j : Nat) :
    (swapNodes h i j).nodes.Perm h.nodes := by
  unfold swapNodes
  cases hi : h.nodes[i]? with
  | none => exact List.Perm.refl _
  | some a =>
    cases hj : h.nodes[j]? with
    | none => exact List.Perm.refl _
    | some b => exact set_set_perm h.nodes i j a b hi hj

/-- Two nodes of a heap with an agreeing map that name the same cell are the same node. -/
theorem mapInv_inj {S : Type} {W L : Nat} {h : MinHeap S} (hm : MapInv W L h) {i j : Nat}
    {a b : HeapNode S} (hi : h.nodes[i]? = some a) (hj : h.nodes[j]? = some b)
    (e : a.y * W + a.x = b.y * W + b.x) : i = j := by
  have h1 := (hm.fwd i a hi).2.2
  have h2 := (hm.fwd j b hj).2.2
  rw [e, h2] at h1
  exact (Int.ofNat_inj.1 (Option.some.inj h1)).symm

/-- The function `swapNodes` keeps the side map in agreement with the heap array. -/
theorem swapNodes_mapInv {S : Type} {W L : Nat} {h : MinHeap S} (hm : MapInv W L h)
    (hsz : W * L < 4294967296) (i j : Nat) (hi : i < h.nodes.length)
    (hj : j < h.nodes.length) : MapInv W L (swapNodes h i j) := by
  obtain ⟨a, ha⟩ : ∃ a, h.nodes[i]? = some a := ⟨_, List.getElem?_eq_getElem hi⟩
  obtain ⟨b, hb⟩ : ∃ b, h.nodes[j]? = some b := ⟨_, List.getElem?_eq_getElem hj⟩
  have fa := hm.fwd i a ha
  have fb := hm.fwd j b hb
  have ca := cell_lt fa.1 fa.2.1
  have cb := cell_lt fb.1 fb.2.1
  have hget := swapNodes_get h i j a b ha hb
  rw [swapNodes_eq h i j a b ha hb] at hget ⊢
  rw [mapIdx_eq h hm.width fa.1 fa.2.1 hsz, mapIdx_eq h hm.width fb.1 fb.2.1 hsz]
  simp only [] at hget
  refine ⟨hm.width, hm.length, ?_, ?_, ?_⟩
  · simp only [List.length_set]; exact hm.size
  · intro k n hk
    simp only [] at hk ⊢
    rw [hget k] at hk
    by_cases e1 : k = j
    · rw [if_pos e1] at hk
      cases hk
      refine ⟨fa.1, fa.2.1, ?_⟩
      rw [e1, List.getElem?_set_self (by rw [List.length_set, hm.size]; exact ca)]
    · rw [if_neg e1] at hk
      by_cases e2 : k = i
      · rw [if_pos e2] at hk
        cases hk
        have hne : a.y * W + a.x ≠ b.y * W + b.x := fun e =>
          e1 (e2.trans (mapInv_inj hm ha hb e))
        refine ⟨fb.1, fb.2.1, ?_⟩
        rw [List.getElem?_set_ne hne, e2,
          List.getElem?_set_self (by rw [hm.size]; exact cb)]
      · rw [if_neg e2] at hk
        have fn := hm.fwd k n hk
        have hne1 : a.y * W + a.x ≠ n.y * W + n.x := fun e =>
          e2 (mapInv_inj hm ha hk e).symm
        have hne2 : b.y * W + b.x ≠ n.y * W + n.x := fun e =>
          e1 (mapInv_inj hm hb hk e).symm
        refine ⟨fn.1, fn.2.1, ?_⟩
        rw [List.getElem?_set_ne hne1, List.getElem?_set_ne hne2]
        exact fn.2.2
  · intro m hml hno
    simp only [] at hno ⊢
    have h1 : a.y * W + a.x ≠ m := hno j a (by rw [hget j, if_pos rfl])
    have h2 : b.y * W + b.x ≠ m := by
      by_cases e : i = j
      · have : a = b := by
          rw [e] at ha
          exact Option.some.inj (ha.symm.trans hb)
        rw [← this]; exact h1
      · exact hno i b (by rw [hget i, if_neg e, if_pos rfl])
    rw [List.getElem?_set_ne h1, List.getElem?_set_ne h2]
    refine hm.bwd m hml (fun k n hk => ?_)
    by_cases e1 : k = j
    · rw [e1, hb] at hk
      cases hk
      exact h2
    · by_cases e2 : k = i
      · rw [e2, ha] at hk
        cases hk
        exact h1
      · exact hno k n (by rw [hget k, if_neg e1, if_neg e2]; exact hk)

/-- The scores after `swapNodes`. -/
theorem swapNodes_scoreAt {S : Type} (h : MinHeap S) (d : HeapNode S) (i j : Nat)
    (hi : i < h.nodes.length) (hj : j < h.nodes.length) (k : Nat) :
    scoreAt (swapNodes h i j).nodes d k =
      if k = j then scoreAt h.nodes d i else if k = i then scoreAt h.nodes d j
      else scoreAt h.nodes d k := by
  have ha : h.nodes[i]? = some h.nodes[i] := List.getElem?_eq_getElem hi
  have hb : h.nodes[j]? = some h.nodes[j] := List.getElem?_eq_getElem hj
  unfold scoreAt
  rw [List.getD_eq_getElem?_getD, List.getD_eq_getElem?_getD, List.getD_eq_getElem?_getD,
    List.getD_eq_getElem?_getD, swapNodes_get h i j _ _ ha hb k, ha, hb]
  by_cases e1 : k = j
  · rw [if_pos e1, if_pos e1]
  · rw [if_neg e1, if_neg e1]
    by_cases e2 : k = i
    · rw [if_pos e2, if_pos e2]
    · rw [if_neg e2, if_neg e2]

/-- Heap order in terms of the scores by index. -/
theorem heapOrder_iff {S : Type} [LinearOrder S] (nodes : List (HeapNode S))
    (d : HeapNode S) :
    HeapOrder nodes ↔
      ∀ i, 0 < i → i < nodes.length → scoreAt nodes d ((i - 1) / 2) ≤ scoreAt nodes d i := by
  unfold HeapOrder scoreAt
  constructor
  · intro h i hi hin
    have hp : (i - 1) / 2 < nodes.length := by omega
    rw [List.getD_eq_getElem?_getD, List.getD_eq_getElem?_getD, List.getElem?_eq_getElem hin,
      List.getElem?_eq_getElem hp]
    exact not_lt.1 (h i _ _ hi (List.getElem?_eq_getElem hin) (List.getElem?_eq_getElem hp))
  · intro h i a p hi ha hp
    have hin : i < nodes.length := (List.getElem?_eq_some.1 ha).1
    have := h i hi hin
    rw [List.getD_eq_getElem?_getD, List.getD_eq_getElem?_getD, ha, hp] at this
    exact not_lt.2 this

/-- The test `scoreLt` on live indices compares the scores. -/
theorem scoreLt_iff {S : Type} [LinearOrder S] (nodes : List (HeapNode S)) (d : HeapNode S)
    (a b : Nat) (ha : a < nodes.length) (hb : b < nodes.length) :
    scoreLt nodes a b = true ↔ scoreAt nodes d a < scoreAt nodes d b := by
  unfold scoreLt scoreAt
  rw [List.getD_eq_getElem?_getD, List.getD_eq_getElem?_getD, List.getElem?_eq_getElem ha,
    List.getElem?_eq_getElem hb]
  simp

/-- The function `swapNodes` keeps the node count. -/
theorem swapNodes_length {S : Type} (h : MinHeap S) (i j : Nat) :
    (swapNodes h i j).nodes.length = h.nodes.length :=
  (swapNodes_perm h i j).length_eq

/-- The loop of `bubbleUp` started at `k` with fuel `k` restores the heap order, keeps
the map in agreement and permutes the nodes. -/
theorem bubbleUp_spec {S : Type} [LinearOrder S] {W L : Nat} (hsz : W * L < 4294967296)
    (d : HeapNode S) : ∀ (fuel : Nat) (h : MinHeap S) (k : Nat), k ≤ fuel →
      k < h.nodes.length → MapInv W L h → OrdUp (scoreAt h.nodes d) h.nodes.length k →
      MapInv W L (bubbleUp fuel h k) ∧ (bubbleUp fuel h k).nodes.Perm h.nodes ∧
        HeapOrder (bubbleUp fuel h k).nodes
  | 0, h, k, hk, _, hm, hup => by
    have hk0 : k = 0 := by omega
    exact ⟨hm, List.Perm.refl _, (heapOrder_iff _ d).2 (ordUp_done _ _ _ hup (Or.inl hk0))⟩
  | fuel + 1, h, k, hk, hkn, hm, hup => by
    rw [bubbleUp]
    by_cases hk0 : k > 0
    · rw [if_pos hk0]
      simp only []
      have hp : (k - 1) / 2 < h.nodes.length := by omega
      by_cases hlt : scoreLt h.nodes k ((k - 1) / 2) = true
      · rw [if_pos hlt]
        have hlt' := (scoreLt_iff h.nodes d k _ hkn hp).1 hlt
        have hm' := swapNodes_mapInv hm hsz k ((k - 1) / 2) hkn hp
        have hlen := swapNodes_length h k ((k - 1) / 2)
        have hup' : OrdUp (scoreAt (swapNodes h k ((k - 1) / 2)).nodes d)
            (swapNodes h k ((k - 1) / 2)).nodes.length ((k - 1) / 2) := by
          rw [hlen]
          exact ordUp_swap _ _ _ k hk0 hlt'
            (fun i => swapNodes_scoreAt h d k ((k - 1) / 2) hkn hp i) hup hkn
        have ih := bubbleUp_spec hsz d fuel _ ((k - 1) / 2) (by omega)
          (by rw [hlen]; exact hp) hm' hup'
        exact ⟨ih.1, ih.2.1.trans (swapNodes_perm _ _ _), ih.2.2⟩
      · rw [if_neg hlt]
        have hge : ¬ scoreAt h.nodes d k < scoreAt h.nodes d ((k - 1) / 2) := fun e =>
          hlt ((scoreLt_iff h.nodes d k _ hkn hp).2 e)
        exact ⟨hm, List.Perm.refl _,
          (heapOrder_iff _ d).2 (ordUp_done _ _ _ hup (Or.inr (not_lt.1 hge)))⟩
    · rw [if_neg hk0]
      exact ⟨hm, List.Perm.refl _,
        (heapOrder_iff _ d).2 (ordUp_done _ _ _ hup (Or.inl (by omega)))⟩

/-- One pass of the loop of `bubbleDown`. -/
theorem bubbleDown_succ {S : Type} [LinearOrder S] (fuel : Nat) (h : MinHeap S) (k : Nat) :
    bubbleDown (fuel + 1) h k =
      if bubbleDownChoice h.nodes k ≠ k
      then bubbleDown fuel (swapNodes h k (bubbleDownChoice h.nodes k))
        (bubbleDownChoice h.nodes k)
      else h := rfl

/-- The index chosen by a pass of `bubbleDown` is `k` when no child scores less, and
otherwise a least child, which scores less than `k`. -/
theorem bubbleDownChoice_spec {S : Type} [LinearOrder S] (nodes : List (HeapNode S))
    (d : HeapNode S) (k : Nat) (hk : k < nodes.length) :
    (2 * k + 1 < nodes.length →
        scoreAt nodes d (bubbleDownChoice nodes k) ≤ scoreAt nodes d (2 * k + 1)) ∧
      (2 * k + 2 < nodes.length →
        scoreAt nodes d (bubbleDownChoice nodes k) ≤ scoreAt nodes d (2 * k + 2)) ∧
      (bubbleDownChoice nodes k = k ∨
        ((bubbleDownChoice nodes k = 2 * k + 1 ∨ bubbleDownChoice nodes k = 2 * k + 2) ∧
          bubbleDownChoice nodes k < nodes.length ∧
          scoreAt nodes d (bubbleDownChoice nodes k) < scoreAt nodes d k)) := by
  unfold bubbleDownChoice
  by_cases c1 : 2 * k + 1 < nodes.length ∧ scoreLt nodes (2 * k + 1) k = true
  · have s1 := (scoreLt_iff nodes d _ _ c1.1 hk).1 c1.2
    rw [if_pos c1]
    by_cases c2 : 2 * k + 2 < nodes.length ∧ scoreLt nodes (2 * k + 2) (2 * k + 1) = true
    · have s2 := (scoreLt_iff nodes d _ _ c2.1 c1.1).1 c2.2
      rw [if_pos c2]
      exact ⟨fun _ => le_of_lt s2, fun _ => le_refl _,
        Or.inr ⟨Or.inr rfl, c2.1, lt_trans s2 s1⟩⟩
    · rw [if_neg c2]
      refine ⟨fun _ => le_refl _, fun hr => ?_, Or.inr ⟨Or.inl rfl, c1.1, s1⟩⟩
      exact not_lt.1 (fun e => c2 ⟨hr, (scoreLt_iff nodes d _ _ hr c1.1).2 e⟩)
  · rw [if_neg c1]
    have hl : 2 * k + 1 < nodes.length → scoreAt nodes d k ≤ scoreAt nodes d (2 * k + 1) :=
      fun hl => not_lt.1 (fun e => c1 ⟨hl, (scoreLt_iff nodes d _ _ hl hk).2 e⟩)
    by_cases c2 : 2 * k + 2 < nodes.length ∧ scoreLt nodes (2 * k + 2) k = true
    · have s2 := (scoreLt_iff nodes d _ _ c2.1 hk).1 c2.2
      rw [if_pos c2]
      exact ⟨fun h1 => le_trans (le_of_lt s2) (hl h1), fun _ => le_refl _,
        Or.inr ⟨Or.inr rfl, c2.1, s2⟩⟩
    · rw [if_neg c2]
      refine ⟨hl, fun hr => ?_, Or.inl rfl⟩
      exact not_lt.1 (fun e => c2 ⟨hr, (scoreLt_iff nodes d _ _ hr hk).2 e⟩)

/-- The loop of `bubbleDown` started at `k` with fuel for the rest of the array restores
the heap order, keeps the map in agreement and permutes the nodes. -/
theorem bubbleDown_spec {S : Type} [LinearOrder S] {W L : Nat} (hsz : W * L < 4294967296)
    (d : HeapNode S) : ∀ (fuel : Nat) (h : MinHeap S) (k : Nat), h.nodes.length ≤ k + fuel →
      k < h.nodes.length → MapInv W L h → OrdDown (scoreAt h.nodes d) h.nodes.length k →
      MapInv W L (bubbleDown fuel h k) ∧ (bubbleDown fuel h k).nodes.Perm h.nodes ∧
        HeapOrder (bubbleDown fuel h k).nodes
  | 0, h, k, hk, hkn, _, _ => by omega
  | fuel + 1, h, k, hk, hkn, hm, hdn => by
    rw [bubbleDown_succ]
    obtain ⟨cl, cr, hc⟩ := bubbleDownChoice_spec h.nodes d k hkn
    by_cases e : bubbleDownChoice h.nodes k = k
    · rw [if_neg (not_not.2 e)]
      rw [e] at cl cr
      exact ⟨hm, List.Perm.refl _, (heapOrder_iff _ d).2 (ordDown_done _ _ _ hdn cl cr)⟩
    · rw [if_pos e]
      rcases hc with hc | ⟨hc, hmn, hlt⟩
      · exact absurd hc e
      · have hm' := swapNodes_mapInv hm hsz k (bubbleDownChoice h.nodes k) hkn hmn
        have hlen := swapNodes_length h k (bubbleDownChoice h.nodes k)
        have hdn' : OrdDown (scoreAt (swapNodes h k (bubbleDownChoice h.nodes k)).nodes d)
            (swapNodes h k (bubbleDownChoice h.nodes k)).nodes.length
            (bubbleDownChoice h.nodes k) := by
          rw [hlen]
          exact ordDown_swap _ _ _ k _ hc hlt cl cr
            (fun i => swapNodes_scoreAt h d k _ hkn hmn i) hdn hmn
        have ih := bubbleDown_spec hsz d fuel _ (bubbleDownChoice h.nodes k)
          (by rw [hlen]; omega) (by rw [hlen]; exact hmn) hm' hdn'
        exact ⟨ih.1, ih.2.1.trans (swapNodes_perm _ _ _), ih.2.2⟩

/-- A call of `heapInsertOrUpdate` on a cell outside the grid leaves the heap. -/
theorem heapInsertOrUpdate_outside {S : Type} [LinearOrder S] (h : MinHeap S) (grid : Grid)
    (x y : Nat) (s : S) (ho : x ≥ h.width ∨ y ≥ h.length) :
    heapInsertOrUpdate h grid x y s = h := by
  unfold heapInsertOrUpdate
  simp only []
  rw [if_pos ho]

/-- A call of `heapInsertOrUpdate` on a cell of popcount at most 1 leaves the heap. -/
theorem heapInsertOrUpdate_collapsed {S : Type} [LinearOrder S] (h : MinHeap S) (grid : Grid)
    (x y : Nat) (s : S) (hp : popcount (grid.get x y) ≤ 1) :
    heapInsertOrUpdate h grid x y s = h := by
  unfold heapInsertOrUpdate
  simp only []
  rw [if_pos hp]
  split_ifs <;> rfl

/-- A call of `heapInsertOrUpdate` on a cell in superposition whose map entry is the heap
index `i`. -/
theorem heapInsertOrUpdate_present {S : Type} [LinearOrder S] (h : MinHeap S) (grid : Grid)
    (x y : Nat) (s : S) (hi : ¬ (x ≥ h.width ∨ y ≥ h.length))
    (hp : ¬ popcount (grid.get x y) ≤ 1) (i : Nat) (n : HeapNode S)
    (hc : h.indexMap.getD (mapIdx h x y) (-1) = (i : Int)) (hn : h.nodes[i]? = some n) :
    heapInsertOrUpdate h grid x y s =
      if s < n.score then
        bubbleUp i { h with nodes := h.nodes.set i { n with score := s } } i
      else h := by
  unfold heapInsertOrUpdate
  simp only []
  have hne : ¬ ((i : Int) = -1) := by omega
  rw [if_neg hi, if_neg hp, hc, if_pos hne, Int.toNat_ofNat, hn]

/-- A call of `heapInsertOrUpdate` on a cell in superposition whose map entry is `-1`. -/
theorem heapInsertOrUpdate_absent {S : Type} [LinearOrder S] (h : MinHeap S) (grid : Grid)
    (x y : Nat) (s : S) (hi : ¬ (x ≥ h.width ∨ y ≥ h.length))
    (hp : ¬ popcount (grid.get x y) ≤ 1)
    (hc : h.indexMap.getD (mapIdx h x y) (-1) = -1) :
    heapInsertOrUpdate h grid x y s =
      bubbleUp h.nodes.length
        { h with nodes := h.nodes ++ [⟨x, y, s⟩],
                 indexMap := h.indexMap.set (mapIdx h x y) (h.nodes.length : Int) }
        h.nodes.length := by
  unfold heapInsertOrUpdate
  simp only []
  rw [if_neg hi, if_neg hp, hc, if_neg (by simp)]

/-- The entry at an index can be split off, and overwriting it replaces it. -/
theorem exists_rest {α : Type} : ∀ (l : List α) (i : Nat) (n : α), l[i]? = some n →
    ∃ rest, l.Perm (n :: rest) ∧ ∀ n', (l.set i n').Perm (n' :: rest)
  | [], _, _, h => by simp at h
  | c :: t, 0, n, h => by
    simp only [List.getElem?_cons_zero, Option.some.injEq] at h
    subst h
    exact ⟨t, List.Perm.refl _, fun n' => by simp⟩
  | c :: t, i + 1, n, h => by
    simp only [List.getElem?_cons_succ] at h
    obtain ⟨rest, h1, h2⟩ := exists_rest t i n h
    refine ⟨c :: rest, (h1.cons c).trans (List.Perm.swap _ _ _), fun n' => ?_⟩
    simp only [List.set_cons_succ]
    exact ((h2 n').cons c).trans (List.Perm.swap _ _ _)

/-- Lowering the score at `k` of scores in heap order leaves an exception at `k` only. -/
theorem ordUp_decrease {S : Type} [LinearOrder S] (sc sc' : Nat → S) (n k : Nat) (s : S)
    (hsw : ∀ j, sc' j = if j = k then s else sc j) (hs : s ≤ sc k)
    (ho : ∀ i, 0 < i → i < n → sc ((i - 1) / 2) ≤ sc i) (hk : k < n) : OrdUp sc' n k := by
  refine ⟨fun i hi hin hne => ?_, fun i hi hin hpar hp0 => ?_⟩
  · rw [hsw i, hsw ((i - 1) / 2), if_neg hne]
    by_cases e : (i - 1) / 2 = k
    · rw [if_pos e]
      have := ho i hi hin
      rw [e] at this
      exact le_trans hs this
    · rw [if_neg e]; exact ho i hi hin
  · rw [hsw i, hsw ((k - 1) / 2), if_neg (by omega), if_neg (by omega)]
    have h1 := ho i hi hin
    rw [hpar] at h1
    exact le_trans (ho k hp0 hk) h1

/-- Appending a node to scores in heap order leaves an exception at the new node only. -/
theorem ordUp_append {S : Type} [LinearOrder S] (sc sc' : Nat → S) (n : Nat)
    (hsw : ∀ j, j < n → sc' j = sc j)
    (ho : ∀ i, 0 < i → i < n → sc ((i - 1) / 2) ≤ sc i) : OrdUp sc' (n + 1) n := by
  refine ⟨fun i hi hin hne => ?_, fun i hi hin hpar hp0 => ?_⟩
  · rw [hsw i (by omega), hsw ((i - 1) / 2) (by omega)]
    exact ho i hi (by omega)
  · omega

/-- Two in-grid cells with the same index are the same cell. -/
theorem cell_inj {W x y x' y' : Nat} (hx : x < W) (hx' : x' < W)
    (e : y * W + x = y' * W + x') : x = x' ∧ y = y' := by
  have h1 : (y * W + x) % W = x := by
    rw [Nat.add_comm, Nat.add_mul_mod_self_right]; exact Nat.mod_eq_of_lt hx
  have h2 : (y' * W + x') % W = x' := by
    rw [Nat.add_comm, Nat.add_mul_mod_self_right]; exact Nat.mod_eq_of_lt hx'
  have ex : x = x' := by rw [← h1, ← h2, e]
  refine ⟨ex, ?_⟩
  subst ex
  have hW : 0 < W := by omega
  exact Nat.eq_of_mul_eq_mul_right hW (Nat.add_right_cancel e)

/-- In a heap with an agreeing map the entry of a cell tells whether a node names it. -/
theorem mapInv_lookup {S : Type} {W L : Nat} {h : MinHeap S} (hm : MapInv W L h)
    (hsz : W * L < 4294967296) {x y : Nat} (hx : x < W) (hy : y < L) :
    (h.indexMap.getD (mapIdx h x y) (-1) = -1 ∧
        ∀ (i : Nat) (n : HeapNode S), h.nodes[i]? = some n → ¬ (n.x = x ∧ n.y = y)) ∨
      ∃ (i : Nat) (n : HeapNode S), h.indexMap.getD (mapIdx h x y) (-1) = (i : Int) ∧
        h.nodes[i]? = some n ∧ n.x = x ∧ n.y = y := by
  rw [mapIdx_eq h hm.width hx hy hsz, List.getD_eq_getElem?_getD]
  by_cases hex : ∃ (i : Nat) (n : HeapNode S), h.nodes[i]? = some n ∧ n.x = x ∧ n.y = y
  · obtain ⟨i, n, hn, ex, ey⟩ := hex
    right
    refine ⟨i, n, ?_, hn, ex, ey⟩
    have := (hm.fwd i n hn).2.2
    rw [ex, ey] at this
    rw [this]; rfl
  · left
    have hno : ∀ (i : Nat) (n : HeapNode S), h.nodes[i]? = some n → ¬ (n.x = x ∧ n.y = y) :=
      fun i n hn e => hex ⟨i, n, hn, e⟩
    refine ⟨?_, hno⟩
    rw [hm.bwd (y * W + x) (cell_lt hx hy) (fun i n hn e => ?_)]
    · rfl
    · have f := hm.fwd i n hn
      have := cell_inj f.1 hx e
      exact hno i n hn this

/-- The scores after one node is overwritten. -/
theorem scoreAt_set {S : Type} (nodes : List (HeapNode S)) (d n' : HeapNode S) (i j : Nat)
    (hi : i < nodes.length) :
    scoreAt (nodes.set i n') d j = if j = i then n'.score else scoreAt nodes d j := by
  unfold scoreAt
  rw [List.getD_eq_getElem?_getD, List.getD_eq_getElem?_getD, List.getElem?_set]
  by_cases e : j = i
  · rw [if_pos e.symm, if_pos hi, if_pos e]; rfl
  · rw [if_neg (fun e' => e e'.symm), if_neg e]

/-- The scores of the old nodes after a node is appended. -/
theorem scoreAt_append {S : Type} (nodes : List (HeapNode S)) (d e : HeapNode S) (j : Nat)
    (hj : j < nodes.length) : scoreAt (nodes ++ [e]) d j = scoreAt nodes d j := by
  unfold scoreAt
  rw [List.getD_eq_getElem?_getD, List.getD_eq_getElem?_getD, List.getElem?_append_left hj]

/-- Overwriting the score of a node keeps the side map in agreement. -/
theorem mapInv_setScore {S : Type} {W L : Nat} {h : MinHeap S} (hm : MapInv W L h) (i : Nat)
    (n : HeapNode S) (hn : h.nodes[i]? = some n) (s : S) :
    MapInv W L { h with nodes := h.nodes.set i { n with score := s } } := by
  have hil : i < h.nodes.length := (List.getElem?_eq_some.1 hn).1
  refine ⟨hm.width, hm.length, hm.size, ?_, ?_⟩
  · intro k m hk
    simp only [] at hk ⊢
    rw [List.getElem?_set] at hk
    by_cases e : i = k
    · rw [if_pos e, if_pos hil] at hk
      cases hk
      rw [← e]
      exact hm.fwd i n hn
    · rw [if_neg e] at hk
      exact hm.fwd k m hk
  · intro m hml hno
    simp only [] at hno ⊢
    refine hm.bwd m hml (fun k n' hk => ?_)
    by_cases e : i = k
    · rw [← e, hn] at hk
      cases hk
      exact hno i { n with score := s } (by rw [List.getElem?_set, if_pos rfl, if_pos hil])
    · exact hno k n' (by rw [List.getElem?_set, if_neg e]; exact hk)

/-- Appending a node for a cell that no node names, with its map entry, keeps the side
map in agreement. -/
theorem mapInv_append {S : Type} {W L : Nat} {h : MinHeap S} (hm : MapInv W L h) {x y : Nat}
    (hx : x < W) (hy : y < L)
    (hno : ∀ (i : Nat) (n : HeapNode S), h.nodes[i]? = some n → ¬ (n.x = x ∧ n.y = y))
    (s : S) :
    MapInv W L { h with nodes := h.nodes ++ [⟨x, y, s⟩],
                        indexMap := h.indexMap.set (y * W + x) (h.nodes.length : Int) } := by
  have hc := cell_lt hx hy
  refine ⟨hm.width, hm.length, by simp only [List.length_set]; exact hm.size, ?_, ?_⟩
  · intro k m hk
    simp only [] at hk ⊢
    by_cases e : k < h.nodes.length
    · rw [List.getElem?_append_left e] at hk
      have f := hm.fwd k m hk
      have hne : y * W + x ≠ m.y * W + m.x := fun e' =>
        hno k m hk ⟨(cell_inj hx f.1 e').1.symm, (cell_inj hx f.1 e').2.symm⟩
      refine ⟨f.1, f.2.1, ?_⟩
      rw [List.getElem?_set_ne hne]
      exact f.2.2
    · have hkl : k = h.nodes.length := by
        have := (List.getElem?_eq_some.1 hk).1
        rw [List.length_append, List.length_singleton] at this
        omega
      rw [hkl, List.getElem?_concat_length] at hk
      cases hk
      refine ⟨hx, hy, ?_⟩
      rw [hkl, List.getElem?_set_self (by rw [hm.size]; exact hc)]
  · intro m hml hno'
    simp only [] at hno' ⊢
    have hne : y * W + x ≠ m := hno' h.nodes.length ⟨x, y, s⟩
      (List.getElem?_concat_length _ _)
    rw [List.getElem?_set_ne hne]
    refine hm.bwd m hml (fun k n hk => ?_)
    have hkl : k < h.nodes.length := (List.getElem?_eq_some.1 hk).1
    exact hno' k n (by rw [List.getElem?_append_left hkl]; exact hk)

/-- In a heap with an agreeing map no two nodes name the same cell. -/
theorem mapInv_nodup {S : Type} {W L : Nat} {h : MinHeap S} (hm : MapInv W L h) :
    (h.nodes.map (fun n => n.y * W + n.x)).Nodup := by
  rw [List.nodup_iff_getElem?_ne_getElem?]
  intro i j hij hj e
  rw [List.length_map] at hj
  have hi : i < h.nodes.length := by omega
  rw [List.getElem?_map, List.getElem?_map, List.getElem?_eq_getElem hi,
    List.getElem?_eq_getElem hj] at e
  have := mapInv_inj hm (List.getElem?_eq_getElem hi) (List.getElem?_eq_getElem hj)
    (Option.some.inj e)
  omega

/-- The effect of `heapInsertOrUpdate` on an in-grid cell of a heap in order with an
agreeing map. -/
theorem heapInsertOrUpdate_spec {S : Type} [LinearOrder S] {W L : Nat} {h : MinHeap S}
    (hm : MapInv W L h) (ho : HeapOrder h.nodes) (hsz : W * L < 4294967296) (grid : Grid)
    {x y : Nat} (hx : x < W) (hy : y < L) (s : S) :
    MapInv W L (heapInsertOrUpdate h grid x y s) ∧
      HeapOrder (heapInsertOrUpdate h grid x y s).nodes ∧
      (popcount (grid.get x y) ≤ 1 → heapInsertOrUpdate h grid x y s = h) ∧
      (1 < popcount (grid.get x y) →
        ((∀ e ∈ h.nodes, ¬ (e.x = x ∧ e.y = y)) →
          (heapInsertOrUpdate h grid x y s).nodes.Perm (⟨x, y, s⟩ :: h.nodes)) ∧
        (∀ e ∈ h.nodes, e.x = x → e.y = y →
          ∃ rest, h.nodes.Perm (e :: rest) ∧ (∀ e' ∈ rest, ¬ (e'.x = x ∧ e'.y = y)) ∧
            (heapInsertOrUpdate h grid x y s).nodes.Perm
              ({ e with score := min e.score s } :: rest))) := by
  have hin : ¬ (x ≥ h.width ∨ y ≥ h.length) := by rw [hm.width, hm.length]; omega
  have d : HeapNode S := ⟨x, y, s⟩
  by_cases hp : popcount (grid.get x y) ≤ 1
  · rw [heapInsertOrUpdate_collapsed h grid x y s hp]
    exact ⟨hm, ho, fun _ => rfl, fun h1 => absurd hp (by omega)⟩
  · rcases mapInv_lookup hm hsz hx hy with ⟨hc, hno⟩ | ⟨i, n, hc, hn, ex, ey⟩
    · rw [heapInsertOrUpdate_absent h grid x y s hin hp hc,
        mapIdx_eq h hm.width hx hy hsz]
      have hm1 := mapInv_append hm hx hy hno s
      have hup : OrdUp (scoreAt (h.nodes ++ [⟨x, y, s⟩]) d)
          (h.nodes ++ [(⟨x, y, s⟩ : HeapNode S)]).length h.nodes.length := by
        rw [List.length_append, List.length_singleton]
        exact ordUp_append (scoreAt h.nodes d) _ _
          (fun j hj => scoreAt_append h.nodes d _ j hj) ((heapOrder_iff _ d).1 ho)
      have hb := bubbleUp_spec hsz d h.nodes.length _ h.nodes.length (le_refl _)
        (by simp) hm1 hup
      refine ⟨hb.1, hb.2.2, fun h1 => absurd h1 hp, fun _ => ⟨fun _ => ?_, ?_⟩⟩
      · exact hb.2.1.trans (List.perm_append_singleton _ _)
      · intro e he ex ey
        obtain ⟨k, hk⟩ := List.mem_iff_getElem?.1 he
        exact absurd ⟨ex, ey⟩ (hno k e hk)
    · rw [heapInsertOrUpdate_present h grid x y s hin hp i n hc hn]
      have hil : i < h.nodes.length := (List.getElem?_eq_some.1 hn).1
      obtain ⟨rest, hr1, hr2⟩ := exists_rest h.nodes i n hn
      have hnd := (List.Perm.map (fun n : HeapNode S => n.y * W + n.x) hr1).nodup_iff.1
        (mapInv_nodup hm)
      rw [List.map_cons, List.nodup_cons] at hnd
      have hrest : ∀ e' ∈ rest, ¬ (e'.x = x ∧ e'.y = y) := by
        intro e' he' e
        refine hnd.1 (List.mem_map.2 ⟨e', he', ?_⟩)
        rw [e.1, e.2, ex, ey]
      have hpres : ¬ ∀ e ∈ h.nodes, ¬ (e.x = x ∧ e.y = y) := fun hall =>
        hall n (List.mem_iff_getElem?.2 ⟨i, hn⟩) ⟨ex, ey⟩
      have huniq : ∀ e ∈ h.nodes, e.x = x → e.y = y → e = n := by
        intro e he ex' ey'
        obtain ⟨k, hk⟩ := List.mem_iff_getElem?.1 he
        have := mapInv_inj hm hk hn (by rw [ex, ey, ex', ey'])
        rw [this, hn] at hk
        exact (Option.some.inj hk).symm
      by_cases hlt : s < n.score
      · rw [if_pos hlt]
        have hm1 := mapInv_setScore hm i n hn s
        have hup : OrdUp (scoreAt (h.nodes.set i { n with score := s }) d)
            (h.nodes.set i { n with score := s }).length i := by
          rw [List.length_set]
          refine ordUp_decrease (scoreAt h.nodes d) _ _ i s
            (fun j => scoreAt_set h.nodes d _ i j hil) ?_ ((heapOrder_iff _ d).1 ho) hil
          unfold scoreAt
          rw [List.getD_eq_getElem?_getD, hn]
          exact le_of_lt hlt
        have hb := bubbleUp_spec hsz d i _ i (le_refl _)
          (by simp only [List.length_set]; exact hil) hm1 hup
        refine ⟨hb.1, hb.2.2, fun h1 => absurd h1 hp, fun _ => ⟨fun h1 => absurd h1 hpres, ?_⟩⟩
        intro e he ex' ey'
        rw [huniq e he ex' ey', min_eq_right (le_of_lt hlt)]
        exact ⟨rest, hr1, hrest, hb.2.1.trans (hr2 _)⟩
      · rw [if_neg hlt]
        refine ⟨hm, ho, fun h1 => absurd h1 hp, fun _ => ⟨fun h1 => absurd h1 hpres, ?_⟩⟩
        intro e he ex' ey'
        rw [huniq e he ex' ey', min_eq_left (not_lt.1 hlt)]
        exact ⟨rest, hr1, hrest, hr1⟩

/-- The heap `initHeap W L` of a layer whose cell count fits 32 bits has an agreeing map
and is in order. -/
theorem initHeap_inv (S : Type) [LinearOrder S] (W L : Nat) (hsz : W * L < 4294967296) :
    MapInv W L (initHeap S W L) ∧ HeapOrder (initHeap S W L).nodes := by
  unfold initHeap
  refine ⟨⟨rfl, rfl, ?_, ?_, ?_⟩, ?_⟩
  · simp only [List.length_replicate]
    exact Nat.mod_eq_of_lt hsz
  · intro i n hn
    simp at hn
  · intro m hml _
    simp only [List.getElem?_replicate, Nat.mod_eq_of_lt hsz]
    rw [if_pos hml]
  · intro i a p _ ha
    simp at ha

/-- A call of `heapInsertOrUpdate` on any cell keeps the side map in agreement and the
heap in order. -/
theorem heapInsertOrUpdate_inv {S : Type} [LinearOrder S] {W L : Nat} {h : MinHeap S}
    (hm : MapInv W L h) (ho : HeapOrder h.nodes) (hsz : W * L < 4294967296) (grid : Grid)
    (x y : Nat) (s : S) :
    MapInv W L (heapInsertOrUpdate h grid x y s) ∧
      HeapOrder (heapInsertOrUpdate h grid x y s).nodes := by
  by_cases hin : x < W ∧ y < L
  · have := heapInsertOrUpdate_spec hm ho hsz grid hin.1 hin.2 s
    exact ⟨this.1, this.2.1⟩
  · rw [heapInsertOrUpdate_outside h grid x y s (by rw [hm.width, hm.length]; omega)]
    exact ⟨hm, ho⟩

/-- One pass of the loop of `heapPop` on a heap with a node. -/
theorem heapPopLoop_succ {S : Type} [LinearOrder S] (fuel : Nat) (h : MinHeap S)
    (grid : Grid) (top : HeapNode S) (ht : h.nodes[0]? = some top) :
    heapPopLoop (fuel + 1) h grid =
      if popcount (grid.get top.x top.y) > 1 then (popTop h top, some (top.x, top.y))
      else heapPopLoop fuel (popTop h top) grid := by
  rw [heapPopLoop]
  simp only [ht]
  rfl

/-- The loop of `heapPop` on a heap without nodes. -/
theorem heapPopLoop_nil {S : Type} [LinearOrder S] (fuel : Nat) (h : MinHeap S)
    (grid : Grid) (ht : h.nodes = []) : heapPopLoop fuel h grid = (h, none) := by
  cases fuel with
  | zero => rfl
  | succ fuel =>
    rw [heapPopLoop]
    simp only [ht, List.getElem?_nil]

/-- In a heap in order the root scores least. -/
theorem heapOrder_root {S : Type} [LinearOrder S] (sc : Nat → S) (n : Nat)
    (ho : ∀ i, 0 < i → i < n → sc ((i - 1) / 2) ≤ sc i) : ∀ i, i < n → sc 0 ≤ sc i := by
  intro i
  induction i using Nat.strong_induction_on with
  | _ i ih =>
    intro hin
    by_cases h0 : i = 0
    · rw [h0]
    · exact le_trans (ih ((i - 1) / 2) (by omega) (by omega)) (ho i (by omega) hin)

/-- The scores of the kept nodes after the last node is dropped. -/
theorem scoreAt_dropLast {S : Type} (nodes : List (HeapNode S)) (d : HeapNode S) (j : Nat)
    (hj : j < nodes.length - 1) : scoreAt nodes.dropLast d j = scoreAt nodes d j := by
  unfold scoreAt
  rw [List.getD_eq_getElem?_getD, List.getD_eq_getElem?_getD, List.getElem?_dropLast,
    if_pos hj]

/-- Dropping the last node and resetting its map entry keeps the side map in agreement. -/
theorem mapInv_dropLast {S : Type} {W L : Nat} {h : MinHeap S} (hm : MapInv W L h)
    (top : HeapNode S) (ht : h.nodes[h.nodes.length - 1]? = some top) :
    MapInv W L { h with nodes := h.nodes.dropLast,
                        indexMap := h.indexMap.set (top.y * W + top.x) (-1) } := by
  have ft := hm.fwd _ top ht
  have hc := cell_lt ft.1 ft.2.1
  refine ⟨hm.width, hm.length, by simp only [List.length_set]; exact hm.size, ?_, ?_⟩
  · intro k m hk
    simp only [] at hk ⊢
    rw [List.getElem?_dropLast] at hk
    by_cases e : k < h.nodes.length - 1
    · rw [if_pos e] at hk
      have f := hm.fwd k m hk
      have hne : top.y * W + top.x ≠ m.y * W + m.x := fun e' => by
        have := mapInv_inj hm ht hk e'
        omega
      refine ⟨f.1, f.2.1, ?_⟩
      rw [List.getElem?_set_ne hne]
      exact f.2.2
    · rw [if_neg e] at hk
      cases hk
  · intro m hml hno
    simp only [] at hno ⊢
    by_cases e : top.y * W + top.x = m
    · rw [e, List.getElem?_set_self (by rw [hm.size]; exact hml)]
    · rw [List.getElem?_set_ne e]
      refine hm.bwd m hml (fun k n hk => ?_)
      by_cases e1 : k < h.nodes.length - 1
      · exact hno k n (by rw [List.getElem?_dropLast, if_pos e1]; exact hk)
      · have hkl : k < h.nodes.length := (List.getElem?_eq_some.1 hk).1
        have : k = h.nodes.length - 1 := by omega
        rw [this, ht] at hk
        cases hk
        exact e

/-- A list is its front followed by its last entry. -/
theorem dropLast_concat {α : Type} (l : List α) (t : α) (ht : l[l.length - 1]? = some t) :
    l = l.dropLast ++ [t] := by
  rw [← List.getLast?_eq_getElem?] at ht
  exact (List.dropLast_append_getLast? t ht).symm

/-- One removal of the top: the heap stays in order with an agreeing map, the top is the
one node removed, and it scores least. -/
theorem popTop_spec {S : Type} [LinearOrder S] {W L : Nat} {h : MinHeap S}
    (hm : MapInv W L h) (ho : HeapOrder h.nodes) (hsz : W * L < 4294967296)
    (top : HeapNode S) (ht : h.nodes[0]? = some top) :
    MapInv W L (popTop h top) ∧ HeapOrder (popTop h top).nodes ∧
      h.nodes.Perm (top :: (popTop h top).nodes) ∧ ∀ e ∈ h.nodes, top.score ≤ e.score := by
  have hn : 0 < h.nodes.length := (List.getElem?_eq_some.1 ht).1
  have hn1 : h.nodes.length - 1 < h.nodes.length := by omega
  have hl : h.nodes[h.nodes.length - 1]? = some h.nodes[h.nodes.length - 1] :=
    List.getElem?_eq_getElem hn1
  have hget := swapNodes_get h 0 (h.nodes.length - 1) top _ ht hl
  have hsc := swapNodes_scoreAt h top 0 (h.nodes.length - 1) hn hn1
  have hm1 := swapNodes_mapInv hm hsz 0 (h.nodes.length - 1) hn hn1
  have hlen1 := swapNodes_length h 0 (h.nodes.length - 1)
  have ht1 : (swapNodes h 0 (h.nodes.length - 1)).nodes[
      (swapNodes h 0 (h.nodes.length - 1)).nodes.length - 1]? = some top := by
    rw [hlen1, hget, if_pos rfl]
  have hm2 := mapInv_dropLast hm1 top ht1
  have ft := hm.fwd 0 top ht
  have hp1 : (swapNodes h 0 (h.nodes.length - 1)).nodes.Perm
      (top :: (swapNodes h 0 (h.nodes.length - 1)).nodes.dropLast) := by
    have e := dropLast_concat _ top ht1
    have p := List.perm_append_singleton top
      (swapNodes h 0 (h.nodes.length - 1)).nodes.dropLast
    rw [← e] at p
    exact p
  have hperm := (swapNodes_perm h 0 (h.nodes.length - 1)).symm.trans hp1
  have hlen2 : (swapNodes h 0 (h.nodes.length - 1)).nodes.dropLast.length =
      h.nodes.length - 1 := by rw [List.length_dropLast, hlen1]
  have hmin : ∀ e ∈ h.nodes, top.score ≤ e.score := by
    intro e he
    obtain ⟨k, hk⟩ := List.mem_iff_getElem?.1 he
    have := heapOrder_root (scoreAt h.nodes top) h.nodes.length
      ((heapOrder_iff _ top).1 ho) k (List.getElem?_eq_some.1 hk).1
    unfold scoreAt at this
    rw [List.getD_eq_getElem?_getD, List.getD_eq_getElem?_getD, ht, hk] at this
    exact this
  unfold popTop
  rw [mapIdx_eq h hm.width ft.1 ft.2.1 hsz]
  by_cases hpos : (swapNodes h 0 (h.nodes.length - 1)).nodes.dropLast.length > 0
  · rw [if_pos hpos]
    have hdn : OrdDown
        (scoreAt (swapNodes h 0 (h.nodes.length - 1)).nodes.dropLast top)
        (swapNodes h 0 (h.nodes.length - 1)).nodes.dropLast.length 0 := by
      refine ⟨fun i hi hin hne => ?_, fun _ _ _ _ h0 => absurd h0 (lt_irrefl 0)⟩
      rw [hlen2] at hin
      rw [scoreAt_dropLast _ _ _ (by rw [hlen1]; omega),
        scoreAt_dropLast _ _ _ (by rw [hlen1]; exact hin), hsc, hsc,
        if_neg (by omega), if_neg hne, if_neg (by omega), if_neg (by omega)]
      exact (heapOrder_iff _ top).1 ho i hi (by omega)
    have hb := bubbleDown_spec hsz top
      (swapNodes h 0 (h.nodes.length - 1)).nodes.dropLast.length
      { swapNodes h 0 (h.nodes.length - 1) with
        nodes := (swapNodes h 0 (h.nodes.length - 1)).nodes.dropLast,
        indexMap := (swapNodes h 0 (h.nodes.length - 1)).indexMap.set
          (top.y * W + top.x) (-1) } 0 (by simp) hpos hm2 hdn
    exact ⟨hb.1, hb.2.2, hperm.trans (hb.2.1.symm.cons top), hmin⟩
  · rw [if_neg hpos]
    refine ⟨hm2, ?_, hperm, hmin⟩
    intro i a p _ ha
    have := (List.getElem?_eq_some.1 ha).1
    simp only [] at this
    omega

/-- The loop of `heapPop` with fuel for every node: it returns the least-scoring node
whose cell is in superposition, having removed it and the stale nodes before it, or
empties a heap of stale nodes. -/
theorem heapPopLoop_spec {S : Type} [LinearOrder S] {W L : Nat} (hsz : W * L < 4294967296)
    (grid : Grid) : ∀ (fuel : Nat) (h : MinHeap S), h.nodes.length ≤ fuel → MapInv W L h →
      HeapOrder h.nodes →
      MapInv W L (heapPopLoop fuel h grid).1 ∧ HeapOrder (heapPopLoop fuel h grid).1.nodes ∧
      (∀ x y, (heapPopLoop fuel h grid).2 = some (x, y) →
        ∃ e stale, h.nodes.Perm (e :: (stale ++ (heapPopLoop fuel h grid).1.nodes)) ∧
          e.x = x ∧ e.y = y ∧ 1 < popcount (grid.get x y) ∧
          (∀ e' ∈ stale, popcount (grid.get e'.x e'.y) ≤ 1 ∧ e'.score ≤ e.score) ∧
          ∀ e' ∈ (heapPopLoop fuel h grid).1.nodes, e.score ≤ e'.score) ∧
      ((heapPopLoop fuel h grid).2 = none →
        (heapPopLoop fuel h grid).1.nodes = [] ∧
          ∀ e ∈ h.nodes, popcount (grid.get e.x e.y) ≤ 1)
  | 0, h, hf, hm, ho => by
    have hnil : h.nodes = [] := List.length_eq_zero.1 (by omega)
    rw [heapPopLoop_nil 0 h grid hnil]
    refine ⟨hm, ho, (fun x y e => by cases e), fun _ => ⟨hnil, fun e he => ?_⟩⟩
    rw [hnil] at he
    cases he
  | fuel + 1, h, hf, hm, ho => by
    cases ht : h.nodes[0]? with
    | none =>
      have hnil : h.nodes = [] := List.length_eq_zero.1 (by
        have := List.getElem?_eq_none_iff.1 ht
        omega)
      rw [heapPopLoop_nil _ h grid hnil]
      refine ⟨hm, ho, (fun x y e => by cases e), fun _ => ⟨hnil, fun e he => ?_⟩⟩
      rw [hnil] at he
      cases he
    | some top =>
      obtain ⟨hm3, ho3, hperm, hmin⟩ := popTop_spec hm ho hsz top ht
      rw [heapPopLoop_succ fuel h grid top ht]
      by_cases hv : popcount (grid.get top.x top.y) > 1
      · rw [if_pos hv]
        refine ⟨hm3, ho3, fun x y e => ?_, fun e => by cases e⟩
        simp only [Option.some.injEq, Prod.mk.injEq] at e
        refine ⟨top, [], hperm, e.1, e.2, ?_, (fun e' he' => by cases he'), fun e' he' => ?_⟩
        · rw [← e.1, ← e.2]; exact hv
        · exact hmin e' (hperm.mem_iff.2 (List.mem_cons_of_mem _ he'))
      · rw [if_neg hv]
        have hlen : (popTop h top).nodes.length ≤ fuel := by
          have := hperm.length_eq
          rw [List.length_cons] at this
          omega
        obtain ⟨i1, i2, i3, i4⟩ := heapPopLoop_spec hsz grid fuel (popTop h top) hlen hm3 ho3
        refine ⟨i1, i2, fun x y e => ?_, fun e => ⟨(i4 e).1, fun e' he' => ?_⟩⟩
        · obtain ⟨e0, stale, p, ex, ey, hvalid, hst, hrest⟩ := i3 x y e
          have he0 : e0 ∈ h.nodes :=
            hperm.mem_iff.2 (List.mem_cons_of_mem _ (p.mem_iff.2 (List.mem_cons_self _ _)))
          refine ⟨e0, top :: stale, ?_, ex, ey, hvalid, ?_, hrest⟩
          · exact (hperm.trans (p.cons top)).trans (List.Perm.swap _ _ _)
          · intro e' he'
            rcases List.mem_cons.1 he' with e1 | e1
            · rw [e1]; exact ⟨by omega, hmin e0 he0⟩
            · exact hst e' e1
        · rcases List.mem_cons.1 (hperm.mem_iff.1 he') with e1 | e1
          · rw [e1]; omega
          · exact (i4 e).2 e' e1

/-- Every reachable heap of a layer whose cell count fits 32 bits has an agreeing map and
is in order. -/
theorem heapReachable_inv {S : Type} [LinearOrder S] {W L : Nat} (hsz : W * L < 4294967296)
    {h : MinHeap S} (hr : HeapReachable W L h) : MapInv W L h ∧ HeapOrder h.nodes := by
  induction hr with
  | init => exact initHeap_inv S W L hsz
  | insert h grid x y s _ ih => exact heapInsertOrUpdate_inv ih.1 ih.2 hsz grid x y s
  | pop h grid _ ih =>
    have := heapPopLoop_spec hsz grid h.nodes.length h (le_refl _) ih.1 ih.2
    exact ⟨this.1, this.2.1⟩

/-- The heap `sampleHeap` is reachable from `initHeap 4 4`. -/
theorem sampleHeap_reachable : HeapReachable 4 4 sampleHeap :=
  HeapReachable.insert _ _ _ _ _ (HeapReachable.insert _ _ _ _ _
    (HeapReachable.insert _ _ _ _ _ (HeapReachable.insert _ _ _ _ _ HeapReachable.init)))

/-- The heap `sampleHeap` holds three nodes, (0,0) with the lowered score on top. -/
theorem sampleHeap_nodes :
    sampleHeap.nodes.map (fun n => (n.x, n.y, n.score)) =
      [(0, 0, 1000), (1, 0, 2003), (0, 1, 3001)] ∧
    sampleHeap.indexMap = [0, 1, -1, -1, 2, -1, -1, -1, -1, -1, -1, -1, -1, -1, -1, -1] := by
  decide

/-- **Claim C16** (side map). In every heap state reachable from `initHeap W L` by `heapInsertOrUpdate`
and `heapPop`, for a layer whose cell count fits the `int32_t` map entries, the side map
agrees with the heap array: it has `W * L` entries, every node `nodes[i]` lies in the
grid and `indexMap[nodes[i].y * W + nodes[i].x] = i`, and the entry of every cell that no
node names is `-1`; hence no two nodes name the same cell and the node count is at most
`W * L`, the capacity. -/
theorem heap_indexMap_agrees {S : Type} [LinearOrder S] (W L : Nat) (h : MinHeap S)
    (hsz : W * L < 2147483648) (hr : HeapReachable W L h) :
    h.width = W ∧ h.length = L ∧ h.indexMap.length = W * L ∧
      (∀ (i : Nat) (n : HeapNode S), h.nodes[i]? = some n →
        n.x < W ∧ n.y < L ∧ h.indexMap[n.y * W + n.x]? = some (i : Int)) ∧
      (∀ m : Nat, m < W * L →
        (∀ (i : Nat) (n : HeapNode S), h.nodes[i]? = some n → n.y * W + n.x ≠ m) →
        h.indexMap[m]? = some (-1)) ∧
      (∀ (i j : Nat) (a b : HeapNode S), h.nodes[i]? = some a → h.nodes[j]? = some b →
        a.x = b.x → a.y = b.y → i = j) ∧
      h.nodes.length ≤ W * L := by
  have hm := (heapReachable_inv (lt_trans hsz (by decide)) hr).1
  refine ⟨hm.width, hm.length, hm.size, hm.fwd, hm.bwd, ?_, ?_⟩
  · intro i j a b ha hb ex ey
    exact mapInv_inj hm ha hb (by rw [ex, ey])
  · have hsub : h.nodes.map (fun n => n.y * W + n.x) ⊆ List.range (W * L) := by
      intro c hc
      obtain ⟨n, hn, e⟩ := List.mem_map.1 hc
      obtain ⟨k, hk⟩ := List.mem_iff_getElem?.1 hn
      have f := hm.fwd k n hk
      rw [← e]
      exact List.mem_range.2 (cell_lt f.1 f.2.1)
    have := (List.subperm_of_subset (mapInv_nodup hm) hsub).length_le
    rw [List.length_map, List.length_range] at this
    exact this

/-- The statement of C16 holds of the reachable heap `sampleHeap` of a 4 by 4 layer. -/
theorem heap_indexMap_agrees_witness :
    (4 * 4 < 2147483648 ∧ HeapReachable 4 4 sampleHeap) ∧
      (sampleHeap.width = 4 ∧ sampleHeap.length = 4 ∧ sampleHeap.indexMap.length = 4 * 4 ∧
      (∀ (i : Nat) (n : HeapNode Nat), sampleHeap.nodes[i]? = some n →
        n.x < 4 ∧ n.y < 4 ∧ sampleHeap.indexMap[n.y * 4 + n.x]? = some (i : Int)) ∧
      (∀ m : Nat, m < 4 * 4 →
        (∀ (i : Nat) (n : HeapNode Nat), sampleHeap.nodes[i]? = some n → n.y * 4 + n.x ≠ m) →
        sampleHeap.indexMap[m]? = some (-1)) ∧
      (∀ (i j : Nat) (a b : HeapNode Nat), sampleHeap.nodes[i]? = some a →
        sampleHeap.nodes[j]? = some b → a.x = b.x → a.y = b.y → i = j) ∧
      sampleHeap.nodes.length ≤ 4 * 4) :=
  ⟨⟨by decide, sampleHeap_reachable⟩,
    heap_indexMap_agrees 4 4 sampleHeap (by decide) sampleHeap_reachable⟩

/-- **Claim C15** (insert or update). On a heap reachable from `initHeap W L`, for a layer whose cell count fits
the `int32_t` map entries, `heapInsertOrUpdate` on an in-grid cell `(x, y)` with the
fresh score `s` leaves the heap in min-heap order; it leaves the heap unchanged when the
popcount of the cell is at most 1; otherwise, when no node names the cell the nodes
become the old nodes and the one new node `(x, y, s)`, and when a node `e` names the cell
it is the only such node and the nodes become the other old nodes, untouched, and `e`
with the score `min e.score s`. -/
theorem heapInsertOrUpdate_keeps_order {S : Type} [LinearOrder S] (W L : Nat)
    (h : MinHeap S) (grid : Grid) (x y : Nat) (s : S) (hsz : W * L < 2147483648)
    (hr : HeapReachable W L h) (hx : x < W) (hy : y < L) :
    HeapOrder (heapInsertOrUpdate h grid x y s).nodes ∧
      (popcount (grid.get x y) ≤ 1 → heapInsertOrUpdate h grid x y s = h) ∧
      (1 < popcount (grid.get x y) →
        ((∀ e ∈ h.nodes, ¬ (e.x = x ∧ e.y = y)) →
          (heapInsertOrUpdate h grid x y s).nodes.Perm (⟨x, y, s⟩ :: h.nodes)) ∧
        (∀ e ∈ h.nodes, e.x = x → e.y = y →
          ∃ rest, h.nodes.Perm (e :: rest) ∧ (∀ e' ∈ rest, ¬ (e'.x = x ∧ e'.y = y)) ∧
            (heapInsertOrUpdate h grid x y s).nodes.Perm
              ({ e with score := min e.score s } :: rest))) := by
  have hsz' : W * L < 4294967296 := lt_trans hsz (by decide)
  have hi := heapReachable_inv hsz' hr
  exact (heapInsertOrUpdate_spec hi.1 hi.2 hsz' grid hx hy s).2

/-- The statement of C15 holds of the heap `sampleHeap` over `sampleHeapGrid` at the
cell (0, 1), which a node names, with the fresh score 2500. -/
theorem heapInsertOrUpdate_keeps_order_witness :
    (4 * 4 < 2147483648 ∧ HeapReachable 4 4 sampleHeap ∧ 0 < 4 ∧ 1 < 4) ∧
    (HeapOrder (heapInsertOrUpdate sampleHeap sampleHeapGrid 0 1 2500).nodes ∧
      (popcount (sampleHeapGrid.get 0 1) ≤ 1 →
        heapInsertOrUpdate sampleHeap sampleHeapGrid 0 1 2500 = sampleHeap) ∧
      (1 < popcount (sampleHeapGrid.get 0 1) →
        ((∀ e ∈ sampleHeap.nodes, ¬ (e.x = 0 ∧ e.y = 1)) →
          (heapInsertOrUpdate sampleHeap sampleHeapGrid 0 1 2500).nodes.Perm
            (⟨0, 1, 2500⟩ :: sampleHeap.nodes)) ∧
        (∀ e ∈ sampleHeap.nodes, e.x = 0 → e.y = 1 →
          ∃ rest, sampleHeap.nodes.Perm (e :: rest) ∧
            (∀ e' ∈ rest, ¬ (e'.x = 0 ∧ e'.y = 1)) ∧
            (heapInsertOrUpdate sampleHeap sampleHeapGrid 0 1 2500).nodes.Perm
              ({ e with score := min e.score 2500 } :: rest)))) :=
  ⟨⟨by decide, sampleHeap_reachable, by decide, by decide⟩,
    heapInsertOrUpdate_keeps_order 4 4 sampleHeap sampleHeapGrid 0 1 2500 (by decide)
      sampleHeap_reachable (by decide) (by decide)⟩

/-- **Claim C14** (pop with lazy deletion). On a heap reachable from `initHeap W L`, for a layer whose cell count fits
the `int32_t` map entries, `heapPop` returns a cell exactly when the cell of some node
has popcount above 1; the cell it returns is that of a node `e` whose cell has popcount
above 1 and that scores least among the nodes with such cells, and the call has removed
`e` and the stale nodes popped before it (cells of popcount at most 1, scores at most
that of `e`) and no other node; when it returns no cell the heap is left empty. -/
theorem heapPop_returns_least_valid {S : Type} [LinearOrder S] (W L : Nat) (h : MinHeap S)
    (grid : Grid) (hsz : W * L < 2147483648) (hr : HeapReachable W L h) :
    ((heapPop h grid).2.isSome = true ↔
        ∃ e ∈ h.nodes, 1 < popcount (grid.get e.x e.y)) ∧
      (∀ x y, (heapPop h grid).2 = some (x, y) →
        ∃ e stale, h.nodes.Perm (e :: (stale ++ (heapPop h grid).1.nodes)) ∧
          e.x = x ∧ e.y = y ∧ 1 < popcount (grid.get x y) ∧
          (∀ e' ∈ h.nodes, 1 < popcount (grid.get e'.x e'.y) → e.score ≤ e'.score) ∧
          ∀ e' ∈ stale, popcount (grid.get e'.x e'.y) ≤ 1 ∧ e'.score ≤ e.score) ∧
      ((heapPop h grid).2 = none → (heapPop h grid).1.nodes = []) := by
  have hsz' : W * L < 4294967296 := lt_trans hsz (by decide)
  have hi := heapReachable_inv hsz' hr
  obtain ⟨_, _, h3, h4⟩ := heapPopLoop_spec hsz' grid h.nodes.length h (le_refl _) hi.1 hi.2
  have hsome : ∀ x y, (heapPop h grid).2 = some (x, y) →
      ∃ e stale, h.nodes.Perm (e :: (stale ++ (heapPop h grid).1.nodes)) ∧
        e.x = x ∧ e.y = y ∧ 1 < popcount (grid.get x y) ∧
        (∀ e' ∈ h.nodes, 1 < popcount (grid.get e'.x e'.y) → e.score ≤ e'.score) ∧
        ∀ e' ∈ stale, popcount (grid.get e'.x e'.y) ≤ 1 ∧ e'.score ≤ e.score := by
    intro x y e
    obtain ⟨e0, stale, p, ex, ey, hv, hst, hrest⟩ := h3 x y e
    refine ⟨e0, stale, p, ex, ey, hv, fun e' he' hv' => ?_, hst⟩
    rcases List.mem_cons.1 (p.mem_iff.1 he') with e1 | e1
    · rw [e1]
    · rcases List.mem_append.1 e1 with e2 | e2
      · have := (hst e' e2).1
        omega
      · exact hrest e' e2
  refine ⟨⟨fun hs => ?_, fun hex => ?_⟩, hsome, fun e => (h4 e).1⟩
  · obtain ⟨⟨x, y⟩, e⟩ := Option.isSome_iff_exists.1 hs
    obtain ⟨e0, stale, p, ex, ey, hv, _, _⟩ := hsome x y e
    exact ⟨e0, p.mem_iff.2 (List.mem_cons_self _ _), by rw [ex, ey]; exact hv⟩
  · obtain ⟨e0, he0, hv⟩ := hex
    cases hres : (heapPop h grid).2 with
    | some c => rfl
    | none =>
      have := (h4 hres).2 e0 he0
      omega

/-- The statement of C14 holds of the heap `sampleHeap` over the layer
`sampleHeapGridLater`, in which the cell of the top node has collapsed. -/
theorem heapPop_returns_least_valid_witness :
    (4 * 4 < 2147483648 ∧ HeapReachable 4 4 sampleHeap) ∧
    (((heapPop sampleHeap sampleHeapGridLater).2.isSome = true ↔
        ∃ e ∈ sampleHeap.nodes, 1 < popcount (sampleHeapGridLater.get e.x e.y)) ∧
      (∀ x y, (heapPop sampleHeap sampleHeapGridLater).2 = some (x, y) →
        ∃ e stale, sampleHeap.nodes.Perm
            (e :: (stale ++ (heapPop sampleHeap sampleHeapGridLater).1.nodes)) ∧
          e.x = x ∧ e.y = y ∧ 1 < popcount (sampleHeapGridLater.get x y) ∧
          (∀ e' ∈ sampleHeap.nodes, 1 < popcount (sampleHeapGridLater.get e'.x e'.y) →
            e.score ≤ e'.score) ∧
          ∀ e' ∈ stale, popcount (sampleHeapGridLater.get e'.x e'.y) ≤ 1 ∧
            e'.score ≤ e.score) ∧
      ((heapPop sampleHeap sampleHeapGridLater).2 = none →
        (heapPop sampleHeap sampleHeapGridLater).1.nodes = [])) :=
  ⟨⟨by decide, sampleHeap_reachable⟩,
    heapPop_returns_least_valid 4 4 sampleHeap sampleHeapGridLater (by decide)
      sampleHeap_reachable⟩

/-- On `sampleHeap` over `sampleHeapGridLater` the call of `heapPop` drops the stale top
(0,0) and returns the cell (1,0); one node is left. -/
theorem heapPop_sample :
    (heapPop sampleHeap sampleHeapGridLater).2 = some (1, 0) ∧
      (heapPop sampleHeap sampleHeapGridLater).1.nodes.map (fun n => (n.x, n.y, n.score)) =
        [(0, 1, 3001)] := by
  decide

/-- **Claim C21** (index and mask). Tile index and single-bit mask are inverse
bijections: for every index `i` below 16, `indexToMask i` is the single-bit mask `2 ^ i`
and `maskToIndex` takes it back to `i`; for every single-bit mask `m`, `maskToIndex m` is
an index below 16 that `indexToMask` takes back to `m`, and it is the count of trailing
zeros of `m`, the value that the compression loop of `findConnectedRegionsInPlace` writes
into a cell holding `m`. -/
theorem indexToMask_maskToIndex_inverse (i m : Nat) (hi : i < 16) (hm : IsVariant m) :
    (indexToMask i = 2 ^ i ∧ IsVariant (indexToMask i) ∧ maskToIndex (indexToMask i) = i) ∧
      (maskToIndex m < 16 ∧ indexToMask (maskToIndex m) = m ∧ maskToIndex m = ctz m) ∧
      ∀ (g : Grid) (x y : Nat), g.get x y = m →
        compressCell g x y = g.set x y (maskToIndex m) := by
  obtain ⟨k, hk, rfl⟩ := hm
  have e1 := indexToMask_eq i hi
  have e2 := maskToIndex_eq k hk
  have e3 := ctz_variant k hk
  refine ⟨⟨e1, ⟨i, hi, e1⟩, by rw [e1]; exact maskToIndex_eq i hi⟩,
    ⟨by rw [e2]; exact hk, by rw [e2]; exact indexToMask_eq k hk, by rw [e2, e3]⟩,
    fun g x y hg => ?_⟩
  have hne : ¬ (2 ^ k = Empty_Tile) := by unfold Empty_Tile; positivity
  unfold compressCell
  rw [hg, if_neg hne, e2, e3]

/-- The statement of C21 at the index 11 and the mask of `Special_X_Corridor`. -/
theorem indexToMask_maskToIndex_inverse_witness :
    (11 < 16 ∧ IsVariant Special_X_Corridor) ∧
    ((indexToMask 11 = 2 ^ 11 ∧ IsVariant (indexToMask 11) ∧
        maskToIndex (indexToMask 11) = 11) ∧
      (maskToIndex Special_X_Corridor < 16 ∧
        indexToMask (maskToIndex Special_X_Corridor) = Special_X_Corridor ∧
        maskToIndex Special_X_Corridor = ctz Special_X_Corridor) ∧
      ∀ (g : Grid) (x y : Nat), g.get x y = Special_X_Corridor →
        compressCell g x y = g.set x y (maskToIndex Special_X_Corridor)) :=
  ⟨⟨by decide, by decide⟩,
    indexToMask_maskToIndex_inverse 11 Special_X_Corridor (by decide) (by decide)⟩

/-- Counterexample to claim C22 as stated: the port set of `Special_X_Corridor` is
all four sides, and `getTileFromFlags` answers that port set with `Normal_X_Corridor`. -/
theorem flags_round_trip_counterexample :
    IsVariant Special_X_Corridor ∧
    getTileFlags Special_X_Corridor = (DIR_N ||| DIR_E ||| DIR_S ||| DIR_W) ∧
    getTileFromFlags (getTileFlags Special_X_Corridor) = Normal_X_Corridor ∧
    getTileFromFlags (getTileFlags Special_X_Corridor) ≠ Special_X_Corridor := by
  decide

/-- **Claim C22, amended** (flags round trip). For every single-bit tile variant `v`
other than `Special_X_Corridor`, `getTileFromFlags (getTileFlags v) = v`; for
`Special_X_Corridor` the round trip yields `Normal_X_Corridor`, the one variant
`getTileFromFlags` has for the port set of all four sides. -/
theorem flags_round_trip (v : Nat) (hv : IsVariant v) :
    (v ≠ Special_X_Corridor → getTileFromFlags (getTileFlags v) = v) ∧
      (v = Special_X_Corridor → getTileFromFlags (getTileFlags v) = Normal_X_Corridor) ∧
      getTileFlags (getTileFromFlags (getTileFlags v)) = getTileFlags v := by
  obtain ⟨k, hk, rfl⟩ := hv
  revert k
  decide

/-- The statement of the amended C22 at `Normal_X_Corridor`. -/
theorem flags_round_trip_witness :
    IsVariant Normal_X_Corridor ∧
    ((Normal_X_Corridor ≠ Special_X_Corridor →
        getTileFromFlags (getTileFlags Normal_X_Corridor) = Normal_X_Corridor) ∧
      (Normal_X_Corridor = Special_X_Corridor →
        getTileFromFlags (getTileFlags Normal_X_Corridor) = Normal_X_Corridor) ∧
      getTileFlags (getTileFromFlags (getTileFlags Normal_X_Corridor)) =
        getTileFlags Normal_X_Corridor) :=
  ⟨by decide, flags_round_trip Normal_X_Corridor (by decide)⟩

/-- **Claim C23** (port sets). `getTileFlags` gives every variant the port set of its
name and category: the L-corners (bits 0 to 3: NE, SE, SW, NW) open exactly the two
adjacent sides of their name, the straights (bits 4, 5) open exactly north and south,
and west and east, the T-junctions (bits 6 to 9) open exactly three sides, both
X-junctions (bits 10, 11) open all four sides, and the dead-ends (bits 12 to 15: N, E,
S, W) open exactly the side of their name; the port sets of the fifteen variants other
than Special X are pairwise distinct. -/
theorem getTileFlags_port_sets :
    (getTileFlags (2 ^ 0) = (DIR_N ||| DIR_E) ∧ getTileFlags (2 ^ 1) = (DIR_S ||| DIR_E) ∧
      getTileFlags (2 ^ 2) = (DIR_S ||| DIR_W) ∧ getTileFlags (2 ^ 3) = (DIR_N ||| DIR_W)) ∧
    (North_East_Corridor = 2 ^ 0 ∧ South_East_Corridor = 2 ^ 1 ∧
      South_West_Corridor = 2 ^ 2 ∧ North_West_Corridor = 2 ^ 3) ∧
    (getTileFlags (2 ^ 4) = (DIR_N ||| DIR_S) ∧ getTileFlags (2 ^ 5) = (DIR_W ||| DIR_E)) ∧
    (∀ k, k < 16 → 6 ≤ k → k ≤ 9 → (dirs.filter (fun d => decide (hasPort (2 ^ k) d))).length = 3) ∧
    (getTileFlags (2 ^ 10) = (DIR_N ||| DIR_E ||| DIR_S ||| DIR_W) ∧
      getTileFlags (2 ^ 11) = (DIR_N ||| DIR_E ||| DIR_S ||| DIR_W)) ∧
    (getTileFlags (2 ^ 12) = DIR_N ∧ getTileFlags (2 ^ 13) = DIR_E ∧
      getTileFlags (2 ^ 14) = DIR_S ∧ getTileFlags (2 ^ 15) = DIR_W) ∧
    (North_DeadEnd = 2 ^ 12 ∧ East_DeadEnd = 2 ^ 13 ∧ South_DeadEnd = 2 ^ 14 ∧
      West_DeadEnd = 2 ^ 15) ∧
    (∀ j, j < 16 → ∀ k, k < 16 → j ≠ 11 → k ≠ 11 →
      getTileFlags (2 ^ j) = getTileFlags (2 ^ k) → j = k) ∧
    (∀ k, k < 16 → ∀ d ∈ dirs, (hasPort (2 ^ k) d ↔ (getTileFlags (2 ^ k)).testBit
      (if d = DIR_N then 0 else if d = DIR_E then 1 else if d = DIR_S then 2 else 3))) := by
  exact ⟨by decide, by decide, by decide, by decide, by decide, by decide, by decide,
    by decide, by decide⟩

/-- Counterexample to claim C24 as stated: `North_T_Corridor` has its north port open
and its south port closed, in `getTileFlags` and in the masks of `updateNeighbours`. -/
theorem tCorridor_named_by_missing_side_counterexample :
    tCorridor DIR_N = North_T_Corridor ∧
    getTileFlags North_T_Corridor = (DIR_N ||| DIR_E ||| DIR_W) ∧
    hasPort North_T_Corridor DIR_N ∧ ¬ hasPort North_T_Corridor DIR_S ∧
    maskFor North_T_Corridor DIR_N = North_Open_Mask ∧
    maskFor North_T_Corridor DIR_S = South_Closed_Mask := by
  decide

/-- **Claim C24, amended** (T-junctions). Each T-junction variant is named by the side
of its stem, the side opposite to the missing one: for every side `d`, the variant
`d`-T has the port opposite to `d` closed and its other three ports, `d` among them,
open, both in `getTileFlags` and in the masks that `updateNeighbours` applies for it
(the closed mask on the side opposite to `d`, the open masks on the three others). -/
theorem tCorridor_named_by_stem (d : Nat) (hd : d ∈ dirs) :
    hasPort (tCorridor d) d ∧ ¬ hasPort (tCorridor d) (oppositeDir d) ∧
      (∀ e ∈ dirs, e ≠ oppositeDir d → hasPort (tCorridor d) e) ∧
      maskFor (tCorridor d) (oppositeDir d) = closedMask (oppositeDir d) ∧
      (∀ e ∈ dirs, e ≠ oppositeDir d → maskFor (tCorridor d) e = openMask e) ∧
      (∃ k, k < 16 ∧ 6 ≤ k ∧ k ≤ 9 ∧ tCorridor d = 2 ^ k) := by
  revert d
  decide

/-- The statement of the amended C24 at the side east. -/
theorem tCorridor_named_by_stem_witness :
    DIR_E ∈ dirs ∧
    (hasPort (tCorridor DIR_E) DIR_E ∧ ¬ hasPort (tCorridor DIR_E) (oppositeDir DIR_E) ∧
      (∀ e ∈ dirs, e ≠ oppositeDir DIR_E → hasPort (tCorridor DIR_E) e) ∧
      maskFor (tCorridor DIR_E) (oppositeDir DIR_E) = closedMask (oppositeDir DIR_E) ∧
      (∀ e ∈ dirs, e ≠ oppositeDir DIR_E → maskFor (tCorridor DIR_E) e = openMask e) ∧
      (∃ k, k < 16 ∧ 6 ≤ k ∧ k ≤ 9 ∧ tCorridor DIR_E = 2 ^ k)) :=
  ⟨by decide, tCorridor_named_by_stem DIR_E (by decide)⟩

/-- Counterexample to claim C25 as stated: `North_DeadEnd` has north in its port set
and is not part of `North_Open_Mask`, which is not the OR of the variants that open
north. -/
theorem open_mask_is_or_of_ported_variants_counterexample :
    openMask DIR_N = North_Open_Mask ∧ hasPort North_DeadEnd DIR_N ∧
    North_DeadEnd &&& North_Open_Mask = 0 ∧
    North_Open_Mask ≠ variantsOr (fun v => decide (hasPort v DIR_N)) := by
  decide

/-- **Claim C25, amended** (direction masks). For each side `d`, the `d` open mask is the
bitwise OR of exactly those variants whose port set (`getTileFlags`) contains the side
opposite to `d`, the variants that a neighbour on side `d` may take when port `d` is
open; the `d` closed mask is its 16-bit complement. -/
theorem open_mask_is_or_of_facing_variants (d : Nat) (hd : d ∈ dirs) :
    openMask d = variantsOr (fun v => decide (hasPort v (oppositeDir d))) ∧
      (∀ k, k < 16 → ((openMask d).testBit k ↔ hasPort (2 ^ k) (oppositeDir d))) ∧
      closedMask d = 65535 ^^^ openMask d ∧ closedMask d < 65536 ∧
      (∀ k, k < 16 → ((closedMask d).testBit k ↔ ¬ (openMask d).testBit k)) := by
  revert d
  decide

/-- The statement of the amended C25 at the side north. -/
theorem open_mask_is_or_of_facing_variants_witness :
    DIR_N ∈ dirs ∧
    (openMask DIR_N = variantsOr (fun v => decide (hasPort v (oppositeDir DIR_N))) ∧
      (∀ k, k < 16 → ((openMask DIR_N).testBit k ↔ hasPort (2 ^ k) (oppositeDir DIR_N))) ∧
      closedMask DIR_N = 65535 ^^^ openMask DIR_N ∧ closedMask DIR_N < 65536 ∧
      (∀ k, k < 16 → ((closedMask DIR_N).testBit k ↔ ¬ (openMask DIR_N).testBit k))) :=
  ⟨by decide, open_mask_is_or_of_facing_variants DIR_N (by decide)⟩

/-- Counterexample to claim C27 as stated: on the minimum valid 4 by 4 layer the target
count is 16 for every fullness from 0 to 100, below the 20 that the formula of the claim
gives. -/
theorem targetCount_formula_counterexample :
    4 ≤ 4 ∧ 50 ≤ 100 ∧ targetCount 4 4 50 = 16 ∧
    max 20 (min (4 * 4) (4 * 4 * 50 / 100)) = 20 ∧
    ∀ F, F < 101 → targetCount 4 4 F = 16 := by
  decide

/-- **Claim C27, amended** (target count). For all `W, L ≥ 4` whose product fits 32 bits
and fullness `F` in `0 .. 100`, the target cell count computed by `generateRidgedMask` is
`min (W * L) (max 20 (W * L * F / 100))`: the floor of 20 is applied first and the cap
`W * L` last. It equals `max 20 (min (W * L) (W * L * F / 100))` whenever the layer has at
least 20 cells, and is 16 on the minimum valid 4 by 4 layer. -/
theorem targetCount_formula (W L F : Nat) (hW : 4 ≤ W) (hL : 4 ≤ L) (hF : F ≤ 100)
    (hsz : W * L < 4294967296) :
    targetCount W L F = min (W * L) (max 20 (W * L * F / 100)) ∧
      (20 ≤ W * L → targetCount W L F = max 20 (min (W * L) (W * L * F / 100))) ∧
      (W * L < 20 → targetCount W L F = W * L ∧ W = 4 ∧ L = 4) := by
  have h16 : 16 ≤ W * L := by nlinarith
  have hle : W * L * F / 100 ≤ W * L :=
    Nat.div_le_of_le_mul (by rw [Nat.mul_comm 100]; exact Nat.mul_le_mul_left _ hF)
  have h64 : W * L * F < 18446744073709551616 := by
    have : W * L * F ≤ W * L * 100 := Nat.mul_le_mul_left _ hF
    omega
  have hsmall : W * L < 20 → W = 4 ∧ L = 4 := by
    intro h
    have h1 : W < 5 := by nlinarith
    have h2 : L < 5 := by nlinarith
    omega
  unfold targetCount
  simp only [Nat.mod_eq_of_lt hsz, Nat.mod_eq_of_lt h64,
    Nat.mod_eq_of_lt (lt_of_le_of_lt hle hsz)]
  generalize W * L * F / 100 = q at hle
  generalize W * L = T at *
  refine ⟨?_, fun h20 => ?_, fun hlt => ⟨?_, hsmall hlt⟩⟩
  · simp only [Nat.min_def, Nat.max_def]
    split_ifs <;> omega
  · simp only [Nat.min_def, Nat.max_def]
    split_ifs <;> omega
  · split_ifs <;> omega

/-- The statement of the amended C27 on a 10 by 8 layer at fullness 50. -/
theorem targetCount_formula_witness :
    (4 ≤ 10 ∧ 4 ≤ 8 ∧ 50 ≤ 100 ∧ 10 * 8 < 4294967296) ∧
    (targetCount 10 8 50 = min (10 * 8) (max 20 (10 * 8 * 50 / 100)) ∧
      (20 ≤ 10 * 8 → targetCount 10 8 50 = max 20 (min (10 * 8) (10 * 8 * 50 / 100))) ∧
      (10 * 8 < 20 → targetCount 10 8 50 = 10 * 8 ∧ 10 = 4 ∧ 8 = 4)) :=
  ⟨⟨by decide, by decide, by decide, by decide⟩,
    targetCount_formula 10 8 50 (by decide) (by decide) (by decide) (by decide)⟩

/-- **Claim C30** (preconditions). `generateGrid` returns no grid if and only if
`W < 4` or `L < 4` or `H < 1` (allocation succeeding); in that case it calls neither
`runArchitect` nor `generateLayerThread`, and otherwise it calls `runArchitect` once and
then `generateLayerThread` once for each of the `H` layers and returns `H` layers. -/
theorem generateGrid_null_iff_too_small
    (runArchitect : List Grid → Nat → Nat → Nat → Nat → Nat → List Grid)
    (generateLayerThread : Grid → Nat → Nat → Nat → Nat → Nat → Nat → Grid)
    (W L H seed F : Nat) :
    ((generateGrid runArchitect generateLayerThread W L H seed F).1 = none ↔
        (W < 4 ∨ L < 4 ∨ H < 1)) ∧
      ((W < 4 ∨ L < 4 ∨ H < 1) →
        (generateGrid runArchitect generateLayerThread W L H seed F).2 = []) ∧
      (¬ (W < 4 ∨ L < 4 ∨ H < 1) →
        (generateGrid runArchitect generateLayerThread W L H seed F).2 =
          Work.architect :: (List.range H).map Work.layer ∧
        ∃ layers, (generateGrid runArchitect generateLayerThread W L H seed F).1 =
          some layers ∧ layers.length = H) := by
  unfold generateGrid
  by_cases h : W < 4 ∨ L < 4 ∨ H < 1
  · rw [if_pos h]
    exact ⟨⟨fun _ => h, fun _ => rfl⟩, fun _ => rfl, fun h' => absurd h h'⟩
  · rw [if_neg h]
    refine ⟨⟨(fun e => by cases e), fun h' => absurd h' h⟩, fun h' => absurd h' h,
      fun _ => ⟨rfl, _, rfl, ?_⟩⟩
    simp

/-- Reading a list after one entry is overwritten. -/
theorem getD_set_any {α : Type} (l : List α) (i x : Nat) (v d : α) :
    (l.set i v).getD x d = if x = i ∧ i < l.length then v else l.getD x d := by
  rw [List.getD_eq_getElem?_getD, List.getD_eq_getElem?_getD, List.getElem?_set]
  by_cases h : i = x
  · subst h
    by_cases hl : i < l.length
    · simp [hl]
    · simp [hl, List.getElem?_eq_none (not_lt.1 hl)]
  · rw [if_neg h, if_neg (fun e => h e.1.symm)]

/-- The first pass of `dilateMask` marks exactly the growth spots of layer 0. -/
theorem markGrowth_spec (g0 : Grid) (W L : Nat) :
    (markGrowth g0 W L).length = W * L ∧
      ∀ c : Nat × Nat, c.1 < W → c.2 < L →
        (markGrowth g0 W L).getD (c.2 * W + c.1) false = growthSpot g0 W L c.1 c.2 := by
  unfold markGrowth
  have key := foldl_prefix_induction
    (fun (pre : List (Nat × Nat)) (t : List Bool) => t.length = W * L ∧
      ∀ c : Nat × Nat, c.1 < W → c.2 < L →
        t.getD (c.2 * W + c.1) false = (decide (c ∈ pre) && growthSpot g0 W L c.1 c.2))
    (fun toAdd c =>
      if growthSpot g0 W L c.1 c.2 then toAdd.set (c.2 * W + c.1) true else toAdd)
    (rowMajor W L) (List.replicate (W * L) false)
    ⟨by simp, fun c hx hy => by
      rw [getD_replicate, if_pos (cell_lt hx hy)]; simp⟩
    (fun pre a suf t hl ⟨hlen, ht⟩ => by
      have ha : a ∈ rowMajor W L := by rw [hl]; simp
      have hain := mem_rowMajor.1 ha
      have hnd := nodup_rowMajor W L
      rw [hl] at hnd
      have hapre : a ∉ pre := fun h =>
        (List.nodup_append.1 hnd).2.2 h (List.mem_cons_self _ _) 
      simp only []
      refine ⟨by split <;> simp [hlen], fun c hx hy => ?_⟩
      by_cases hca : c = a
      · subst hca
        have hpre := ht c hx hy
        simp only [hapre, decide_False, Bool.false_and] at hpre
        by_cases hs : growthSpot g0 W L c.1 c.2 = true
        · rw [if_pos hs, getD_set_any, if_pos ⟨rfl, by rw [hlen]; exact cell_lt hx hy⟩]
          simp [hs]
        · rw [if_neg hs, hpre]
          simp [hs]
      · have hne : c.2 * W + c.1 ≠ a.2 * W + a.1 := fun e =>
          hca (rmIndex_inj hx hain.1 e)
        have hmem : decide (c ∈ pre ++ [a]) = decide (c ∈ pre) := by
          simp [hca]
        rw [hmem, ← ht c hx hy]
        split
        · rw [getD_set_any, if_neg (fun e => hne e.1)]
        · rfl)
  refine ⟨key.1, fun c hx hy => ?_⟩
  rw [key.2 c hx hy]
  simp [mem_rowMajor.2 ⟨hx, hy⟩]

/-- The loop over the layers writes the value into every layer. -/
theorem setColumn_spec (layers : List Grid) (H x y v : Nat) (hlen : layers.length = H) :
    (setColumn layers H x y v).length = H ∧
      ∀ z, (setColumn layers H x y v).getD z [] =
        if z < H then (layers.getD z []).set x y v else layers.getD z [] := by
  have key : ∀ k, k ≤ H →
      ((List.range k).foldl (fun ls z => ls.set z ((ls.getD z []).set x y v)) layers).length
        = H ∧
      ∀ z, ((List.range k).foldl (fun ls z => ls.set z ((ls.getD z []).set x y v))
        layers).getD z [] =
        if z < k then (layers.getD z []).set x y v else layers.getD z [] := by
    intro k
    induction k with
    | zero => intro _; exact ⟨hlen, fun z => by simp⟩
    | succ k ih =>
      intro hk
      obtain ⟨i1, i2⟩ := ih (by omega)
      rw [List.range_succ, List.foldl_append]
      simp only [List.foldl_cons, List.foldl_nil]
      refine ⟨by rw [List.length_set]; exact i1, fun z => ?_⟩
      rw [getD_set_any, i1, i2 k, if_neg (lt_irrefl k)]
      by_cases e : z = k
      · subst e
        rw [if_pos ⟨rfl, by omega⟩, if_pos (by omega)]
      · rw [if_neg (fun h => e h.1), i2 z]
        by_cases h1 : z < k
        · rw [if_pos h1, if_pos (by omega)]
        · rw [if_neg h1, if_neg (by omega)]
  exact key H (le_refl H)

/-- Writing a value into every layer keeps the layers well-formed and changes that one
cell of every layer. -/
theorem setColumn_layers {layers : List Grid} {W L H : Nat} (hwf : LayersWF layers W L H)
    {x y : Nat} (hx : x < W) (hy : y < L) (v : Nat) :
    LayersWF (setColumn layers H x y v) W L H ∧
      ∀ z, z < H → ∀ x' y', ((setColumn layers H x y v).getD z []).get x' y' =
        if x' = x ∧ y' = y then v else (layers.getD z []).get x' y' := by
  obtain ⟨s1, s2⟩ := setColumn_spec layers H x y v hwf.1
  have hl : ∀ z, z < H → (layers.getD z []).WF W L := fun z hz =>
    hwf.2 _ (getD_mem (by rw [hwf.1]; exact hz) _)
  refine ⟨⟨s1, fun g hg => ?_⟩, fun z hz x' y' => ?_⟩
  · obtain ⟨z, hz, e⟩ := mem_getD hg []
    rw [s1] at hz
    rw [← e, s2 z, if_pos hz]
    exact Grid.WF_set (hl z hz) x y v
  · rw [s2 z, if_pos hz, Grid.get_set_of_WF (hl z hz) hx hy]

/-- One cell of the second pass of `dilateMask` keeps its invariant. -/
theorem dilateCell_inv {layers : List Grid} {W L H n : Nat} {pre suf : List (Nat × Nat)}
    {a : Nat × Nat} {st : DilateState} (hl : rowMajor W L = pre ++ a :: suf)
    (inv : DilateInv layers W L H n pre st) :
    DilateInv layers W L H n (pre ++ [a])
      (dilateCell (markGrowth (layers.getD 0 []) W L) W H (n : Int) st a) := by
  have ha : a ∈ rowMajor W L := by rw [hl]; simp
  have hain := mem_rowMajor.1 ha
  have hmark := (markGrowth_spec (layers.getD 0 []) W L).2 a hain.1 hain.2
  obtain ⟨iwf, iadd, idone, icells⟩ := inv
  unfold dilateCell
  rw [hmark]
  by_cases hs : growthSpot (layers.getD 0 []) W L a.1 a.2 = true
  · have hf : (pre ++ [a]).filter (fun c => growthSpot (layers.getD 0 []) W L c.1 c.2) =
        pre.filter (fun c => growthSpot (layers.getD 0 []) W L c.1 c.2) ++ [a] := by
      rw [List.filter_append]
      simp only [List.filter_cons, List.filter_nil, hs, if_true]
    by_cases hd : st.done = true
    · rw [if_pos hd]
      have hlt := idone.1 hd
      refine ⟨iwf, ?_, ?_, ?_⟩
      · rw [hf, List.length_append, List.length_singleton, iadd]; omega
      · rw [hf, List.length_append, List.length_singleton]
        exact ⟨fun _ => by omega, fun _ => hd⟩
      · intro z hz x y
        rw [hf, List.take_append_of_le_length (by omega)]
        exact icells z hz x y
    · rw [if_neg hd, if_pos hs]
      have hle : ¬ n < (pre.filter
          (fun c => growthSpot (layers.getD 0 []) W L c.1 c.2)).length :=
        fun h => hd (idone.2 h)
      by_cases hge : (st.added : Int) ≥ (n : Int)
      · rw [if_pos hge]
        have hge' : n ≤ st.added := by omega
        refine ⟨iwf, ?_, ?_, ?_⟩
        · simp only []
          rw [hf, List.length_append, List.length_singleton, iadd]; omega
        · simp only []
          rw [hf, List.length_append, List.length_singleton]
          constructor <;> intro _ <;> first | omega | trivial
        · intro z hz x y
          simp only []
          rw [hf, List.take_append_of_le_length (by omega)]
          exact icells z hz x y
      · rw [if_neg hge]
        have hlt' : st.added < n := by omega
        obtain ⟨c1, c2⟩ := setColumn_layers iwf hain.1 hain.2 All_Possible_State
        refine ⟨c1, ?_, ?_, ?_⟩
        · simp only []
          rw [hf, List.length_append, List.length_singleton, iadd]; omega
        · simp only []
          rw [hf, List.length_append, List.length_singleton]
          constructor <;> intro h <;> first | omega | cases h
        · intro z hz x y
          simp only []
          have ht1 := icells z hz x y
          rw [List.take_of_length_le (by omega)] at ht1
          rw [c2 z hz x y, hf, List.take_of_length_le (by
            rw [List.length_append, List.length_singleton]; omega), ht1]
          by_cases e : x = a.1 ∧ y = a.2
          · have e' : (x, y) = a := Prod.ext e.1 e.2
            rw [if_pos e, if_pos (by rw [e']; simp)]
          · have e' : (x, y) ≠ a := fun h => e ⟨by rw [← h], by rw [← h]⟩
            rw [if_neg e]
            simp only [List.mem_append, List.mem_singleton, e', or_false]
  · have hf : (pre ++ [a]).filter (fun c => growthSpot (layers.getD 0 []) W L c.1 c.2) =
        pre.filter (fun c => growthSpot (layers.getD 0 []) W L c.1 c.2) := by
      rw [List.filter_append]
      simp only [List.filter_cons, List.filter_nil, hs, Bool.false_eq_true, if_false,
        List.append_nil]
    have hres : (if st.done = true then st
        else if growthSpot (layers.getD 0 []) W L a.1 a.2 = true then
          if (st.added : Int) ≥ (n : Int) then { st with done := true }
          else { layers := setColumn st.layers H a.1 a.2 All_Possible_State,
                 added := st.added + 1, done := false }
        else st) = st := by
      rw [if_neg hs]; split <;> rfl
    rw [hres]
    exact ⟨iwf, by rw [hf]; exact iadd, by rw [hf]; exact idone, by rw [hf]; exact icells⟩

/-- The second pass of `dilateMask` fills the first `n` growth spots and nothing else. -/
theorem dilateMask_inv (layers : List Grid) (W L H n : Nat) (hwf : LayersWF layers W L H) :
    DilateInv layers W L H n (rowMajor W L)
      ((rowMajor W L).foldl (dilateCell (markGrowth (layers.getD 0 []) W L) W H (n : Int))
        { layers := layers, added := 0, done := false }) := by
  apply foldl_prefix_induction (fun pre st => DilateInv layers W L H n pre st)
  · exact ⟨hwf, by simp, by simp, fun z _ x y => by simp⟩
  · intro pre a suf st hl inv
    exact dilateCell_inv hl inv

/-- The growth spots are the void cells of the layer that have a non-void 4-neighbour,
listed in row-major order. -/
theorem mem_growthSpots (g0 : Grid) (W L : Nat) (c : Nat × Nat) :
    c ∈ growthSpots g0 W L ↔
      c.1 < W ∧ c.2 < L ∧ g0.get c.1 c.2 = 0 ∧
        ∃ q : Nat × Nat, Adjacent W L c q ∧ g0.get q.1 q.2 ≠ 0 := by
  unfold growthSpots growthSpot Adjacent Empty_Tile
  rw [List.mem_filter, mem_rowMajor, decide_eq_true_iff]
  constructor
  · rintro ⟨⟨hx, hy⟩, h0, h⟩
    refine ⟨hx, hy, h0, ?_⟩
    rcases h with ⟨h1, h2⟩ | ⟨h1, h2⟩ | ⟨h1, h2⟩ | ⟨h1, h2⟩
    · exact ⟨(c.1 - 1, c.2), ⟨hx, hy, by simp only []; omega, hy,
        Or.inr (Or.inr (Or.inr ⟨by simp only []; omega, rfl⟩))⟩, h2⟩
    · exact ⟨(c.1 + 1, c.2), ⟨hx, hy, h1, hy, Or.inr (Or.inl ⟨rfl, rfl⟩)⟩, h2⟩
    · exact ⟨(c.1, c.2 - 1), ⟨hx, hy, hx, by simp only []; omega,
        Or.inl ⟨rfl, by simp only []; omega⟩⟩, h2⟩
    · exact ⟨(c.1, c.2 + 1), ⟨hx, hy, hx, h1, Or.inr (Or.inr (Or.inl ⟨rfl, rfl⟩))⟩, h2⟩
  · rintro ⟨hx, hy, h0, ⟨qx, qy⟩, ⟨_, _, hqx, hqy, hadj⟩, hq⟩
    refine ⟨⟨hx, hy⟩, h0, ?_⟩
    simp only [] at hadj hq hqx hqy
    rcases hadj with ⟨e1, e2⟩ | ⟨e1, e2⟩ | ⟨e1, e2⟩ | ⟨e1, e2⟩
    · right; right; left
      have : qy = c.2 - 1 := by omega
      rw [this, e1] at hq
      exact ⟨by omega, hq⟩
    · right; left
      rw [e1, e2] at hq
      exact ⟨by omega, hq⟩
    · right; right; right
      rw [e1, e2] at hq
      exact ⟨by omega, hq⟩
    · left
      have : qx = c.1 - 1 := by omega
      rw [this, e2] at hq
      exact ⟨by omega, hq⟩

/-- **Claim C29** (dilation). On `H` well-formed layers of a `W` by `L` grid whose cell
count fits `int`, `dilateMask` with `maxToAdd ≥ 0` returns `min maxToAdd c`, where `c` is
the number of growth spots of the input: the void cells of layer 0 that have a non-void
4-neighbour. Exactly the first `min maxToAdd c` growth spots in row-major order become
`All_Possible_State` on every layer and every other cell of every layer is unchanged, so
a pass with `maxToAdd ≥ c` fills every growth spot. -/
theorem dilateMask_fills_first_growth_spots (layers : List Grid) (W L H : Nat)
    (maxToAdd : Int) (hwf : LayersWF layers W L H) (_hsz : W * L < 2147483648)
    (hm : 0 ≤ maxToAdd) :
    (dilateMask layers W L H maxToAdd).2 =
        min maxToAdd.toNat (growthSpots (layers.getD 0 []) W L).length ∧
      LayersWF (dilateMask layers W L H maxToAdd).1 W L H ∧
      (∀ z, z < H → ∀ x y, ((dilateMask layers W L H maxToAdd).1.getD z []).get x y =
        if (x, y) ∈ (growthSpots (layers.getD 0 []) W L).take maxToAdd.toNat
        then All_Possible_State else (layers.getD z []).get x y) ∧
      (((growthSpots (layers.getD 0 []) W L).length : Int) ≤ maxToAdd →
        ∀ c ∈ growthSpots (layers.getD 0 []) W L, ∀ z, z < H →
          ((dilateMask layers W L H maxToAdd).1.getD z []).get c.1 c.2 =
            All_Possible_State) ∧
      (∀ c : Nat × Nat, c ∈ growthSpots (layers.getD 0 []) W L ↔
        c.1 < W ∧ c.2 < L ∧ (layers.getD 0 []).get c.1 c.2 = 0 ∧
          ∃ q : Nat × Nat, Adjacent W L c q ∧ (layers.getD 0 []).get q.1 q.2 ≠ 0) ∧
      (growthSpots (layers.getD 0 []) W L).Sublist (rowMajor W L) := by
  have key := dilateMask_inv layers W L H maxToAdd.toNat hwf
  rw [Int.toNat_of_nonneg hm] at key
  obtain ⟨k1, k2, _, k4⟩ := key
  have hcells : ∀ z, z < H → ∀ x y,
      ((dilateMask layers W L H maxToAdd).1.getD z []).get x y =
        if (x, y) ∈ (growthSpots (layers.getD 0 []) W L).take maxToAdd.toNat
        then All_Possible_State else (layers.getD z []).get x y := k4
  refine ⟨k2, k1, hcells, fun hle c hc z hz => ?_, mem_growthSpots _ W L,
    List.filter_sublist _⟩
  rw [hcells z hz, List.take_of_length_le (by omega), if_pos hc]

/-- The statement of C29 on the two layers `sampleMaskLayers` of a 4 by 4 grid with the
limit 3: three of the six growth spots are filled. -/
theorem dilateMask_fills_first_growth_spots_witness :
    (LayersWF sampleMaskLayers 4 4 2 ∧ 4 * 4 < 2147483648 ∧ (0 : Int) ≤ 3) ∧
    ((dilateMask sampleMaskLayers 4 4 2 3).2 =
        min (3 : Int).toNat (growthSpots (sampleMaskLayers.getD 0 []) 4 4).length ∧
      LayersWF (dilateMask sampleMaskLayers 4 4 2 3).1 4 4 2 ∧
      (∀ z, z < 2 → ∀ x y, ((dilateMask sampleMaskLayers 4 4 2 3).1.getD z []).get x y =
        if (x, y) ∈ (growthSpots (sampleMaskLayers.getD 0 []) 4 4).take (3 : Int).toNat
        then All_Possible_State else (sampleMaskLayers.getD z []).get x y) ∧
      (((growthSpots (sampleMaskLayers.getD 0 []) 4 4).length : Int) ≤ 3 →
        ∀ c ∈ growthSpots (sampleMaskLayers.getD 0 []) 4 4, ∀ z, z < 2 →
          ((dilateMask sampleMaskLayers 4 4 2 3).1.getD z []).get c.1 c.2 =
            All_Possible_State) ∧
      (∀ c : Nat × Nat, c ∈ growthSpots (sampleMaskLayers.getD 0 []) 4 4 ↔
        c.1 < 4 ∧ c.2 < 4 ∧ (sampleMaskLayers.getD 0 []).get c.1 c.2 = 0 ∧
          ∃ q : Nat × Nat, Adjacent 4 4 c q ∧ (sampleMaskLayers.getD 0 []).get q.1 q.2 ≠ 0) ∧
      (growthSpots (sampleMaskLayers.getD 0 []) 4 4).Sublist (rowMajor 4 4)) :=
  ⟨⟨by decide, by decide, by decide⟩,
    dilateMask_fills_first_growth_spots sampleMaskLayers 4 4 2 3 (by decide) (by decide)
      (by decide)⟩

/-- On `sampleMaskLayers` the six growth spots ring the two filled cells; with the limit
3 the call returns 3 and fills the first three of them on both layers. -/
theorem dilateMask_sample :
    growthSpots (sampleMaskLayers.getD 0 []) 4 4 =
      [(1, 0), (2, 0), (0, 1), (3, 1), (1, 2), (2, 2)] ∧
    dilateMask sampleMaskLayers 4 4 2 3 =
      ([[[0, 65535, 65535, 0], [65535, 65535, 65535, 0], [0, 0, 0, 0], [0, 0, 0, 0]],
        [[0, 65535, 65535, 0], [65535, 0, 0, 0], [0, 0, 0, 0], [0, 0, 0, 0]]], 3) := by
  decide

/-- Evaluation for claim C26: with rates that ask for dead ends only, the cell value
`Normal_X_Corridor | Special_X_Corridor` (a cell that all four neighbours show an open
port) has total weight 0, so `collapseTile` takes its uniform fallback, which ignores the
rates, and at rng state 8 it yields `Special_X_Corridor`. With the mask-mode rates the
weighted loop yields `Special_X_Corridor` for the value `Special_X_Corridor |
North_DeadEnd` at an rng state whose next value is 0. In both cases the slot of
Special X in the rates is 0. -/
theorem collapseTile_spawns_special_x :
    (popcount (Normal_X_Corridor ||| Special_X_Corridor) = 2 ∧ deadEndRates 5 = 0 ∧
      (collapseTile exactOps (Normal_X_Corridor ||| Special_X_Corridor) deadEndRates 8).1 =
        Special_X_Corridor) ∧
    (popcount (Special_X_Corridor ||| North_DeadEnd) = 2 ∧ maskModeRates 5 = 0 ∧
      nextRandom 634785765 = 0 ∧
      (collapseTile exactOps (Special_X_Corridor ||| North_DeadEnd) maskModeRates
        634785765).1 = Special_X_Corridor) := by
  decide!

/-- The weighted loop of `collapseTile` returns a position of the list it runs over. -/
theorem weightedPick_mem {F : Type} (ops : FloatOps F) (tile : Nat) (rates : Nat → F) :
    ∀ (l : List Nat) (v : F) (i : Nat), weightedPick ops tile rates l v = some i → i ∈ l
  | [], _, _, h => by simp [weightedPick] at h
  | j :: rest, v, i, h => by
    unfold weightedPick at h
    split at h
    · split at h
      · cases h; exact List.mem_cons_self _ _
      · exact List.mem_cons_of_mem _ (weightedPick_mem ops tile rates rest _ i h)
    · exact List.mem_cons_of_mem _ (weightedPick_mem ops tile rates rest _ i h)

/-- When the rate of Special X is zero, subtracting zero leaves a value unchanged and the
cell offers `Normal_X_Corridor`, the weighted loop of `collapseTile` over the bit
positions does not stop at bit 11: it stops at bit 10 or before, or passes bit 11 with
the value it had after bit 10. -/
theorem weightedPick_avoids_special {F : Type} (ops : FloatOps F) (tile : Nat)
    (rates : Nat → F) (h5 : rates 5 = ops.zero) (hsub : ∀ v, ops.sub v ops.zero = v)
    (h10 : tile.testBit 10 = true) (suf : List Nat) (hsuf : 11 ∉ suf) :
    ∀ (pre : List Nat) (v : F), 11 ∉ pre →
      weightedPick ops tile rates (pre ++ 10 :: 11 :: suf) v ≠ some 11
  | [], v, _ => by
    intro h
    simp only [List.nil_append] at h
    unfold weightedPick at h
    rw [if_pos h10] at h
    split at h
    · cases h
    · rename_i hle
      unfold weightedPick at h
      have hcat : BIT_TO_CATEGORY.getD 11 0 = 5 := by decide
      rw [hcat, h5, hsub] at h
      split at h <;> exact hsuf (weightedPick_mem ops tile rates suf _ 11 h)
  | p :: pre, v, hpre => by
    have hp : p ≠ 11 := fun e => hpre (by rw [e]; exact List.mem_cons_self _ _)
    have hpre' : 11 ∉ pre := fun h => hpre (List.mem_cons_of_mem _ h)
    intro h
    simp only [List.cons_append] at h
    unfold weightedPick at h
    split at h
    · split at h
      · exact hp (Option.some.inj h)
      · exact weightedPick_avoids_special ops tile rates h5 hsub h10 suf hsuf pre _ hpre' h
    · exact weightedPick_avoids_special ops tile rates h5 hsub h10 suf hsuf pre _ hpre' h

/-- On its weighted path, when the weighted loop picks a variant, `collapseTile` does not
yield `Special_X_Corridor` from a cell that offers `Normal_X_Corridor`, provided the rate
of Special X is zero and subtracting zero leaves a value unchanged. -/
theorem collapseTile_weighted_avoids_special {F : Type} (ops : FloatOps F) (tile : Nat)
    (rates : Nat → F) (rng : Nat) (h0 : tile ≠ 0) (h5 : rates 5 = ops.zero)
    (hsub : ∀ v, ops.sub v ops.zero = v) (h10 : tile.testBit 10 = true)
    (hw : ¬ (ops.le (collapseWeights ops tile rates).1 ops.small = true ∨
      (collapseWeights ops tile rates).2 = 0))
    (hpick : weightedPick ops tile rates (List.range 16)
      (ops.mul (ops.div (ops.ofNat (nextRandom rng)) ops.two32)
        (collapseWeights ops tile rates).1) ≠ none) :
    (collapseTile ops tile rates rng).1 ≠ Special_X_Corridor := by
  unfold collapseTile
  rw [if_neg h0]
  simp only []
  rw [if_neg hw]
  cases hres : weightedPick ops tile rates (List.range 16)
      (ops.mul (ops.div (ops.ofNat (nextRandom rng)) ops.two32)
        (collapseWeights ops tile rates).1) with
  | none => exact absurd hres hpick
  | some i =>
    simp only []
    have hi : i < 16 := List.mem_range.1 (weightedPick_mem ops tile rates _ _ i hres)
    have hne : i ≠ 11 := by
      intro e
      rw [e] at hres
      have hr : List.range 16 = [0, 1, 2, 3, 4, 5, 6, 7, 8, 9] ++ 10 :: 11 :: [12, 13, 14, 15] := by
        decide
      rw [hr] at hres
      exact weightedPick_avoids_special ops tile rates h5 hsub h10 _ (by decide) _ _
        (by decide) hres
    have key : ∀ j, j < 16 → j ≠ 11 → (1 <<< j) % 65536 ≠ Special_X_Corridor := by decide
    exact key i hi hne

/-- One neighbour visit keeps the invariant of the breadth-first loops, extends the
queue, keeps the marks set, keeps the difference of counter and queue length, and
leaves a non-void neighbour inside the layer marked. -/
theorem bfsVisit_inv {g0 : Grid} {W L : Nat} {m0 : List Bool} {s : Nat × Nat}
    {st : BfsState} {head : Nat} (inv : BfsInv g0 W L m0 s st head) {c : Nat × Nat}
    (hc : c ∈ st.queue) (inside : Prop) [Decidable inside] (nx ny : Nat)
    (hin : inside → Adjacent W L c (nx, ny)) :
    BfsInv g0 W L m0 s (bfsVisit g0 W st inside nx ny) head ∧
      (∃ ext, (bfsVisit g0 W st inside nx ny).queue = st.queue ++ ext) ∧
      (∀ i, st.marks.getD i false = true →
        (bfsVisit g0 W st inside nx ny).marks.getD i false = true) ∧
      (bfsVisit g0 W st inside nx ny).count + st.queue.length =
        st.count + (bfsVisit g0 W st inside nx ny).queue.length ∧
      (inside → g0.get nx ny ≠ 0 →
        (bfsVisit g0 W st inside nx ny).marks.getD (ny * W + nx) false = true) := by
  unfold bfsVisit Empty_Tile
  by_cases hv : inside ∧ g0.get nx ny ≠ 0 ∧ st.marks.getD (ny * W + nx) false = false
  · rw [if_pos hv]
    simp only []
    obtain ⟨hi, hfill, hun⟩ := hv
    have hadj := hin hi
    have hnx : nx < W := hadj.2.2.1
    have hny : ny < L := hadj.2.2.2.1
    have hidx : ny * W + nx < st.marks.length := by rw [inv.len]; exact cell_lt hnx hny
    have hnot : ¬ (m0.getD (ny * W + nx) false = true ∨ (nx, ny) ∈ st.queue) := fun h =>
      by rw [(inv.marked (nx, ny) hnx hny).2 h] at hun; cases hun
    have hnotin : (nx, ny) ∉ st.queue := fun h => hnot (Or.inr h)
    have hm0 : m0.getD (ny * W + nx) false = false := by
      cases h : m0.getD (ny * W + nx) false
      · rfl
      · exact absurd (Or.inl h) hnot
    refine ⟨⟨by rw [List.length_set]; exact inv.len, ?_, ?_, ?_, ?_, ?_⟩, ⟨_, rfl⟩, ?_, ?_, ?_⟩
    · intro c' hx hy
      rw [getD_set_any]
      by_cases e : c' = (nx, ny)
      · subst e
        rw [if_pos ⟨rfl, hidx⟩]
        simp
      · have hne : c'.2 * W + c'.1 ≠ ny * W + nx := fun h =>
          e (rmIndex_inj (c := c') (d := (nx, ny)) hx hnx h)
        rw [if_neg (fun h => hne h.1), inv.marked c' hx hy]
        simp [e]
    · intro c' hc'
      rcases List.mem_append.1 hc' with h | h
      · exact inv.queued c' h
      · rw [List.mem_singleton.1 h]
        exact ⟨hnx, hny, hfill, hm0,
          Relation.ReflTransGen.tail (inv.queued c hc).2.2.2.2 ⟨hadj, hfill⟩⟩
    · rw [List.nodup_append]
      refine ⟨inv.nodup, by simp, ?_⟩
      intro a ha hb
      rw [List.mem_singleton.1 hb] at ha
      exact hnotin ha
    · rw [List.length_append]; have := inv.head_le; omega
    · intro i hi' q hq hqf
      rw [List.getD_append _ _ _ _ (by have := inv.head_le; omega)] at hq
      rw [getD_set_any]
      split
      · rfl
      · exact inv.closed i hi' q hq hqf
    · intro i hi'
      rw [getD_set_any]
      split
      · rfl
      · exact hi'
    · rw [List.length_append, List.length_singleton]; omega
    · intro _ _
      rw [getD_set_any, if_pos ⟨rfl, hidx⟩]
  · rw [if_neg hv]
    refine ⟨inv, ⟨[], by simp⟩, fun i h => h, rfl, fun hi hfill => ?_⟩
    cases h : st.marks.getD (ny * W + nx) false
    · exact absurd ⟨hi, hfill, h⟩ hv
    · rfl

/-- One dequeue keeps the invariant of the breadth-first loops and closes the dequeued
cell. -/
theorem bfsStep_inv {g0 : Grid} {W L : Nat} {m0 : List Bool} {s : Nat × Nat}
    {st : BfsState} {head : Nat} (inv : BfsInv g0 W L m0 s st head)
    (hh : head < st.queue.length) :
    BfsInv g0 W L m0 s
        (bfsStep g0 W L st (st.queue.getD head (0, 0)).1 (st.queue.getD head (0, 0)).2)
        (head + 1) ∧
      (bfsStep g0 W L st (st.queue.getD head (0, 0)).1
          (st.queue.getD head (0, 0)).2).count + st.queue.length =
        st.count + (bfsStep g0 W L st (st.queue.getD head (0, 0)).1
          (st.queue.getD head (0, 0)).2).queue.length ∧
      ∃ ext, (bfsStep g0 W L st (st.queue.getD head (0, 0)).1
        (st.queue.getD head (0, 0)).2).queue = st.queue ++ ext := by
  have hc : st.queue.getD head (0, 0) ∈ st.queue := getD_mem hh _
  obtain ⟨hcx, hcy, _, _, _⟩ := inv.queued _ hc
  generalize hcd : st.queue.getD head (0, 0) = c at hc hcx hcy
  obtain ⟨cx, cy⟩ := c
  simp only [] at hcx hcy
  unfold bfsStep
  simp only []
  obtain ⟨i1, ⟨e1, q1⟩, m1, n1, v1⟩ := bfsVisit_inv inv hc (cy + 1 < L) cx (cy + 1)
    (fun h => ⟨hcx, hcy, hcx, h, Or.inr (Or.inr (Or.inl ⟨rfl, rfl⟩))⟩)
  have hc1 : (cx, cy) ∈ (bfsVisit g0 W st (cy + 1 < L) cx (cy + 1)).queue := by
    rw [q1]; exact List.mem_append_left _ hc
  obtain ⟨i2, ⟨e2, q2⟩, m2, n2, v2⟩ := bfsVisit_inv i1 hc1 (1 ≤ cy) cx (cy - 1)
    (fun h => ⟨hcx, hcy, hcx, by simp only []; omega,
      Or.inl ⟨rfl, by simp only []; omega⟩⟩)
  have hc2 : (cx, cy) ∈ (bfsVisit g0 W (bfsVisit g0 W st (cy + 1 < L) cx (cy + 1))
      (1 ≤ cy) cx (cy - 1)).queue := by
    rw [q2]; exact List.mem_append_left _ hc1
  obtain ⟨i3, ⟨e3, q3⟩, m3, n3, v3⟩ := bfsVisit_inv i2 hc2 (cx + 1 < W) (cx + 1) cy
    (fun h => ⟨hcx, hcy, h, hcy, Or.inr (Or.inl ⟨rfl, rfl⟩)⟩)
  have hc3 : (cx, cy) ∈ (bfsVisit g0 W (bfsVisit g0 W (bfsVisit g0 W st (cy + 1 < L) cx
      (cy + 1)) (1 ≤ cy) cx (cy - 1)) (cx + 1 < W) (cx + 1) cy).queue := by
    rw [q3]; exact List.mem_append_left _ hc2
  obtain ⟨i4, ⟨e4, q4⟩, m4, n4, v4⟩ := bfsVisit_inv i3 hc3 (1 ≤ cx) (cx - 1) cy
    (fun h => ⟨hcx, hcy, by simp only []; omega, hcy,
      Or.inr (Or.inr (Or.inr ⟨by simp only []; omega, rfl⟩))⟩)
  have hlen1 := congrArg List.length q1
  have hlen2 := congrArg List.length q2
  have hlen3 := congrArg List.length q3
  have hlen4 := congrArg List.length q4
  rw [List.length_append] at hlen1 hlen2 hlen3 hlen4
  refine ⟨⟨i4.len, i4.marked, i4.queued, i4.nodup, by omega, ?_⟩, by omega,
    ⟨e1 ++ (e2 ++ (e3 ++ e4)), by rw [q4, q3, q2, q1]; simp only [List.append_assoc]⟩⟩
  intro i hi q hq hqf
  by_cases hlt : i < head
  · exact i4.closed i hlt q hq hqf
  · have hie : i = head := by omega
    subst hie
    rw [q4, q3, q2, q1] at hq
    simp only [List.append_assoc] at hq
    rw [List.getD_append _ _ _ _ hh, hcd] at hq
    obtain ⟨_, _, hqx, hqy, hadj⟩ := hq
    obtain ⟨qx, qy⟩ := q
    simp only [] at hqx hqy hadj hqf ⊢
    rcases hadj with ⟨a1, a2⟩ | ⟨a1, a2⟩ | ⟨a1, a2⟩ | ⟨a1, a2⟩
    · have hq2 : qy = cy - 1 := by omega
      rw [a1, hq2] at hqf ⊢
      exact m4 _ (m3 _ (v2 (by omega) hqf))
    · rw [a1, a2] at hqf ⊢
      exact m4 _ (v3 (by omega) hqf)
    · rw [a1, a2] at hqf ⊢
      exact m4 _ (m3 _ (m2 _ (v1 (by omega) hqf)))
    · have hq1 : qx = cx - 1 := by omega
      rw [hq1, a2] at hqf ⊢
      exact v4 (by omega) hqf

/-- The breadth-first loops keep their invariant and the difference of counter and queue
length and, given `W * L` dequeues in total, end with a drained queue rather than out
of fuel. -/
theorem bfsLoop_inv {g0 : Grid} {W L : Nat} {m0 : List Bool} {s : Nat × Nat} :
    ∀ (fuel : Nat) (st : BfsState) (head : Nat), BfsInv g0 W L m0 s st head →
      W * L ≤ fuel + head →
      BfsInv g0 W L m0 s (bfsLoop g0 W L fuel st head)
          (bfsLoop g0 W L fuel st head).queue.length ∧
        (bfsLoop g0 W L fuel st head).count + st.queue.length =
          st.count + (bfsLoop g0 W L fuel st head).queue.length ∧
        ∃ ext, (bfsLoop g0 W L fuel st head).queue = st.queue ++ ext := by
  intro fuel
  induction fuel with
  | zero =>
    intro st head inv hf
    unfold bfsLoop
    have h1 := inv.head_le
    have h2 := length_le_of_nodup_in_grid inv.nodup (fun c hc => ⟨(inv.queued c hc).1,
      (inv.queued c hc).2.1⟩)
    have he : head = st.queue.length := by omega
    rw [← he]
    exact ⟨inv, by omega, ⟨[], by simp⟩⟩
  | succ n ih =>
    intro st head inv hf
    unfold bfsLoop
    split
    · rename_i hh
      simp only []
      obtain ⟨s1, s2, ⟨x1, s3⟩⟩ := bfsStep_inv inv hh
      obtain ⟨r1, r2, ⟨x2, r3⟩⟩ := ih _ _ s1 (by omega)
      exact ⟨r1, by omega, ⟨x1 ++ x2, by rw [r3, s3, List.append_assoc]⟩⟩
    · rename_i hh
      have h1 := inv.head_le
      have he : head = st.queue.length := by omega
      rw [← he]
      exact ⟨inv, by omega, ⟨[], by simp⟩⟩

/-- The relation of 4-adjacency is symmetric. -/
theorem adjacent_symm {W L : Nat} {p q : Nat × Nat} (h : Adjacent W L p q) :
    Adjacent W L q p := by
  obtain ⟨h1, h2, h3, h4, h5⟩ := h
  refine ⟨h3, h4, h1, h2, ?_⟩
  rcases h5 with ⟨a, b⟩ | ⟨a, b⟩ | ⟨a, b⟩ | ⟨a, b⟩
  · exact Or.inr (Or.inr (Or.inl ⟨a.symm, b.symm⟩))
  · exact Or.inr (Or.inr (Or.inr ⟨a.symm, b.symm⟩))
  · exact Or.inl ⟨a.symm, b.symm⟩
  · exact Or.inr (Or.inl ⟨a.symm, b.symm⟩)

/-- A path from a non-void cell runs through non-void cells and can be walked back. -/
theorem conn4_back {g : Grid} {W L : Nat} {p q : Nat × Nat} (hp : g.get p.1 p.2 ≠ 0)
    (h : Conn4 g W L p q) : Conn4 g W L q p ∧ g.get q.1 q.2 ≠ 0 := by
  unfold Conn4 at h ⊢
  induction h with
  | refl => exact ⟨Relation.ReflTransGen.refl, hp⟩
  | tail _ hstep ih =>
    exact ⟨Relation.ReflTransGen.head ⟨adjacent_symm hstep.1, ih.2⟩ ih.1, hstep.2⟩

/-- Paths compose. -/
theorem conn4_trans {g : Grid} {W L : Nat} {p q r : Nat × Nat} (h1 : Conn4 g W L p q)
    (h2 : Conn4 g W L q r) : Conn4 g W L p r :=
  Relation.ReflTransGen.trans h1 h2

/-- A path from a cell of the layer stays inside the layer. -/
theorem conn4_inside {g : Grid} {W L : Nat} {p q : Nat × Nat} (hx : p.1 < W) (hy : p.2 < L)
    (h : Conn4 g W L p q) : q.1 < W ∧ q.2 < L := by
  unfold Conn4 at h
  induction h with
  | refl => exact ⟨hx, hy⟩
  | tail _ hstep _ => exact ⟨hstep.1.2.2.1, hstep.1.2.2.2.1⟩

/-- Two cells joined by a path from a non-void cell reach the same cells. -/
theorem conn4_same {g : Grid} {W L : Nat} {p q : Nat × Nat} (hp : g.get p.1 p.2 ≠ 0)
    (h : Conn4 g W L p q) (c : Nat × Nat) : Conn4 g W L p c ↔ Conn4 g W L q c :=
  ⟨fun hc => conn4_trans (conn4_back hp h).1 hc, fun hc => conn4_trans h hc⟩

/-- The size of a component is determined. -/
theorem isComponentSize_unique {g : Grid} {W L : Nat} {p : Nat × Nat} {n m : Nat}
    (h1 : IsComponentSize g W L p n) (h2 : IsComponentSize g W L p m) : n = m := by
  obtain ⟨c1, d1, m1, l1⟩ := h1
  obtain ⟨c2, d2, m2, l2⟩ := h2
  rw [← l1, ← l2]
  exact ((List.perm_ext_iff_of_nodup d1 d2).2 (fun c => by rw [m1, m2])).length_eq

/-- The cells of one component have the same component size. -/
theorem isComponentSize_same {g : Grid} {W L : Nat} {p q : Nat × Nat}
    (hp : g.get p.1 p.2 ≠ 0) (h : Conn4 g W L p q) {n : Nat}
    (hn : IsComponentSize g W L q n) : IsComponentSize g W L p n := by
  obtain ⟨cells, d, m, l⟩ := hn
  exact ⟨cells, d, fun c => by rw [m, conn4_same hp h], l⟩

/-- The breadth-first loop started at a non-void cell `s` whose component carries no
mark: it marks exactly the component of `s` in addition, its queue lists the component
without repetition, and the counter grows by the cells queued after the start. -/
theorem bfsLoop_spec {g0 : Grid} {W L : Nat} {m0 : List Bool} {s : Nat × Nat} (k : Nat)
    (hlen : m0.length = W * L) (hsx : s.1 < W) (hsy : s.2 < L) (hs : g0.get s.1 s.2 ≠ 0)
    (hdis : ∀ q : Nat × Nat, Conn4 g0 W L s q → m0.getD (q.2 * W + q.1) false = false) :
    (bfsLoop g0 W L (W * L)
        { marks := m0.set (s.2 * W + s.1) true, queue := [s], count := k } 0).marks.length
        = W * L ∧
      (∀ c : Nat × Nat, c.1 < W → c.2 < L →
        ((bfsLoop g0 W L (W * L)
          { marks := m0.set (s.2 * W + s.1) true, queue := [s], count := k } 0).marks.getD
            (c.2 * W + c.1) false = true ↔
          (m0.getD (c.2 * W + c.1) false = true ∨ Conn4 g0 W L s c))) ∧
      (bfsLoop g0 W L (W * L)
        { marks := m0.set (s.2 * W + s.1) true, queue := [s], count := k } 0).queue.Nodup ∧
      (∀ c : Nat × Nat, c ∈ (bfsLoop g0 W L (W * L)
        { marks := m0.set (s.2 * W + s.1) true, queue := [s], count := k } 0).queue ↔
        Conn4 g0 W L s c) ∧
      (bfsLoop g0 W L (W * L)
        { marks := m0.set (s.2 * W + s.1) true, queue := [s], count := k } 0).count + 1 =
        k + (bfsLoop g0 W L (W * L)
          { marks := m0.set (s.2 * W + s.1) true, queue := [s], count := k } 0).queue.length
    := by
  have hidx : s.2 * W + s.1 < m0.length := by rw [hlen]; exact cell_lt hsx hsy
  have inv0 : BfsInv g0 W L m0 s
      { marks := m0.set (s.2 * W + s.1) true, queue := [s], count := k } 0 := by
    refine ⟨by simp only [List.length_set]; exact hlen, ?_, ?_, by simp, by simp, ?_⟩
    · intro c hx hy
      simp only []
      rw [getD_set_any]
      by_cases e : c = s
      · subst e
        rw [if_pos ⟨rfl, hidx⟩]
        simp
      · have hne : c.2 * W + c.1 ≠ s.2 * W + s.1 := fun h => e (rmIndex_inj hx hsx h)
        rw [if_neg (fun h => hne h.1)]
        simp [e]
    · intro c hc
      simp only [List.mem_singleton] at hc
      subst hc
      exact ⟨hsx, hsy, hs, hdis _ Relation.ReflTransGen.refl, Relation.ReflTransGen.refl⟩
    · intro i hi
      omega
  obtain ⟨inv, hcount, ⟨ext, hext⟩⟩ := bfsLoop_inv (W * L) _ 0 inv0 (by omega)
  simp only [] at hcount hext
  have hmem : ∀ c : Nat × Nat, Conn4 g0 W L s c → c ∈ (bfsLoop g0 W L (W * L)
      { marks := m0.set (s.2 * W + s.1) true, queue := [s], count := k } 0).queue := by
    intro c hc
    have hc' := hc
    unfold Conn4 at hc'
    induction hc' with
    | refl => rw [hext]; simp
    | tail hab hstep ih =>
      rename_i a b
      have ha := ih hab
      obtain ⟨i, hi, e⟩ := mem_getD ha (0, 0)
      have hm := inv.closed i hi b (by rw [e]; exact hstep.1) hstep.2
      rcases (inv.marked b hstep.1.2.2.1 hstep.1.2.2.2.1).1 hm with h | h
      · rw [hdis b hc] at h; cases h
      · exact h
  refine ⟨inv.len, fun c hx hy => ?_, inv.nodup,
    fun c => ⟨fun h => (inv.queued c h).2.2.2.2, hmem c⟩, ?_⟩
  · rw [inv.marked c hx hy]
    exact ⟨fun h => h.elim Or.inl (fun h' => Or.inr (inv.queued c h').2.2.2.2),
      fun h => h.elim Or.inl (fun h' => Or.inr (hmem c h'))⟩
  · rw [List.length_singleton] at hcount
    omega

/-- The function `measureRegionSize` started at a non-void unvisited cell whose component
carries no mark returns the exact cell count of the component and marks the component in
addition. -/
theorem measureRegionSize_spec {g0 : Grid} {W L : Nat} {visited : List Bool} (sx sy : Nat)
    (hlen : visited.length = W * L) (hsx : sx < W) (hsy : sy < L) (hs : g0.get sx sy ≠ 0)
    (hdis : ∀ q : Nat × Nat, Conn4 g0 W L (sx, sy) q →
      visited.getD (q.2 * W + q.1) false = false) :
    (measureRegionSize g0 visited W L sx sy).1.length = W * L ∧
      (∀ c : Nat × Nat, c.1 < W → c.2 < L →
        ((measureRegionSize g0 visited W L sx sy).1.getD (c.2 * W + c.1) false = true ↔
          (visited.getD (c.2 * W + c.1) false = true ∨ Conn4 g0 W L (sx, sy) c))) ∧
      IsComponentSize g0 W L (sx, sy) (measureRegionSize g0 visited W L sx sy).2 ∧
      1 ≤ (measureRegionSize g0 visited W L sx sy).2 := by
  obtain ⟨b1, b2, b3, b4, b5⟩ := bfsLoop_spec (s := (sx, sy)) 1 hlen hsx hsy hs hdis
  unfold measureRegionSize
  simp only [] at b1 b2 b3 b4 b5 ⊢
  have hcount : (bfsLoop g0 W L (W * L)
      { marks := visited.set (sy * W + sx) true, queue := [(sx, sy)], count := 1 } 0).count =
      (bfsLoop g0 W L (W * L)
        { marks := visited.set (sy * W + sx) true, queue := [(sx, sy)], count := 1 }
        0).queue.length := by omega
  refine ⟨b1, b2, ⟨_, b3, b4, hcount.symm⟩, ?_⟩
  rw [hcount]
  exact List.length_pos_of_mem ((b4 (sx, sy)).2 Relation.ReflTransGen.refl)

/-- The cells before a cell of the row-major order have smaller indices. -/
theorem rowMajor_pre_lt {W L : Nat} {pre suf : List (Nat × Nat)} {a : Nat × Nat}
    (hl : rowMajor W L = pre ++ a :: suf) {p : Nat × Nat} (hp : p ∈ pre) :
    rmIndex W p < rmIndex W a := by
  have hs := pairwise_rowMajor W L
  rw [hl] at hs
  exact (List.pairwise_append.1 hs).2.2 p hp a (List.mem_cons_self _ _)

/-- One cell of the scan of the island sanitization keeps its invariant. -/
theorem sanitizeCell_inv {g0 : Grid} {W L : Nat} {pre suf : List (Nat × Nat)}
    {a : Nat × Nat} {st : SanitizeState} (hl : rowMajor W L = pre ++ a :: suf)
    (inv : SanitizeInv g0 W L pre st) :
    SanitizeInv g0 W L (pre ++ [a]) (sanitizeCell g0 W L st a) := by
  have ha : a ∈ rowMajor W L := by rw [hl]; simp
  obtain ⟨hax, hay⟩ := mem_rowMajor.1 ha
  have hpre : ∀ p ∈ pre, rmIndex W p < rmIndex W a := fun p hp => rowMajor_pre_lt hl hp
  have hprein : ∀ p ∈ pre, p.1 < W ∧ p.2 < L := fun p hp =>
    mem_rowMajor.1 (by rw [hl]; exact List.mem_append_left _ hp)
  unfold sanitizeCell Empty_Tile
  by_cases hcase : g0.get a.1 a.2 ≠ 0 ∧ st.visited.getD (a.2 * W + a.1) false = false
  · rw [if_pos hcase]
    obtain ⟨hfill, hunv⟩ := hcase
    have hnone : ∀ p ∈ pre, g0.get p.1 p.2 ≠ 0 → ¬ Conn4 g0 W L p a := by
      intro p hp hpf hc
      rw [(inv.marks a hax hay).2 ⟨p, hp, hpf, hc⟩] at hunv
      cases hunv
    have hdis : ∀ q : Nat × Nat, Conn4 g0 W L (a.1, a.2) q →
        st.visited.getD (q.2 * W + q.1) false = false := by
      intro q hq
      cases hv : st.visited.getD (q.2 * W + q.1) false
      · rfl
      · exfalso
        obtain ⟨hqx, hqy⟩ := conn4_inside hax hay hq
        obtain ⟨p, hp, hpf, hpc⟩ := (inv.marks q hqx hqy).1 hv
        exact hnone p hp hpf (conn4_trans hpc (conn4_back hfill hq).1)
    have hfirst : ∀ c, Conn4 g0 W L a c → rmIndex W a ≤ rmIndex W c := by
      intro c hc
      by_contra hlt
      obtain ⟨hcx, hcy⟩ := conn4_inside hax hay hc
      have hcpre : c ∈ pre := rowMajor_before hl hcx hcy (by omega)
      obtain ⟨hback, hcf⟩ := conn4_back hfill hc
      exact hnone c hcpre hcf hback
    obtain ⟨m1, m2, m3, m4⟩ := measureRegionSize_spec a.1 a.2 inv.len hax hay hfill hdis
    have hmarks : ∀ c : Nat × Nat, c.1 < W → c.2 < L →
        ((measureRegionSize g0 st.visited W L a.1 a.2).1.getD (c.2 * W + c.1) false = true ↔
          ∃ p ∈ pre ++ [a], g0.get p.1 p.2 ≠ 0 ∧ Conn4 g0 W L p c) := by
      intro c hx hy
      rw [m2 c hx hy, inv.marks c hx hy]
      constructor
      · rintro (⟨p, hp, hpf, hpc⟩ | h)
        · exact ⟨p, List.mem_append_left _ hp, hpf, hpc⟩
        · exact ⟨a, by simp, hfill, h⟩
      · rintro ⟨p, hp, hpf, hpc⟩
        rcases List.mem_append.1 hp with h | h
        · exact Or.inl ⟨p, h, hpf, hpc⟩
        · rw [List.mem_singleton.1 h] at hpc
          exact Or.inr hpc
    simp only []
    by_cases hgt : (measureRegionSize g0 st.visited W L a.1 a.2).2 > st.maxRegionSize
    · rw [if_pos hgt]
      refine ⟨m1, hmarks, (fun h => by cases h), (fun h => by cases h), ?_, ?_⟩
      · intro b hb
        simp only [Option.some.injEq] at hb
        subst hb
        exact ⟨by simp, hfill, m3, hfirst⟩
      · intro p hp hpf n hn
        simp only []
        rcases List.mem_append.1 hp with h | h
        · have := (inv.bound p h hpf n hn).1
          exact ⟨by omega, fun b _ e => by omega⟩
        · rw [List.mem_singleton.1 h] at hn ⊢
          have e := isComponentSize_unique hn m3
          refine ⟨by omega, fun b hb _ => ?_⟩
          simp only [Option.some.injEq] at hb
          rw [hb]
    · rw [if_neg hgt]
      have hsome : ∃ b, st.best = some b := by
        cases hb : st.best with
        | none =>
          have := inv.none_max hb
          omega
        | some b => exact ⟨b, rfl⟩
      obtain ⟨b0, hb0⟩ := hsome
      refine ⟨m1, hmarks, fun h => ?_, fun h => ?_, ?_, ?_⟩
      · simp only [] at h
        rw [hb0] at h
        cases h
      · simp only [] at h ⊢
        exact inv.none_max h
      · intro b hb
        simp only [] at hb ⊢
        obtain ⟨i1, i2, i3, i4⟩ := inv.best b hb
        exact ⟨List.mem_append_left _ i1, i2, i3, i4⟩
      · intro p hp hpf n hn
        simp only []
        rcases List.mem_append.1 hp with h | h
        · exact inv.bound p h hpf n hn
        · rw [List.mem_singleton.1 h] at hn ⊢
          have e := isComponentSize_unique hn m3
          refine ⟨by omega, fun b hb _ => ?_⟩
          have := hpre b (inv.best b hb).1
          omega
  · rw [if_neg hcase]
    have hvis : g0.get a.1 a.2 ≠ 0 → ∃ p ∈ pre, g0.get p.1 p.2 ≠ 0 ∧ Conn4 g0 W L p a := by
      intro hf
      apply (inv.marks a hax hay).1
      cases hv : st.visited.getD (a.2 * W + a.1) false
      · exact absurd ⟨hf, hv⟩ hcase
      · rfl
    refine ⟨inv.len, fun c hx hy => ?_, fun h p hp => ?_, inv.none_max, fun b hb => ?_,
      fun p hp hpf n hn => ?_⟩
    · rw [inv.marks c hx hy]
      constructor
      · rintro ⟨p, hp, hpf, hpc⟩
        exact ⟨p, List.mem_append_left _ hp, hpf, hpc⟩
      · rintro ⟨p, hp, hpf, hpc⟩
        rcases List.mem_append.1 hp with h | h
        · exact ⟨p, h, hpf, hpc⟩
        · rw [List.mem_singleton.1 h] at hpf hpc
          obtain ⟨p', hp', hpf', hpc'⟩ := hvis hpf
          exact ⟨p', hp', hpf', conn4_trans hpc' hpc⟩
    · rcases List.mem_append.1 hp with h' | h'
      · exact inv.none_void h p h'
      · rw [List.mem_singleton.1 h']
        by_contra hf
        obtain ⟨p', hp', hpf', _⟩ := hvis hf
        exact hpf' (inv.none_void h p' hp')
    · obtain ⟨i1, i2, i3, i4⟩ := inv.best b hb
      exact ⟨List.mem_append_left _ i1, i2, i3, i4⟩
    · rcases List.mem_append.1 hp with h | h
      · exact inv.bound p h hpf n hn
      · rw [List.mem_singleton.1 h] at hpf hn ⊢
        obtain ⟨p', hp', hpf', hpc'⟩ := hvis hpf
        have hn' := isComponentSize_same hpf' hpc' hn
        obtain ⟨k1, k2⟩ := inv.bound p' hp' hpf' n hn'
        refine ⟨k1, fun b hb e => ?_⟩
        have := k2 b hb e
        have := hpre p' hp'
        omega

/-- The scan of the island sanitization ends with its invariant for all cells. -/
theorem sanitizeScan_inv (g0 : Grid) (W L : Nat) :
    SanitizeInv g0 W L (rowMajor W L) (sanitizeScan g0 W L) := by
  unfold sanitizeScan
  apply foldl_prefix_induction (fun pre st => SanitizeInv g0 W L pre st)
  · refine ⟨by simp, fun c hx hy => ?_, (fun _ p hp => by cases hp), fun _ => rfl,
      (fun b hb => by cases hb), (fun p hp => by cases hp)⟩
    simp only []
    rw [getD_replicate, if_pos (cell_lt hx hy)]
    simp
  · intro pre a suf st hl inv
    exact sanitizeCell_inv hl inv

/-- At a non-void cell that the scan finds unvisited no cell of its component is
visited. -/
theorem sanitize_unvisited_component {g0 : Grid} {W L : Nat} {pre : List (Nat × Nat)}
    {st : SanitizeState} (inv : SanitizeInv g0 W L pre st) {a : Nat × Nat} (hax : a.1 < W)
    (hay : a.2 < L) (hfill : g0.get a.1 a.2 ≠ 0)
    (hunv : st.visited.getD (a.2 * W + a.1) false = false) :
    ∀ q : Nat × Nat, Conn4 g0 W L (a.1, a.2) q →
      st.visited.getD (q.2 * W + q.1) false = false := by
  intro q hq
  cases hv : st.visited.getD (q.2 * W + q.1) false
  · rfl
  · exfalso
    obtain ⟨hqx, hqy⟩ := conn4_inside hax hay hq
    obtain ⟨p, hp, hpf, hpc⟩ := (inv.marks q hqx hqy).1 hv
    rw [(inv.marks a hax hay).2 ⟨p, hp, hpf, conn4_trans hpc (conn4_back hfill hq).1⟩] at hunv
    cases hunv

/-- The scan of the island sanitization keeps its invariant at every cell it reaches. -/
theorem sanitizePrefix_inv (g0 : Grid) (W L : Nat) (pre rest : List (Nat × Nat))
    (hl : rowMajor W L = pre ++ rest) :
    SanitizeInv g0 W L pre (pre.foldl (sanitizeCell g0 W L)
      { visited := List.replicate (W * L) false, maxRegionSize := 0, best := none }) := by
  apply foldl_prefix_induction (fun pre st => SanitizeInv g0 W L pre st)
  · refine ⟨by simp, fun c hx hy => ?_, (fun _ p hp => by cases hp), fun _ => rfl,
      (fun b hb => by cases hb), (fun p hp => by cases hp)⟩
    simp only []
    rw [getD_replicate, if_pos (cell_lt hx hy)]
    simp
  · intro pre' a suf st hl' inv
    exact @sanitizeCell_inv g0 W L pre' (suf ++ rest) a st (by rw [hl, hl']; simp) inv

/-- The delete loop of `keepOnlyLargestMask`, with `isMain` marking the component of `b`:
a non-void cell of layer 0 outside the component is void on every layer afterwards, and
every other cell of every layer is unchanged. -/
theorem deleteLoop_spec {layers : List Grid} {W L H : Nat} (hH : 1 ≤ H)
    (hwf : LayersWF layers W L H) (b : Nat × Nat) (isMain : List Bool)
    (hmain : ∀ c : Nat × Nat, c.1 < W → c.2 < L →
      (isMain.getD (c.2 * W + c.1) false = true ↔ Conn4 (layers.getD 0 []) W L b c)) :
    LayersWF ((rowMajor W L).foldl (deleteCell isMain W H) layers) W L H ∧
      ∀ z, z < H → ∀ x y,
        (x < W → y < L → (layers.getD 0 []).get x y ≠ 0 →
          ¬ Conn4 (layers.getD 0 []) W L b (x, y) →
          (((rowMajor W L).foldl (deleteCell isMain W H) layers).getD z []).get x y = 0) ∧
        (¬ (x < W ∧ y < L ∧ (layers.getD 0 []).get x y ≠ 0 ∧
            ¬ Conn4 (layers.getD 0 []) W L b (x, y)) →
          (((rowMajor W L).foldl (deleteCell isMain W H) layers).getD z []).get x y =
            (layers.getD z []).get x y) := by
  have key := foldl_prefix_induction
    (fun (pre : List (Nat × Nat)) (ls : List Grid) => LayersWF ls W L H ∧
      ∀ z, z < H → ∀ x y,
        ((x, y) ∈ pre → (layers.getD 0 []).get x y ≠ 0 →
          ¬ Conn4 (layers.getD 0 []) W L b (x, y) → (ls.getD z []).get x y = 0) ∧
        (¬ ((x, y) ∈ pre ∧ (layers.getD 0 []).get x y ≠ 0 ∧
            ¬ Conn4 (layers.getD 0 []) W L b (x, y)) →
          (ls.getD z []).get x y = (layers.getD z []).get x y))
    (deleteCell isMain W H) (rowMajor W L) layers
    ⟨hwf, fun z _ x y => ⟨(fun h => by cases h), fun _ => rfl⟩⟩
    (fun pre a suf ls hl ⟨iwf, icells⟩ => by
      have ha : a ∈ rowMajor W L := by rw [hl]; simp
      obtain ⟨hax, hay⟩ := mem_rowMajor.1 ha
      have hnd := nodup_rowMajor W L
      rw [hl] at hnd
      have hapre : a ∉ pre := fun h =>
        (List.nodup_append.1 hnd).2.2 h (List.mem_cons_self _ _)
      have hcur : (ls.getD 0 []).get a.1 a.2 = (layers.getD 0 []).get a.1 a.2 :=
        (icells 0 (by omega) a.1 a.2).2 (fun h => hapre h.1)
      unfold deleteCell Empty_Tile
      rw [hcur]
      by_cases hd : (layers.getD 0 []).get a.1 a.2 ≠ 0 ∧
          isMain.getD (a.2 * W + a.1) false = false
      · rw [if_pos hd]
        have hnc : ¬ Conn4 (layers.getD 0 []) W L b a := fun h => by
          rw [(hmain a hax hay).2 h] at hd
          exact absurd hd.2 (by simp)
        obtain ⟨c1, c2⟩ := setColumn_layers iwf hax hay 0
        refine ⟨c1, fun z hz x y => ?_⟩
        rw [c2 z hz x y]
        by_cases e : x = a.1 ∧ y = a.2
        · rw [if_pos e]
          obtain ⟨ex, ey⟩ := e
          subst ex ey
          exact ⟨fun _ _ _ => rfl, fun h => absurd ⟨by simp, hd.1, hnc⟩ h⟩
        · have e' : (x, y) ≠ a := fun h => e ⟨by rw [← h], by rw [← h]⟩
          rw [if_neg e]
          refine ⟨fun h1 => (icells z hz x y).1 ?_, fun h => (icells z hz x y).2 ?_⟩
          · rcases List.mem_append.1 h1 with h2 | h2
            · exact h2
            · exact absurd (List.mem_singleton.1 h2) e'
          · exact fun h' => h ⟨List.mem_append_left _ h'.1, h'.2⟩
      · rw [if_neg hd]
        have hnd' : ¬ ((layers.getD 0 []).get a.1 a.2 ≠ 0 ∧
            ¬ Conn4 (layers.getD 0 []) W L b a) := by
          rintro ⟨h1, h2⟩
          apply hd
          refine ⟨h1, ?_⟩
          cases hv : isMain.getD (a.2 * W + a.1) false
          · rfl
          · exact absurd ((hmain a hax hay).1 hv) h2
        refine ⟨iwf, fun z hz x y => ⟨fun h1 h2 h3 => ?_, fun h => ?_⟩⟩
        · rcases List.mem_append.1 h1 with h4 | h4
          · exact (icells z hz x y).1 h4 h2 h3
          · have e := List.mem_singleton.1 h4
            have ex : x = a.1 := congrArg Prod.fst e
            have ey : y = a.2 := congrArg Prod.snd e
            subst ex ey
            exact absurd ⟨h2, h3⟩ hnd'
        · exact (icells z hz x y).2 (fun h' => h ⟨List.mem_append_left _ h'.1, h'.2⟩))
  refine ⟨key.1, fun z hz x y => ⟨fun hx hy h1 h2 => ?_, fun h => ?_⟩⟩
  · exact (key.2 z hz x y).1 (mem_rowMajor.2 ⟨hx, hy⟩) h1 h2
  · refine (key.2 z hz x y).2 (fun h' => h ?_)
    have := mem_rowMajor.1 h'.1
    exact ⟨this.1, this.2, h'.2⟩

/-- The function `keepOnlyLargestMask` started at a non-void cell `b` of layer 0: a
non-void cell of layer 0 outside the component of `b` is void on every layer afterwards,
and every other cell of every layer is unchanged. -/
theorem keepOnlyLargestMask_spec {layers : List Grid} {W L H : Nat} (hH : 1 ≤ H)
    (hwf : LayersWF layers W L H) (bx by' : Nat) (hbx : bx < W) (hby : by' < L)
    (hb : (layers.getD 0 []).get bx by' ≠ 0) :
    LayersWF (keepOnlyLargestMask layers W L H bx by') W L H ∧
      ∀ z, z < H → ∀ x y,
        (x < W → y < L → (layers.getD 0 []).get x y ≠ 0 →
          ¬ Conn4 (layers.getD 0 []) W L (bx, by') (x, y) →
          ((keepOnlyLargestMask layers W L H bx by').getD z []).get x y = 0) ∧
        (¬ (x < W ∧ y < L ∧ (layers.getD 0 []).get x y ≠ 0 ∧
            ¬ Conn4 (layers.getD 0 []) W L (bx, by') (x, y)) →
          ((keepOnlyLargestMask layers W L H bx by').getD z []).get x y =
            (layers.getD z []).get x y) := by
  obtain ⟨_, b2, _, _, _⟩ := @bfsLoop_spec (layers.getD 0 []) W L
    (List.replicate (W * L) false) (bx, by') 0 (by simp) hbx hby hb
    (fun q _ => by rw [getD_replicate]; split <;> rfl)
  unfold keepOnlyLargestMask
  refine deleteLoop_spec hH hwf (bx, by') _ (fun c hx hy => ?_)
  rw [b2 c hx hy, getD_replicate, if_pos (cell_lt hx hy)]
  simp

/-- **Claim C28** (island sanitization). On `H ≥ 1` well-formed layers of a `W` by `L`
grid whose cell count fits `int` and whose layer 0 has a non-void cell, the island
sanitization of `generateRidgedMask` (the scan with
`measureRegionSize`, then `keepOnlyLargestMask`) picks a non-void cell `b` and leaves
non-void on layer 0 exactly the cells of the 4-connected component of `b`, unchanged on
every layer; that component has `maxRegionSize` cells, no component has more, and every
component with as many cells comes later in row-major order; every call of
`measureRegionSize` that the scan makes returns the exact cell count of the component of
its start cell. A non-void cell of layer 0 outside the component is void on every layer
afterwards and a void cell of layer 0 is unchanged on every layer, so that every cell
outside the component is void on every layer when the layers above are void wherever
layer 0 is, as in the grid that `runArchitect` hands over from `calloc`. -/
theorem sanitizeIslands_keeps_largest_component (layers : List Grid) (W L H : Nat)
    (hH : 1 ≤ H) (hwf : LayersWF layers W L H) (_hsz : W * L < 2147483648)
    (hex : ∃ x y, x < W ∧ y < L ∧ (layers.getD 0 []).get x y ≠ 0) :
    ∃ b : Nat × Nat, b.1 < W ∧ b.2 < L ∧ (layers.getD 0 []).get b.1 b.2 ≠ 0 ∧
      (sanitizeScan (layers.getD 0 []) W L).best = some b ∧
      LayersWF (sanitizeIslands layers W L H) W L H ∧
      (∀ x, x < W → ∀ y, y < L →
        (((sanitizeIslands layers W L H).getD 0 []).get x y ≠ 0 ↔
          Conn4 (layers.getD 0 []) W L b (x, y))) ∧
      (∀ z, z < H → ∀ x, x < W → ∀ y, y < L →
        (Conn4 (layers.getD 0 []) W L b (x, y) ∨ (layers.getD 0 []).get x y = 0 →
          ((sanitizeIslands layers W L H).getD z []).get x y =
            (layers.getD z []).get x y) ∧
        ((layers.getD 0 []).get x y ≠ 0 → ¬ Conn4 (layers.getD 0 []) W L b (x, y) →
          ((sanitizeIslands layers W L H).getD z []).get x y = 0)) ∧
      IsComponentSize (layers.getD 0 []) W L b
        (sanitizeScan (layers.getD 0 []) W L).maxRegionSize ∧
      (∀ p : Nat × Nat, p.1 < W → p.2 < L → (layers.getD 0 []).get p.1 p.2 ≠ 0 →
        ∀ n, IsComponentSize (layers.getD 0 []) W L p n →
          n ≤ (sanitizeScan (layers.getD 0 []) W L).maxRegionSize ∧
          (n = (sanitizeScan (layers.getD 0 []) W L).maxRegionSize →
            rmIndex W b ≤ rmIndex W p)) ∧
      (∀ (pre : List (Nat × Nat)) (a : Nat × Nat) (suf : List (Nat × Nat)),
        rowMajor W L = pre ++ a :: suf → (layers.getD 0 []).get a.1 a.2 ≠ 0 →
        (pre.foldl (sanitizeCell (layers.getD 0 []) W L)
          { visited := List.replicate (W * L) false, maxRegionSize := 0,
            best := none }).visited.getD (a.2 * W + a.1) false = false →
        IsComponentSize (layers.getD 0 []) W L a
          (measureRegionSize (layers.getD 0 [])
            (pre.foldl (sanitizeCell (layers.getD 0 []) W L)
              { visited := List.replicate (W * L) false, maxRegionSize := 0,
                best := none }).visited W L a.1 a.2).2) ∧
      ((∀ z, z < H → ∀ x y, (layers.getD 0 []).get x y = 0 →
          (layers.getD z []).get x y = 0) →
        ∀ z, z < H → ∀ x, x < W → ∀ y, y < L →
          ¬ Conn4 (layers.getD 0 []) W L b (x, y) →
          ((sanitizeIslands layers W L H).getD z []).get x y = 0) := by
  have inv := sanitizeScan_inv (layers.getD 0 []) W L
  obtain ⟨ex, ey, hex1, hex2, hex3⟩ := hex
  have hsome : ∃ b, (sanitizeScan (layers.getD 0 []) W L).best = some b := by
    cases hb : (sanitizeScan (layers.getD 0 []) W L).best with
    | none => exact absurd (inv.none_void hb (ex, ey) (mem_rowMajor.2 ⟨hex1, hex2⟩)) hex3
    | some b => exact ⟨b, rfl⟩
  obtain ⟨⟨bx, bY⟩, hb⟩ := hsome
  obtain ⟨b1, b2, b3, _⟩ := inv.best _ hb
  obtain ⟨hbx, hbY⟩ := mem_rowMajor.1 b1
  simp only [] at hbx hbY b2
  obtain ⟨k1, k2⟩ := keepOnlyLargestMask_spec hH hwf bx bY hbx hbY b2
  have hres : sanitizeIslands layers W L H = keepOnlyLargestMask layers W L H bx bY := by
    unfold sanitizeIslands
    rw [hb]
  rw [hres]
  have hkeep : ∀ z, z < H → ∀ x, x < W → ∀ y, y < L →
      (Conn4 (layers.getD 0 []) W L (bx, bY) (x, y) ∨ (layers.getD 0 []).get x y = 0 →
        ((keepOnlyLargestMask layers W L H bx bY).getD z []).get x y =
          (layers.getD z []).get x y) ∧
      ((layers.getD 0 []).get x y ≠ 0 → ¬ Conn4 (layers.getD 0 []) W L (bx, bY) (x, y) →
        ((keepOnlyLargestMask layers W L H bx bY).getD z []).get x y = 0) := by
    intro z hz x hx y hy
    refine ⟨fun h => (k2 z hz x y).2 (fun h' => ?_), fun h1 h2 => (k2 z hz x y).1 hx hy h1 h2⟩
    rcases h with h | h
    · exact h'.2.2.2 h
    · exact h'.2.2.1 h
  refine ⟨(bx, bY), hbx, hbY, b2, hb, k1, fun x hx y hy => ?_, hkeep, b3,
    fun p hpx hpy hpf n hn => ?_, fun pre a suf hl haf hav => ?_,
    fun hup z hz x hx y hy hnc => ?_⟩
  · constructor
    · intro hne
      by_contra hnc
      by_cases hf : (layers.getD 0 []).get x y = 0
      · rw [(hkeep 0 (by omega) x hx y hy).1 (Or.inr hf)] at hne
        exact hne hf
      · exact hne ((hkeep 0 (by omega) x hx y hy).2 hf hnc)
    · intro hc
      rw [(hkeep 0 (by omega) x hx y hy).1 (Or.inl hc)]
      exact (conn4_back b2 hc).2
  · obtain ⟨i1, i2⟩ := inv.bound p (mem_rowMajor.2 ⟨hpx, hpy⟩) hpf n hn
    exact ⟨i1, fun e => i2 _ hb e⟩
  · have ha : a ∈ rowMajor W L := by rw [hl]; simp
    obtain ⟨hax, hay⟩ := mem_rowMajor.1 ha
    have pinv := sanitizePrefix_inv (layers.getD 0 []) W L pre (a :: suf) hl
    have hdis := sanitize_unvisited_component pinv hax hay haf hav
    exact (measureRegionSize_spec a.1 a.2 pinv.len hax hay haf hdis).2.2.1
  · by_cases hf : (layers.getD 0 []).get x y = 0
    · rw [(hkeep z hz x hx y hy).1 (Or.inr hf)]
      exact hup z hz x y hf
    · exact (hkeep z hz x hx y hy).2 hf hnc

/-- The statement of C28 on the two layers `sampleIslands` of a 4 by 4 grid. -/
theorem sanitizeIslands_keeps_largest_component_witness :
    (1 ≤ 2 ∧ LayersWF sampleIslands 4 4 2 ∧ 4 * 4 < 2147483648 ∧
      ∃ x y, x < 4 ∧ y < 4 ∧ (sampleIslands.getD 0 []).get x y ≠ 0) ∧
    (∃ b : Nat × Nat, b.1 < 4 ∧ b.2 < 4 ∧ (sampleIslands.getD 0 []).get b.1 b.2 ≠ 0 ∧
      (sanitizeScan (sampleIslands.getD 0 []) 4 4).best = some b ∧
      LayersWF (sanitizeIslands sampleIslands 4 4 2) 4 4 2 ∧
      (∀ x, x < 4 → ∀ y, y < 4 →
        (((sanitizeIslands sampleIslands 4 4 2).getD 0 []).get x y ≠ 0 ↔
          Conn4 (sampleIslands.getD 0 []) 4 4 b (x, y))) ∧
      (∀ z, z < 2 → ∀ x, x < 4 → ∀ y, y < 4 →
        (Conn4 (sampleIslands.getD 0 []) 4 4 b (x, y) ∨ (sampleIslands.getD 0 []).get x y = 0 →
          ((sanitizeIslands sampleIslands 4 4 2).getD z []).get x y =
            (sampleIslands.getD z []).get x y) ∧
        ((sampleIslands.getD 0 []).get x y ≠ 0 →
          ¬ Conn4 (sampleIslands.getD 0 []) 4 4 b (x, y) →
          ((sanitizeIslands sampleIslands 4 4 2).getD z []).get x y = 0)) ∧
      IsComponentSize (sampleIslands.getD 0 []) 4 4 b
        (sanitizeScan (sampleIslands.getD 0 []) 4 4).maxRegionSize ∧
      (∀ p : Nat × Nat, p.1 < 4 → p.2 < 4 → (sampleIslands.getD 0 []).get p.1 p.2 ≠ 0 →
        ∀ n, IsComponentSize (sampleIslands.getD 0 []) 4 4 p n →
          n ≤ (sanitizeScan (sampleIslands.getD 0 []) 4 4).maxRegionSize ∧
          (n = (sanitizeScan (sampleIslands.getD 0 []) 4 4).maxRegionSize →
            rmIndex 4 b ≤ rmIndex 4 p)) ∧
      (∀ (pre : List (Nat × Nat)) (a : Nat × Nat) (suf : List (Nat × Nat)),
        rowMajor 4 4 = pre ++ a :: suf → (sampleIslands.getD 0 []).get a.1 a.2 ≠ 0 →
        (pre.foldl (sanitizeCell (sampleIslands.getD 0 []) 4 4)
          { visited := List.replicate (4 * 4) false, maxRegionSize := 0,
            best := none }).visited.getD (a.2 * 4 + a.1) false = false →
        IsComponentSize (sampleIslands.getD 0 []) 4 4 a
          (measureRegionSize (sampleIslands.getD 0 [])
            (pre.foldl (sanitizeCell (sampleIslands.getD 0 []) 4 4)
              { visited := List.replicate (4 * 4) false, maxRegionSize := 0,
                best := none }).visited 4 4 a.1 a.2).2) ∧
      ((∀ z, z < 2 → ∀ x y, (sampleIslands.getD 0 []).get x y = 0 →
          (sampleIslands.getD z []).get x y = 0) →
        ∀ z, z < 2 → ∀ x, x < 4 → ∀ y, y < 4 →
          ¬ Conn4 (sampleIslands.getD 0 []) 4 4 b (x, y) →
          ((sanitizeIslands sampleIslands 4 4 2).getD z []).get x y = 0)) :=
  ⟨⟨by decide, by decide, by decide, ⟨0, 0, by decide, by decide, by decide⟩⟩,
    sanitizeIslands_keeps_largest_component sampleIslands 4 4 2 (by decide) (by decide)
      (by decide) ⟨0, 0, by decide, by decide, by decide⟩⟩

/-- On `sampleIslands` the scan measures the four islands and settles on the cell (0, 2)
with the size 3; the sanitization leaves that island alone on layer 0. -/
theorem sanitizeIslands_sample :
    (sanitizeScan (sampleIslands.getD 0 []) 4 4).best = some (0, 2) ∧
    (sanitizeScan (sampleIslands.getD 0 []) 4 4).maxRegionSize = 3 ∧
    measureRegionSize (sampleIslands.getD 0 []) (List.replicate 16 false) 4 4 3 0 =
      ([false, false, false, true, false, false, false, true, false, false, false, false,
        false, false, false, false], 2) ∧
    sanitizeIslands sampleIslands 4 4 2 =
      [[[0, 0, 0, 0], [0, 0, 0, 0], [65535, 65535, 0, 0], [65535, 0, 0, 0]],
       [[0, 0, 0, 0], [0, 0, 0, 0], [0, 0, 0, 0], [0, 0, 0, 0]]] := by
  set_option maxRecDepth 100000 in decide

/-- The derived seed of layer `i` is the top-level seed after `i + 1` steps of the
generator. -/
theorem layerSeeds_getD : ∀ (n seed i : Nat), i < n →
    (layerSeeds n seed).getD i 0 = nextRandom^[i + 1] seed := by
  intro n
  induction n with
  | zero => intro seed i hi; omega
  | succ n ih =>
    intro seed i hi
    rw [layerSeeds]
    cases i with
    | zero =>
      rw [List.getD_cons_zero, Function.iterate_succ_apply, Function.iterate_zero_apply]
    | succ i =>
      rw [List.getD_cons_succ, ih (nextRandom seed) i (by omega),
        Function.iterate_succ_apply (f := nextRandom) (n := i + 1)]

theorem layerSeeds_length : ∀ n s, (layerSeeds n s).length = n := by
  intro n
  induction n with
  | zero => intro s; rfl
  | succ n ih => intro s; rw [layerSeeds, List.length_cons, ih]

/-- **Claim C31** (random numbers and layer seeds). `nextRandom` replaces the state `s`
by `(s * 1664525 + 1013904223) mod 2 ^ 32` and returns the new state, which is a 32-bit
value again. `generateGrid` on a grid that passes its safety check hands `runArchitect`
the top-level seed and the fulness unchanged and hands layer `i` (counted from 0) the
seed obtained by applying this step `i + 1` times to the top-level seed, together with
the fulness as the `uint8_t` field of `layerGenerationArgs` holds it (the fulness modulo
256), whatever `runArchitect` and `generateLayerThread` do. -/
theorem generateGrid_layer_seeds
    (runArchitect : List Grid → Nat → Nat → Nat → Nat → Nat → List Grid)
    (generateLayerThread : Grid → Nat → Nat → Nat → Nat → Nat → Nat → Grid)
    (W L H seed F i : Nat) (hW : 4 ≤ W) (hL : 4 ≤ L) (hi : i < H) :
    (∀ s, nextRandom s = (s * 1664525 + 1013904223) % 2 ^ 32 ∧ nextRandom s < 2 ^ 32) ∧
    (layerSeeds H seed).length = H ∧
    (layerSeeds H seed).getD i 0 = nextRandom^[i + 1] seed ∧
    ∃ layers, (generateGrid runArchitect generateLayerThread W L H seed F).1 = some layers ∧
      layers.getD i [] = generateLayerThread
        ((runArchitect (List.replicate H (List.replicate L (List.replicate W 0)))
          W L H F seed).getD i []) W L (W / 2) (L / 2) (nextRandom^[i + 1] seed)
          (F % 256) := by
  refine ⟨fun s => ⟨rfl, Nat.mod_lt _ (by norm_num)⟩, layerSeeds_length H seed,
    layerSeeds_getD H seed i hi, ?_⟩
  unfold generateGrid
  rw [if_neg (by omega)]
  refine ⟨_, rfl, ?_⟩
  rw [List.getD_eq_getElem?_getD, List.getElem?_map, List.getElem?_range hi]
  simp only [Option.map_some', Option.getD_some]
  rw [layerSeeds_getD H seed i hi]

/-- The statement of C31 on a 4 by 4 grid of three layers with the top-level seed 5 and
the fulness 300, for the last layer; the architect stage leaves the grid alone and the
layer stage writes the seed and the fulness it receives into its layer. -/
theorem generateGrid_layer_seeds_witness :
    (4 ≤ 4 ∧ 4 ≤ 4 ∧ 2 < 3) ∧
    ((∀ s, nextRandom s = (s * 1664525 + 1013904223) % 2 ^ 32 ∧ nextRandom s < 2 ^ 32) ∧
    (layerSeeds 3 5).length = 3 ∧
    (layerSeeds 3 5).getD 2 0 = nextRandom^[2 + 1] 5 ∧
    ∃ layers, (generateGrid (fun g _ _ _ _ _ => g) (fun _ _ _ _ _ s f => [[s, f]])
        4 4 3 5 300).1 = some layers ∧
      layers.getD 2 [] = (fun _ _ _ _ _ s f => [[s, f]])
        (((fun g _ _ _ _ _ => g) (List.replicate 3 (List.replicate 4 (List.replicate 4 0)))
          4 4 3 300 5).getD 2 []) 4 4 (4 / 2) (4 / 2) (nextRandom^[2 + 1] 5)
          (300 % 256)) :=
  ⟨⟨by decide, by decide, by decide⟩,
    generateGrid_layer_seeds (fun g _ _ _ _ _ => g) (fun _ _ _ _ _ s f => [[s, f]])
      4 4 3 5 300 2 (by decide) (by decide) (by decide)⟩

/-- With the fulness 300 the three layer stages receive the derived seeds and the fulness
44, the value the `uint8_t` field keeps of 300. -/
theorem generateGrid_sample :
    (generateGrid (fun g _ _ _ _ _ => g) (fun _ _ _ _ _ s f => [[s, f]]) 4 4 3 5 300).1 =
      some [[[1022226848, 44]], [[3144284287, 44]], [[1043999698, 44]]] := by decide

/-- The derived seeds of three layers for the top-level seed 5. -/
theorem layerSeeds_sample :
    layerSeeds 3 5 = [1022226848, 3144284287, 1043999698] := by decide

/-- **Claim C33** (packing and unpacking). For every layer of void and single-variant
cells, with any number of regions (also when the region cap leaves cells without a
RegionID), `findConnectedRegionsInPlace` followed by the unpack loop of
`generateLayerThread` gives back exactly the original layer; a void cell is packed to
`0xFFFF` and no non-void cell is packed to `0xFFFF`. -/
theorem pack_unpack_round_trip (g : Grid) (W L : Nat) (hwf : g.WF W L) (hs : Solved g W L) :
    unpackRegions (findConnectedRegionsInPlace g W L) W L = g ∧
    (∀ x, x < W → ∀ y, y < L →
      ((findConnectedRegionsInPlace g W L).get x y = 0xFFFF ↔ g.get x y = 0)) ∧
    (∀ x, x < W → ∀ y, y < L → ∀ k, k < 16 → g.get x y = 2 ^ k →
      indexToMask ((findConnectedRegionsInPlace g W L).get x y &&& 0xF) = g.get x y) := by
  obtain ⟨wf3, _, view⟩ := regions_view hwf hs
  obtain ⟨wfu, hget⟩ := unpack_get wf3
  refine ⟨Grid.ext_of_WF wfu hwf (fun x hx y hy => ?_), fun x hx y hy => ?_,
    fun x hx y hy k hk hv => ?_⟩
  · rw [hget, if_pos ⟨hx, hy⟩]
    rcases view x hx y hy with ⟨h1, h2⟩ | ⟨k, hk, h1, h2, h3⟩
    · rw [if_pos h2, h1]
    · rw [if_neg h2, h3, Nat.mod_eq_of_lt (by omega), indexToMask_eq k hk, h1]
  · rcases view x hx y hy with ⟨h1, h2⟩ | ⟨k, hk, h1, h2, h3⟩
    · exact ⟨fun _ => h1, fun _ => h2⟩
    · refine ⟨fun h => absurd h h2, fun h => ?_⟩
      rw [h1] at h; exact absurd h (two_pow_ne_zero k)
  · rcases view x hx y hy with ⟨h1, h2⟩ | ⟨k', hk', h1, h2, h3⟩
    · rw [h1] at hv; exact absurd hv.symm (two_pow_ne_zero k)
    · rw [h3, indexToMask_eq k' hk', h1]

/-- The statement of C33 on the 4 by 4 layer `sampleTwoHalls` with its two regions. -/
theorem pack_unpack_round_trip_witness :
    (sampleTwoHalls.WF 4 4 ∧ Solved sampleTwoHalls 4 4) ∧
    (unpackRegions (findConnectedRegionsInPlace sampleTwoHalls 4 4) 4 4 = sampleTwoHalls ∧
    (∀ x, x < 4 → ∀ y, y < 4 →
      ((findConnectedRegionsInPlace sampleTwoHalls 4 4).get x y = 0xFFFF ↔
        sampleTwoHalls.get x y = 0)) ∧
    (∀ x, x < 4 → ∀ y, y < 4 → ∀ k, k < 16 → sampleTwoHalls.get x y = 2 ^ k →
      indexToMask ((findConnectedRegionsInPlace sampleTwoHalls 4 4).get x y &&& 0xF) =
        sampleTwoHalls.get x y)) :=
  ⟨⟨by decide, by decide⟩, pack_unpack_round_trip sampleTwoHalls 4 4 (by decide) (by decide)⟩

/-- The tile index that `openWallPacked` computes when the port is open already: the old
index, except that Special X (11) becomes Normal X (10). -/
theorem openWall_index_open : ∀ i, i < 16 → ∀ d, d ∈ dirs →
    getTileFlags (indexToMask i) &&& d ≠ 0 →
    maskToIndex (getTileFromFlags ((getTileFlags (indexToMask i) ||| d) % 256)) =
      if i = 11 then 10 else i := by decide

/-- Counterexample to claim C39 as stated: in the packed layer that region
identification makes of the 4 by 4 layer `sampleStair`, the stair cell `(1, 1)` is a
non-void Special X (tile index 11, region 2) with its west port open, and
`openWallPacked(1, 1, DIR_W)` changes its value from 43 to 42: the tile index becomes
10, Normal X. The welder carves the bridge between `(0, 1)` and `(1, 1)`, so that after
welding and unpacking the stair cell is a Normal X. -/
theorem openWallPacked_open_port_noop_counterexample :
    4 ≤ 4 ∧ sampleStair.WF 4 4 ∧ Solved sampleStair 4 4 ∧
    sampleStair.get 1 1 = Special_X_Corridor ∧
    findConnectedRegionsInPlace sampleStair 4 4 = samplePackedStair ∧
    samplePackedStair.get 1 1 = 43 ∧ samplePackedStair.get 1 1 ≠ 0xFFFF ∧
    indexToMask (samplePackedStair.get 1 1 &&& 0xF) = Special_X_Corridor ∧
    portOpen (samplePackedStair.get 1 1) DIR_W ∧
    (openWallPacked samplePackedStair 1 1 DIR_W).get 1 1 = 42 ∧
    (openWallPacked samplePackedStair 1 1 DIR_W).get 1 1 ≠ samplePackedStair.get 1 1 ∧
    indexToMask ((openWallPacked samplePackedStair 1 1 DIR_W).get 1 1 &&& 0xF) =
      Normal_X_Corridor ∧
    (germanWelderInPlace samplePackedStair 4 4 7).1.get 1 1 = 42 ∧
    (unpackRegions (germanWelderInPlace (findConnectedRegionsInPlace sampleStair 4 4)
      4 4 7).1 4 4).get 1 1 = Normal_X_Corridor := by
  have h0 : findConnectedRegionsInPlace sampleStair 4 4 = samplePackedStair := by
    set_option maxRecDepth 100000 in decide
  have h1 : (germanWelderInPlace samplePackedStair 4 4 7).1 =
      [[65535, 65535, 65535, 65535], [16, 42, 65535, 65535], [65535, 65535, 65535, 65535],
        [65535, 65535, 65535, 65535]] := by
    set_option maxRecDepth 100000 in decide
  refine ⟨le_refl _, by decide, by decide, by decide, h0, by decide, by decide, by decide,
    by decide, by decide, by decide, by decide, ?_, ?_⟩
  · rw [h1]; decide
  · rw [h0, h1]; decide

/-- **Claim C39, amended** (opening an open wall). On a packed layer of 16-bit cells,
for every non-void in-grid cell whose variant already has port `d` open,
`openWallPacked(x, y, d)` leaves the layer unchanged unless the cell is a Special X
(tile index 11): a Special X cell keeps its RegionID and its four open ports, but its
tile index becomes 10, Normal X, its value dropping by one, and every other cell is
unchanged. The flags of `getTileFlags` carry the four ports only, and
`getTileFromFlags` answers Normal X for all four. -/
theorem openWallPacked_open_port_noop (g : Grid) (W L x y d : Nat) (hwf : g.WF W L)
    (h16 : Cells16 g W L) (hx : x < W) (hy : y < L) (hd : d ∈ dirs)
    (hne : g.get x y ≠ 0xFFFF) (hopen : portOpen (g.get x y) d) :
    (g.get x y &&& 0xF ≠ 11 → openWallPacked g x y d = g) ∧
    (g.get x y &&& 0xF = 11 →
      (openWallPacked g x y d).get x y + 1 = g.get x y ∧
      (openWallPacked g x y d).get x y &&& 0xF = 10 ∧
      indexToMask ((openWallPacked g x y d).get x y &&& 0xF) = Normal_X_Corridor ∧
      (openWallPacked g x y d).get x y >>> 4 = g.get x y >>> 4 ∧
      packedFlags ((openWallPacked g x y d).get x y) = packedFlags (g.get x y) ∧
      ∀ x' y', ¬ (x' = x ∧ y' = y) → (openWallPacked g x y d).get x' y' = g.get x' y') := by
  have hp := h16 x hx y hy
  have hi : g.get x y &&& 0xF < 16 := by rw [and15_eq]; omega
  have hr : g.get x y >>> 4 < 4096 := by rw [shr4_eq]; omega
  have hidx := openWall_index_open (g.get x y &&& 0xF) hi d hd hopen
  have hself := openWallPacked_get_self hwf d hx hy hne
  rw [hidx] at hself
  refine ⟨fun h11 => ?_, fun h11 => ?_⟩
  · rw [if_neg h11, packCell_eq hr hi] at hself
    apply Grid.ext_of_WF (openWallPacked_WF hwf x y d) hwf
    intro x' _ y' _
    by_cases hc : x' = x ∧ y' = y
    · rw [hc.1, hc.2, hself, shr4_eq, and15_eq]; omega
    · exact openWallPacked_get_other hwf _ _ _ _ _ hc
  · rw [if_pos h11] at hself
    have h10 : (10 : Nat) < 16 := by decide
    refine ⟨?_, ?_, ?_, ?_, ?_, fun x' y' hc => openWallPacked_get_other hwf _ _ _ _ _ hc⟩
    · rw [hself, packCell_eq hr h10, shr4_eq]
      rw [and15_eq] at h11; omega
    · rw [hself, packCell_and hr h10]
    · rw [hself, packCell_and hr h10]; decide
    · rw [hself, packCell_shr hr h10]
    · unfold packedFlags
      rw [hself, packCell_and hr h10, h11]; decide

/-- The amended statement of C39 on the packed layer `samplePackedStair` at the dead end
`(0, 1)`, whose north port is open already. -/
theorem openWallPacked_open_port_noop_witness :
    (samplePackedStair.WF 4 4 ∧ Cells16 samplePackedStair 4 4 ∧ 0 < 4 ∧ 1 < 4 ∧ DIR_N ∈ dirs ∧
      samplePackedStair.get 0 1 ≠ 0xFFFF ∧ portOpen (samplePackedStair.get 0 1) DIR_N) ∧
    ((samplePackedStair.get 0 1 &&& 0xF ≠ 11 →
      openWallPacked samplePackedStair 0 1 DIR_N = samplePackedStair) ∧
    (samplePackedStair.get 0 1 &&& 0xF = 11 →
      (openWallPacked samplePackedStair 0 1 DIR_N).get 0 1 + 1 = samplePackedStair.get 0 1 ∧
      (openWallPacked samplePackedStair 0 1 DIR_N).get 0 1 &&& 0xF = 10 ∧
      indexToMask ((openWallPacked samplePackedStair 0 1 DIR_N).get 0 1 &&& 0xF) =
        Normal_X_Corridor ∧
      (openWallPacked samplePackedStair 0 1 DIR_N).get 0 1 >>> 4 =
        samplePackedStair.get 0 1 >>> 4 ∧
      packedFlags ((openWallPacked samplePackedStair 0 1 DIR_N).get 0 1) =
        packedFlags (samplePackedStair.get 0 1) ∧
      ∀ x' y', ¬ (x' = 0 ∧ y' = 1) →
        (openWallPacked samplePackedStair 0 1 DIR_N).get x' y' =
          samplePackedStair.get x' y')) :=
  ⟨⟨by decide, by decide, by decide, by decide, by decide, by decide, by decide⟩,
    openWallPacked_open_port_noop samplePackedStair 4 4 0 1 DIR_N (by decide) (by decide)
      (by decide) (by decide) (by decide) (by decide) (by decide)⟩

/-- A port of a bridge lies on one of its two cells. -/
theorem bridgePort_end {b : Bridge} {x y d : Nat} (h : BridgePort b x y d) :
    BridgeEnd b x y := by
  unfold BridgeEnd
  rcases h with ⟨hd, ⟨e1, e2, _⟩ | ⟨e1, e2, _⟩⟩ | ⟨hd, ⟨e1, e2, _⟩ | ⟨e1, e2, _⟩⟩
  · exact Or.inl ⟨e1, e2⟩
  · right
    rw [hd, if_pos rfl, if_neg (by decide)]
    exact ⟨e1, e2⟩
  · exact Or.inl ⟨e1, e2⟩
  · right
    rw [hd, if_neg (by decide), if_pos rfl]
    exact ⟨e1, e2⟩

/-- **Claim C40** (welding only adds ports). For every packed layer of 16-bit cells and
every rng state, after `germanWelderInPlace` every void cell is still `0xFFFF` and no
other cell is, every cell keeps its upper 12 bits (RegionID), every port that was open is
still open (the open ports afterwards are those open before together with the two ports
of every carved bridge), and every cell that is not one of the two cells of a carved
bridge keeps its exact value. -/
theorem germanWelder_only_adds_ports (g : Grid) (W L rng : Nat) (hwf : g.WF W L)
    (h16 : Cells16 g W L) :
    (∀ x y, (germanWelderInPlace g W L rng).1.get x y = 0xFFFF ↔ g.get x y = 0xFFFF) ∧
    (∀ x y, (germanWelderInPlace g W L rng).1.get x y >>> 4 = g.get x y >>> 4) ∧
    (∀ x y d, d ∈ dirs → portOpen (g.get x y) d →
      portOpen ((germanWelderInPlace g W L rng).1.get x y) d) ∧
    (∀ x y d, d ∈ dirs → (portOpen ((germanWelderInPlace g W L rng).1.get x y) d ↔
      portOpen (g.get x y) d ∨ ∃ b ∈ carvedBridges g W L rng, BridgePort b x y d)) ∧
    (∀ x y, (∀ b ∈ carvedBridges g W L rng, ¬ BridgeEnd b x y) →
      (germanWelderInPlace g W L rng).1.get x y = g.get x y) ∧
    (germanWelderInPlace g W L rng).1.WF W L ∧
    Cells16 (germanWelderInPlace g W L rng).1 W L := by
  have inv := germanWelderState_inv hwf (cells16_all hwf h16) rng
  refine ⟨inv.void_iff, inv.region, fun x y d hd hp => (inv.ports x y d hd).2 (Or.inl hp),
    inv.ports, fun x y hno => ?_, inv.wf, fun x _ y _ => inv.lt x y⟩
  exact inv.same x y (fun b hb d hbp => hno b hb (bridgePort_end hbp))

/-- The statement of C40 on the packed 4 by 4 layer `samplePackedHalls`, in which the
welder carves one bridge. -/
theorem germanWelder_only_adds_ports_witness :
    (samplePackedHalls.WF 4 4 ∧ Cells16 samplePackedHalls 4 4) ∧
    ((∀ x y, (germanWelderInPlace samplePackedHalls 4 4 7).1.get x y = 0xFFFF ↔
      samplePackedHalls.get x y = 0xFFFF) ∧
    (∀ x y, (germanWelderInPlace samplePackedHalls 4 4 7).1.get x y >>> 4 =
      samplePackedHalls.get x y >>> 4) ∧
    (∀ x y d, d ∈ dirs → portOpen (samplePackedHalls.get x y) d →
      portOpen ((germanWelderInPlace samplePackedHalls 4 4 7).1.get x y) d) ∧
    (∀ x y d, d ∈ dirs →
      (portOpen ((germanWelderInPlace samplePackedHalls 4 4 7).1.get x y) d ↔
        portOpen (samplePackedHalls.get x y) d ∨
          ∃ b ∈ carvedBridges samplePackedHalls 4 4 7, BridgePort b x y d)) ∧
    (∀ x y, (∀ b ∈ carvedBridges samplePackedHalls 4 4 7, ¬ BridgeEnd b x y) →
      (germanWelderInPlace samplePackedHalls 4 4 7).1.get x y = samplePackedHalls.get x y) ∧
    (germanWelderInPlace samplePackedHalls 4 4 7).1.WF 4 4 ∧
    Cells16 (germanWelderInPlace samplePackedHalls 4 4 7).1 4 4) :=
  ⟨⟨by decide, by decide⟩,
    germanWelder_only_adds_ports samplePackedHalls 4 4 7 (by decide) (by decide)⟩

/-- On `samplePackedHalls` the welder carves the bridge between `(1, 0)` and `(2, 0)`:
these two cells gain a port and the other cells keep their values. -/
theorem germanWelder_sample :
    carvedBridges samplePackedHalls 4 4 7 = [⟨1, 2, 1, 0, DIR_E⟩] ∧
    (germanWelderInPlace samplePackedHalls 4 4 7).1 =
      [[29, 21, 37, 47], [65535, 65535, 65535, 65535], [65535, 65535, 65535, 65535],
        [65535, 65535, 65535, 65535]] := by
  constructor
  · set_option maxRecDepth 100000 in decide
  · set_option maxRecDepth 100000 in decide

/-- With `current ≥ target > 0` the clamped progress of `update_spawnrates` is one. -/
theorem progress_full {F : Type} [LinearOrderedField F] {c t : Int} (ht : 0 < t) (hc : t ≤ c) :
    (if (if t > 0 then (c : F) / (t : F) else 0) > 1 then (1 : F)
      else (if t > 0 then (c : F) / (t : F) else 0)) = 1 := by
  rw [if_pos ht]
  have htF : (0 : F) < (t : F) := by exact_mod_cast ht
  have h1 : (1 : F) ≤ (c : F) / (t : F) := by
    rw [le_div_iff₀ htF, one_mul]; exact_mod_cast hc
  split
  · rfl
  · rename_i h
    exact le_antisymm (not_lt.1 h) h1

/-- The rates that `update_spawnrates` computes at full progress: the Gaussian weights
around the peak position 0, normalised. -/
theorem update_spawnrates_full {F : Type} [LinearOrderedField F] (exp : F → F)
    (hexp : ∀ x, 0 < exp x) (rates : Nat → F) {c t : Int} (ht : 0 < t) (hc : t ≤ c) :
    ∀ i, i < 5 → update_spawnrates exp rates c t i =
      exp (-((i : F) ^ 2) / 8) /
        (exp (-((0 : F) ^ 2) / 8) + exp (-((1 : F) ^ 2) / 8) + exp (-((2 : F) ^ 2) / 8) +
          exp (-((3 : F) ^ 2) / 8) + exp (-((4 : F) ^ 2) / 8)) := by
  intro i hi
  unfold update_spawnrates
  simp only []
  rw [progress_full ht hc]
  have hT : (List.range NUM_TILE_TYPES).foldl (fun (t : F) (i : Nat) =>
      t + if i = 2 ∨ i = 3 then
        (if i = 5 then (0 : F) else exp (-((TILE_POSITIONS.getD i 0 -
          TILE_POSITIONS.getD (NUM_TILE_TYPES - 1) 0 * 1) ^ 2) / (2 * GAUSS_WIDTH ^ 2))) +
          CONNECTOR_BOOST * (1 - 1)
        else (if i = 5 then (0 : F) else exp (-((TILE_POSITIONS.getD i 0 -
          TILE_POSITIONS.getD (NUM_TILE_TYPES - 1) 0 * 1) ^ 2) / (2 * GAUSS_WIDTH ^ 2)))) 0 =
      exp (-((0 : F) ^ 2) / 8) + exp (-((1 : F) ^ 2) / 8) + exp (-((2 : F) ^ 2) / 8) +
          exp (-((3 : F) ^ 2) / 8) + exp (-((4 : F) ^ 2) / 8) := by
    simp only [NUM_TILE_TYPES, TILE_POSITIONS, GAUSS_WIDTH, CONNECTOR_BOOST, List.range_succ,
      List.range_zero, List.nil_append, List.cons_append, List.foldl_cons, List.foldl_nil]
    norm_num
  rw [hT]
  have hpos : exp (-((0 : F) ^ 2) / 8) + exp (-((1 : F) ^ 2) / 8) + exp (-((2 : F) ^ 2) / 8) +
      exp (-((3 : F) ^ 2) / 8) + exp (-((4 : F) ^ 2) / 8) > 0 := by
    have h0 := hexp (-((0 : F) ^ 2) / 8)
    have h1 := hexp (-((1 : F) ^ 2) / 8)
    have h2 := hexp (-((2 : F) ^ 2) / 8)
    have h3 := hexp (-((3 : F) ^ 2) / 8)
    have h4 := hexp (-((4 : F) ^ 2) / 8)
    positivity
  rw [if_pos hpos]
  rw [if_pos (show i < NUM_TILE_TYPES by unfold NUM_TILE_TYPES; omega)]
  congr 1
  interval_cases i <;>
    simp only [NUM_TILE_TYPES, TILE_POSITIONS, GAUSS_WIDTH, CONNECTOR_BOOST] <;> norm_num


/-- Evaluation for claim C32: `update_spawnrates(rates, 10, 10)`, at progress 1, in exact
real arithmetic. The peak position is `TILE_POSITIONS[NUM_TILE_TYPES - 1] * progress`,
which is the slot of Special X, `0.0`, times the progress: the Gaussian is centred on
the X category whatever the progress. The call sets `rates[0]`, the X rate, to
`1 / (1 + e^(-1/8) + e^(-1/2) + e^(-9/8) + e^(-2))` and `rates[4]`, the dead-end rate,
to `e^(-2)` over the same sum: the dead-end rate is the smallest of the five, not 1,
and the X rate is the largest, not 0. -/
theorem update_spawnrates_full_progress_favours_x :
    ((0 : Int) < 10 ∧ (10 : Int) ≤ 10) ∧
    update_spawnrates Real.exp (fun _ => 1 / 6) 10 10 0 =
      1 / (1 + Real.exp (-1 / 8) + Real.exp (-1 / 2) + Real.exp (-9 / 8) + Real.exp (-2)) ∧
    update_spawnrates Real.exp (fun _ => 1 / 6) 10 10 4 =
      Real.exp (-2) /
        (1 + Real.exp (-1 / 8) + Real.exp (-1 / 2) + Real.exp (-9 / 8) + Real.exp (-2)) ∧
    update_spawnrates Real.exp (fun _ => 1 / 6) 10 10 0 ≠ 0 ∧
    update_spawnrates Real.exp (fun _ => 1 / 6) 10 10 4 ≠ 1 ∧
    (∀ i, i < 4 → update_spawnrates Real.exp (fun _ => 1 / 6) 10 10 4 <
      update_spawnrates Real.exp (fun _ => 1 / 6) 10 10 i) ∧
    (∀ i, 1 ≤ i → i < 5 → update_spawnrates Real.exp (fun _ => 1 / 6) 10 10 i <
      update_spawnrates Real.exp (fun _ => 1 / 6) 10 10 0) := by
  have key := update_spawnrates_full Real.exp Real.exp_pos (fun _ => (1 : ℝ) / 6)
    (c := 10) (t := 10) (by decide) (by decide)
  have e0 := Real.exp_pos (-((0 : ℝ) ^ 2) / 8)
  have e1 := Real.exp_pos (-((1 : ℝ) ^ 2) / 8)
  have e2 := Real.exp_pos (-((2 : ℝ) ^ 2) / 8)
  have e3 := Real.exp_pos (-((3 : ℝ) ^ 2) / 8)
  have e4 := Real.exp_pos (-((4 : ℝ) ^ 2) / 8)
  have hpos : 0 < Real.exp (-((0 : ℝ) ^ 2) / 8) + Real.exp (-((1 : ℝ) ^ 2) / 8) +
      Real.exp (-((2 : ℝ) ^ 2) / 8) + Real.exp (-((3 : ℝ) ^ 2) / 8) +
      Real.exp (-((4 : ℝ) ^ 2) / 8) := by positivity
  have hlt : ∀ i j : Nat, i < j → j < 5 →
      update_spawnrates Real.exp (fun _ => (1 : ℝ) / 6) 10 10 j <
        update_spawnrates Real.exp (fun _ => (1 : ℝ) / 6) 10 10 i := by
    intro i j hij hj
    rw [key i (by omega), key j hj]
    apply div_lt_div_of_pos_right _ hpos
    apply Real.exp_lt_exp.2
    have h1 : (i : ℝ) < (j : ℝ) := by exact_mod_cast hij
    have h2 : (0 : ℝ) ≤ (i : ℝ) := by positivity
    nlinarith
  refine ⟨⟨by decide, by decide⟩, ?_, ?_, ?_, ?_, fun i hi => hlt i 4 hi (by decide),
    fun i h1 hi => hlt 0 i (by omega) hi⟩
  · rw [key 0 (by decide)]
    norm_num
  · rw [key 4 (by decide)]
    norm_num
  · rw [key 0 (by decide)]
    exact ne_of_gt (div_pos (Real.exp_pos _) hpos)
  · rw [key 4 (by decide)]
    apply ne_of_lt
    rw [div_lt_one hpos]
    linarith

/-- The open mask of side `d` holds the variants whose port on the opposite side is
open, and the closed mask the other variants. -/
theorem mask_bits : ∀ d, d ∈ dirs → ∀ k, k < 16 →
    ((openMask d).testBit k = true ↔ hasPort (2 ^ k) (oppositeDir d)) ∧
    ((closedMask d).testBit k = true ↔ ¬ hasPort (2 ^ k) (oppositeDir d)) := by decide

/-- Each variant left by an intersection with the propagation mask of a collapsed or
void cell has its port toward that cell open exactly when the cell has its port toward
the neighbour open. -/
theorem propagationMask_bits {c d : Nat} (hd : d ∈ dirs) (n k : Nat) (hk : k < 16)
    (hb : (n &&& propagationMask c d).testBit k = true) :
    (IsVariant c → (hasPort (2 ^ k) (oppositeDir d) ↔ hasPort c d)) ∧
    (c = 0 → ¬ hasPort (2 ^ k) (oppositeDir d)) := by
  rw [Nat.testBit_and, Bool.and_eq_true] at hb
  obtain ⟨mo, mc⟩ := mask_bits d hd k hk
  unfold propagationMask at hb
  constructor
  · intro hv
    have h0 : c ≠ 0 := by
      obtain ⟨j, _, rfl⟩ := hv; exact two_pow_ne_zero j
    rw [if_neg h0, if_pos hv] at hb
    by_cases hp : hasPort c d
    · rw [if_pos hp] at hb
      exact ⟨fun _ => hp, fun _ => mo.1 hb.2⟩
    · rw [if_neg hp] at hb
      exact ⟨fun h => absurd h (mc.1 hb.2), fun h => absurd h hp⟩
  · intro h0
    rw [if_pos h0] at hb
    exact mc.1 hb.2

/-- **Claim C34** (propagation is port-correct). Let `(nx, ny)` be the in-grid neighbour
of the in-grid cell `(x, y)` on side `d`, in superposition (popcount above 1) and with a
non-empty intersection with the mask that `updateNeighbours(x, y)` applies on that side.
Then `updateNeighbours` leaves that intersection in the neighbour, and if `(x, y)` is a
single variant `v`, every variant remaining in the neighbour has its port facing
`(x, y)` open if and only if `v` has its `d` port open (ports per `getTileFlags`); if
`(x, y)` is void, every remaining variant has its port facing `(x, y)` closed. -/
theorem updateNeighbours_port_correct {H : Type}
    (ins : H → Grid → Nat → Nat → Nat → H × Nat) (g : Grid) (W L x y : Nat) (heap : Option H)
    (rng : Nat) (d nx ny : Nat) (hwf : g.WF W L) (hx : x < W) (hy : y < L)
    (hn : NeighbourOn W L x y d nx ny) (hsup : popcount (g.get nx ny) > 1)
    (hne : g.get nx ny &&& maskFor (g.get x y) d ≠ 0) :
    (updateNeighbours ins g W L x y heap rng).1.get nx ny =
      g.get nx ny &&& maskFor (g.get x y) d ∧
    (IsVariant (g.get x y) → ∀ k, k < 16 →
      ((updateNeighbours ins g W L x y heap rng).1.get nx ny).testBit k = true →
      (hasPort (2 ^ k) (oppositeDir d) ↔ hasPort (g.get x y) d)) ∧
    (g.get x y = 0 → ∀ k, k < 16 →
      ((updateNeighbours ins g W L x y heap rng).1.get nx ny).testBit k = true →
      ¬ hasPort (2 ^ k) (oppositeDir d)) := by
  obtain ⟨_, hget⟩ := updateNeighbours_get ins g W L x y heap rng hwf hx hy
  have hd : d ∈ dirs := by
    rcases hn with ⟨e, _⟩ | ⟨e, _⟩ | ⟨e, _⟩ | ⟨e, _⟩ <;> rw [e] <;> decide
  have hmask : maskFor (g.get x y) d = propagationMask (g.get x y) d := by
    unfold maskFor
    rw [neighbourMasks_eq]
    rcases hn with ⟨e, _⟩ | ⟨e, _⟩ | ⟨e, _⟩ | ⟨e, _⟩ <;> rw [e] <;> rfl
  rw [hmask] at hne ⊢
  have hval : (updateNeighbours ins g W L x y heap rng).1.get nx ny =
      g.get nx ny &&& propagationMask (g.get x y) d := by
    rw [hget]
    have hrev : revive (g.get nx ny &&& propagationMask (g.get x y) d) =
        g.get nx ny &&& propagationMask (g.get x y) d := by
      unfold revive; rw [if_neg hne]
    rcases hn with ⟨e, e1, e2⟩ | ⟨e, e1, e2, e3⟩ | ⟨e, e1, e2, e3⟩ | ⟨e, e1, e2⟩
    · rw [if_neg (fun h => by omega), if_neg (fun h => by omega),
        if_pos ⟨⟨e1, e2⟩, hsup⟩, ← e, hrev]
    · rw [if_neg (fun h => by omega), if_pos ⟨⟨e1, e2⟩, by omega, hsup⟩, ← e, hrev]
    · rw [if_neg (fun h => by omega), if_neg (fun h => by omega), if_neg (fun h => by omega),
        if_pos ⟨⟨e1, e2⟩, by omega, hsup⟩, ← e, hrev]
    · rw [if_pos ⟨⟨e1, e2⟩, hsup⟩, ← e, hrev]
  refine ⟨hval, fun hv k hk hb => ?_, fun h0 k hk hb => ?_⟩
  · rw [hval] at hb
    exact (propagationMask_bits hd _ k hk hb).1 hv
  · rw [hval] at hb
    exact (propagationMask_bits hd _ k hk hb).2 h0

/-- The statement of C34 on the 4 by 4 layer `samplePropagationCross`: the corner corridor at
`(1, 1)` opens north and east, and its west neighbour `(0, 1)`, in full superposition,
is left with the variants whose east port is closed. -/
theorem updateNeighbours_port_correct_witness :
    (samplePropagationCross.WF 4 4 ∧ 1 < 4 ∧ 1 < 4 ∧ NeighbourOn 4 4 1 1 DIR_W 0 1 ∧
      popcount (samplePropagationCross.get 0 1) > 1 ∧
      samplePropagationCross.get 0 1 &&& maskFor (samplePropagationCross.get 1 1) DIR_W ≠ 0) ∧
    ((updateNeighbours (fun (h : Unit) _ _ _ r => (h, r)) samplePropagationCross 4 4 1 1 none 7).1.get
        0 1 = samplePropagationCross.get 0 1 &&& maskFor (samplePropagationCross.get 1 1) DIR_W ∧
    (IsVariant (samplePropagationCross.get 1 1) → ∀ k, k < 16 →
      ((updateNeighbours (fun (h : Unit) _ _ _ r => (h, r)) samplePropagationCross 4 4 1 1 none
        7).1.get 0 1).testBit k = true →
      (hasPort (2 ^ k) (oppositeDir DIR_W) ↔ hasPort (samplePropagationCross.get 1 1) DIR_W)) ∧
    (samplePropagationCross.get 1 1 = 0 → ∀ k, k < 16 →
      ((updateNeighbours (fun (h : Unit) _ _ _ r => (h, r)) samplePropagationCross 4 4 1 1 none
        7).1.get 0 1).testBit k = true →
      ¬ hasPort (2 ^ k) (oppositeDir DIR_W))) :=
  ⟨⟨by decide, by decide, by decide, by decide, by decide, by decide⟩,
    updateNeighbours_port_correct (fun (h : Unit) _ _ _ r => (h, r)) samplePropagationCross 4 4 1 1
      none 7 DIR_W 0 1 (by decide) (by decide) (by decide) (by decide) (by decide) (by decide)⟩

/-- The unpack loop shows the ports of a packed cell and turns exactly the void sentinel
into the void tile. -/
theorem unpack_port {g : Grid} {W L : Nat} (hwf : g.WF W L) {x y : Nat} (hx : x < W)
    (hy : y < L) :
    ((unpackRegions g W L).get x y ≠ 0 ↔ g.get x y ≠ 0xFFFF) ∧
    ∀ d, (hasPort ((unpackRegions g W L).get x y) d ↔
      g.get x y ≠ 0xFFFF ∧ portOpen (g.get x y) d) := by
  obtain ⟨_, hget⟩ := unpack_get hwf
  rw [hget, if_pos ⟨hx, hy⟩]
  have hi : g.get x y &&& 0xF < 16 := by rw [and15_eq]; omega
  have hmod : (g.get x y &&& 0xF) % 256 = g.get x y &&& 0xF := Nat.mod_eq_of_lt (by omega)
  by_cases hv : g.get x y = 0xFFFF
  · rw [if_pos hv]
    exact ⟨⟨fun h => absurd rfl h, fun h => absurd hv h⟩,
      fun d => ⟨fun h => absurd h (hasPort_zero d), fun h => absurd hv h.1⟩⟩
  · rw [if_neg hv, hmod]
    refine ⟨⟨fun _ => hv, fun _ => (indexToMask_lt _ hi).1⟩, fun d => ?_⟩
    unfold hasPort portOpen packedFlags
    exact ⟨fun h => ⟨hv, h⟩, fun h => h.2⟩

/-- A packed layer whose unpacked view is port-matched is port-matched. -/
theorem portMatchedPacked_of_unpack {g : Grid} {W L : Nat} (hwf : g.WF W L)
    (h : PortMatched (unpackRegions g W L) W L) : PortMatchedPacked g W L := by
  intro x hx y hy hne
  obtain ⟨u0, up⟩ := unpack_port hwf hx hy
  obtain ⟨mN, mE, mS, mW⟩ := h x hx y hy (u0.2 hne)
  refine ⟨fun hp => ?_, fun hp => ?_, fun hp => ?_, fun hp => ?_⟩
  · obtain ⟨a1, a2, a3⟩ := mN ((up _).2 ⟨hne, hp⟩)
    obtain ⟨v0, vp⟩ := unpack_port hwf hx (show y - 1 < L by omega)
    exact ⟨a1, v0.1 a2, ((vp _).1 a3).2⟩
  · obtain ⟨a1, a2, a3⟩ := mE ((up _).2 ⟨hne, hp⟩)
    obtain ⟨v0, vp⟩ := unpack_port hwf a1 hy
    exact ⟨a1, v0.1 a2, ((vp _).1 a3).2⟩
  · obtain ⟨a1, a2, a3⟩ := mS ((up _).2 ⟨hne, hp⟩)
    obtain ⟨v0, vp⟩ := unpack_port hwf hx a1
    exact ⟨a1, v0.1 a2, ((vp _).1 a3).2⟩
  · obtain ⟨a1, a2, a3⟩ := mW ((up _).2 ⟨hne, hp⟩)
    obtain ⟨v0, vp⟩ := unpack_port hwf (show x - 1 < W by omega) hy
    exact ⟨a1, v0.1 a2, ((vp _).1 a3).2⟩

/-- **Claim C35** (welding keeps port matching and yields one component). For every
layer of void and single-variant cells that satisfies port matching (every open port
faces an in-grid non-void neighbour whose opposite port is open), whose non-void cells
form one 4-connected set and which has fewer than 4095 connected components, after
`findConnectedRegionsInPlace` and `germanWelderInPlace` (any rng state) the packed layer
still satisfies port matching and its non-void cells form exactly one component under
mutually-open-port adjacency; the same holds for the layer that the unpack loop makes of
it. -/
theorem regions_then_weld_port_matched_one_component (g : Grid) (W L rng : Nat)
    (hwf : g.WF W L) (hs : Solved g W L) (hpm : PortMatched g W L)
    (h4 : FourConnected g W L) (hc : ComponentsFewerThan g W L 4095) :
    PortMatchedPacked (germanWelderInPlace (findConnectedRegionsInPlace g W L) W L rng).1 W L ∧
    OneComponent (germanWelderInPlace (findConnectedRegionsInPlace g W L) W L rng).1 W L ∧
    PortMatched (unpackRegions
      (germanWelderInPlace (findConnectedRegionsInPlace g W L) W L rng).1 W L) W L ∧
    floodFillsCalled g W L < 4095 := by
  have hm := portMatched_mutual hpm
  have hr : floodFillsCalled g W L < 4095 := (regions_components hwf hs hm (Or.inl hc)).1
  obtain ⟨wf3, lt3, _⟩ := regions_view hwf hs
  have wf4 : (germanWelderInPlace (findConnectedRegionsInPlace g W L) W L rng).1.WF W L :=
    (germanWelderState_inv wf3 lt3 rng).wf
  have hu := weld_unpack_portMatched hwf hs hpm rng
  exact ⟨portMatchedPacked_of_unpack wf4 hu, regions_weld_joined rng hwf hs hm h4 hr, hu, hr⟩

/-- The statement of C35 on the 4 by 4 layer `sampleTwoHalls`, whose two regions the
welder joins. -/
theorem regions_then_weld_port_matched_one_component_witness :
    (sampleTwoHalls.WF 4 4 ∧ Solved sampleTwoHalls 4 4 ∧ PortMatched sampleTwoHalls 4 4 ∧
      FourConnected sampleTwoHalls 4 4 ∧ ComponentsFewerThan sampleTwoHalls 4 4 4095) ∧
    (PortMatchedPacked
      (germanWelderInPlace (findConnectedRegionsInPlace sampleTwoHalls 4 4) 4 4 7).1 4 4 ∧
    OneComponent
      (germanWelderInPlace (findConnectedRegionsInPlace sampleTwoHalls 4 4) 4 4 7).1 4 4 ∧
    PortMatched (unpackRegions
      (germanWelderInPlace (findConnectedRegionsInPlace sampleTwoHalls 4 4) 4 4 7).1 4 4) 4 4 ∧
    floodFillsCalled sampleTwoHalls 4 4 < 4095) :=
  have hc : ComponentsFewerThan sampleTwoHalls 4 4 4095 :=
    ⟨rowMajor 4 4, by decide, fun x hx y hy _ =>
      ⟨(x, y), mem_rowMajor.2 ⟨hx, hy⟩, Relation.ReflTransGen.refl⟩⟩
  ⟨⟨by decide, by decide, by decide, sampleTwoHalls_fourConnected, hc⟩,
    regions_then_weld_port_matched_one_component sampleTwoHalls 4 4 7 (by decide) (by decide)
      (by decide) sampleTwoHalls_fourConnected hc⟩

/-- A layer that grows only by cells 4-adjacent to old non-void cells stays in one
piece. -/
theorem fourConnected_grow {g g' : Grid} {W L : Nat}
    (hkeep : ∀ x y, g.get x y ≠ 0 → g'.get x y ≠ 0)
    (hnew : ∀ p : Nat × Nat, p.1 < W → p.2 < L → g'.get p.1 p.2 ≠ 0 → g.get p.1 p.2 = 0 →
      ∃ q : Nat × Nat, Adjacent W L p q ∧ g.get q.1 q.2 ≠ 0)
    (h4 : FourConnected g W L) : FourConnected g' W L := by
  obtain ⟨⟨ex, hex, ey, hey, hne⟩, hall⟩ := h4
  have mono : ∀ p q, Conn4 g W L p q → Conn4 g' W L p q := by
    intro p q h
    exact Relation.ReflTransGen.mono (fun a b hab => ⟨hab.1, hkeep _ _ hab.2⟩) h
  have anchor : ∀ p : Nat × Nat, p.1 < W → p.2 < L → g'.get p.1 p.2 ≠ 0 →
      ∃ a : Nat × Nat, a.1 < W ∧ a.2 < L ∧ g.get a.1 a.2 ≠ 0 ∧ Conn4 g' W L p a ∧
        Conn4 g' W L a p := by
    intro p hpx hpy hp
    by_cases hold : g.get p.1 p.2 = 0
    · obtain ⟨q, hadj, hq⟩ := hnew p hpx hpy hp hold
      exact ⟨q, hadj.2.2.1, hadj.2.2.2.1, hq,
        Relation.ReflTransGen.single ⟨hadj, hkeep _ _ hq⟩,
        Relation.ReflTransGen.single ⟨adjacent_symm hadj, hp⟩⟩
    · exact ⟨p, hpx, hpy, hold, Relation.ReflTransGen.refl, Relation.ReflTransGen.refl⟩
  refine ⟨⟨ex, hex, ey, hey, hkeep _ _ hne⟩, fun p q hpx hpy hp hqx hqy hq => ?_⟩
  obtain ⟨a, ha1, ha2, ha3, hpa, _⟩ := anchor p hpx hpy hp
  obtain ⟨b, hb1, hb2, hb3, _, hbq⟩ := anchor q hqx hqy hq
  exact conn4_trans hpa (conn4_trans (mono a b (hall a b ha1 ha2 ha3 hb1 hb2 hb3)) hbq)

/-- One dilation keeps well-formed layers well-formed, removes no cell of layer 0, adds
only cells 4-adjacent to a non-void cell, and keeps layer 0 in one piece. -/
theorem dilateMask_grow {layers : List Grid} {W L H : Nat} (hwf : LayersWF layers W L H)
    (hH : 1 ≤ H) {maxToAdd : Int} (hm : 0 ≤ maxToAdd) :
    LayersWF (dilateMask layers W L H maxToAdd).1 W L H ∧
    (∀ x y, (layers.getD 0 []).get x y ≠ 0 →
      ((dilateMask layers W L H maxToAdd).1.getD 0 []).get x y ≠ 0) ∧
    (∀ p : Nat × Nat, p.1 < W → p.2 < L →
      ((dilateMask layers W L H maxToAdd).1.getD 0 []).get p.1 p.2 ≠ 0 →
      (layers.getD 0 []).get p.1 p.2 = 0 →
      ∃ q : Nat × Nat, Adjacent W L p q ∧ (layers.getD 0 []).get q.1 q.2 ≠ 0) ∧
    (FourConnected (layers.getD 0 []) W L →
      FourConnected ((dilateMask layers W L H maxToAdd).1.getD 0 []) W L) := by
  have key := dilateMask_inv layers W L H maxToAdd.toNat hwf
  rw [Int.toNat_of_nonneg hm] at key
  obtain ⟨k1, _, _, k4⟩ := key
  have hcells : ∀ x y, ((dilateMask layers W L H maxToAdd).1.getD 0 []).get x y =
      if (x, y) ∈ (growthSpots (layers.getD 0 []) W L).take maxToAdd.toNat
      then All_Possible_State else (layers.getD 0 []).get x y := k4 0 (by omega)
  have hkeep : ∀ x y, (layers.getD 0 []).get x y ≠ 0 →
      ((dilateMask layers W L H maxToAdd).1.getD 0 []).get x y ≠ 0 := by
    intro x y h
    rw [hcells]
    split
    · decide
    · exact h
  have hnew : ∀ p : Nat × Nat, p.1 < W → p.2 < L →
      ((dilateMask layers W L H maxToAdd).1.getD 0 []).get p.1 p.2 ≠ 0 →
      (layers.getD 0 []).get p.1 p.2 = 0 →
      ∃ q : Nat × Nat, Adjacent W L p q ∧ (layers.getD 0 []).get q.1 q.2 ≠ 0 := by
    intro p _ _ hp hold
    rw [hcells] at hp
    by_cases hin : (p.1, p.2) ∈ (growthSpots (layers.getD 0 []) W L).take maxToAdd.toNat
    · exact ((mem_growthSpots _ W L p).1 (List.mem_of_mem_take hin)).2.2.2
    · rw [if_neg hin] at hp
      exact absurd hold hp
  exact ⟨k1, hkeep, hnew, fourConnected_grow hkeep hnew⟩

/-- The rescue loop keeps well-formed layers well-formed and layer 0 in one piece. -/
theorem rescueLoop_fourConnected {W L H : Nat} (hH : 1 ≤ H) (targetCount : Nat) :
    ∀ (left : Nat) (layers : List Grid) (currentFilled : Nat), LayersWF layers W L H →
      FourConnected (layers.getD 0 []) W L →
      LayersWF (rescueLoop W L H targetCount left layers currentFilled).1 W L H ∧
      FourConnected ((rescueLoop W L H targetCount left layers currentFilled).1.getD 0 []) W L := by
  intro left
  induction left with
  | zero => intro layers cf hwf h4; exact ⟨hwf, h4⟩
  | succ n ih =>
    intro layers cf hwf h4
    unfold rescueLoop
    split
    · rename_i hlt
      have hm : (0 : Int) ≤ (targetCount : Int) - (cf : Int) := by omega
      obtain ⟨d1, _, _, d4⟩ := dilateMask_grow hwf hH hm
      simp only []
      split
      · exact ⟨d1, d4 h4⟩
      · exact ih _ _ d1 (d4 h4)
    · exact ⟨hwf, h4⟩

/-- **Claim C36** (dilation keeps the mask in one piece). On `H` well-formed layers of a
`W` by `L` grid whose cell count fits `int`, if the non-void cells of layer 0 form a
single non-empty 4-connected set, they still do after `dilateMask` for every
`maxToAdd ≥ 0`: no cell of layer 0 is removed and each added cell is 4-adjacent to a cell
that was non-void already. Hence layer 0 is still in one piece after the safety pass and
the rescue loop of `generateRidgedMask`, whatever the counts `currentFilled` and
`targetCount`. -/
theorem dilateMask_keeps_one_piece (layers : List Grid) (W L H : Nat) (maxToAdd : Int)
    (hwf : LayersWF layers W L H) (_hsz : W * L < 2147483648) (hm : 0 ≤ maxToAdd)
    (h4 : FourConnected (layers.getD 0 []) W L) :
    FourConnected ((dilateMask layers W L H maxToAdd).1.getD 0 []) W L ∧
    (∀ x y, (layers.getD 0 []).get x y ≠ 0 →
      ((dilateMask layers W L H maxToAdd).1.getD 0 []).get x y ≠ 0) ∧
    (∀ p : Nat × Nat, p.1 < W → p.2 < L →
      ((dilateMask layers W L H maxToAdd).1.getD 0 []).get p.1 p.2 ≠ 0 →
      (layers.getD 0 []).get p.1 p.2 = 0 →
      ∃ q : Nat × Nat, Adjacent W L p q ∧ (layers.getD 0 []).get q.1 q.2 ≠ 0) ∧
    (∀ currentFilled targetCount,
      FourConnected
        ((dilateStages layers W L H currentFilled targetCount).1.getD 0 []) W L) := by
  have hH : 1 ≤ H := by
    obtain ⟨⟨x, _, y, _, hne⟩, _⟩ := h4
    by_contra h0
    have hl : layers = [] := List.length_eq_zero.1 (by rw [hwf.1]; omega)
    rw [hl] at hne
    exact hne rfl
  obtain ⟨_, d2, d3, d4⟩ := dilateMask_grow hwf hH hm
  refine ⟨d4 h4, d2, d3, fun cf tc => ?_⟩
  have hm2 : (0 : Int) ≤ 1000000 := by decide
  obtain ⟨s1, _, _, s4⟩ := dilateMask_grow hwf hH hm2
  unfold dilateStages
  exact (rescueLoop_fourConnected hH tc 1000 _ _ s1 (s4 h4)).2

/-- Layer 0 of `sampleMaskLayers` is in one piece. -/
theorem sampleMaskLayers_fourConnected : FourConnected (sampleMaskLayers.getD 0 []) 4 4 := by
  apply fourConnected_of_hub (1, 1) (by decide) (by decide) (by decide)
  intro x hx y hy hne
  have hxy : y = 1 ∧ (x = 1 ∨ x = 2) := by
    revert hne
    revert y
    revert x
    decide
  obtain ⟨rfl, rfl | rfl⟩ := hxy
  · exact Relation.ReflTransGen.refl
  · exact Relation.ReflTransGen.single ⟨by decide, by decide⟩

/-- The statement of C36 on the two layers `sampleMaskLayers` of a 4 by 4 grid with the
limit 3. -/
theorem dilateMask_keeps_one_piece_witness :
    (LayersWF sampleMaskLayers 4 4 2 ∧ 4 * 4 < 2147483648 ∧ (0 : Int) ≤ 3 ∧
      FourConnected (sampleMaskLayers.getD 0 []) 4 4) ∧
    (FourConnected ((dilateMask sampleMaskLayers 4 4 2 3).1.getD 0 []) 4 4 ∧
    (∀ x y, (sampleMaskLayers.getD 0 []).get x y ≠ 0 →
      ((dilateMask sampleMaskLayers 4 4 2 3).1.getD 0 []).get x y ≠ 0) ∧
    (∀ p : Nat × Nat, p.1 < 4 → p.2 < 4 →
      ((dilateMask sampleMaskLayers 4 4 2 3).1.getD 0 []).get p.1 p.2 ≠ 0 →
      (sampleMaskLayers.getD 0 []).get p.1 p.2 = 0 →
      ∃ q : Nat × Nat, Adjacent 4 4 p q ∧ (sampleMaskLayers.getD 0 []).get q.1 q.2 ≠ 0) ∧
    (∀ currentFilled targetCount,
      FourConnected
        ((dilateStages sampleMaskLayers 4 4 2 currentFilled targetCount).1.getD 0 []) 4 4)) :=
  ⟨⟨by decide, by decide, by decide, sampleMaskLayers_fourConnected⟩,
    dilateMask_keeps_one_piece sampleMaskLayers 4 4 2 3 (by decide) (by decide) (by decide)
      sampleMaskLayers_fourConnected⟩

/-- On `sampleMaskLayers` with two cells filled and the target 16, the safety pass adds
the six growth spots and the rescue loop fills the rest of layer 0 in two more passes;
layer 1 receives the added cells only. -/
theorem dilateStages_sample :
    dilateStages sampleMaskLayers 4 4 2 2 16 =
      ([[[65535, 65535, 65535, 65535], [65535, 65535, 65535, 65535],
          [65535, 65535, 65535, 65535], [65535, 65535, 65535, 65535]],
        [[65535, 65535, 65535, 65535], [65535, 0, 0, 65535],
          [65535, 65535, 65535, 65535], [65535, 65535, 65535, 65535]]], 16) := by
  set_option maxRecDepth 100000 in decide

/-- The island sanitization leaves layer 0 in one piece. -/
theorem sanitizeIslands_fourConnected {layers : List Grid} {W L H : Nat} (hH : 1 ≤ H)
    (hwf : LayersWF layers W L H)
    (hex : ∃ x y, x < W ∧ y < L ∧ (layers.getD 0 []).get x y ≠ 0) :
    LayersWF (sanitizeIslands layers W L H) W L H ∧
    FourConnected ((sanitizeIslands layers W L H).getD 0 []) W L := by
  have inv := sanitizeScan_inv (layers.getD 0 []) W L
  obtain ⟨ex, ey, hex1, hex2, hex3⟩ := hex
  have hsome : ∃ b, (sanitizeScan (layers.getD 0 []) W L).best = some b := by
    cases hb : (sanitizeScan (layers.getD 0 []) W L).best with
    | none => exact absurd (inv.none_void hb (ex, ey) (mem_rowMajor.2 ⟨hex1, hex2⟩)) hex3
    | some b => exact ⟨b, rfl⟩
  obtain ⟨⟨bx, bY⟩, hb⟩ := hsome
  obtain ⟨b1, b2, _, _⟩ := inv.best _ hb
  obtain ⟨hbx, hbY⟩ := mem_rowMajor.1 b1
  simp only [] at hbx hbY b2
  obtain ⟨k1, k2⟩ := keepOnlyLargestMask_spec hH hwf bx bY hbx hbY b2
  have hres : sanitizeIslands layers W L H = keepOnlyLargestMask layers W L H bx bY := by
    unfold sanitizeIslands
    rw [hb]
  rw [hres]
  have hsame : ∀ c : Nat × Nat, Conn4 (layers.getD 0 []) W L (bx, bY) c →
      ((keepOnlyLargestMask layers W L H bx bY).getD 0 []).get c.1 c.2 =
        (layers.getD 0 []).get c.1 c.2 :=
    fun c hc => (k2 0 (by omega) c.1 c.2).2 (fun h' => h'.2.2.2 hc)
  have hpath : ∀ c : Nat × Nat, Conn4 (layers.getD 0 []) W L (bx, bY) c →
      Conn4 ((keepOnlyLargestMask layers W L H bx bY).getD 0 []) W L (bx, bY) c := by
    intro c hc
    unfold Conn4 at hc ⊢
    induction hc with
    | refl => exact Relation.ReflTransGen.refl
    | tail hpre hstep ih =>
      refine Relation.ReflTransGen.tail ih ⟨hstep.1, ?_⟩
      rw [hsame _ (Relation.ReflTransGen.tail hpre hstep)]
      exact hstep.2
  refine ⟨k1, ?_⟩
  apply fourConnected_of_hub (bx, bY) hbx hbY
  · rw [hsame _ Relation.ReflTransGen.refl]; exact b2
  · intro x hx y hy hne
    apply hpath
    by_contra hnc
    by_cases hf : (layers.getD 0 []).get x y = 0
    · rw [(k2 0 (by omega) x y).2 (fun h' => h'.2.2.1 hf)] at hne
      exact hne hf
    · exact hne ((k2 0 (by omega) x y).1 hx hy hf hnc)

/-- The mask of `generateRidgedMask` after the island sanitization, the safety pass and
the rescue loop: layer 0 is in one piece whenever it held a non-void cell before the
sanitization. -/
theorem sanitized_mask_stays_one_piece {layers : List Grid} {W L H : Nat} (hH : 1 ≤ H)
    (hwf : LayersWF layers W L H)
    (hex : ∃ x y, x < W ∧ y < L ∧ (layers.getD 0 []).get x y ≠ 0)
    (currentFilled targetCount : Nat) :
    FourConnected ((dilateStages (sanitizeIslands layers W L H) W L H currentFilled
      targetCount).1.getD 0 []) W L := by
  obtain ⟨s1, s2⟩ := sanitizeIslands_fourConnected hH hwf hex
  have hm2 : (0 : Int) ≤ 1000000 := by decide
  obtain ⟨d1, _, _, d4⟩ := dilateMask_grow s1 hH hm2
  unfold dilateStages
  exact (rescueLoop_fourConnected hH targetCount 1000 _ _ d1 (d4 s2)).2

/-- Only the low 12 bits of the RegionID reach the packed value. -/
theorem packCell_mod (r i : Nat) : packCell r i = packCell (r % 4096) i := by
  unfold packCell
  apply Nat.eq_of_testBit_eq
  intro j
  rw [show (65536 : Nat) = 2 ^ 16 from rfl, Nat.testBit_mod_two_pow, Nat.testBit_mod_two_pow,
    Nat.testBit_or, Nat.testBit_or, Nat.testBit_shiftLeft, Nat.testBit_shiftLeft]
  by_cases hj : j < 16
  · by_cases h4 : 4 ≤ j
    · rw [show (4096 : Nat) = 2 ^ 12 from rfl, Nat.testBit_mod_two_pow]
      simp [hj, h4, show j - 4 < 12 by omega]
    · simp [hj, h4]
  · simp [hj]

theorem floodVisit_mod (r : Nat) (st : Grid × List (Nat × Nat)) (cond : Prop) [Decidable cond]
    (nx ny : Nat) : floodVisit r st cond nx ny = floodVisit (r % 4096) st cond nx ny := by
  unfold floodVisit
  rw [packCell_mod]

theorem floodStep_mod (W L r : Nat) (g : Grid) (queue : List (Nat × Nat)) (cx cy : Nat) :
    floodStep W L r g queue cx cy = floodStep W L (r % 4096) g queue cx cy := by
  unfold floodStep
  simp only [floodVisit_mod r]

theorem floodLoop_mod (W L r : Nat) : ∀ (fuel : Nat) (g : Grid) (queue : List (Nat × Nat))
    (head : Nat), floodLoop W L r fuel g queue head = floodLoop W L (r % 4096) fuel g queue head := by
  intro fuel
  induction fuel with
  | zero => intro g queue head; rfl
  | succ n ih =>
    intro g queue head
    unfold floodLoop
    simp only [floodStep_mod W L r, ih]

/-- The flood of `regionMarkerIterative` depends on the low 12 bits of the RegionID
only. -/
theorem regionMarkerState_mod (g : Grid) (W L r sx sy : Nat) :
    regionMarkerState g W L r sx sy = regionMarkerState g W L (r % 4096) sx sy := by
  unfold regionMarkerState
  simp only []
  rw [floodLoop_mod, packCell_mod]

/-- A packed layer of 16-bit cells shows the layer that the unpack loop makes of it. -/
theorem tileView_unpack {gs : Grid} {W L : Nat} (hwf : gs.WF W L) (h16 : Cells16 gs W L) :
    TileView (unpackRegions gs W L) gs W L := by
  obtain ⟨_, hget⟩ := unpack_get hwf
  intro x hx y hy
  rw [hget, if_pos ⟨hx, hy⟩]
  have hi : gs.get x y &&& 0xF < 16 := by rw [and15_eq]; omega
  by_cases hv : gs.get x y = 0xFFFF
  · rw [if_pos hv]; exact Or.inl ⟨rfl, hv⟩
  · rw [if_neg hv, Nat.mod_eq_of_lt (show gs.get x y &&& 0xF < 256 by omega)]
    exact Or.inr ⟨_, hi, indexToMask_eq _ hi, hv, h16 x hx y hy, rfl⟩

/-- Counterexample to claim C38 as stated: the RegionID 4096 is at least 1 and fits the
`uint16_t` parameter, but `(4096 << 4) | idx` stored into a 16-bit cell is `idx` again, so
a stamped cell still looks unassigned. On the packed 4 by 4 layer `samplePackedPair` the
flood from `(0, 0)` enqueues `(1, 0)`, which enqueues `(0, 0)` again, and so on: after the
`W * L = 16` dequeues that fit the allocated queue, 17 cells have been enqueued, the
cell `(0, 0)` nine times, the write index has left the queue and the loop has not come to
an end. -/
theorem regionMarkerIterative_enqueues_once_counterexample :
    4 ≤ 4 ∧ samplePackedPair.WF 4 4 ∧ Cells16 samplePackedPair 4 4 ∧ 1 ≤ 4096 ∧ 4096 < 65536 ∧
    samplePackedPair.get 0 0 ≤ 15 ∧ samplePackedPair.get 0 0 ≠ 0xFFFF ∧
    (regionMarkerState samplePackedPair 4 4 4096 0 0).2.1.length = 17 ∧
    4 * 4 < (regionMarkerState samplePackedPair 4 4 4096 0 0).2.1.length ∧
    (regionMarkerState samplePackedPair 4 4 4096 0 0).2.1.count (0, 0) = 9 ∧
    ¬ (regionMarkerState samplePackedPair 4 4 4096 0 0).2.1.Nodup ∧
    (regionMarkerState samplePackedPair 4 4 4096 0 0).2.2 <
      (regionMarkerState samplePackedPair 4 4 4096 0 0).2.1.length ∧
    (regionMarkerState samplePackedPair 4 4 4096 0 0).1 = samplePackedPair := by
  have h : regionMarkerState samplePackedPair 4 4 4096 0 0 =
      (samplePackedPair, [(0, 0), (1, 0), (0, 0), (1, 0), (0, 0), (1, 0), (0, 0), (1, 0),
        (0, 0), (1, 0), (0, 0), (1, 0), (0, 0), (1, 0), (0, 0), (1, 0), (0, 0)], 16) := by
    set_option maxRecDepth 100000 in decide
  rw [h]
  decide

/-- **Claim C38, amended** (queue bound). In `regionMarkerIterative`, for every packed
layer of 16-bit cells whose cell count fits `int`, every RegionID that is not a multiple
of 4096 (every RegionID from 1 to 4095 in particular) and every in-grid start cell that
is non-void and unassigned, each cell is enqueued at most once and only cells of the
layer are enqueued, so the queue index never exceeds `W * L - 1`, and the loop comes to
its end (`head = tail`) within the `W * L` dequeues that the queue allows. -/
theorem regionMarkerIterative_enqueues_once (gs : Grid) (W L r sx sy : Nat)
    (hwf : gs.WF W L) (h16 : Cells16 gs W L) (_hsz : W * L < 2147483648)
    (hr : r % 4096 ≠ 0) (hsx : sx < W) (hsy : sy < L) (hs : gs.get sx sy ≤ 15) :
    (regionMarkerState gs W L r sx sy).2.1.Nodup ∧
    (∀ c ∈ (regionMarkerState gs W L r sx sy).2.1, c.1 < W ∧ c.2 < L) ∧
    (regionMarkerState gs W L r sx sy).2.1.length ≤ W * L ∧
    (regionMarkerState gs W L r sx sy).2.2 = (regionMarkerState gs W L r sx sy).2.1.length ∧
    (regionMarkerState gs W L r sx sy).2.2 ≤ W * L := by
  rw [regionMarkerState_mod]
  obtain ⟨inv, hdr, _⟩ := regionMarkerState_spec hwf (tileView_unpack hwf h16)
    (show 1 ≤ r % 4096 by omega) (Nat.mod_lt _ (by decide)) hsx hsy hs
  have hin : ∀ c ∈ (regionMarkerState gs W L (r % 4096) sx sy).2.1, c.1 < W ∧ c.2 < L :=
    fun c hc => ⟨(inv.queued c hc).1, (inv.queued c hc).2.1⟩
  have hlen := length_le_of_nodup_in_grid inv.nodup hin
  exact ⟨inv.nodup, hin, hlen, hdr, by rw [hdr]; exact hlen⟩

/-- The amended statement of C38 on the packed layer `samplePackedPair` with the
RegionID 1. -/
theorem regionMarkerIterative_enqueues_once_witness :
    (samplePackedPair.WF 4 4 ∧ Cells16 samplePackedPair 4 4 ∧ 4 * 4 < 2147483648 ∧
      1 % 4096 ≠ 0 ∧ 0 < 4 ∧ 0 < 4 ∧ samplePackedPair.get 0 0 ≤ 15) ∧
    ((regionMarkerState samplePackedPair 4 4 1 0 0).2.1.Nodup ∧
    (∀ c ∈ (regionMarkerState samplePackedPair 4 4 1 0 0).2.1, c.1 < 4 ∧ c.2 < 4) ∧
    (regionMarkerState samplePackedPair 4 4 1 0 0).2.1.length ≤ 4 * 4 ∧
    (regionMarkerState samplePackedPair 4 4 1 0 0).2.2 =
      (regionMarkerState samplePackedPair 4 4 1 0 0).2.1.length ∧
    (regionMarkerState samplePackedPair 4 4 1 0 0).2.2 ≤ 4 * 4) :=
  ⟨⟨by decide, by decide, by decide, by decide, by decide, by decide, by decide⟩,
    regionMarkerIterative_enqueues_once samplePackedPair 4 4 1 0 0 (by decide) (by decide)
      (by decide) (by decide) (by decide) (by decide) (by decide)⟩

/-- On `samplePackedPair` the flood of region 1 from `(0, 0)` enqueues the two dead ends
once each and stamps them. -/
theorem regionMarkerState_sample :
    regionMarkerState samplePackedPair 4 4 1 0 0 =
      ([[29, 31, 65535, 65535], [65535, 65535, 65535, 65535], [65535, 65535, 65535, 65535],
        [65535, 65535, 65535, 65535]], [(0, 0), (1, 0)], 2) := by
  set_option maxRecDepth 100000 in decide

/-- A flood step of the unpacked view that ends on an unassigned cell is a flood step of
the packed layer. -/
theorem floodStep_of_steps {g0 gs : Grid} {W L : Nat} (view : TileView g0 gs W L)
    {p q : Nat × Nat} (hp : gs.get p.1 p.2 ≠ 0xFFFF) (h : Steps g0 W L p q)
    (hq : gs.get q.1 q.2 ≤ 15) : FloodStep gs W L p q := by
  obtain ⟨hpx, hpy, hqx, hqy, _, hdir⟩ := h
  have hport : ∀ d, hasPort (g0.get p.1 p.2) d → portOpen (gs.get p.1 p.2) d := by
    intro d hd
    rcases view p.1 hpx p.2 hpy with ⟨_, h2⟩ | ⟨k, hk, h1, _, _, h3⟩
    · exact absurd h2 hp
    · exact (portOpen_of_view hk h1 h3).2 hd
  refine ⟨hpx, hpy, hqx, hqy, hq, ?_⟩
  rcases hdir with ⟨e1, e2, h⟩ | ⟨e1, e2, h⟩ | ⟨e1, e2, h⟩ | ⟨e1, e2, h⟩
  · exact Or.inl ⟨e1, e2, hport _ h⟩
  · exact Or.inr (Or.inl ⟨e1, e2, hport _ h⟩)
  · exact Or.inr (Or.inr (Or.inl ⟨e1, e2, hport _ h⟩))
  · exact Or.inr (Or.inr (Or.inr ⟨e1, e2, hport _ h⟩))

/-- A flood step of the packed layer is a flood step of its unpacked view. -/
theorem steps_of_floodStep {g0 gs : Grid} {W L : Nat} (view : TileView g0 gs W L)
    {p q : Nat × Nat} (hp : gs.get p.1 p.2 ≠ 0xFFFF) (h : FloodStep gs W L p q) :
    Steps g0 W L p q := by
  obtain ⟨hpx, hpy, hqx, hqy, hq, hdir⟩ := h
  have hport : ∀ d, portOpen (gs.get p.1 p.2) d → hasPort (g0.get p.1 p.2) d := by
    intro d hd
    rcases view p.1 hpx p.2 hpy with ⟨_, h2⟩ | ⟨k, hk, h1, _, _, h3⟩
    · exact absurd h2 hp
    · exact (portOpen_of_view hk h1 h3).1 hd
  refine ⟨hpx, hpy, hqx, hqy, (tileView_unassigned view hqx hqy hq).2.2, ?_⟩
  rcases hdir with ⟨e1, e2, h⟩ | ⟨e1, e2, h⟩ | ⟨e1, e2, h⟩ | ⟨e1, e2, h⟩
  · exact Or.inl ⟨e1, e2, hport _ h⟩
  · exact Or.inr (Or.inl ⟨e1, e2, hport _ h⟩)
  · exact Or.inr (Or.inr (Or.inl ⟨e1, e2, hport _ h⟩))
  · exact Or.inr (Or.inr (Or.inr ⟨e1, e2, hport _ h⟩))

/-- One neighbour visit enqueues only cells that the flood reaches over unassigned
cells. -/
theorem floodVisit_reach {g0 gs : Grid} {W L r : Nat} {start : Nat × Nat}
    (st : Grid × List (Nat × Nat)) {head : Nat}
    (inv : FloodInv g0 gs W L r start st.1 st.2 head) (view : TileView g0 gs W L)
    {c : Nat × Nat} (hc : c ∈ st.2) (cond : Prop) [Decidable cond] (nx ny : Nat)
    (hcond : cond → nx < W ∧ ny < L ∧ (g0.get nx ny ≠ 0 → Steps g0 W L c (nx, ny)))
    (hreach : ∀ c' ∈ st.2, FloodReach gs W L start c') :
    ∀ c' ∈ (floodVisit r st cond nx ny).2, FloodReach gs W L start c' := by
  obtain ⟨cur, queue⟩ := st
  unfold floodVisit
  simp only [] at inv hc hreach ⊢
  by_cases hv : cond ∧ cur.get nx ny ≤ 15 ∧ cur.get nx ny ≠ 0xFFFF
  · rw [if_pos hv]
    simp only []
    intro c' hc'
    rcases List.mem_append.1 hc' with hq | hq
    · exact hreach c' hq
    · rw [List.mem_singleton.1 hq]
      obtain ⟨hnx, hny, hstep⟩ := hcond hv.1
      have hgs : gs.get nx ny ≤ 15 := by
        rcases inv.stamped.2 nx ny with e | ⟨l, _⟩
        · rw [← e]; exact hv.2.1
        · exact l
      have hcq := inv.queued c hc
      exact Relation.ReflTransGen.tail (hreach c hc)
        (floodStep_of_steps view (by omega)
          (hstep (tileView_unassigned view hnx hny hgs).2.2) hgs)
  · rw [if_neg hv]
    exact hreach

/-- One dequeue enqueues only cells that the flood reaches over unassigned cells. -/
theorem floodStep_reach {g0 gs : Grid} {W L r : Nat} {start : Nat × Nat} {cur : Grid}
    {queue : List (Nat × Nat)} {head : Nat} (inv : FloodInv g0 gs W L r start cur queue head)
    (view : TileView g0 gs W L) (hr1 : 1 ≤ r) (hr : r < 4096) (hh : head < queue.length)
    (hreach : ∀ c' ∈ queue, FloodReach gs W L start c') :
    ∀ c' ∈ (floodStep W L r cur queue (queue.getD head (0, 0)).1
      (queue.getD head (0, 0)).2).2, FloodReach gs W L start c' := by
  have hcq : queue.getD head (0, 0) ∈ queue := getD_mem hh _
  generalize queue.getD head (0, 0) = c at hcq
  obtain ⟨cx, cy⟩ := c
  obtain ⟨hcx, hcy, hgl, hcur⟩ := inv.queued _ hcq
  simp only [] at hcx hcy hgl hcur
  obtain ⟨u1, u2, u3⟩ := tileView_unassigned view hcx hcy hgl
  have hmask : indexToMask (cur.get cx cy &&& 0xF) = g0.get cx cy := by
    rw [hcur, packCell_and hr u1, indexToMask_eq _ u1, u2]
  have hsm := solved_masks (Or.inr ⟨gs.get cx cy, u1, u2⟩ :
    g0.get cx cy = 0 ∨ IsVariant (g0.get cx cy))
  unfold floodStep
  simp only []
  rw [hmask]
  have k1 : (g0.get cx cy &&& South_Open_Mask ≠ 0 ∧ 1 ≤ cy) → cx < W ∧ cy - 1 < L ∧
      (g0.get cx (cy - 1) ≠ 0 → Steps g0 W L (cx, cy) (cx, cy - 1)) :=
    fun h => ⟨hcx, by omega, fun hne => ⟨hcx, hcy, hcx, by simp only []; omega, hne,
      Or.inl ⟨rfl, by simp only []; omega, hsm.2.1.1 h.1⟩⟩⟩
  have k2 : (g0.get cx cy &&& North_Open_Mask ≠ 0 ∧ cy + 1 < L) → cx < W ∧ cy + 1 < L ∧
      (g0.get cx (cy + 1) ≠ 0 → Steps g0 W L (cx, cy) (cx, cy + 1)) :=
    fun h => ⟨hcx, h.2, fun hne => ⟨hcx, hcy, hcx, h.2, hne,
      Or.inr (Or.inr (Or.inl ⟨rfl, rfl, hsm.1.1 h.1⟩))⟩⟩
  have k3 : (g0.get cx cy &&& West_Open_Mask ≠ 0 ∧ cx + 1 < W) → cx + 1 < W ∧ cy < L ∧
      (g0.get (cx + 1) cy ≠ 0 → Steps g0 W L (cx, cy) (cx + 1, cy)) :=
    fun h => ⟨h.2, hcy, fun hne => ⟨hcx, hcy, h.2, hcy, hne,
      Or.inr (Or.inl ⟨rfl, rfl, hsm.2.2.1.1 h.1⟩)⟩⟩
  have k4 : (g0.get cx cy &&& East_Open_Mask ≠ 0 ∧ 1 ≤ cx) → cx - 1 < W ∧ cy < L ∧
      (g0.get (cx - 1) cy ≠ 0 → Steps g0 W L (cx, cy) (cx - 1, cy)) :=
    fun h => ⟨by omega, hcy, fun hne => ⟨hcx, hcy, by simp only []; omega, hcy, hne,
      Or.inr (Or.inr (Or.inr ⟨by simp only []; omega, rfl, hsm.2.2.2.1 h.1⟩))⟩⟩
  obtain ⟨i1, _, ⟨x1, q1⟩, _⟩ := floodVisit_inv_state (cur, queue) inv view hr1 hr hcq
    (g0.get cx cy &&& South_Open_Mask ≠ 0 ∧ 1 ≤ cy) cx (cy - 1) k1
  have r1 := floodVisit_reach (r := r) (cur, queue) inv view hcq
    (g0.get cx cy &&& South_Open_Mask ≠ 0 ∧ 1 ≤ cy) cx (cy - 1) k1 hreach
  have m1 : (cx, cy) ∈ (floodVisit r (cur, queue)
      (g0.get cx cy &&& South_Open_Mask ≠ 0 ∧ 1 ≤ cy) cx (cy - 1)).2 := by
    rw [q1]; exact List.mem_append_left _ hcq
  obtain ⟨i2, _, ⟨x2, q2⟩, _⟩ := floodVisit_inv_state _ i1 view hr1 hr m1
    (g0.get cx cy &&& North_Open_Mask ≠ 0 ∧ cy + 1 < L) cx (cy + 1) k2
  have r2 := floodVisit_reach (r := r) _ i1 view m1
    (g0.get cx cy &&& North_Open_Mask ≠ 0 ∧ cy + 1 < L) cx (cy + 1) k2 r1
  have m2 : (cx, cy) ∈ (floodVisit r (floodVisit r (cur, queue)
      (g0.get cx cy &&& South_Open_Mask ≠ 0 ∧ 1 ≤ cy) cx (cy - 1))
      (g0.get cx cy &&& North_Open_Mask ≠ 0 ∧ cy + 1 < L) cx (cy + 1)).2 := by
    rw [q2]; exact List.mem_append_left _ m1
  obtain ⟨i3, _, ⟨x3, q3⟩, _⟩ := floodVisit_inv_state _ i2 view hr1 hr m2
    (g0.get cx cy &&& West_Open_Mask ≠ 0 ∧ cx + 1 < W) (cx + 1) cy k3
  have r3 := floodVisit_reach (r := r) _ i2 view m2
    (g0.get cx cy &&& West_Open_Mask ≠ 0 ∧ cx + 1 < W) (cx + 1) cy k3 r2
  have m3 : (cx, cy) ∈ (floodVisit r (floodVisit r (floodVisit r (cur, queue)
      (g0.get cx cy &&& South_Open_Mask ≠ 0 ∧ 1 ≤ cy) cx (cy - 1))
      (g0.get cx cy &&& North_Open_Mask ≠ 0 ∧ cy + 1 < L) cx (cy + 1))
      (g0.get cx cy &&& West_Open_Mask ≠ 0 ∧ cx + 1 < W) (cx + 1) cy).2 := by
    rw [q3]; exact List.mem_append_left _ m2
  exact floodVisit_reach (r := r) _ i3 view m3
    (g0.get cx cy &&& East_Open_Mask ≠ 0 ∧ 1 ≤ cx) (cx - 1) cy k4 r3

/-- The loop of `regionMarkerIterative` enqueues only cells that the flood reaches over
unassigned cells. -/
theorem floodLoop_reach {g0 gs : Grid} {W L r : Nat} {start : Nat × Nat}
    (view : TileView g0 gs W L) (hr1 : 1 ≤ r) (hr : r < 4096) :
    ∀ (fuel : Nat) (cur : Grid) (queue : List (Nat × Nat)) (head : Nat),
      FloodInv g0 gs W L r start cur queue head →
      (∀ c' ∈ queue, FloodReach gs W L start c') →
      ∀ c' ∈ (floodLoop W L r fuel cur queue head).2.1, FloodReach gs W L start c' := by
  intro fuel
  induction fuel with
  | zero => intro cur queue head _ hreach; exact hreach
  | succ n ih =>
    intro cur queue head inv hreach
    unfold floodLoop
    split
    · rename_i hh
      exact ih _ _ _ (floodStep_inv inv view hr1 hr hh) (floodStep_reach inv view hr1 hr hh hreach)
    · exact hreach

/-- What a finished flood leaves: exactly the cells that the flood reaches from the start
over unassigned cells are stamped. -/
theorem flood_exact {gs res : Grid} {W L r : Nat} {s : Nat × Nat}
    (hst : Stamped r W L gs res) (hs : gs.get s.1 s.2 ≤ 15) (hstart : 15 < res.get s.1 s.2)
    (hreach : ∀ p : Nat × Nat, res.get p.1 p.2 ≠ gs.get p.1 p.2 → FloodReach gs W L s p)
    (hclosed : ∀ p : Nat × Nat, res.get p.1 p.2 ≠ gs.get p.1 p.2 →
      ∀ q : Nat × Nat, FloodStep gs W L p q → 15 < res.get q.1 q.2) :
    (∀ c : Nat × Nat, FloodReach gs W L s c →
      gs.get c.1 c.2 ≤ 15 ∧ res.get c.1 c.2 = packCell r (gs.get c.1 c.2)) ∧
    (∀ c : Nat × Nat, ¬ FloodReach gs W L s c → res.get c.1 c.2 = gs.get c.1 c.2) := by
  have hch : ∀ c : Nat × Nat, FloodReach gs W L s c →
      res.get c.1 c.2 ≠ gs.get c.1 c.2 ∧ gs.get c.1 c.2 ≤ 15 := by
    intro c hc
    unfold FloodReach at hc
    induction hc with
    | refl => exact ⟨by omega, hs⟩
    | tail _ hstep ih =>
      have h1 := hclosed _ ih.1 _ hstep
      have h2 := hstep.2.2.2.2.1
      exact ⟨by omega, h2⟩
  refine ⟨fun c hc => ?_, fun c hc => ?_⟩
  · obtain ⟨h1, h2⟩ := hch c hc
    rcases hst.2 c.1 c.2 with e | ⟨_, e⟩
    · exact absurd e h1
    · exact ⟨h2, e⟩
  · by_contra hne
    exact hc (hreach c hne)

/-- The result of `regionMarkerIterative` on a packed layer of 16-bit cells, started at
an unassigned in-grid cell with a RegionID from 1 to 4095: exactly the cells that the
flood reaches over unassigned cells are stamped, and the loop ends with `head = tail`. -/
theorem regionMarkerIterative_exact {gs : Grid} {W L r : Nat} (hwf : gs.WF W L)
    (h16 : Cells16 gs W L) (hr1 : 1 ≤ r) (hr : r < 4096) {sx sy : Nat} (hsx : sx < W)
    (hsy : sy < L) (hs : gs.get sx sy ≤ 15) :
    (regionMarkerIterative gs W L r sx sy).WF W L ∧
    (regionMarkerState gs W L r sx sy).2.2 = (regionMarkerState gs W L r sx sy).2.1.length ∧
    (∀ c : Nat × Nat, FloodReach gs W L (sx, sy) c →
      gs.get c.1 c.2 ≤ 15 ∧
      (regionMarkerIterative gs W L r sx sy).get c.1 c.2 = packCell r (gs.get c.1 c.2)) ∧
    (∀ c : Nat × Nat, ¬ FloodReach gs W L (sx, sy) c →
      (regionMarkerIterative gs W L r sx sy).get c.1 c.2 = gs.get c.1 c.2) := by
  have view := tileView_unpack hwf h16
  obtain ⟨inv, hdr, hmem⟩ := regionMarkerState_spec hwf view hr1 hr hsx hsy hs
  have hset : ∀ x y, (gs.set sx sy (packCell r (gs.get sx sy % 256))).get x y =
      if x = sx ∧ y = sy then packCell r (gs.get sx sy) else gs.get x y := by
    intro x y
    rw [Grid.get_set_of_WF hwf hsx hsy, Nat.mod_eq_of_lt (show gs.get sx sy < 256 by omega)]
  have init : FloodInv (unpackRegions gs W L) gs W L r (sx, sy)
      (gs.set sx sy (packCell r (gs.get sx sy % 256))) [(sx, sy)] 0 := by
    refine ⟨stamped_set hwf hs, ?_, ?_, by simp, by simp, ?_, ?_⟩
    · intro c hc
      rw [List.mem_singleton.1 hc]
      refine ⟨hsx, hsy, hs, ?_⟩
      rw [hset, if_pos ⟨rfl, rfl⟩]
    · intro x y hne
      rw [hset] at hne
      by_cases hxy : x = sx ∧ y = sy
      · rw [hxy.1, hxy.2]; simp
      · rw [if_neg hxy] at hne; exact absurd rfl hne
    · intro i hi; omega
    · intro c hc
      rw [List.mem_singleton.1 hc]
  have hre : ∀ c' ∈ (regionMarkerState gs W L r sx sy).2.1, FloodReach gs W L (sx, sy) c' := by
    unfold regionMarkerState
    simp only []
    apply floodLoop_reach view hr1 hr (W * L) _ _ 0 init
    intro c' hc'
    rw [List.mem_singleton.1 hc']
    exact Relation.ReflTransGen.refl
  have hq := inv.queued _ hmem
  simp only [] at hq
  have hex := flood_exact (s := (sx, sy)) inv.stamped hs
    (by
      show 15 < (regionMarkerState gs W L r sx sy).1.get sx sy
      rw [hq.2.2.2]
      exact packCell_ge hr1 hr (by omega))
    (fun p hne => hre p (inv.changed p.1 p.2 hne))
    (fun p hne q hstep => by
      have hpq := inv.changed p.1 p.2 hne
      obtain ⟨i, hi, e⟩ := mem_getD hpq (0, 0)
      have hcl := inv.closed i (by rw [hdr]; exact hi) q
      rw [e] at hcl
      have hpl := (inv.queued _ hpq).2.2.1
      exact hcl (steps_of_floodStep view (by simp only [] at hpl ⊢; omega) hstep))
  exact ⟨inv.stamped.1, hdr, hex.1, hex.2⟩

theorem countP_lt_gen {α : Type} {l : List α} {p q : α → Bool}
    (hpq : ∀ x ∈ l, p x = true → q x = true) {a : α} (ha : a ∈ l) (hpa : p a = false)
    (hqa : q a = true) : l.countP p < l.countP q := by
  induction l with
  | nil => simp at ha
  | cons b l ih =>
    rw [List.countP_cons, List.countP_cons]
    have hmono : l.countP p ≤ l.countP q :=
      List.countP_mono_left (fun x hx => hpq x (List.mem_cons_of_mem _ hx))
    rcases List.mem_cons.1 ha with e | hl
    · subst e
      rw [hpa, hqa]; simp; omega
    · have := ih (fun x hx => hpq x (List.mem_cons_of_mem _ hx)) hl
      by_cases hb : p b = true
      · rw [hb, hpq b (List.mem_cons_self _ _) hb]; omega
      · have hb' : p b = false := by simpa using hb
        rw [hb']; simp; omega

/-- Stamping does not add unassigned cells. -/
theorem unassignedCount_le {r W L : Nat} {a b : Grid} (h : Stamped r W L a b) :
    unassignedCount b W L ≤ unassignedCount a W L := by
  unfold unassignedCount
  apply List.countP_mono_left
  intro c _ hc
  rw [decide_eq_true_iff] at hc ⊢
  rcases h.2 c.1 c.2 with e | ⟨l, _⟩
  · rw [← e]; exact hc
  · exact l

/-- Stamping an unassigned in-grid cell removes an unassigned cell. -/
theorem unassignedCount_set {r W L : Nat} (hr1 : 1 ≤ r) (hr : r < 4096) {g : Grid}
    (hwf : g.WF W L) {x y : Nat} (hx : x < W) (hy : y < L) (hl : g.get x y ≤ 15) :
    unassignedCount (g.set x y (packCell r (g.get x y % 256))) W L < unassignedCount g W L := by
  have hst : Stamped r W L g (g.set x y (packCell r (g.get x y % 256))) := stamped_set hwf hl
  unfold unassignedCount
  apply countP_lt_gen (a := (x, y))
  · intro c _ hc
    rw [decide_eq_true_iff] at hc ⊢
    rcases hst.2 c.1 c.2 with e | ⟨l, _⟩
    · rw [← e]; exact hc
    · exact l
  · exact mem_rowMajor.2 ⟨hx, hy⟩
  · rw [decide_eq_false_iff_not]
    simp only []
    rw [Grid.get_set_of_WF hwf hx hy, if_pos ⟨rfl, rfl⟩,
      Nat.mod_eq_of_lt (show g.get x y < 256 by omega)]
    have := packCell_ge hr1 hr (show g.get x y < 16 by omega)
    omega
  · rw [decide_eq_true_iff]; exact hl

theorem unassignedCount_le_cells (g : Grid) (W L : Nat) : unassignedCount g W L ≤ W * L := by
  unfold unassignedCount
  rw [← length_rowMajor W L]
  exact List.countP_le_length _

theorem markInv_refl {gs : Grid} {W L r : Nat} {s : Nat × Nat} {cur : Grid}
    (h : cur.WF W L) : MarkInv gs W L r s cur cur :=
  ⟨stamped_refl h, fun _ hne => absurd rfl hne, fun _ hne => absurd rfl hne⟩

theorem markInv_trans {gs : Grid} {W L r : Nat} {s : Nat × Nat} (hr1 : 1 ≤ r) (hr : r < 4096)
    {a b c : Grid} (h1 : MarkInv gs W L r s a b) (h2 : MarkInv gs W L r s b c) :
    MarkInv gs W L r s a c := by
  refine ⟨stamped_trans hr1 hr h1.stamped h2.stamped, fun p hne => ?_, fun p hne q hq => ?_⟩
  · by_cases e : c.get p.1 p.2 = b.get p.1 p.2
    · exact h1.reach p (by rw [← e]; exact hne)
    · exact h2.reach p e
  · by_cases e : c.get p.1 p.2 = b.get p.1 p.2
    · exact stamped_mono h2.stamped (h1.closed p (by rw [← e]; exact hne) q hq)
    · exact h2.closed p e q hq

/-- The port tests of the region markers on a bare index are the ports of the packed
cell. -/
theorem mask_port : ∀ k, k < 16 →
    (indexToMask (k % 256) &&& South_Open_Mask ≠ 0 ↔ portOpen k DIR_N) ∧
    (indexToMask (k % 256) &&& North_Open_Mask ≠ 0 ↔ portOpen k DIR_S) ∧
    (indexToMask (k % 256) &&& West_Open_Mask ≠ 0 ↔ portOpen k DIR_E) ∧
    (indexToMask (k % 256) &&& East_Open_Mask ≠ 0 ↔ portOpen k DIR_W) := by decide

theorem markerCall_spec {call : Grid → Nat → Nat → Option Grid} {g : Grid} {cond : Prop}
    [Decidable cond] {nx ny : Nat} {P : Grid → Prop}
    (hcall : cond → ∃ res, call g nx ny = some res ∧ P res) (hskip : ¬ cond → P g) :
    ∃ res, markerCall call (some g) cond nx ny = some res ∧ P res := by
  unfold markerCall
  simp only []
  by_cases h : cond
  · rw [if_pos h]; exact hcall h
  · rw [if_neg h]; exact ⟨g, rfl, hskip h⟩

/-- A call of `regionMarkerPacked` whose depth bound exceeds the number of unassigned
cells returns, and it leaves its cell assigned and every cell it stamped reached and
closed. -/
theorem regionMarkerPacked_spec {gs : Grid} {W L r : Nat} {s : Nat × Nat} (hr1 : 1 ≤ r)
    (hr : r < 4096) (hW : W < 4294967296) (hL : L < 4294967296) :
    ∀ (depth : Nat) (cur : Grid) (x y : Nat), Stamped r W L gs cur →
      (x < W → y < L → cur.get x y ≤ 15 → FloodReach gs W L s (x, y)) →
      unassignedCount cur W L < depth →
      ∃ res, regionMarkerPacked W L r depth cur x y = some res ∧
        MarkInv gs W L r s cur res ∧ (x < W → y < L → 15 < res.get x y) := by
  intro depth
  induction depth with
  | zero => intro cur x y _ _ hc; omega
  | succ n ih =>
    intro cur x y hst hcall hcount
    rw [regionMarkerPacked]
    by_cases hout : x ≥ W ∨ y ≥ L
    · rw [if_pos hout]
      exact ⟨cur, rfl, markInv_refl hst.1, fun hx hy => by omega⟩
    · rw [if_neg hout]
      by_cases hass : cur.get x y = 0xFFFF ∨ cur.get x y > 15
      · rw [if_pos hass]
        exact ⟨cur, rfl, markInv_refl hst.1, fun _ _ => by omega⟩
      · rw [if_neg hass]
        simp only []
        have hx : x < W := by omega
        have hy : y < L := by omega
        have hl : cur.get x y ≤ 15 := by omega
        have hgs : cur.get x y = gs.get x y := by
          rcases hst.2 x y with e | ⟨l, e⟩
          · exact e
          · have := packCell_ge hr1 hr (show gs.get x y < 16 by omega)
            omega
        have st0 : Stamped r W L cur (cur.set x y (packCell r (cur.get x y % 256))) :=
          stamped_set hst.1 hl
        have hc0 := unassignedCount_set hr1 hr hst.1 hx hy hl
        have hg0 : ∀ x' y', (cur.set x y (packCell r (cur.get x y % 256))).get x' y' =
            if x' = x ∧ y' = y then packCell r (cur.get x y) else cur.get x' y' := by
          intro x' y'
          rw [Grid.get_set_of_WF hst.1 hx hy, Nat.mod_eq_of_lt (show cur.get x y < 256 by omega)]
        have hbig : 15 < (cur.set x y (packCell r (cur.get x y % 256))).get x y := by
          rw [hg0, if_pos ⟨rfl, rfl⟩]
          exact packCell_ge hr1 hr (by omega)
        have hreachxy := hcall hx hy hl
        obtain ⟨pN, pS, pE, pW⟩ := mask_port (cur.get x y) (by omega)
        generalize hg0def : cur.set x y (packCell r (cur.get x y % 256)) = g0
          at st0 hc0 hg0 hbig
        generalize hmdef : indexToMask (cur.get x y % 256) = mask at pN pS pE pW
        rw [hgs] at pN pS pE pW
        -- one recursive call, behind its port test
        have sub : ∀ (g : Grid) (nx ny : Nat) (cond : Prop) [Decidable cond],
            MarkInv gs W L r s g0 g →
            (cond → nx < W → ny < L → gs.get nx ny ≤ 15 → FloodStep gs W L (x, y) (nx, ny)) →
            ∃ res, markerCall (regionMarkerPacked W L r n) (some g) cond nx ny = some res ∧
              MarkInv gs W L r s g0 res ∧ Stamped r W L g res ∧
              (cond → nx < W → ny < L → 15 < res.get nx ny) := by
          intro g nx ny cond _ m hstep
          apply markerCall_spec
          · intro hc
            have stg : Stamped r W L gs g :=
              stamped_trans hr1 hr hst (stamped_trans hr1 hr st0 m.stamped)
            obtain ⟨res, e, m', post⟩ := ih g nx ny stg
              (fun hnx hny hle => by
                have hg : gs.get nx ny ≤ 15 := by
                  rcases stg.2 nx ny with e | ⟨l, _⟩
                  · rw [← e]; exact hle
                  · exact l
                exact Relation.ReflTransGen.tail hreachxy (hstep hc hnx hny hg))
              (by have := unassignedCount_le m.stamped; omega)
            exact ⟨res, e, markInv_trans hr1 hr m m', m'.stamped, fun _ => post⟩
          · intro hnc
            exact ⟨m, stamped_refl m.stamped.1, fun hc => absurd hc hnc⟩
        obtain ⟨g1, e1, m1, s1, p1⟩ := sub g0 x ((y + 4294967295) % 4294967296)
          (mask &&& South_Open_Mask ≠ 0) (markInv_refl st0.1)
          (fun hc hnx hny hle => ⟨hx, hy, hnx, hny, hle,
            Or.inl ⟨rfl, by simp only []; omega, pN.1 hc⟩⟩)
        rw [e1]
        obtain ⟨g2, e2, m2, s2, p2⟩ := sub g1 x ((y + 1) % 4294967296)
          (mask &&& North_Open_Mask ≠ 0) m1
          (fun hc hnx hny hle => ⟨hx, hy, hnx, hny, hle,
            Or.inr (Or.inr (Or.inl ⟨rfl, by simp only []; omega, pS.1 hc⟩))⟩)
        rw [e2]
        obtain ⟨g3, e3, m3, s3, p3⟩ := sub g2 ((x + 1) % 4294967296) y
          (mask &&& West_Open_Mask ≠ 0) m2
          (fun hc hnx hny hle => ⟨hx, hy, hnx, hny, hle,
            Or.inr (Or.inl ⟨by simp only []; omega, rfl, pE.1 hc⟩)⟩)
        rw [e3]
        obtain ⟨g4, e4, m4, s4, p4⟩ := sub g3 ((x + 4294967295) % 4294967296) y
          (mask &&& East_Open_Mask ≠ 0) m3
          (fun hc hnx hny hle => ⟨hx, hy, hnx, hny, hle,
            Or.inr (Or.inr (Or.inr ⟨by simp only []; omega, rfl, pW.1 hc⟩))⟩)
        rw [e4]
        refine ⟨g4, rfl, ⟨stamped_trans hr1 hr st0 m4.stamped, fun p hne => ?_,
          fun p hne q hq => ?_⟩, fun _ _ => stamped_mono m4.stamped hbig⟩
        · by_cases hp : p.1 = x ∧ p.2 = y
          · have : p = (x, y) := Prod.ext hp.1 hp.2
            rw [this]; exact hreachxy
          · exact m4.reach p (by rw [hg0, if_neg hp]; exact hne)
        · by_cases hp : p.1 = x ∧ p.2 = y
          · have hpe : p = (x, y) := Prod.ext hp.1 hp.2
            rw [hpe] at hq
            obtain ⟨_, _, hqx, hqy, hqle, hdir⟩ := hq
            simp only [] at hdir
            rcases hdir with ⟨d1, d2, hport⟩ | ⟨d1, d2, hport⟩ | ⟨d1, d2, hport⟩ |
              ⟨d1, d2, hport⟩
            · have hq2 : q.2 = (y + 4294967295) % 4294967296 := by omega
              have := p1 (pN.2 hport) (by omega) (by omega)
              rw [← d1, ← hq2] at this
              exact stamped_mono s4 (stamped_mono s3 (stamped_mono s2 this))
            · have hq1 : q.1 = (x + 1) % 4294967296 := by omega
              have := p3 (pE.2 hport) (by omega) (by omega)
              rw [← hq1, ← d2] at this
              exact stamped_mono s4 this
            · have hq2 : q.2 = (y + 1) % 4294967296 := by omega
              have := p2 (pS.2 hport) (by omega) (by omega)
              rw [← d1, ← hq2] at this
              exact stamped_mono s4 (stamped_mono s3 this)
            · have hq1 : q.1 = (x + 4294967295) % 4294967296 := by omega
              have := p4 (pW.2 hport) (by omega) (by omega)
              rw [← hq1, ← d2] at this
              exact this
          · exact m4.closed p (by rw [hg0, if_neg hp]; exact hne) q hq

/-- **Claim C37** (recursive and iterative region marker). For every packed layer of
16-bit cells (`0xFFFF`, a bare index up to 15, or a value that carries a RegionID) whose
cell count fits `int`, every RegionID from 1 to 4095 and every in-grid start cell that is
non-void and unassigned, `regionMarkerPacked` returns whenever its recursion may go
deeper than `W * L`, the loop of `regionMarkerIterative` comes to its end (`head = tail`)
within `W * L` dequeues, and the two leave identical grids: exactly the cells reached
from the start by repeatedly stepping from a cell through one of its open ports to an
unassigned in-grid neighbour are stamped with the RegionID, their low four bits kept, and
every other cell is unchanged. -/
theorem regionMarkerPacked_agrees_with_iterative (gs : Grid) (W L r sx sy depth : Nat)
    (hwf : gs.WF W L) (h16 : Cells16 gs W L) (hsz : W * L < 2147483648) (hr1 : 1 ≤ r)
    (hr : r ≤ 4095) (hsx : sx < W) (hsy : sy < L) (hs : gs.get sx sy ≤ 15)
    (hd : W * L < depth) :
    regionMarkerPacked W L r depth gs sx sy = some (regionMarkerIterative gs W L r sx sy) ∧
    (regionMarkerState gs W L r sx sy).2.2 = (regionMarkerState gs W L r sx sy).2.1.length ∧
    (∀ c : Nat × Nat, FloodReach gs W L (sx, sy) c →
      gs.get c.1 c.2 ≤ 15 ∧
      (regionMarkerIterative gs W L r sx sy).get c.1 c.2 = packCell r (gs.get c.1 c.2) ∧
      (regionMarkerIterative gs W L r sx sy).get c.1 c.2 &&& 0xF = gs.get c.1 c.2) ∧
    (∀ c : Nat × Nat, ¬ FloodReach gs W L (sx, sy) c →
      (regionMarkerIterative gs W L r sx sy).get c.1 c.2 = gs.get c.1 c.2) := by
  have hr' : r < 4096 := by omega
  have hW : W < 4294967296 := by
    have : W * 1 ≤ W * L := Nat.mul_le_mul_left W (by omega)
    omega
  have hL : L < 4294967296 := by
    have : 1 * L ≤ W * L := Nat.mul_le_mul_right L (by omega)
    omega
  obtain ⟨res, e, m, post⟩ := @regionMarkerPacked_spec gs W L r (sx, sy) hr1 hr' hW hL
    depth gs sx sy (stamped_refl hwf) (fun _ _ _ => Relation.ReflTransGen.refl)
    (by have := unassignedCount_le_cells gs W L; omega)
  obtain ⟨x1, x2⟩ := flood_exact (s := (sx, sy)) m.stamped hs (post hsx hsy) m.reach m.closed
  obtain ⟨iwf, idr, i1, i2⟩ := regionMarkerIterative_exact hwf h16 hr1 hr' hsx hsy hs
  have heq : res = regionMarkerIterative gs W L r sx sy := by
    apply Grid.ext_of_WF m.stamped.1 iwf
    intro x _ y _
    by_cases hc : FloodReach gs W L (sx, sy) (x, y)
    · rw [(x1 (x, y) hc).2, (i1 (x, y) hc).2]
    · rw [x2 (x, y) hc, i2 (x, y) hc]
  rw [e, heq]
  refine ⟨rfl, idr, fun c hc => ?_, i2⟩
  obtain ⟨a, b⟩ := i1 c hc
  refine ⟨a, b, ?_⟩
  rw [b, packCell_and hr' (by omega)]

/-- The statement of C37 on the packed 4 by 4 layer `samplePackedMaze` with the RegionID
5, started at `(0, 0)`, with the depth bound 17. -/
theorem regionMarkerPacked_agrees_with_iterative_witness :
    (samplePackedMaze.WF 4 4 ∧ Cells16 samplePackedMaze 4 4 ∧ 4 * 4 < 2147483648 ∧ 1 ≤ 5 ∧
      5 ≤ 4095 ∧ 0 < 4 ∧ 0 < 4 ∧ samplePackedMaze.get 0 0 ≤ 15 ∧ 4 * 4 < 17) ∧
    (regionMarkerPacked 4 4 5 17 samplePackedMaze 0 0 =
      some (regionMarkerIterative samplePackedMaze 4 4 5 0 0) ∧
    (regionMarkerState samplePackedMaze 4 4 5 0 0).2.2 =
      (regionMarkerState samplePackedMaze 4 4 5 0 0).2.1.length ∧
    (∀ c : Nat × Nat, FloodReach samplePackedMaze 4 4 (0, 0) c →
      samplePackedMaze.get c.1 c.2 ≤ 15 ∧
      (regionMarkerIterative samplePackedMaze 4 4 5 0 0).get c.1 c.2 =
        packCell 5 (samplePackedMaze.get c.1 c.2) ∧
      (regionMarkerIterative samplePackedMaze 4 4 5 0 0).get c.1 c.2 &&& 0xF =
        samplePackedMaze.get c.1 c.2) ∧
    (∀ c : Nat × Nat, ¬ FloodReach samplePackedMaze 4 4 (0, 0) c →
      (regionMarkerIterative samplePackedMaze 4 4 5 0 0).get c.1 c.2 =
        samplePackedMaze.get c.1 c.2)) :=
  ⟨⟨by decide, by decide, by decide, by decide, by decide, by decide, by decide, by decide,
      by decide⟩,
    regionMarkerPacked_agrees_with_iterative samplePackedMaze 4 4 5 0 0 17 (by decide)
      (by decide) (by decide) (by decide) (by decide) (by decide) (by decide) (by decide)
      (by decide)⟩

/-- On `samplePackedMaze` both markers stamp the three cells of the corridor that starts
at `(0, 0)` with the RegionID 5; the flood stops at the cell `(2, 1)`, which carries the
RegionID 1 already, and does not reach the unassigned dead end `(3, 3)`. -/
theorem regionMarkers_sample :
    regionMarkerPacked 4 4 5 17 samplePackedMaze 0 0 =
      some [[81, 85, 82, 65535], [65535, 65535, 28, 65535], [65535, 65535, 65535, 65535],
        [65535, 65535, 65535, 12]] ∧
    regionMarkerIterative samplePackedMaze 4 4 5 0 0 =
      [[81, 85, 82, 65535], [65535, 65535, 28, 65535], [65535, 65535, 65535, 65535],
        [65535, 65535, 65535, 12]] := by
  constructor
  · set_option maxRecDepth 100000 in decide
  · set_option maxRecDepth 100000 in decide

/-- The layer `sampleSealedLayer` is `sampleSolverLayer` after `sealMazeEdges` and
`fixupEdges`: the two passes fill and trim cells on the rim and leave the South_DeadEnd at
`(1, 1)` and the South_East_Corridor below it as they are. -/
theorem sampleSealedLayer_eq :
    fixupEdges (sealMazeEdges sampleSolverLayer 4 7) 4 7 = sampleSealedLayer ∧
    sampleSealedLayer.get 1 1 = South_DeadEnd ∧
    sampleSealedLayer.get 1 2 = South_East_Corridor := by
  set_option maxRecDepth 100000 in decide

/-- The non-void cells of `sampleSealedLayer` form one 4-connected set: the breadth-first
search of `measureRegionSize` from the centre `(2, 3)` marks all 20 of them. -/
theorem sampleSealedLayer_fourConnected : FourConnected sampleSealedLayer 4 7 := by
  have hm : measureRegionSize sampleSealedLayer (List.replicate 28 false) 4 7 2 3 =
      ([false, false, false, false, false, true, false, false, false, true, true, true,
        true, true, true, true, true, true, true, true, true, true, true, true, true, true,
        true, true], 20) := by
    set_option maxRecDepth 100000 in decide
  have hspec := @measureRegionSize_spec sampleSealedLayer 4 7 (List.replicate 28 false) 2 3
    (by decide) (by decide) (by decide) (by decide)
    (fun q _ => by rw [getD_replicate]; simp)
  rw [hm] at hspec
  apply fourConnected_of_hub (2, 3) (by decide) (by decide) (by decide)
  intro x hx y hy hne
  have hall : ∀ x, x < 4 → ∀ y, y < 7 → sampleSealedLayer.get x y ≠ 0 →
      ([false, false, false, false, false, true, false, false, false, true, true, true,
        true, true, true, true, true, true, true, true, true, true, true, true, true, true,
        true, true] : List Bool).getD (y * 4 + x) false = true := by decide
  rcases (hspec.2.1 (x, y) hx hy).1 (hall x hx y hy hne) with h | h
  · rw [getD_replicate] at h
    simp at h
  · exact h

/-- **Claim C1** (port matching) does not hold of the cleanup sequence on a layer that the
generator produces. For `generateGrid(4, 7, 1, 253, 70)` the solver sweep leaves the layer
`sampleSolverLayer` of void and single-variant cells, and 1043330618 is the rng state
with which `generateLayerThread` enters the cleanup. The cleanup sequence
(`sealMazeEdges`, `fixupEdges`, `findConnectedRegionsInPlace`, `germanWelderInPlace`,
unpacking) returns `sampleSealedLayer`, in which the South_DeadEnd at `(1, 1)` opens
south onto the South_East_Corridor at `(1, 2)`, whose north port is closed: the returned
layer has no port matching. -/
theorem cleanupSequence_keeps_one_sided_port :
    4 ≤ 4 ∧ 4 ≤ 7 ∧ sampleSolverLayer.WF 4 7 ∧ Solved sampleSolverLayer 4 7 ∧
    cleanupSequence sampleSolverLayer 4 7 1043330618 = sampleSealedLayer ∧
    (cleanupSequence sampleSolverLayer 4 7 1043330618).get 1 1 = South_DeadEnd ∧
    (cleanupSequence sampleSolverLayer 4 7 1043330618).get 1 2 = South_East_Corridor ∧
    ¬ PortMatchedAt (cleanupSequence sampleSolverLayer 4 7 1043330618) 4 7 1 1 ∧
    ¬ PortMatched (cleanupSequence sampleSolverLayer 4 7 1043330618) 4 7 := by
  set_option maxRecDepth 100000 in decide

/-- **Claim C2** (single component) does not hold of region identification and welding on
a layer that the generator produces. For `generateGrid(4, 7, 1, 253, 70)` the layer
entering `findConnectedRegionsInPlace` is `sampleSealedLayer`: its cells are void or
single variants, its 20 non-void cells form one 4-connected set and it yields one region,
since the flood follows the south port of the South_DeadEnd at `(1, 1)` into `(1, 2)`.
The welder (entered with the rng state 1043330618) finds no bridge and carves nothing.
The cell `(1, 2)` has no north port, so `(1, 1)` is linked to no cell and the welded
layer has more than one component under open-port adjacency. -/
theorem regions_then_weld_keeps_cell_unlinked :
    4 ≤ 4 ∧ 4 ≤ 7 ∧ sampleSealedLayer.WF 4 7 ∧ Solved sampleSealedLayer 4 7 ∧
    FourConnected sampleSealedLayer 4 7 ∧ floodFillsCalled sampleSealedLayer 4 7 = 1 ∧
    floodFillsCalled sampleSealedLayer 4 7 < 4095 ∧
    (germanWelderInPlace (findConnectedRegionsInPlace sampleSealedLayer 4 7) 4 7
      1043330618).1 =
      [[65535, 65535, 65535, 65535], [65535, 30, 65535, 65535], [65535, 17, 18, 30],
        [17, 22, 26, 19], [20, 17, 19, 30], [20, 23, 21, 19], [28, 16, 21, 31]] ∧
    (∀ x, x < 4 → ∀ y, y < 7 → ¬ LinkedPacked (germanWelderInPlace
      (findConnectedRegionsInPlace sampleSealedLayer 4 7) 4 7 1043330618).1 4 7
        (1, 1) (x, y)) ∧
    ¬ JoinedPacked (germanWelderInPlace (findConnectedRegionsInPlace sampleSealedLayer 4 7)
      4 7 1043330618).1 4 7 (1, 1) (1, 2) ∧
    ¬ OneComponent (germanWelderInPlace (findConnectedRegionsInPlace sampleSealedLayer 4 7)
      4 7 1043330618).1 4 7 := by
  have hout : (germanWelderInPlace (findConnectedRegionsInPlace sampleSealedLayer 4 7) 4 7
      1043330618).1 =
      [[65535, 65535, 65535, 65535], [65535, 30, 65535, 65535], [65535, 17, 18, 30],
        [17, 22, 26, 19], [20, 17, 19, 30], [20, 23, 21, 19], [28, 16, 21, 31]] := by
    set_option maxRecDepth 100000 in decide
  have hno : ∀ x, x < 4 → ∀ y, y < 7 → ¬ LinkedPacked (germanWelderInPlace
      (findConnectedRegionsInPlace sampleSealedLayer 4 7) 4 7 1043330618).1 4 7
        (1, 1) (x, y) := by
    rw [hout]
    set_option maxRecDepth 100000 in decide
  have hnot : ¬ JoinedPacked (germanWelderInPlace (findConnectedRegionsInPlace
      sampleSealedLayer 4 7) 4 7 1043330618).1 4 7 (1, 1) (1, 2) := by
    intro hj
    rcases Relation.ReflTransGen.cases_head hj with e | ⟨c, hl, _⟩
    · exact absurd e (by decide)
    · exact hno c.1 hl.2.2.1 c.2 hl.2.2.2.1 hl
  have hr : floodFillsCalled sampleSealedLayer 4 7 = 1 := by
    set_option maxRecDepth 100000 in decide
  refine ⟨by decide, by decide, by decide, by decide, sampleSealedLayer_fourConnected, hr,
    by rw [hr]; decide, hout, hno, hnot, ?_⟩
  intro h
  refine hnot (h.2 (1, 1) (1, 2) (by decide) (by decide) ?_ (by decide) (by decide) ?_)
  · rw [hout]; decide
  · rw [hout]; decide

end CGSME
